import Mathlib

/-!
# AletheLF type checker: a shallow embedding of `src/type_checker.cpp`

The development models the `TypeChecker` class of the AletheLF checker
(`checkArity`, `match`, `evaluate`, `getType` and their helpers) as Lean
functions and proves properties of them.

Conventions of the embedding

* An expression node (`ExprValue*`) is a value of the inductive type `Expr`.
  Pointer equality of nodes is structural equality of values: the embedding
  describes hash-consed nodes, for which the two coincide.  The parts on the
  expression store and on the literal operators on handles keep the addresses
  and the flag `IS_HASHED`, for the nodes that are built with `new`.
* A nullable `Expr` of the source is an `Option Expr`; `none` is `d_null`.
* `std::map` / `std::unordered_map` are association lists; a write puts the new
  entry in front, a lookup returns the first entry of the key.
* `std::vector` used as a stack is a list whose head is `back()`.
* Loops are functions by recursion on a fuel argument; running out of fuel is
  the outer `none` of the result.
-/

namespace alfc

/-! ## Data model -/

/-- Modelled from the spec: the closed tag set `Kind` (declared in `kind.h`, which is
not among the sources).  The tags are the ones named by `type_checker.cpp` and by the
data model of the specification; `CONST` stands for a declared symbol that is neither a
parameter, a program nor an oracle. -/
inductive Kind where
  | NONE
  | TYPE | FUNCTION_TYPE | PROOF_TYPE | ABSTRACT_TYPE | BOOL_TYPE | QUOTE_TYPE
  | APPLY | LAMBDA | TUPLE | NIL
  | PARAM | CONST | PROGRAM_CONST | ORACLE
  | BOOLEAN | NUMERAL | DECIMAL | RATIONAL | HEXADECIMAL | BINARY | STRING
  | EVAL_IS_EQ | EVAL_IF_THEN_ELSE | EVAL_REQUIRES | EVAL_HASH
  | EVAL_TO_LIST | EVAL_FROM_LIST | EVAL_CONS | EVAL_CONCAT | EVAL_EXTRACT | EVAL_FIND
  | EVAL_ADD | EVAL_NEG | EVAL_MUL | EVAL_INT_DIV | EVAL_RAT_DIV | EVAL_IS_NEG
  | EVAL_TO_INT | EVAL_TO_RAT | EVAL_TO_BV | EVAL_TO_STRING
  | EVAL_AND | EVAL_OR | EVAL_XOR | EVAL_NOT | EVAL_LENGTH
  deriving DecidableEq

/-- Modelled from the spec: the payload of a `Literal` node (class `Literal` of
`literal.h`, not among the sources): a boolean, an arbitrary-precision integer, a rational
(numerator and denominator), a bit-vector (width and value), a string, or, for a symbol,
its identity. -/
inductive Literal where
  | bool (b : Bool)
  | int (i : Int)
  | rat (num : Int) (den : Nat)
  | bv (width : Nat) (value : Nat)
  | str (s : String)
  | sym (id : Nat)
  deriving DecidableEq

/-- Modelled from the spec: an expression node (class `ExprValue` of `expr.h`, not among
the sources).  A node carries a kind and either a payload (the subclass `Literal`, which
has no children: literals and symbols) or an ordered sequence of children. -/
inductive Expr where
  | leaf (k : Kind) (payload : Literal)
  | node (k : Kind) (children : List Expr)

namespace Expr

/-- The method `ExprValue::getKind`. -/
def getKind : Expr → Kind
  | leaf k _ => k
  | node k _ => k

/-- The field `d_children`. -/
def children : Expr → List Expr
  | leaf _ _ => []
  | node _ cs => cs

/-- The method `ExprValue::getNumChildren`. -/
def getNumChildren (e : Expr) : Nat := e.children.length

mutual
/-- Decision procedure for equality of nodes. -/
def decEq : (a b : Expr) → Decidable (a = b)
  | leaf k l, leaf k2 l2 =>
    if h : k = k2 ∧ l = l2 then isTrue (by rw [h.1, h.2])
    else isFalse (by intro h2; cases h2; exact h ⟨rfl, rfl⟩)
  | node k cs, node k2 cs2 =>
    if h : k = k2 then
      match decEqList cs cs2 with
      | isTrue h2 => isTrue (by rw [h, h2])
      | isFalse h2 => isFalse (by intro h3; cases h3; exact h2 rfl)
    else isFalse (by intro h3; cases h3; exact h rfl)
  | leaf _ _, node _ _ => isFalse (by intro h; cases h)
  | node _ _, leaf _ _ => isFalse (by intro h; cases h)
/-- Decision procedure for equality of child sequences. -/
def decEqList : (a b : List Expr) → Decidable (a = b)
  | [], [] => isTrue rfl
  | a :: as, b :: bs =>
    match decEq a b with
    | isTrue h =>
      match decEqList as bs with
      | isTrue h2 => isTrue (by rw [h, h2])
      | isFalse h2 => isFalse (by intro h3; cases h3; exact h2 rfl)
    | isFalse h => isFalse (by intro h3; cases h3; exact h rfl)
  | [], _ :: _ => isFalse (by intro h; cases h)
  | _ :: _, [] => isFalse (by intro h; cases h)
end

instance : DecidableEq Expr := decEq

mutual
/-- Number of nodes of the tree below (and including) a node. -/
def size : Expr → Nat
  | leaf _ _ => 1
  | node _ cs => 1 + sizeList cs
/-- Number of nodes of a sequence of trees. -/
def sizeList : List Expr → Nat
  | [] => 0
  | c :: cs => size c + sizeList cs
end

mutual
/-- Modelled from the spec: the flag `IS_GROUND` read by `ExprValue::isGround` (computed in
`expr.cpp`, not among the sources): no `PARAM` in any descendant, the node included. -/
def isGround : Expr → Bool
  | leaf k _ => k != .PARAM
  | node k cs => k != .PARAM && isGroundList cs
/-- All nodes of a sequence are ground. -/
def isGroundList : List Expr → Bool
  | [] => true
  | c :: cs => isGround c && isGroundList cs
end

end Expr

/-- Modelled from the spec: `isLiteralOp` of `kind.h` (not among the sources): the
evaluation-operator kinds, those prefixed `EVAL_`. -/
def isLiteralOp : Kind → Bool
  | .EVAL_IS_EQ | .EVAL_IF_THEN_ELSE | .EVAL_REQUIRES | .EVAL_HASH
  | .EVAL_TO_LIST | .EVAL_FROM_LIST | .EVAL_CONS | .EVAL_CONCAT | .EVAL_EXTRACT | .EVAL_FIND
  | .EVAL_ADD | .EVAL_NEG | .EVAL_MUL | .EVAL_INT_DIV | .EVAL_RAT_DIV | .EVAL_IS_NEG
  | .EVAL_TO_INT | .EVAL_TO_RAT | .EVAL_TO_BV | .EVAL_TO_STRING
  | .EVAL_AND | .EVAL_OR | .EVAL_XOR | .EVAL_NOT | .EVAL_LENGTH => true
  | _ => false

/-- Modelled from the spec: `isLiteral` of `kind.h` (not among the sources): the literal
kinds of the data model. -/
def isLiteral : Kind → Bool
  | .BOOLEAN | .NUMERAL | .DECIMAL | .RATIONAL | .HEXADECIMAL | .BINARY | .STRING => true
  | _ => false

/-- The substitution context `Ctx = std::map<ExprValue*, ExprValue*>`. -/
abbrev Ctx := List (Expr × Expr)

/-- Lookup in an association list (`find` of a map): the value of the first entry whose
key is `k`. -/
def assocFind {α β : Type} [DecidableEq α] (k : α) : List (α × β) → Option β
  | [] => none
  | (a, b) :: rest => if a = k then some b else assocFind k rest

/-! ## The matcher -/

/-- The set of visited pairs of `match`, `std::set<std::pair<ExprValue*, ExprValue*>>`. -/
abbrev MatchVisited := List (Expr × Expr)

/-- The result of a run of `match`: the returned boolean, the context `ctx` and the set
`visited`, both of which the call receives by reference and leaves updated. -/
structure MatchResult where
  ret : Bool
  ctx : Ctx
  visited : MatchVisited
  deriving DecidableEq

/-- The loop `while (!stack.empty())` of `TypeChecker::match(a, b, ctx, visited)`.  The
head of `stack` is `stack.back()`; one unit of fuel is spent for each pass through the
loop body. -/
def matchLoop : Nat → List (Expr × Expr) → MatchVisited → Ctx → Option MatchResult
  | _, [], visited, ctx => some ⟨true, ctx, visited⟩
  | 0, _ :: _, _, _ => none
  | fuel + 1, curr :: stack, visited, ctx =>
    if curr.1 = curr.2 then
      -- holds trivially
      matchLoop fuel stack visited ctx
    else if curr ∈ visited then
      -- already processed
      matchLoop fuel stack visited ctx
    else
      let visited1 := curr :: visited
      if curr.1.getNumChildren = 0 then
        if curr.1.getKind = .PARAM then
          match assocFind curr.1 ctx with
          | none => matchLoop fuel stack visited1 ((curr.1, curr.2) :: ctx)
          | some bound =>
            if bound ≠ curr.2 then some ⟨false, ctx, visited1⟩
            else matchLoop fuel stack visited1 ctx
        else
          -- the two subterms are not equal
          some ⟨false, ctx, visited1⟩
      else
        if curr.1.getNumChildren ≠ curr.2.getNumChildren
            ∨ curr.1.getKind ≠ curr.2.getKind then
          some ⟨false, ctx, visited1⟩
        else
          -- recurse on children
          matchLoop fuel ((curr.1.children.zip curr.2.children).reverse ++ stack) visited1 ctx

/-- Sum of the sizes of the patterns waiting on the stack of `match`: a bound on the
number of passes the loop still makes. -/
def matchFuel : List (Expr × Expr) → Nat
  | [] => 0
  | curr :: stack => curr.1.size + matchFuel stack

/-- The method `TypeChecker::match(a, b, ctx, visited)`: the loop started on the stack
that holds the pair `(a, b)`.  The loop is given `a.size` units of fuel, which it never
exhausts (`matchLoop_isSome`); the last alternative is therefore never taken. -/
def matchVisited (a b : Expr) (ctx : Ctx) (visited : MatchVisited) : MatchResult :=
  match matchLoop (matchFuel [(a, b)]) [(a, b)] visited ctx with
  | some r => r
  | none => ⟨false, ctx, visited⟩

/-- The method `TypeChecker::match(a, b, ctx)`: `match` with a fresh set of visited pairs. -/
def matchFresh (a b : Expr) (ctx : Ctx) : MatchResult :=
  matchVisited a b ctx []

mutual
/-- Simultaneous substitution of a context into a term: every node of kind `PARAM` that
the context binds is replaced by its bound value (which is not substituted into again);
an unbound `PARAM` is kept, and so is every other node, with its children substituted. -/
def substitute (ctx : Ctx) : Expr → Expr
  | .leaf k l =>
    if k = .PARAM then
      match assocFind (.leaf k l) ctx with
      | some v => v
      | none => .leaf k l
    else .leaf k l
  | .node k cs =>
    if k = .PARAM then
      match assocFind (.node k cs) ctx with
      | some v => v
      | none => .node k cs
    else .node k (substituteList ctx cs)
/-- Substitution into each term of a sequence. -/
def substituteList (ctx : Ctx) : List Expr → List Expr
  | [] => []
  | c :: cs => substitute ctx c :: substituteList ctx cs
end

/-- A context `c2` extends a context `c1`: every binding of `c1` is a binding of `c2`. -/
def ctxExtends (c1 c2 : Ctx) : Prop :=
  ∀ k v, assocFind k c1 = some v → assocFind k c2 = some v

mutual
/-- Well-formedness of the symbols of a term: a node of kind `PARAM` is a symbol, hence
a `Literal` node without children. -/
def paramsAreLeaves : Expr → Bool
  | .leaf _ _ => true
  | .node k cs => k != .PARAM && paramsAreLeavesList cs
/-- Well-formedness of the symbols of each term of a sequence. -/
def paramsAreLeavesList : List Expr → Bool
  | [] => true
  | c :: cs => paramsAreLeaves c && paramsAreLeavesList cs
end

/-! ## The state and the collaborators of the type checker -/

/-- Modelled from the spec: the constructor attribute `Attr` of an operator symbol
(`attr.h`, not among the sources). -/
inductive Attr where
  | NONE | LEFT_ASSOC | RIGHT_ASSOC | LEFT_ASSOC_NIL | RIGHT_ASSOC_NIL | CHAINABLE | PAIRWISE
  deriving DecidableEq

/-- Modelled from the spec: the record `AppInfo` of an operator symbol (`state.h`, not
among the sources): the constructor attribute and the nil element. -/
structure AppInfo where
  d_attrCons : Attr
  d_attrConsTerm : Expr

/-- The collaborators of `TypeChecker` that are not among the sources, taken as
parameters: the flags of a node computed in `expr.cpp`, the tables and constructors of
`State`, the literal kernel, the oracle subprocess and the compiled methods. -/
structure Env where
  /-- The flag read by `ExprValue::isEvaluatable`. -/
  isEvaluatable : Expr → Bool
  /-- The flag read by `ExprValue::isCompiled`. -/
  isCompiled : Expr → Bool
  /-- The method `State::getProgram`: the program-definition node of a program constant, or null. -/
  getProgram : Expr → Option Expr
  /-- The method `State::getAppInfo`. -/
  getAppInfo : Expr → Option AppInfo
  /-- The method `State::getHash`. -/
  getHash : Expr → Nat
  /-- The method `State::mkBuiltinType`. -/
  mkBuiltinType : Kind → Expr
  /-- The method `State::mkSelf`: the parameter that a literal type rule uses for the literal. -/
  mkSelf : Expr
  /-- The method `Literal::evaluate(k, lits)`; `none` is a result of kind `NONE`. -/
  literalEvaluate : Kind → List (Kind × Literal) → Option (Kind × Literal)
  /-- The call of an oracle: `getOracleCmd`, the subprocess and the parse of its response,
  as a function of the argument vector; `none` is a null result. -/
  runOracle : List Expr → Option Expr
  /-- The compiled method `run_evaluate`. -/
  run_evaluate : Expr → Ctx → Option Expr
  /-- The compiled method `run_getTypeInternal`. -/
  run_getTypeInternal : Expr → List Expr → Option Expr
  /-- The compiled method `run_evaluateProgram`, with the context it leaves. -/
  run_evaluateProgram : List Expr → Ctx → Option Expr × Ctx

/-- Modelled from the spec: `State::mkType`, the node `Type`. -/
def mkType : Expr := .node .TYPE []

/-- Modelled from the spec: `State::mkBoolType`, the node `Bool`. -/
def mkBoolType : Expr := .node .BOOL_TYPE []

/-- Modelled from the spec: `State::mkAbstractType`, the node `AbstractType`. -/
def mkAbstractType : Expr := .node .ABSTRACT_TYPE []

/-- Modelled from the spec: `State::mkTrue`, the boolean literal `true`. -/
def mkTrue : Expr := .leaf .BOOLEAN (.bool true)

/-- Modelled from the spec: `State::mkFalse`, the boolean literal `false`. -/
def mkFalse : Expr := .leaf .BOOLEAN (.bool false)

/-- Modelled from the spec: `State::mkFunctionType(args, ret)`: a function-type node
lists all argument types followed by the result type. -/
def mkFunctionType (args : List Expr) (ret : Expr) : Expr := .node .FUNCTION_TYPE (args ++ [ret])

/-- The method `State::mkExprInternal(k, children)`: the hash-consed node of a kind and children. -/
def mkExprInternal (k : Kind) (children : List Expr) : Expr := .node k children

/-- The method `TypeChecker::ensureHashed`.  The embedding identifies a node with its canonical
hash-consed copy (pointer equality is structural equality), so that the canonical copy
of a node is the node. -/
def ensureHashed (e : Expr) : Expr := e

/-- The mutable state that `TypeChecker` works on: the type cache `d_state.d_typeCache`
and the table `d_literalTypeRules` (a null rule is `none`). -/
structure TypeChecker where
  d_typeCache : List (Expr × Expr)
  d_literalTypeRules : List (Kind × Option Expr)
  deriving DecidableEq

/-- Modelled from the spec: `State::lookupType(e)` (`state.cpp`, not among the sources):
the type that the type cache holds for a node, or null. -/
def lookupType (tc : TypeChecker) (e : Expr) : Option Expr := assocFind e tc.d_typeCache

/-- The method `TypeChecker::isGround(args)`: are all arguments ground. -/
def isGround (args : List Expr) : Bool := args.all Expr.isGround

/-- The method `ExprValue::asLiteral`: the literal of a `Literal` node, null for any other node. -/
def asLiteral : Expr → Option (Kind × Literal)
  | .leaf k l => some (k, l)
  | .node _ _ => none

/-- The field `d_bool` of the literal of a node. -/
def asBool : Expr → Option Bool
  | .leaf _ (.bool b) => some b
  | _ => none

/-! ## Arities -/

/-- The static method `TypeChecker::checkArity(k, nargs, out)`.  The stream `out` only
receives diagnostics and is left out; the result is the returned boolean. -/
def checkArity (k : Kind) (nargs : Nat) : Bool :=
  let ret : Bool :=
    match k with
    | .NIL => nargs == 0
    | .EVAL_IS_EQ | .EVAL_INT_DIV | .EVAL_RAT_DIV | .EVAL_TO_BV | .EVAL_FIND
    | .EVAL_CONS => nargs == 2
    | .EVAL_ADD | .EVAL_MUL | .EVAL_AND | .EVAL_OR | .EVAL_XOR
    | .EVAL_CONCAT => decide (nargs ≥ 2)
    | .PROOF_TYPE | .EVAL_HASH | .EVAL_NOT | .EVAL_NEG | .EVAL_IS_NEG | .EVAL_LENGTH
    | .EVAL_TO_INT | .EVAL_TO_RAT | .EVAL_TO_STRING | .EVAL_TO_LIST
    | .EVAL_FROM_LIST => nargs == 1
    | .EVAL_REQUIRES | .EVAL_IF_THEN_ELSE => nargs == 3
    | .EVAL_EXTRACT => nargs == 3 || nargs == 2
    | _ => false
  if !ret then false else true

/-- The arity table of the specification (section 4.4, with the rows `PROOF_TYPE` and
`NIL`), as a proposition on a kind and a number of arguments; a kind outside the table
is related to no number. -/
def arityTable (k : Kind) (n : Nat) : Prop :=
  (k = .NIL ∧ n = 0)
  ∨ ((k = .EVAL_IS_EQ ∨ k = .EVAL_INT_DIV ∨ k = .EVAL_RAT_DIV ∨ k = .EVAL_TO_BV
        ∨ k = .EVAL_FIND ∨ k = .EVAL_CONS) ∧ n = 2)
  ∨ ((k = .EVAL_ADD ∨ k = .EVAL_MUL ∨ k = .EVAL_AND ∨ k = .EVAL_OR ∨ k = .EVAL_XOR
        ∨ k = .EVAL_CONCAT) ∧ n ≥ 2)
  ∨ ((k = .PROOF_TYPE ∨ k = .EVAL_HASH ∨ k = .EVAL_NOT ∨ k = .EVAL_NEG ∨ k = .EVAL_IS_NEG
        ∨ k = .EVAL_LENGTH ∨ k = .EVAL_TO_INT ∨ k = .EVAL_TO_RAT ∨ k = .EVAL_TO_STRING
        ∨ k = .EVAL_TO_LIST ∨ k = .EVAL_FROM_LIST) ∧ n = 1)
  ∨ ((k = .EVAL_REQUIRES ∨ k = .EVAL_IF_THEN_ELSE) ∧ n = 3)
  ∨ (k = .EVAL_EXTRACT ∧ (n = 2 ∨ n = 3))

/-! ## Literal operators

A function of this part returns an `Option (Option Expr)`: the inner option is the
nullable `Expr` of the source, the outer `none` is a fault of the source, that is a failed
`Assert`, an index outside a vector or the use of a null pointer. -/

/-- The loop of `getNAryChildren(e, op, checkNil, children, isLeft, maxChildren)`: the
result is the returned node (or null) and the vector `children` as the call leaves it.
On terms the tests `(*cop)[0] != op` and `e != checkNil` are equalities of terms, as they
are for hash-consed nodes; `Store.getNAryChildrenLoop` is the loop on addresses. -/
def getNAryChildrenLoop (op : Expr) (checkNil : Option Expr) (isLeft : Bool)
    (maxChildren : Nat) : Nat → Expr → List Expr → Option (Option Expr × List Expr)
  | 0, _, _ => none
  | fuel + 1, e, children =>
    let finish : Option (Option Expr × List Expr) :=
      -- must be equal to the nil term, if provided
      match checkNil with
      | some nil => if e ≠ nil then some (none, children) else some (some e, children)
      | none => some (some e, children)
    if e.getKind = .APPLY then
      match e.children[0]? with
      | none => none
      | some cop =>
        if cop.getKind ≠ .APPLY then finish
        else
          match cop.children[0]? with
          | none => none
          | some cop0 =>
            if cop0 ≠ op then finish
            else
              match e.children[1]?, cop.children[1]? with
              | some e1, some cop1 =>
                let children1 := children ++ [if isLeft then e1 else cop1]
                let tail := if isLeft then cop1 else e1
                if children1.length = maxChildren then some (some tail, children1)
                else getNAryChildrenLoop op checkNil isLeft maxChildren fuel tail children1
              | _, _ => none
    else finish

/-- The function `getNAryChildren(e, op, checkNil, children, isLeft, maxChildren)`; the loop follows a
chain of subterms of `e` and is given the size of `e` as fuel. -/
def getNAryChildren (e op : Expr) (checkNil : Option Expr) (children : List Expr)
    (isLeft : Bool) (maxChildren : Nat) : Option (Option Expr × List Expr) :=
  getNAryChildrenLoop op checkNil isLeft maxChildren (e.size + 1) e children

/-- The value of a numeral fits an `unsigned int` (32 bits): `Integer::fitsUnsignedInt`. -/
def fitsUnsignedInt (i : Int) : Bool := decide (0 ≤ i) && decide (i < 4294967296)

/-- The last loop of `evaluateLiteralOpInternal`: the list built from the elements
`hargs` on top of the tail `ret`, by applications of the curried operator `op`. -/
def buildList (op : Expr) (isLeft : Bool) (hargs : List Expr) (ret : Expr) : Expr :=
  (if isLeft then hargs else hargs.reverse).foldl
    (fun acc h =>
      if isLeft then .node .APPLY [.node .APPLY [op, acc], h]
      else .node .APPLY [.node .APPLY [op, h], acc])
    ret

/-- The part of `TypeChecker::evaluateLiteralOpInternal(k, args)` after the literal
evaluator: the list operations on an associative operator with a nil element.  On terms
the tests `harg == nil` and `std::find` are equalities of terms, as they are for
hash-consed nodes; `Store.evaluateListOp` is the function on addresses, where a node
built with `new` differs from the hashed node of the same term. -/
def evaluateListOp (env : Env) (k : Kind) (args : List Expr) : Option (Option Expr) :=
  match args[0]? with
  | none => none
  | some op =>
    match env.getAppInfo op with
    | none => some none
    | some ac =>
      let ck := ac.d_attrCons
      if ck ≠ .RIGHT_ASSOC_NIL ∧ ck ≠ .LEFT_ASSOC_NIL then some none
      else
        let isLeft : Bool := decide (ck = .LEFT_ASSOC_NIL)
        let nil := ac.d_attrConsTerm
        let tailIndex := if isLeft then 1 else 2
        let headIndex := if isLeft then 2 else 1
        match k with
        | .EVAL_TO_LIST =>
          match args[1]? with
          | none => none
          | some harg =>
            if harg = nil then some (some harg)
            else
              match getNAryChildren harg op none [] isLeft 0 with
              | none => none
              | some (a, hargs) =>
                if hargs ≠ [] then some (some harg)
                else
                  match a with
                  | none => some none
                  | some a => some (some (buildList op isLeft [a] nil))
        | .EVAL_FROM_LIST =>
          match args[1]? with
          | none => none
          | some arg1 =>
            match getNAryChildren arg1 op (some nil) [] isLeft 2 with
            | none => none
            | some (a, hargs) =>
              if hargs.length = 1 then
                match a with
                | none => some none
                | some _ => some hargs[0]?
              else some (some arg1)
        | .EVAL_CONS | .EVAL_CONCAT =>
          match args[tailIndex]? with
          | none => none
          | some tl =>
            match getNAryChildren tl op (some nil) [] isLeft 0 with
            | none => none
            | some (none, _) => some none
            | some (some _, _) =>
              match args[headIndex]? with
              | none => none
              | some hd =>
                if k = .EVAL_CONS then some (some (buildList op isLeft [hd] tl))
                else
                  match getNAryChildren hd op (some nil) [] isLeft 0 with
                  | none => none
                  | some (none, _) => some none
                  | some (some _, hargs) => some (some (buildList op isLeft hargs tl))
        | .EVAL_EXTRACT =>
          match args[2]? with
          | none => none
          | some arg2 =>
            if arg2.getKind ≠ .NUMERAL then some none
            else
              match arg2 with
              | .leaf _ (.int index) =>
                if !fitsUnsignedInt index then some none
                else
                  let i := index.toNat
                  match args[1]? with
                  | none => none
                  | some arg1 =>
                    match getNAryChildren arg1 op (some nil) [] isLeft (i + 1) with
                    | none => none
                    | some (_, hargs) =>
                      if hargs.length = i + 1 then some hargs.getLast? else some none
              | _ => none
        | .EVAL_FIND =>
          match args[1]?, args[2]? with
          | some arg1, some arg2 =>
            match getNAryChildren arg1 op (some nil) [] isLeft 0 with
            | none => none
            | some (_, hargs) =>
              if arg2 ∈ hargs then
                some (some (.leaf .NUMERAL (.int (hargs.indexOf arg2))))
              else some (some (.leaf .NUMERAL (.int (-1))))
          | _, _ => none
        | _ => some none

/-- The literals of the arguments of a literal operator, read by `asLiteral`; a node that
is not a `Literal` has no literal to read, which is a fault of `Literal::evaluate`. -/
def argsAsLiterals : List Expr → Option (List (Kind × Literal))
  | [] => some []
  | e :: es =>
    match asLiteral e, argsAsLiterals es with
    | some l, some ls => some (l :: ls)
    | _, _ => none

/-- The method `TypeChecker::evaluateLiteralOpInternal(k, args)`. -/
def evaluateLiteralOpInternal (env : Env) (k : Kind) (args : List Expr) :
    Option (Option Expr) :=
  if args = [] then none
  else
    let general : Option (Option Expr) :=
      if !isGround args then some none
      else
        -- `allValues`: every argument is of a literal kind
        if args.all (fun e => isLiteral e.getKind) then
          match argsAsLiterals args with
          | none => none
          | some lits =>
            match env.literalEvaluate k lits with
            | none => some none
            | some (rk, rl) => some (some (.leaf rk rl))
        else evaluateListOp env k args
    match k with
    | .EVAL_IS_EQ =>
      match args with
      | [a0, a1] =>
        if ensureHashed a0 = ensureHashed a1 then some (some mkTrue)
        else if isGround args then some (some mkFalse)
        else some none
      | _ => none
    | .EVAL_IF_THEN_ELSE =>
      match args[0]? with
      | none => none
      | some a0 =>
        if a0.getKind = .BOOLEAN then
          match asBool a0 with
          | none => none
          | some b =>
            match args[if b then 1 else 2]? with
            | none => none
            | some r => some (some r)
        else some none
    | .EVAL_REQUIRES =>
      match args[0]?, args[1]? with
      | some a0, some a1 =>
        if ensureHashed a0 = ensureHashed a1 then
          match args[2]? with
          | none => none
          | some a2 => some (some a2)
        else some none
      | _, _ => none
    | .EVAL_HASH =>
      match args[0]? with
      | none => none
      | some a0 =>
        if a0.isGround then
          some (some (.leaf .NUMERAL (.int ((env.getHash (ensureHashed a0)) % 4294967296))))
        else some none
    | _ => general

/-- The method `TypeChecker::evaluateLiteralOp(k, args)`. -/
def evaluateLiteralOp (env : Env) (k : Kind) (args : List Expr) : Option Expr :=
  match evaluateLiteralOpInternal env k args with
  | none => none
  | some (some ret) => some (ensureHashed ret)
  | some none => some (mkExprInternal k args)

/-! ## Programs -/

/-- The loop over the argument positions `i = 1 .. nargs-1` of a rule in
`evaluateProgramInternal`: `match(hchildren[i], children[i], newCtx)` with a fresh set of
visited pairs for each position, stopping at the first failure.  The lists are the
patterns and the arguments from position 1 on; the result is `matchSuccess` and the
context as the loop leaves it. -/
def matchArgs : List Expr → List Expr → Ctx → Bool × Ctx
  | h :: hs, c :: cs, ctx =>
    let r := matchFresh h c ctx
    if !r.ret then (false, r.ctx) else matchArgs hs cs r.ctx
  | _, _, ctx => (true, ctx)

/-- The loop over the rules of a program in `evaluateProgramInternal`: `rules` are the
children of the program node that are still to be tried.  The result is the returned
expression (null when no rule applies) and the context `newCtx` as the loop leaves it;
the outer `none` is a fault (a rule without pattern or without body). -/
def evaluateRules (children : List Expr) : List Expr → Ctx → Option (Option Expr × Ctx)
  | [], newCtx => some (none, newCtx)
  | c :: rest, _ =>
    -- `newCtx.clear()`
    match c.children[0]? with
    | none => none
    | some hd =>
      let hchildren := hd.children
      if children.length ≠ hchildren.length then
        -- bad number of arguments: the call returns null
        some (none, [])
      else
        let r := matchArgs (hchildren.drop 1) (children.drop 1) []
        if r.1 then
          match c.children[1]? with
          | none => none
          | some body => some (some body, r.2)
        else evaluateRules children rest r.2

/-- The method `TypeChecker::evaluateProgramInternal(children, newCtx)`: the returned expression and
the context `newCtx` as the call leaves it. -/
def evaluateProgramInternal (env : Env) (children : List Expr) (newCtx : Ctx) :
    Option (Option Expr × Ctx) :=
  if !isGround children then
    -- do not evaluate on non-ground
    some (none, newCtx)
  else
    match children[0]? with
    | none => none
    | some hd =>
      let hk := hd.getKind
      if hk = .PROGRAM_CONST then
        if env.isCompiled hd then some (env.run_evaluateProgram children newCtx)
        else
          match env.getProgram hd with
          | none => none
          | some prog => evaluateRules children prog.children newCtx
      else if hk = .ORACLE then some (env.runOracle children, newCtx)
      else some (none, newCtx)

/-- The method `TypeChecker::evaluateProgram(children, newCtx)`: the returned expression and the
context `newCtx` as the call leaves it. -/
def evaluateProgram (env : Env) (children : List Expr) (newCtx : Ctx) :
    Option (Expr × Ctx) :=
  match evaluateProgramInternal env children newCtx with
  | none => none
  | some (some ret, ctx) => some (ensureHashed ret, ctx)
  | some (none, ctx) => some (mkExprInternal .APPLY children, ctx)

/-! ## The evaluator -/

/-- Modelled from the spec: the memoization trie `ExprTrie` (`expr_trie.h`, not among the
sources), keyed by the argument tuple of a program or oracle call: the tuples whose node
holds a non-null `d_data`, with that result. -/
abbrev ExprTrie := List (List Expr × Expr)

/-- The evaluation frame `EvFrame`.  The head of `d_visit` is `d_visit.back()`; a null
entry of `d_visited` is `none`; `d_result` is the key of the trie node the frame writes
its result to, or null. -/
structure EvFrame where
  d_init : Expr
  d_ctx : Ctx
  d_visited : List (Expr × Option Expr)
  d_visit : List Expr
  d_result : Option (List Expr)

/-- The constructor `EvFrame(i, ctx, r)`: the frame starts with `i` to visit. -/
def EvFrame.new (i : Expr) (ctx : Ctx) (r : Option (List Expr)) : EvFrame :=
  ⟨i, ctx, [], [i], r⟩

/-- The variables of `TypeChecker::evaluate` that live across the passes of its loops:
the evaluation stack (its head is `estack.back()`), the trie, and `evaluated` as the last
finished frame left it. -/
structure EvState where
  estack : List EvFrame
  evalTrie : ExprTrie
  evaluated : Option Expr

/-- The vector `cchildren`: the reduced children where available, null for a child that has no entry
in `visited` yet. -/
def evalChildren (visited : List (Expr × Option Expr)) (children : List Expr) :
    List (Option Expr) :=
  children.map (fun cp =>
    match assocFind cp visited with
    | some v => v
    | none => none)

/-- The flag `cchanged`: some child has an entry in `visited` that is not the child itself. -/
def evalChanged (visited : List (Expr × Option Expr)) (children : List Expr) : Bool :=
  children.any (fun cp =>
    match assocFind cp visited with
    | some v => decide (v ≠ some cp)
    | none => false)

/-- A vector of nodes none of which is null; `none` when one is null. -/
def allNonNull : List (Option Expr) → Option (List Expr)
  | [] => some []
  | none :: _ => none
  | some e :: es =>
    match allNonNull es with
    | some l => some (e :: l)
    | none => none

/-- What the second visit of a node decides, before the node is recorded: a new frame is
pushed (`newContext`), or the children to schedule first (`canEvaluate` is false), or the
value of `evaluated` (null when no rule applied); with the trie as it is left. -/
inductive Revisit where
  | newContext (frame : EvFrame) (trie : ExprTrie)
  | cannotEvaluate (schedule : List Expr)
  | evaluated (e : Option Expr) (trie : ExprTrie)

/-- The `switch (ck)` of the second visit of `cur` in `TypeChecker::evaluate`; `schedule`
lists the nodes pushed on `visit`, the last pushed first. -/
def evalRevisit (env : Env) (trie : ExprTrie) (cur : Expr) (cchildren : List (Option Expr)) :
    Option Revisit :=
  let ck := cur.getKind
  let children := cur.children
  if ck = .APPLY then
    match cchildren[0]? with
    | some (some c0) =>
      let cck := c0.getKind
      if cck = .PROGRAM_CONST ∨ cck = .ORACLE then
        match allNonNull cchildren with
        | none => none
        | some cch =>
          let cchildrenh := cch.map ensureHashed
          match assocFind cchildrenh trie with
          | some data => some (.evaluated (some data) trie)
          | none =>
            match evaluateProgramInternal env cchildrenh [] with
            | none => none
            | some (none, _) => some (.evaluated none trie)
            | some (some ev, newCtx) =>
              if ev.isGround ∨ newCtx = [] then
                some (.evaluated (some ev) ((cchildrenh, ev) :: trie))
              else some (.newContext (EvFrame.new ev newCtx (some cchildrenh)) trie)
      else some (.evaluated none trie)
    | _ => none
  else if ck = .EVAL_IF_THEN_ELSE then
    match cchildren[0]? with
    | some (some c0) =>
      if c0.getKind = .BOOLEAN then
        match asBool c0 with
        | none => none
        | some b =>
          let index := if b then 1 else 2
          match cchildren[index]?, children[index]? with
          | some none, some child => some (.cannotEvaluate [child])
          | some (some r), _ => some (.evaluated (some r) trie)
          | _, _ => none
      else
        match cchildren[1]?, cchildren[2]?, children[1]?, children[2]? with
        | some r1, some r2, some child1, some child2 =>
          let s1 := if r1 = none then [child1] else []
          let s2 := if r2 = none then [child2] else []
          if s2 ++ s1 = [] then some (.evaluated none trie)
          else some (.cannotEvaluate (s2 ++ s1))
        | _, _, _, _ => none
    | _ => none
  else if isLiteralOp ck then
    match allNonNull cchildren with
    | none => none
    | some cch =>
      match evaluateLiteralOpInternal env ck cch with
      | none => none
      | some ev => some (.evaluated ev trie)
  else some (.evaluated none trie)

/-- One pass of the inner loop `while (!visit.empty())` of `TypeChecker::evaluate`, for the
frame `evf` on top of the frames `below`, where `cur :: rest` is the vector `visit` of
`evf`; the result is the evaluation stack and the trie after the pass. -/
def evalVisit (env : Env) (evf : EvFrame) (below : List EvFrame) (trie : ExprTrie)
    (cur : Expr) (rest : List Expr) : Option (List EvFrame × ExprTrie) :=
  let record (v : Option Expr) : EvFrame :=
    { evf with d_visited := (cur, v) :: evf.d_visited, d_visit := rest }
  if !env.isEvaluatable cur && (cur.isGround || decide (evf.d_ctx = [])) then
    -- the term stays the same
    some (record (some cur) :: below, trie)
  else if cur.getKind = .PARAM then
    -- might be in context
    match assocFind cur evf.d_ctx with
    | some v => some (record (some v) :: below, trie)
    | none => some (record (some cur) :: below, trie)
  else
    match assocFind cur evf.d_visited with
    | none =>
      if env.isCompiled cur then
        match env.run_evaluate cur evf.d_ctx with
        | some retev => some (record (some retev) :: below, trie)
        | none => none
      else
        -- otherwise, visit children
        let visited1 := (cur, none) :: evf.d_visited
        if cur.getKind = .EVAL_IF_THEN_ELSE then
          -- special case: visit only the condition
          match cur.children[0]? with
          | none => none
          | some c0 =>
            some ({ evf with d_visited := visited1, d_visit := c0 :: cur :: rest } :: below, trie)
        else
          some ({ evf with d_visited := visited1,
                           d_visit := cur.children.reverse ++ cur :: rest } :: below, trie)
    | some none =>
      let cchildren := evalChildren evf.d_visited cur.children
      let cchanged := evalChanged evf.d_visited cur.children
      match evalRevisit env trie cur cchildren with
      | none => none
      | some (.newContext frame trie1) => some (frame :: evf :: below, trie1)
      | some (.cannotEvaluate schedule) =>
        some ({ evf with d_visit := schedule ++ cur :: rest } :: below, trie)
      | some (.evaluated (some ev) trie1) => some (record (some ev) :: below, trie1)
      | some (.evaluated none trie1) =>
        if cchanged then
          match allNonNull cchildren with
          | none => none
          | some cch => some (record (some (.node cur.getKind cch)) :: below, trie1)
        else
          -- children didn't change, just take the original
          some (record (some cur) :: below, trie1)
    | some (some _) => some ({ evf with d_visit := rest } :: below, trie)

/-- The end of a frame in `TypeChecker::evaluate` (the frame `evf` has nothing left to
visit): its result is written to the trie and carried to the frame below. -/
def evalFinish (evf : EvFrame) (below : List EvFrame) (trie : ExprTrie) : Option EvState :=
  match assocFind evf.d_init evf.d_visited with
  | none => none
  | some evaluated =>
    let trie1 : ExprTrie :=
      match evf.d_result, evaluated with
      | some key, some ev => (key, ev) :: trie
      | _, _ => trie
    match below with
    | [] => some ⟨[], trie1, evaluated⟩
    | evp :: below1 =>
      match evp.d_visit with
      | [] => none
      | back :: rest =>
        some ⟨{ evp with d_visited := (back, evaluated) :: evp.d_visited, d_visit := rest }
                :: below1, trie1, evaluated⟩

/-- The loops of `TypeChecker::evaluate`, one unit of fuel for each pass of the inner loop
and for each end of a frame; at the end the result is `ensureHashed(evaluated)`. -/
def evaluateLoop (env : Env) : Nat → EvState → Option Expr
  | _, ⟨[], _, evaluated⟩ =>
    match evaluated with
    | some ev => some (ensureHashed ev)
    | none => none
  | 0, ⟨_ :: _, _, _⟩ => none
  | fuel + 1, ⟨evf :: below, trie, evaluated⟩ =>
    match evf.d_visit with
    | cur :: rest =>
      match evalVisit env evf below trie cur rest with
      | none => none
      | some (estack, trie1) => evaluateLoop env fuel ⟨estack, trie1, evaluated⟩
    | [] =>
      match evalFinish evf below trie with
      | none => none
      | some s => evaluateLoop env fuel s

/-- The method `TypeChecker::evaluate(e, ctx)`, with the fuel of its loops; `none` when the fuel does
not suffice or the run meets a fault. -/
def evaluate (env : Env) (fuel : Nat) (e : Expr) (ctx : Ctx) : Option Expr :=
  evaluateLoop env fuel ⟨[EvFrame.new e ctx none], [], none⟩

/-! ## The type checker -/

/-- The options read by the constructor of `TypeChecker`. -/
structure Options where
  d_normalizeDecimal : Bool
  d_normalizeHexadecimal : Bool

/-- The constructor `TypeChecker::TypeChecker(s, opts)`: the table of literal type rules
holds a null rule for each registered literal kind. -/
def literalTypeRulesInit (opts : Options) : List (Kind × Option Expr) :=
  let literalKinds : List Kind := [.BOOLEAN, .NUMERAL, .RATIONAL, .BINARY, .STRING]
  let literalKinds := if !opts.d_normalizeDecimal then literalKinds ++ [.DECIMAL] else literalKinds
  let literalKinds :=
    if !opts.d_normalizeHexadecimal then literalKinds ++ [.HEXADECIMAL] else literalKinds
  literalKinds.map (fun k => (k, none))

/-- The method `TypeChecker::setLiteralTypeRule(k, t)`: the new table; `none` is a fatal error. -/
def setLiteralTypeRule (rules : List (Kind × Option Expr)) (k : Kind) (t : Option Expr) :
    Option (List (Kind × Option Expr)) :=
  match assocFind k rules with
  | none => none
  | some cur =>
    if cur ≠ none ∧ cur ≠ t then none
    else some ((k, t) :: rules)

/-- The method `TypeChecker::getOrSetLiteralTypeRule(k)`: the rule and the table as the call leaves
it; `none` is a fatal error. -/
def getOrSetLiteralTypeRule (env : Env) (rules : List (Kind × Option Expr)) (k : Kind) :
    Option (Expr × List (Kind × Option Expr)) :=
  match assocFind k rules with
  | none => none
  | some none =>
    -- If no type rule, assign the type rule to the builtin type
    let t := env.mkBuiltinType k
    some (t, (k, some t) :: rules)
  | some (some t) => some (t, rules)

/-- The method `TypeChecker::getLiteralOpType(k, childTypes, out)`: the returned type (or null) and
the table of literal type rules as the call leaves it; the outer `none` is a fault. -/
def getLiteralOpType (env : Env) (rules : List (Kind × Option Expr)) (k : Kind)
    (childTypes : List (Option Expr)) :
    Option (Option Expr × List (Kind × Option Expr)) :=
  -- operators with functions at the first index are indexed
  let first : Option Nat :=
    match childTypes with
    | [] => some 0
    | some t0 :: _ => some (if t0.getKind = .FUNCTION_TYPE then 1 else 0)
    | none :: _ => none
  match first with
  | none => none
  | some i =>
    if !checkArity k (childTypes.length - i) then some (none, rules)
    else
      let child (j : Nat) : Option (Option Expr × List (Kind × Option Expr)) :=
        match childTypes[j]? with
        | none => none
        | some t => some (t, rules)
      let rule (lk : Kind) : Option (Option Expr × List (Kind × Option Expr)) :=
        match getOrSetLiteralTypeRule env rules lk with
        | none => none
        | some (t, rules1) => some (some t, rules1)
      match k with
      | .EVAL_ADD | .EVAL_MUL => child 0
      | .EVAL_NEG | .EVAL_AND | .EVAL_OR | .EVAL_XOR | .EVAL_NOT => child 0
      | .EVAL_IF_THEN_ELSE | .EVAL_CONS | .EVAL_TO_LIST | .EVAL_FROM_LIST => child 1
      | .EVAL_REQUIRES => child 2
      | .EVAL_CONCAT | .EVAL_EXTRACT => child i
      | .EVAL_IS_EQ | .EVAL_IS_NEG => some (some mkBoolType, rules)
      | .EVAL_HASH | .EVAL_INT_DIV | .EVAL_TO_INT | .EVAL_LENGTH | .EVAL_FIND => rule .NUMERAL
      | .EVAL_RAT_DIV | .EVAL_TO_RAT => rule .RATIONAL
      | _ => some (none, rules)

/-- The first loop of `getTypeAppInternal`: the argument expressions `ctypes`, for the
declared argument types `hdtypes[i-1]` and the children `children[i]`, `i ≥ 1`: the child
itself under a declared `QUOTE_TYPE`, else the type of the child (a fault if it has
none). -/
def appArgs (tc : TypeChecker) : List Expr → List Expr → Option (List Expr)
  | hdt :: hdtypes, c :: children =>
    let arg : Option Expr :=
      if hdt.getKind = .QUOTE_TYPE then some c else lookupType tc c
    match arg, appArgs tc hdtypes children with
    | some a, some l => some (a :: l)
    | _, _ => none
  | _, _ => some []

/-- The second loop of `getTypeAppInternal`: `match` of each declared argument type,
stripped of `QUOTE_TYPE`, with its argument expression, in one context and with one set of
visited pairs; the result is the context when every match succeeds, null at the first
failure; the outer `none` is a fault (a `QUOTE_TYPE` without child). -/
def appMatch : List Expr → List Expr → Ctx → MatchVisited → Option (Option Ctx)
  | hdt0 :: hdtypes, ct :: ctypes, ctx, visited =>
    let stripped : Option Expr :=
      if hdt0.getKind = .QUOTE_TYPE then hdt0.children[0]? else some hdt0
    match stripped with
    | none => none
    | some hdt =>
      let r := matchVisited hdt ct ctx visited
      if !r.ret then some none
      else appMatch hdtypes ctypes r.ctx r.visited
  | _, _, ctx, _ => some (some ctx)

/-- The method `TypeChecker::getTypeAppInternal(children, out)` with a null `out`: the returned
type, or null; the outer `none` is a fault or the lack of fuel of `evaluate`. -/
def getTypeAppInternal (env : Env) (fuel : Nat) (tc : TypeChecker) (children : List Expr) :
    Option (Option Expr) :=
  match children with
  | [] => none
  | hd :: args =>
    match lookupType tc hd with
    | none => none
    | some hdType =>
      if hdType.getKind ≠ .FUNCTION_TYPE then
        -- non-function at head
        some none
      else
        let hdtypes := hdType.children
        if hdtypes.length ≠ children.length then
          -- incorrect arity
          some none
        else
          match appArgs tc hdtypes args with
          | none => none
          | some ctypes =>
            if env.isCompiled hdType then some (env.run_getTypeInternal hdType ctypes)
            else
              match appMatch hdtypes ctypes [] [] with
              | none => none
              | some none => some none
              | some (some ctx) =>
                match hdtypes.getLast? with
                | none => none
                | some ret =>
                  -- evaluate in the matched context
                  match evaluate env fuel ret ctx with
                  | none => none
                  | some r => some (some r)

/-- The method `TypeChecker::getTypeApp(children, out)`. -/
def getTypeApp (env : Env) (fuel : Nat) (tc : TypeChecker) (children : List Expr) :
    Option (Option Expr) :=
  getTypeAppInternal env fuel tc children

/-- The types of the variables of a `LAMBDA` in `getTypeInternal`; a variable without
type is a fault. -/
def lookupTypes (tc : TypeChecker) : List Expr → Option (List Expr)
  | [] => some []
  | v :: vars =>
    match lookupType tc v, lookupTypes tc vars with
    | some t, some l => some (t :: l)
    | _, _ => none

/-- The method `TypeChecker::getTypeInternal(e, out)`: the returned type (or null) and the state as
the call leaves it; the outer `none` is a fault or the lack of fuel of `evaluate`. -/
def getTypeInternal (env : Env) (fuel : Nat) (tc : TypeChecker) (e : Expr) :
    Option (Option Expr × TypeChecker) :=
  let k := e.getKind
  match k with
  | .APPLY =>
    match getTypeAppInternal env fuel tc e.children with
    | none => none
    | some r => some (r, tc)
  | .LAMBDA =>
    match e.children[0]?, e.children[1]? with
    | some vars, some body =>
      match lookupTypes tc vars.children, lookupType tc body with
      | some args, some ret => some (some (mkFunctionType args ret), tc)
      | _, _ => none
    | _, _ => none
  | .NIL =>
    if !checkArity k e.getNumChildren then some (none, tc)
    else
      -- nil is its own type
      some (some e, tc)
  | .TYPE | .ABSTRACT_TYPE | .BOOL_TYPE | .FUNCTION_TYPE => some (some mkType, tc)
  | .PROOF_TYPE =>
    match e.children[0]? with
    | none => none
    | some c =>
      match lookupType tc c with
      | none => none
      | some ctype =>
        if ctype.getKind ≠ .BOOL_TYPE then some (none, tc) else some (some mkType, tc)
  | .QUOTE_TYPE =>
    -- anything can be quoted
    some (some mkType, tc)
  | .TUPLE =>
    -- not typed
    some (some mkAbstractType, tc)
  | .BOOLEAN =>
    -- note that Bool is builtin
    some (some mkBoolType, tc)
  | .NUMERAL | .DECIMAL | .RATIONAL | .HEXADECIMAL | .BINARY | .STRING =>
    -- use the literal type rule
    match getOrSetLiteralTypeRule env tc.d_literalTypeRules k with
    | none => none
    | some (ret, rules1) =>
      let tc1 : TypeChecker := { tc with d_literalTypeRules := rules1 }
      -- it may involve the "self" parameter
      if !ret.isGround then
        match evaluate env fuel ret [(env.mkSelf, e)] with
        | none => none
        | some r => some (some r, tc1)
      else some (some ret, tc1)
  | _ =>
    -- if a literal operator, consult auxiliary method
    if isLiteralOp k then
      match getLiteralOpType env tc.d_literalTypeRules k (e.children.map (lookupType tc)) with
      | none => none
      | some (r, rules1) => some (r, { tc with d_literalTypeRules := rules1 })
    else some (none, tc)

/-- The loop `do ... while (!toVisit.empty())` of `TypeChecker::getType`: the head of
`toVisit` is `toVisit.back()`; one unit of `fuel` is spent for each pass, and `fuelEval` is
the fuel given to each call of `getTypeInternal`.  The result is the returned type (or
null) and the state as the call leaves it. -/
def getTypeLoop (env : Env) (fuelEval : Nat) :
    Nat → List Expr → List Expr → Option Expr → TypeChecker →
      Option (Option Expr × TypeChecker)
  | _, [], _, ret, tc => some (ret, tc)
  | 0, _ :: _, _, _, _ => none
  | fuel + 1, cur :: rest, visited, ret, tc =>
    match assocFind cur tc.d_typeCache with
    | some t =>
      -- already computed type
      getTypeLoop env fuelEval fuel rest visited (some t) tc
    | none =>
      if cur ∉ visited then
        getTypeLoop env fuelEval fuel (cur.children.reverse ++ cur :: rest) (cur :: visited)
          ret tc
      else
        match getTypeInternal env fuelEval tc cur with
        | none => none
        | some (none, tc1) =>
          -- any subterm causes type checking to fail
          some (none, tc1)
        | some (some t, tc1) =>
          getTypeLoop env fuelEval fuel rest visited (some t)
            { tc1 with d_typeCache := (cur, t) :: tc1.d_typeCache }

/-- The method `TypeChecker::getType(e, out)`: the returned type (or null) and the state as the call
leaves it; `none` when the fuel does not suffice or the run meets a fault. -/
def getType (env : Env) (fuel : Nat) (tc : TypeChecker) (e : Expr) :
    Option (Option Expr × TypeChecker) :=
  getTypeLoop env fuel fuel [e] [] none tc

/-! ## The post-order walk of `getType`, as the specification words it -/

/-- The typing of one node in the walk of the specification: `getTypeInternal` is called
on the node; a null result aborts the walk and writes nothing, another result is written
to the type cache as the type of the node. -/
def postOrderNode (env : Env) (fuel : Nat) (e : Expr) (tc : TypeChecker) :
    Option (Option Expr × TypeChecker) :=
  match getTypeInternal env fuel tc e with
  | none => none
  | some (none, tc1) => some (none, tc1)
  | some (some t, tc1) => some (some t, { tc1 with d_typeCache := (e, t) :: tc1.d_typeCache })

mutual
/-- The walk of `getType` as the specification words it, by recursion on the term: a
node with a cached type has that type; any other node is typed after its children, and
the first null result aborts the entire walk with null. -/
def getTypePostOrder (env : Env) (fuel : Nat) : Expr → TypeChecker →
    Option (Option Expr × TypeChecker)
  | .leaf k l, tc =>
    match assocFind (.leaf k l) tc.d_typeCache with
    | some t => some (some t, tc)
    | none => postOrderNode env fuel (.leaf k l) tc
  | .node k cs, tc =>
    match assocFind (.node k cs) tc.d_typeCache with
    | some t => some (some t, tc)
    | none =>
      match getTypePostOrderList env fuel cs tc with
      | none => none
      | some (false, tc1) => some (none, tc1)
      | some (true, tc1) => postOrderNode env fuel (.node k cs) tc1
/-- The walk of the children of a node, the last child first (the order in which the
stack of `getType` hands them out); the boolean tells whether all of them have a type. -/
def getTypePostOrderList (env : Env) (fuel : Nat) : List Expr → TypeChecker →
    Option (Bool × TypeChecker)
  | [], tc => some (true, tc)
  | c :: cs, tc =>
    match getTypePostOrderList env fuel cs tc with
    | none => none
    | some (false, tc1) => some (false, tc1)
    | some (true, tc1) =>
      match getTypePostOrder env fuel c tc1 with
      | none => none
      | some (none, tc2) => some (false, tc2)
      | some (some _, tc2) => some (true, tc2)
end

namespace Expr

mutual
/-- The nodes of a term: the term and the nodes of its children. -/
def subterms : Expr → List Expr
  | leaf k l => [leaf k l]
  | node k cs => node k cs :: subtermsList cs
/-- The nodes of the terms of a sequence. -/
def subtermsList : List Expr → List Expr
  | [] => []
  | c :: cs => subterms c ++ subtermsList cs
end

end Expr

/-- A type cache is closed under subterms: with a node, it types every node below it.
The walk of `getType` keeps a cache closed. -/
def cacheClosed (cache : List (Expr × Expr)) : Prop :=
  ∀ x, assocFind x cache ≠ none → ∀ y ∈ x.subterms, assocFind y cache ≠ none

/-- The walk of `getType` failed at or below the node `e` and ended in the state `tc2`:
`getTypeInternal` returned null on `e`, or the walk failed at or below a child of `e`; in
both cases `e` has no entry in the type cache of `tc2`.  The nodes of the chain from `e`
down to the node on which `getTypeInternal` returned null are that node and its ancestors
in the walk. -/
inductive FailureAt (env : Env) (fuel : Nat) (tc2 : TypeChecker) : Expr → Prop where
  | atNode (e : Expr) (tcn : TypeChecker) :
      getTypeInternal env fuel tcn e = some (none, tc2) →
      assocFind e tc2.d_typeCache = none → FailureAt env fuel tc2 e
  | underChild (e c : Expr) :
      c ∈ e.children → assocFind e tc2.d_typeCache = none →
      FailureAt env fuel tc2 c → FailureAt env fuel tc2 e

/-! ## The expression store: handles and hash-consing

The functions above identify a node with its canonical copy.  This part keeps the
addresses: a node lives in the arena of `State`, a pointer is a handle into the arena,
and `ensureHashed` is the loop of the source over handles. -/

/-- Modelled from the spec: `isSymbol` of `kind.h` (not among the sources): the kinds of
the symbols, which are `Literal` objects that carry a name. -/
def isSymbol : Kind → Bool
  | .PARAM | .CONST | .PROGRAM_CONST | .ORACLE => true
  | _ => false

/-- Modelled from the spec: a node as the arena holds it (class `ExprValue` of `expr.h`,
not among the sources): the kind, the payload of a `Literal` object, the handles of the
children in order, and the flag `IS_HASHED`. -/
structure StoreNode where
  kind : Kind
  payload : Option Literal
  children : List Nat
  hashed : Bool
  deriving DecidableEq

/-- Modelled from the spec: the expression store of `State`, an arena of nodes.  A handle,
the address of a node, is an index into the arena; the hash-cons table is the set of the
nodes that carry `IS_HASHED`. -/
structure Store where
  nodes : List StoreNode
  deriving DecidableEq

namespace Store

/-- The node at a handle; `none` for a handle outside the arena. -/
def get? (s : Store) (h : Nat) : Option StoreNode := s.nodes[h]?

/-- Modelled from the spec: the search of the hash-cons table, among the nodes from
handle `i` on, for a hashed node with the key `(kind, children, payload)`. -/
def findHashedFrom (k : Kind) (p : Option Literal) (cs : List Nat) :
    List StoreNode → Nat → Option Nat
  | [], _ => none
  | n :: rest, i =>
    if n.hashed = true ∧ n.kind = k ∧ n.payload = p ∧ n.children = cs then some i
    else findHashedFrom k p cs rest (i + 1)

/-- Modelled from the spec: interning in the hash-cons table: the hashed node with the key
`(kind, children, payload)` is returned when the table has one, and is constructed only
if absent. -/
def intern (s : Store) (k : Kind) (p : Option Literal) (cs : List Nat) : Nat × Store :=
  match findHashedFrom k p cs s.nodes 0 with
  | some h => (h, s)
  | none => (s.nodes.length, ⟨s.nodes ++ [⟨k, p, cs, true⟩]⟩)

/-- Modelled from the spec: `State::mkExprInternal(k, children)` on handles (`state.cpp`,
not among the sources): the unique hashed node of a kind and children. -/
def mkExprInternal (s : Store) (k : Kind) (children : List Nat) : Nat × Store :=
  s.intern k none children

/-- Modelled from the spec: `State::mkLiteralInternal(lit)` (`state.cpp`, not among the
sources): the unique hashed literal with the kind and the payload of `lit`. -/
def mkLiteralInternal (s : Store) (lit : StoreNode) : Nat × Store :=
  s.intern lit.kind lit.payload []

/-- The vector `cchildren` that `ensureHashed` builds for a node: the entry of the map
`visited` for each child.  A child without an entry is a failed `Assert`; a null entry
would hand a null child to `mkExprInternal`: both are faults. -/
def hashedChildren (visited : List (Nat × Option Nat)) : List Nat → Option (List Nat)
  | [] => some []
  | cp :: rest =>
    match assocFind cp visited, hashedChildren visited rest with
    | some (some c), some cs => some (c :: cs)
    | _, _ => none

/-- The loop `do ... while (!visit.empty())` of `TypeChecker::ensureHashed` on handles:
the store and the map `visited` as the loop leaves them.  The head of `visit` is
`visit.back()`; one unit of fuel is spent for each pass through the loop body; `none` is
a fault (a failed `Assert`, a dangling handle) or the exhaustion of the fuel. -/
def ensureHashedLoop : Nat → Store → List (Nat × Option Nat) → List Nat →
    Option (Store × List (Nat × Option Nat))
  | _, s, visited, [] => some (s, visited)
  | 0, _, _, _ :: _ => none
  | fuel + 1, s, visited, cur :: rest =>
    match s.get? cur with
    | none => none
    | some n =>
      if n.hashed then
        ensureHashedLoop fuel s ((cur, some cur) :: visited) rest
      else
        match assocFind cur visited with
        | none =>
          -- otherwise, visit children
          ensureHashedLoop fuel s ((cur, none) :: visited) (n.children.reverse ++ cur :: rest)
        | some (some _) => ensureHashedLoop fuel s visited rest
        | some none =>
          if isLiteral n.kind then
            let r := s.mkLiteralInternal n
            ensureHashedLoop fuel r.2 ((cur, some r.1) :: visited) rest
          else if isSymbol n.kind then none
          else
            match hashedChildren visited n.children with
            | none => none
            | some cchildren =>
              let r := s.mkExprInternal n.kind cchildren
              ensureHashedLoop fuel r.2 ((cur, some r.1) :: visited) rest

/-- The method `TypeChecker::ensureHashed(ev)` on handles: the returned handle (null when
the map `visited` holds none for `ev`) and the store as the call leaves it. -/
def ensureHashed (fuel : Nat) (s : Store) (ev : Nat) : Option (Option Nat × Store) :=
  match s.get? ev with
  | none => none
  | some n =>
    if n.hashed then some (some ev, s)
    else
      match ensureHashedLoop fuel s [] [ev] with
      | none => none
      | some (s1, visited) =>
        match assocFind ev visited with
        | some r => some (r, s1)
        | none => some (none, s1)

/-- The term that a handle stands for: the node with the terms of its children, to the
depth `fuel`. -/
def denote (s : Store) : Nat → Nat → Expr
  | 0, _ => .node .NONE []
  | fuel + 1, h =>
    match s.get? h with
    | none => .node .NONE []
    | some n =>
      match n.payload with
      | some l => .leaf n.kind l
      | none => .node n.kind (n.children.map (denote s fuel))

/-- The term that a handle stands for.  The children of a node have smaller handles, so
that the depth `h + 1` reaches all of the term of `h`. -/
def expr (s : Store) (h : Nat) : Expr := s.denote (h + 1) h

/-- The flag `IS_HASHED` of the node at a handle. -/
def isHashed (s : Store) (h : Nat) : Bool :=
  match s.get? h with
  | some n => n.hashed
  | none => false

/-- No node below the handle `h`, to the depth `fuel`, is a symbol that is not hashed,
and no handle dangles. -/
def hashable (s : Store) : Nat → Nat → Bool
  | 0, _ => false
  | fuel + 1, h =>
    match s.get? h with
    | none => false
    | some n => n.hashed || (!isSymbol n.kind && n.children.all (hashable s fuel))

end Store

/-! ## The literal operators on handles

The list operations of `evaluateLiteralOpInternal` compare addresses: the operator of a
cell, the end of a spine and the needle of `alf.find`.  This part keeps the addresses:
the functions of the part on literal operators, on the handles of a store. -/

namespace Store

/-- Modelled from the spec: `new ExprValue(k, children)` and `new Literal(...)`: a fresh
node at the end of the arena, without the flag `IS_HASHED`. -/
def alloc (s : Store) (k : Kind) (p : Option Literal) (cs : List Nat) : Nat × Store :=
  (s.nodes.length, ⟨s.nodes ++ [⟨k, p, cs, false⟩]⟩)

/-- The method `ExprValue::getKind` on a handle; `none` for a handle outside the arena. -/
def getKind (s : Store) (h : Nat) : Option Kind := (s.get? h).map (fun n => n.kind)

/-- The field `d_children` of the node at a handle. -/
def childrenOf (s : Store) (h : Nat) : Option (List Nat) := (s.get? h).map (fun n => n.children)

/-- The method `TypeChecker::isGround(args)` on handles; the flag of a node is the flag of
the term it stands for. -/
def isGround (s : Store) (args : List Nat) : Bool := args.all (fun h => (s.expr h).isGround)

/-- Modelled from the spec: `State::mkTrue` on handles, the hashed boolean literal `true`. -/
def mkTrue (s : Store) : Nat × Store := s.intern .BOOLEAN (some (.bool true)) []

/-- Modelled from the spec: `State::mkFalse` on handles, the hashed boolean literal `false`. -/
def mkFalse (s : Store) : Nat × Store := s.intern .BOOLEAN (some (.bool false)) []

/-- Modelled from the spec: the record `AppInfo` of an operator symbol (`state.h`, not
among the sources), on handles: the constructor attribute and the address of the nil
element. -/
structure AppInfoAt where
  d_attrCons : Attr
  d_attrConsTerm : Nat

/-- The collaborators of the literal operators that are not among the sources, on
handles: the tables of `State`, which are keyed by the address of a node, and the
literal kernel. -/
structure Tables where
  /-- The method `State::getAppInfo`. -/
  getAppInfo : Nat → Option AppInfoAt
  /-- The method `State::getHash`. -/
  getHash : Nat → Nat
  /-- The method `Literal::evaluate(k, lits)`; `none` is a result of kind `NONE`. -/
  literalEvaluate : Kind → List (Kind × Literal) → Option (Kind × Literal)

/-- The memory that the literal operators work on: the arena of `d_state` and the member
`d_negOne` of `TypeChecker`, null until `alf.find` first misses. -/
structure Memory where
  store : Store
  d_negOne : Option Nat
  deriving DecidableEq

/-- The loop of `getNAryChildren(e, op, checkNil, children, isLeft, maxChildren)` on
handles: the returned address (or null) and the vector `children` as the call leaves it.
The tests `(*cop)[0] != op` and `e != checkNil` compare addresses. -/
def getNAryChildrenLoop (s : Store) (op : Nat) (checkNil : Option Nat) (isLeft : Bool)
    (maxChildren : Nat) : Nat → Nat → List Nat → Option (Option Nat × List Nat)
  | 0, _, _ => none
  | fuel + 1, e, children =>
    let finish : Option (Option Nat × List Nat) :=
      -- must be equal to the nil term, if provided
      match checkNil with
      | some nil => if e ≠ nil then some (none, children) else some (some e, children)
      | none => some (some e, children)
    match s.get? e with
    | none => none
    | some en =>
      if en.kind = .APPLY then
        match en.children[0]? with
        | none => none
        | some cop =>
          match s.get? cop with
          | none => none
          | some copn =>
            if copn.kind ≠ .APPLY then finish
            else
              match copn.children[0]? with
              | none => none
              | some cop0 =>
                if cop0 ≠ op then finish
                else
                  match en.children[1]?, copn.children[1]? with
                  | some e1, some cop1 =>
                    let children1 := children ++ [if isLeft then e1 else cop1]
                    let tail := if isLeft then cop1 else e1
                    if children1.length = maxChildren then some (some tail, children1)
                    else getNAryChildrenLoop s op checkNil isLeft maxChildren fuel tail children1
                  | _, _ => none
      else finish

/-- The function `getNAryChildren(e, op, checkNil, children, isLeft, maxChildren)` on
handles; the loop follows a chain of subterms of the term of `e` and is given the size
of that term as fuel. -/
def getNAryChildren (s : Store) (e op : Nat) (checkNil : Option Nat) (children : List Nat)
    (isLeft : Bool) (maxChildren : Nat) : Option (Option Nat × List Nat) :=
  getNAryChildrenLoop s op checkNil isLeft maxChildren ((s.expr e).size + 1) e children

/-- The last loop of `evaluateLiteralOpInternal` on handles: for each element of `hargs`
two nodes are built with `new ExprValue`, the application `(op x)` of the operator and the
application of that node, on top of the tail `ret`. -/
def buildList (s : Store) (op : Nat) (isLeft : Bool) (hargs : List Nat) (ret : Nat) :
    Nat × Store :=
  (if isLeft then hargs else hargs.reverse).foldl
    (fun acc h =>
      let r1 := acc.2.alloc .APPLY none (if isLeft then [op, acc.1] else [op, h])
      r1.2.alloc .APPLY none (if isLeft then [r1.1, h] else [r1.1, acc.1]))
    (ret, s)

/-- The part of `TypeChecker::evaluateLiteralOpInternal(k, args)` after the literal
evaluator, on handles: the list operations on an associative operator with a nil
element.  The result is the returned address (or null) and the memory as the call leaves
it. -/
def evaluateListOp (tb : Tables) (m : Memory) (k : Kind) (args : List Nat) :
    Option (Option Nat × Memory) :=
  match args[0]? with
  | none => none
  | some op =>
    match tb.getAppInfo op with
    | none => some (none, m)
    | some ac =>
      let ck := ac.d_attrCons
      if ck ≠ .RIGHT_ASSOC_NIL ∧ ck ≠ .LEFT_ASSOC_NIL then some (none, m)
      else
        let isLeft : Bool := decide (ck = .LEFT_ASSOC_NIL)
        let nil := ac.d_attrConsTerm
        let tailIndex := if isLeft then 1 else 2
        let headIndex := if isLeft then 2 else 1
        let built (hargs : List Nat) (ret : Nat) : Option (Option Nat × Memory) :=
          let r := m.store.buildList op isLeft hargs ret
          some (some r.1, ⟨r.2, m.d_negOne⟩)
        match k with
        | .EVAL_TO_LIST =>
          match args[1]? with
          | none => none
          | some harg =>
            if harg = nil then some (some harg, m)
            else
              match m.store.getNAryChildren harg op none [] isLeft 0 with
              | none => none
              | some (a, hargs) =>
                if hargs ≠ [] then some (some harg, m)
                else
                  match a with
                  | none => some (none, m)
                  | some a => built [a] nil
        | .EVAL_FROM_LIST =>
          match args[1]? with
          | none => none
          | some arg1 =>
            match m.store.getNAryChildren arg1 op (some nil) [] isLeft 2 with
            | none => none
            | some (a, hargs) =>
              if hargs.length = 1 then
                match a with
                | none => some (none, m)
                | some _ => some (hargs[0]?, m)
              else some (some arg1, m)
        | .EVAL_CONS | .EVAL_CONCAT =>
          match args[tailIndex]? with
          | none => none
          | some tl =>
            match m.store.getNAryChildren tl op (some nil) [] isLeft 0 with
            | none => none
            | some (none, _) => some (none, m)
            | some (some _, _) =>
              match args[headIndex]? with
              | none => none
              | some hd =>
                if k = .EVAL_CONS then built [hd] tl
                else
                  match m.store.getNAryChildren hd op (some nil) [] isLeft 0 with
                  | none => none
                  | some (none, _) => some (none, m)
                  | some (some _, hargs) => built hargs tl
        | .EVAL_EXTRACT =>
          match args[2]? with
          | none => none
          | some arg2 =>
            if m.store.getKind arg2 ≠ some .NUMERAL then some (none, m)
            else
              match (m.store.get? arg2).bind (fun n => n.payload) with
              | some (.int index) =>
                if !fitsUnsignedInt index then some (none, m)
                else
                  let i := index.toNat
                  match args[1]? with
                  | none => none
                  | some arg1 =>
                    match m.store.getNAryChildren arg1 op (some nil) [] isLeft (i + 1) with
                    | none => none
                    | some (_, hargs) =>
                      if hargs.length = i + 1 then some (hargs.getLast?, m) else some (none, m)
              | _ => none
        | .EVAL_FIND =>
          match args[1]?, args[2]? with
          | some arg1, some arg2 =>
            match m.store.getNAryChildren arg1 op (some nil) [] isLeft 0 with
            | none => none
            | some (_, hargs) =>
              if arg2 ∈ hargs then
                let r := m.store.alloc .NUMERAL (some (.int (hargs.indexOf arg2))) []
                some (some r.1, ⟨r.2, m.d_negOne⟩)
              else
                match m.d_negOne with
                | some h => some (some h, m)
                | none =>
                  let r := m.store.alloc .NUMERAL (some (.int (-1))) []
                  some (some r.1, ⟨r.2, some r.1⟩)
          | _, _ => none
        | _ => some (none, m)

/-- The literals of the arguments of a literal operator on handles, read by `asLiteral`;
a node that is not a `Literal` has no literal to read. -/
def argsAsLiterals (s : Store) : List Nat → Option (List (Kind × Literal))
  | [] => some []
  | h :: hs =>
    match (s.get? h).bind (fun n => n.payload.map (fun l => (n.kind, l))),
        argsAsLiterals s hs with
    | some l, some ls => some (l :: ls)
    | _, _ => none

/-- The method `TypeChecker::evaluateLiteralOpInternal(k, args)` on handles: the returned
address (or null) and the memory as the call leaves it.  The fuel is the fuel of the calls
of `ensureHashed`. -/
def evaluateLiteralOpInternal (fuel : Nat) (tb : Tables) (m : Memory) (k : Kind)
    (args : List Nat) : Option (Option Nat × Memory) :=
  if args = [] then none
  else
    let general : Option (Option Nat × Memory) :=
      if !m.store.isGround args then some (none, m)
      else
        -- `allValues`: every argument is of a literal kind
        if args.all (fun e => (m.store.getKind e).any isLiteral) then
          match m.store.argsAsLiterals args with
          | none => none
          | some lits =>
            match tb.literalEvaluate k lits with
            | none => some (none, m)
            | some (rk, rl) =>
              let r := m.store.alloc rk (some rl) []
              some (some r.1, ⟨r.2, m.d_negOne⟩)
        else evaluateListOp tb m k args
    match k with
    | .EVAL_IS_EQ =>
      match args with
      | [a0, a1] =>
        match m.store.ensureHashed fuel a0 with
        | none => none
        | some (h0, s1) =>
          match s1.ensureHashed fuel a1 with
          | none => none
          | some (h1, s2) =>
            if h0 = h1 then some (some s2.mkTrue.1, ⟨s2.mkTrue.2, m.d_negOne⟩)
            else if s2.isGround args then some (some s2.mkFalse.1, ⟨s2.mkFalse.2, m.d_negOne⟩)
            else some (none, ⟨s2, m.d_negOne⟩)
      | _ => none
    | .EVAL_IF_THEN_ELSE =>
      match args[0]? with
      | none => none
      | some a0 =>
        if m.store.getKind a0 = some .BOOLEAN then
          match (m.store.get? a0).bind (fun n => n.payload) with
          | some (.bool b) =>
            match args[if b then 1 else 2]? with
            | none => none
            | some r => some (some r, m)
          | _ => none
        else some (none, m)
    | .EVAL_REQUIRES =>
      match args[0]?, args[1]? with
      | some a0, some a1 =>
        match m.store.ensureHashed fuel a0 with
        | none => none
        | some (h0, s1) =>
          match s1.ensureHashed fuel a1 with
          | none => none
          | some (h1, s2) =>
            if h0 = h1 then
              match args[2]? with
              | none => none
              | some a2 => some (some a2, ⟨s2, m.d_negOne⟩)
            else some (none, ⟨s2, m.d_negOne⟩)
      | _, _ => none
    | .EVAL_HASH =>
      match args[0]? with
      | none => none
      | some a0 =>
        if (m.store.expr a0).isGround then
          match m.store.ensureHashed fuel a0 with
          | some (some eh, s1) =>
            let r := s1.alloc .NUMERAL (some (.int ((tb.getHash eh) % 4294967296))) []
            some (some r.1, ⟨r.2, m.d_negOne⟩)
          | _ => none
        else some (none, m)
    | _ => general

/-- The method `TypeChecker::evaluateLiteralOp(k, args)` on handles: the returned address
and the memory as the call leaves it. -/
def evaluateLiteralOp (fuel : Nat) (tb : Tables) (m : Memory) (k : Kind) (args : List Nat) :
    Option (Option Nat × Memory) :=
  match evaluateLiteralOpInternal fuel tb m k args with
  | none => none
  | some (some ret, m1) =>
    match m1.store.ensureHashed fuel ret with
    | none => none
    | some (r, s2) => some (r, ⟨s2, m1.d_negOne⟩)
  | some (none, m1) =>
    -- otherwise does not evaluate, return application
    some (some (m1.store.mkExprInternal k args).1, ⟨(m1.store.mkExprInternal k args).2, m1.d_negOne⟩)

end Store

/-! ## Terms on which evaluation is substitution -/

mutual
/-- The evaluator only substitutes into a term under a context: below the nodes of kind
`PARAM`, no node is an evaluation operator or compiled, and every `APPLY` has a head that
is not, and is not bound by the context to, a program or an oracle. -/
def evalPlain (env : Env) (ctx : Ctx) : Expr → Bool
  | .leaf k l =>
    k == .PARAM || (!isLiteralOp k && k != .APPLY && !env.isCompiled (.leaf k l))
  | .node k cs =>
    k == .PARAM
      || (!isLiteralOp k && !env.isCompiled (.node k cs)
          && (k != .APPLY
              || (match cs with
                  | [] => false
                  | c :: _ =>
                    (substitute ctx c).getKind != .PROGRAM_CONST
                      && (substitute ctx c).getKind != .ORACLE))
          && evalPlainList env ctx cs)
/-- The evaluator only substitutes into each term of a sequence. -/
def evalPlainList (env : Env) (ctx : Ctx) : List Expr → Bool
  | [] => true
  | c :: cs => evalPlain env ctx c && evalPlainList env ctx cs
end

mutual
/-- A term built from constructors only: no node is an evaluation operator, and every
`APPLY` has a head, which is neither a program nor an oracle. -/
def plainTerm : Expr → Bool
  | .leaf k _ => !isLiteralOp k && k != .APPLY
  | .node k cs =>
    !isLiteralOp k
      && (k != .APPLY
          || (match cs with
              | [] => false
              | c :: _ => c.getKind != .PROGRAM_CONST && c.getKind != .ORACLE))
      && plainTermList cs
/-- Each term of a sequence is built from constructors only. -/
def plainTermList : List Expr → Bool
  | [] => true
  | c :: cs => plainTerm c && plainTermList cs
end

mutual
/-- No node of a term is compiled. -/
def notCompiled (env : Env) : Expr → Bool
  | .leaf k l => !env.isCompiled (.leaf k l)
  | .node k cs => !env.isCompiled (.node k cs) && notCompiledList env cs
/-- No node of the terms of a sequence is compiled. -/
def notCompiledList (env : Env) : List Expr → Bool
  | [] => true
  | c :: cs => notCompiled env c && notCompiledList env cs
end

/-! ## Sample terms, environment and state

The terms of the scenarios of the specification, used to run the definitions on
concrete inputs. -/

mutual
/-- Modelled from the spec: the flag `IS_EVALUATABLE` (computed in `expr.cpp`, not among
the sources): the node or one of its descendants is an evaluation operator, an `APPLY`
of a program or of an oracle, a `PARAM` or a `LAMBDA`.  It is the flag of the sample
environment. -/
def sampleEvaluatable : Expr → Bool
  | .leaf k _ => k == .PARAM
  | .node k cs =>
    isLiteralOp k || k == .PARAM || k == .LAMBDA
      || (k == .APPLY && (match cs with
            | c :: _ => c.getKind == .PROGRAM_CONST || c.getKind == .ORACLE
            | [] => false))
      || sampleEvaluatableList cs
/-- Some node of a sequence is evaluatable. -/
def sampleEvaluatableList : List Expr → Bool
  | [] => false
  | c :: cs => sampleEvaluatable c || sampleEvaluatableList cs
end

/-- A sample environment: no program, no oracle, no associative operator, nothing
compiled; the builtin type of a literal kind is `AbstractType`. -/
def sampleEnv : Env where
  isEvaluatable := sampleEvaluatable
  isCompiled := fun _ => false
  getProgram := fun _ => none
  getAppInfo := fun _ => none
  getHash := fun _ => 0
  mkBuiltinType := fun _ => mkAbstractType
  mkSelf := .leaf .PARAM (.sym 0)
  literalEvaluate := fun _ _ => none
  runOracle := fun _ => none
  run_evaluate := fun _ _ => none
  run_getTypeInternal := fun _ _ => none
  run_evaluateProgram := fun _ ctx => (none, ctx)

/-- The declared type `Int`. -/
def sInt : Expr := .leaf .CONST (.sym 100)

/-- The parameter `x`. -/
def sX : Expr := .leaf .PARAM (.sym 1)

/-- The parameter `y`. -/
def sY : Expr := .leaf .PARAM (.sym 2)

/-- The constant `a`. -/
def sA : Expr := .leaf .CONST (.sym 11)

/-- The constant `b`. -/
def sB : Expr := .leaf .CONST (.sym 12)

/-- The function symbol `f`. -/
def sF : Expr := .leaf .CONST (.sym 13)

/-- The function symbol `g`, declared with a quoted argument. -/
def sG : Expr := .leaf .CONST (.sym 14)

/-- The numeral `7`. -/
def sSeven : Expr := .leaf .NUMERAL (.int 7)

/-- The term `λ(x:Int). x`: a `LAMBDA` whose children are the node of its variables and
its body. -/
def sLambda : Expr := .node .LAMBDA [.node .TUPLE [sX], sX]

/-- The application `APPLY(λ(x:Int). x, 7)` of scenario S4. -/
def sApplyLambda : Expr := .node .APPLY [sLambda, sSeven]

/-- A sample state: `x : Int`, `Int : Type`, `a : Int`, `b : Int`, `f : Int -> Int`,
`g : (Quote (f x)) -> Int`, and `Int` as the type rule of numerals. -/
def sampleState : TypeChecker where
  d_typeCache :=
    [(sX, sInt), (sInt, mkType), (sA, sInt), (sB, sInt),
     (sF, .node .FUNCTION_TYPE [sInt, sInt]),
     (sG, .node .FUNCTION_TYPE [.node .QUOTE_TYPE [.node .APPLY [sF, sX]], sInt])]
  d_literalTypeRules := (Kind.NUMERAL, some sInt) :: literalTypeRulesInit ⟨false, false⟩

/-- The pattern `(alf.is_eq x a)`. -/
def sIsEqPattern : Expr := .node .EVAL_IS_EQ [sX, sA]

/-- The ground term `(alf.is_eq a a)`. -/
def sIsEqTerm : Expr := .node .EVAL_IS_EQ [sA, sA]

/-- The ill-typed term `f(Proof(a))`: `a` has the type `Int`, which is not `Bool`. -/
def sProofOfA : Expr := .node .APPLY [sF, .node .PROOF_TYPE [sA]]

/-- The constant `0` of the unary numbers of scenario S2. -/
def sZero : Expr := .leaf .CONST (.sym 20)

/-- The successor symbol `s` of scenario S2. -/
def sS : Expr := .leaf .CONST (.sym 21)

/-- The term `s(e)`. -/
def sSucc (e : Expr) : Expr := .node .APPLY [sS, e]

/-- The program constant `plus` of scenario S2. -/
def sPlus : Expr := .leaf .PROGRAM_CONST (.sym 22)

/-- The program of `plus`: the rules `(plus 0 y) -> y` and
`(plus (s x) y) -> (s (plus x y))`, each a node of a pattern and a body. -/
def sPlusProgram : Expr :=
  .node .TUPLE
    [.node .TUPLE [.node .APPLY [sPlus, sZero, sY], sY],
     .node .TUPLE [.node .APPLY [sPlus, sSucc sX, sY],
                   sSucc (.node .APPLY [sPlus, sX, sY])]]

/-- The program constant `down`. -/
def sDown : Expr := .leaf .PROGRAM_CONST (.sym 23)

/-- The program of `down`: the rules `(down 0) -> 0` and `(down (s 0)) -> (down 0)`; the
body of the second rule is a ground application of the program that is being defined. -/
def sDownProgram : Expr :=
  .node .TUPLE
    [.node .TUPLE [.node .APPLY [sDown, sZero], sZero],
     .node .TUPLE [.node .APPLY [sDown, sSucc sZero], .node .APPLY [sDown, sZero]]]

/-- The list constructor `cons`, declared right associative with the nil element `nil`. -/
def sCons : Expr := .leaf .CONST (.sym 24)

/-- The nil element `nil` of `cons`. -/
def sNil : Expr := .leaf .CONST (.sym 25)

/-- The list `(cons h t)`, an application of the curried constructor. -/
def sConsCell (h t : Expr) : Expr := .node .APPLY [.node .APPLY [sCons, h], t]

/-- A sample environment with the programs `plus` and `down` and the associative
operator `cons`; all else as in `sampleEnv`. -/
def sampleProgramEnv : Env where
  isEvaluatable := sampleEvaluatable
  isCompiled := fun _ => false
  getProgram := fun e =>
    if e = sPlus then some sPlusProgram else if e = sDown then some sDownProgram else none
  getAppInfo := fun e => if e = sCons then some ⟨.RIGHT_ASSOC_NIL, sNil⟩ else none
  getHash := fun _ => 0
  mkBuiltinType := fun _ => mkAbstractType
  mkSelf := .leaf .PARAM (.sym 0)
  literalEvaluate := fun _ _ => none
  runOracle := fun _ => none
  run_evaluate := fun _ _ => none
  run_getTypeInternal := fun _ _ => none
  run_evaluateProgram := fun _ ctx => (none, ctx)

/-- A sample state in which the literal `true` has its type `Bool` in the type cache, as
after `getType(true)` in `sampleState`. -/
def sampleStateBool : TypeChecker where
  d_typeCache := (mkTrue, mkBoolType) :: sampleState.d_typeCache
  d_literalTypeRules := sampleState.d_literalTypeRules

/-- The constant `c`. -/
def sC : Expr := .leaf .CONST (.sym 15)

/-- The constant `d`. -/
def sD : Expr := .leaf .CONST (.sym 16)

/-- The list constructor `snoc`, declared left associative with the nil element `nil`. -/
def sSnoc : Expr := .leaf .CONST (.sym 26)

/-- The list `(snoc t h)` of a left-associative constructor: the tail comes first. -/
def sSnocCell (t h : Expr) : Expr := .node .APPLY [.node .APPLY [sSnoc, t], h]

/-- A sample environment with the right-associative operator `cons` and the
left-associative operator `snoc`, both with the nil element `nil`; all else as in
`sampleEnv`. -/
def sampleListEnv : Env where
  isEvaluatable := sampleEvaluatable
  isCompiled := fun _ => false
  getProgram := fun _ => none
  getAppInfo := fun e =>
    if e = sCons then some ⟨.RIGHT_ASSOC_NIL, sNil⟩
    else if e = sSnoc then some ⟨.LEFT_ASSOC_NIL, sNil⟩ else none
  getHash := fun _ => 0
  mkBuiltinType := fun _ => mkAbstractType
  mkSelf := .leaf .PARAM (.sym 0)
  literalEvaluate := fun _ _ => none
  runOracle := fun _ => none
  run_evaluate := fun _ _ => none
  run_getTypeInternal := fun _ _ => none
  run_evaluateProgram := fun _ ctx => (none, ctx)

/-- The program constant `pick`. -/
def sPick : Expr := .leaf .PROGRAM_CONST (.sym 27)

/-- A program of `pick` whose rules have two arities: `(pick x y) -> y` and
`(pick x) -> x`. -/
def sPickProgram : Expr :=
  .node .TUPLE
    [.node .TUPLE [.node .APPLY [sPick, sX, sY], sY],
     .node .TUPLE [.node .APPLY [sPick, sX], sX]]

/-- A sample environment with the program `pick`; all else as in `sampleEnv`. -/
def samplePickEnv : Env where
  isEvaluatable := sampleEvaluatable
  isCompiled := fun _ => false
  getProgram := fun e => if e = sPick then some sPickProgram else none
  getAppInfo := fun _ => none
  getHash := fun _ => 0
  mkBuiltinType := fun _ => mkAbstractType
  mkSelf := .leaf .PARAM (.sym 0)
  literalEvaluate := fun _ _ => none
  runOracle := fun _ => none
  run_evaluate := fun _ _ => none
  run_getTypeInternal := fun _ _ => none
  run_evaluateProgram := fun _ ctx => (none, ctx)

/-- The type parameter `T`. -/
def sT : Expr := .leaf .PARAM (.sym 3)

/-- A sample state in the scope of the type parameter `T`: the constant `g` has the type
`T -> T -> Bool`, the parameter `x` has the type `T` and the constant `a` the type
`Int`. -/
def sampleParamState : TypeChecker where
  d_typeCache :=
    [(sG, .node .FUNCTION_TYPE [sT, sT, mkBoolType]), (sX, sT), (sA, sInt)]
  d_literalTypeRules := []

/-- A sample store: the hashed symbols `f` and `a` at the handles 0 and 1, two transient
copies of `(f a)` at 2 and 3, a transient numeral `7` at 4 and the transient term
`(f 7)` at 5. -/
def sampleStore : Store where
  nodes :=
    [⟨.CONST, some (.sym 13), [], true⟩,
     ⟨.CONST, some (.sym 11), [], true⟩,
     ⟨.APPLY, none, [0, 1], false⟩,
     ⟨.APPLY, none, [0, 1], false⟩,
     ⟨.NUMERAL, some (.int 7), [], false⟩,
     ⟨.APPLY, none, [0, 4], false⟩]

/-- A sample environment whose literal kernel adds two numerals, a fragment of
`Literal::evaluate`; all else as in `sampleEnv`. -/
def sampleArithEnv : Env where
  isEvaluatable := sampleEvaluatable
  isCompiled := fun _ => false
  getProgram := fun _ => none
  getAppInfo := fun _ => none
  getHash := fun _ => 0
  mkBuiltinType := fun _ => mkAbstractType
  mkSelf := .leaf .PARAM (.sym 0)
  literalEvaluate := fun k lits =>
    match k, lits with
    | .EVAL_ADD, [(.NUMERAL, .int a), (.NUMERAL, .int b)] => some (.NUMERAL, .int (a + b))
    | _, _ => none
  runOracle := fun _ => none
  run_evaluate := fun _ _ => none
  run_getTypeInternal := fun _ _ => none
  run_evaluateProgram := fun _ ctx => (none, ctx)

/-- The tables of the sample memory of lists: the operator at the handle 0 is declared
right associative and the operator at the handle 12 left associative, both with the nil
element at the handle 1; no literal evaluates. -/
def sampleListTables : Store.Tables where
  getAppInfo := fun h =>
    if h = 0 then some ⟨.RIGHT_ASSOC_NIL, 1⟩
    else if h = 12 then some ⟨.LEFT_ASSOC_NIL, 1⟩ else none
  getHash := fun _ => 0
  literalEvaluate := fun _ _ => none

/-- A sample memory of hashed nodes: the symbols `cons`, `nil`, `a`, `b`, `c`, `d` at the
handles 0 to 5, the cells `(cons c)`, `cons(c, nil)`, `(cons b)`, `cons(b, cons(c, nil))`,
`(cons a)` and `cons(a, cons(b, cons(c, nil)))` at the handles 6 to 11, and the symbol
`snoc` at 12. -/
def sampleListMemory : Store.Memory where
  store :=
    ⟨[⟨.CONST, some (.sym 24), [], true⟩,
      ⟨.CONST, some (.sym 25), [], true⟩,
      ⟨.CONST, some (.sym 11), [], true⟩,
      ⟨.CONST, some (.sym 12), [], true⟩,
      ⟨.CONST, some (.sym 15), [], true⟩,
      ⟨.CONST, some (.sym 16), [], true⟩,
      ⟨.APPLY, none, [0, 4], true⟩,
      ⟨.APPLY, none, [6, 1], true⟩,
      ⟨.APPLY, none, [0, 3], true⟩,
      ⟨.APPLY, none, [8, 7], true⟩,
      ⟨.APPLY, none, [0, 2], true⟩,
      ⟨.APPLY, none, [10, 9], true⟩,
      ⟨.CONST, some (.sym 26), [], true⟩]⟩
  d_negOne := none

/-- The operator `+`, declared right associative with the nil element `0`. -/
def sSum : Expr := .leaf .CONST (.sym 31)

/-- The tables of the sample memory of sums: the operator at the handle 0 is declared
right associative with the nil element at the handle 1; no literal evaluates. -/
def sampleSumTables : Store.Tables where
  getAppInfo := fun h => if h = 0 then some ⟨.RIGHT_ASSOC_NIL, 1⟩ else none
  getHash := fun _ => 0
  literalEvaluate := fun _ _ => none

/-- A sample memory with transient literals: the hashed symbol `+` at the handle 0, the
hashed numerals `0`, `1`, `2` at the handles 1 to 3, the hashed cells `(+ 2)`, `(+ 2 0)`,
`(+ 1)` and `(+ 1 (+ 2 0))` at the handles 4 to 7, and two transient numerals, as
`evaluate` receives them from the literal evaluator (`new Literal`): a `0` at the handle 8
and a `2` at the handle 9. -/
def sampleSumMemory : Store.Memory where
  store :=
    ⟨[⟨.CONST, some (.sym 31), [], true⟩,
      ⟨.NUMERAL, some (.int 0), [], true⟩,
      ⟨.NUMERAL, some (.int 1), [], true⟩,
      ⟨.NUMERAL, some (.int 2), [], true⟩,
      ⟨.APPLY, none, [0, 3], true⟩,
      ⟨.APPLY, none, [4, 1], true⟩,
      ⟨.APPLY, none, [0, 2], true⟩,
      ⟨.APPLY, none, [6, 5], true⟩,
      ⟨.NUMERAL, some (.int 0), [], false⟩,
      ⟨.NUMERAL, some (.int 2), [], false⟩]⟩
  d_negOne := none

/-! ## Vocabulary of the proofs -/

/-- A processed pair is closed: its pattern is a bound parameter, or pattern and term have
the same operator and each pair of children is identical, processed or still waiting. -/
def MatchClosed (stack : List (Expr × Expr)) (visited : MatchVisited) (ctx : Ctx)
    (pr : Expr × Expr) : Prop :=
  (pr.1.getNumChildren = 0 ∧ pr.1.getKind = .PARAM ∧ assocFind pr.1 ctx = some pr.2)
  ∨ (pr.1.getNumChildren ≠ 0 ∧ pr.1.getNumChildren = pr.2.getNumChildren
      ∧ pr.1.getKind = pr.2.getKind
      ∧ ∀ q ∈ pr.1.children.zip pr.2.children, q.1 = q.2 ∨ q ∈ visited ∨ q ∈ stack)

/-- Every entry of the first association list is an entry of the second. -/
def cacheExtends (c1 c2 : List (Expr × Expr)) : Prop :=
  ∀ k v, assocFind k c1 = some v → assocFind k c2 = some v

/-- Every value that the map `visited` of a frame records is the substitution of the
context of the frame into its key. -/
def VisitedOk (ctx : Ctx) (V : List (Expr × Option Expr)) : Prop :=
  ∀ k v, assocFind k V = some (some v) → v = substitute ctx k

/-- The map `V2` keeps the entries of `V`: the same keys hold the null mark, and a recorded
value stays. -/
def VisitedKeeps (V V2 : List (Expr × Option Expr)) : Prop :=
  (∀ k, assocFind k V2 = some none ↔ assocFind k V = some none)
    ∧ ∀ k v, assocFind k V = some (some v) → assocFind k V2 = some (some v)

/-- The visit of the node `cur` on top of the vector `visit` of the top frame ends, after
at most `2 * cur.size` passes, with `cur` popped and recorded as its substitution. -/
def VisitRun (env : Env) (ctx : Ctx) (init : Expr) (res : Option (List Expr))
    (below : List EvFrame) (trie : ExprTrie) (ev : Option Expr)
    (V : List (Expr × Option Expr)) (cur : Expr) (rest : List Expr) : Prop :=
  ∃ (m : Nat) (V2 : List (Expr × Option Expr)), m ≤ 2 * cur.size
    ∧ (∀ fuel, evaluateLoop env (fuel + m) ⟨⟨init, ctx, V, cur :: rest, res⟩ :: below, trie, ev⟩
        = evaluateLoop env fuel ⟨⟨init, ctx, V2, rest, res⟩ :: below, trie, ev⟩)
    ∧ assocFind cur V2 = some (some (substitute ctx cur))
    ∧ VisitedOk ctx V2 ∧ VisitedKeeps V V2

/-- The visit of the nodes `cs` on top of the vector `visit` of the top frame ends with
all of them popped and recorded as their substitutions. -/
def VisitListRun (env : Env) (ctx : Ctx) (init : Expr) (res : Option (List Expr))
    (below : List EvFrame) (trie : ExprTrie) (ev : Option Expr)
    (V : List (Expr × Option Expr)) (cs : List Expr) (rest : List Expr) : Prop :=
  ∃ (m : Nat) (V2 : List (Expr × Option Expr)), m ≤ 2 * Expr.sizeList cs
    ∧ (∀ fuel, evaluateLoop env (fuel + m) ⟨⟨init, ctx, V, cs ++ rest, res⟩ :: below, trie, ev⟩
        = evaluateLoop env fuel ⟨⟨init, ctx, V2, rest, res⟩ :: below, trie, ev⟩)
    ∧ (∀ c ∈ cs, assocFind c V2 = some (some (substitute ctx c)))
    ∧ VisitedOk ctx V2 ∧ VisitedKeeps V V2

/-- The facts on a walk over the nodes `nodes` from the state `tc` to the state `tc2`:
the cache is extended, by entries for nodes of `nodes` only, each with a type that
`getTypeInternal` returned, and a cache closed under subterms stays closed. -/
def WalkFacts (env : Env) (fuel : Nat) (nodes : List Expr) (tc tc2 : TypeChecker) : Prop :=
  cacheExtends tc.d_typeCache tc2.d_typeCache
    ∧ (∀ k, assocFind k tc2.d_typeCache ≠ none →
        assocFind k tc.d_typeCache ≠ none ∨ k ∈ nodes)
    ∧ (cacheClosed tc.d_typeCache → cacheClosed tc2.d_typeCache)
    ∧ (∀ k v, assocFind k tc2.d_typeCache = some v → assocFind k tc.d_typeCache = some v
        ∨ ∃ tck tck2, getTypeInternal env fuel tck k = some (some v, tck2))

/-- A node of `nodes` on which `getTypeInternal` returned null, leaving the state `tc2`,
in which the node has no type. -/
def WalkFailure (env : Env) (fuel : Nat) (nodes : List Expr) (tc2 : TypeChecker) : Prop :=
  ∃ n tcn, n ∈ nodes ∧ getTypeInternal env fuel tcn n = some (none, tc2)
    ∧ assocFind n tc2.d_typeCache = none

/-- The passes of the loop of `getType` on the node `e` on top of its stack follow the
post-order walk of `e`: they end with a fault, with a null result, or with `e` popped,
its type in `ret` and the state of the walk. -/
def NodeRun (env : Env) (fuelEval : Nat) (e : Expr) (rest visited : List Expr)
    (ret : Option Expr) (tc : TypeChecker) : Prop :=
  ∃ m, 1 ≤ m ∧ m ≤ 2 * e.size ∧
    match getTypePostOrder env fuelEval e tc with
    | none => ∀ fuel, getTypeLoop env fuelEval (fuel + m) (e :: rest) visited ret tc = none
    | some (none, tc2) =>
      ∀ fuel, getTypeLoop env fuelEval (fuel + m) (e :: rest) visited ret tc = some (none, tc2)
    | some (some t, tc2) =>
      ∃ visited2,
        (∀ fuel, getTypeLoop env fuelEval (fuel + m) (e :: rest) visited ret tc
          = getTypeLoop env fuelEval fuel rest visited2 (some t) tc2)
        ∧ (∀ v ∈ visited, v ∈ visited2)
        ∧ (∀ v ∈ visited2, v ∈ visited ∨ assocFind v tc2.d_typeCache ≠ none)

/-- The passes of the loop of `getType` on the children `cs` of a node, pushed on top of
its stack, follow the post-order walk of the children. -/
def ListRun (env : Env) (fuelEval : Nat) (cs : List Expr) (rest visited : List Expr)
    (ret : Option Expr) (tc : TypeChecker) : Prop :=
  ∃ m, m ≤ 2 * Expr.sizeList cs ∧
    match getTypePostOrderList env fuelEval cs tc with
    | none =>
      ∀ fuel, getTypeLoop env fuelEval (fuel + m) (cs.reverse ++ rest) visited ret tc = none
    | some (false, tc2) =>
      ∀ fuel, getTypeLoop env fuelEval (fuel + m) (cs.reverse ++ rest) visited ret tc
        = some (none, tc2)
    | some (true, tc2) =>
      ∃ visited2 ret2,
        (∀ fuel, getTypeLoop env fuelEval (fuel + m) (cs.reverse ++ rest) visited ret tc
          = getTypeLoop env fuelEval fuel rest visited2 ret2 tc2)
        ∧ (∀ v ∈ visited, v ∈ visited2)
        ∧ (∀ v ∈ visited2, v ∈ visited ∨ assocFind v tc2.d_typeCache ≠ none)

/-- The registered literal kinds of the specification, for the options of the type
checker: the five kinds that are always registered, `DECIMAL` when decimals are not
normalized and `HEXADECIMAL` when hexadecimals are not normalized. -/
def registeredKind (opts : Options) (k : Kind) : Prop :=
  k = .BOOLEAN ∨ k = .NUMERAL ∨ k = .RATIONAL ∨ k = .BINARY ∨ k = .STRING
    ∨ (k = .DECIMAL ∧ opts.d_normalizeDecimal = false)
    ∨ (k = .HEXADECIMAL ∧ opts.d_normalizeHexadecimal = false)

/-- The tables of literal type rules that a type checker constructed with the options
`opts` can hold: the table of the constructor, and the table after a call of
`setLiteralTypeRule` that was not fatal or of `getOrSetLiteralTypeRule`. -/
inductive RulesReachable (env : Env) (opts : Options) : List (Kind × Option Expr) → Prop where
  | init : RulesReachable env opts (literalTypeRulesInit opts)
  | set (rules rules2 : List (Kind × Option Expr)) (k : Kind) (t : Option Expr) :
      RulesReachable env opts rules → setLiteralTypeRule rules k t = some rules2 →
      RulesReachable env opts rules2
  | getOrSet (rules rules2 : List (Kind × Option Expr)) (k : Kind) (t : Expr) :
      RulesReachable env opts rules → getOrSetLiteralTypeRule env rules k = some (t, rules2) →
      RulesReachable env opts rules2

/-- The index `i` that `getLiteralOpType` computes for the children of a node: 1 when
the first child has a type of kind `FUNCTION_TYPE`, else 0. -/
def literalOpIndex (tc : TypeChecker) (e : Expr) : Nat :=
  match e.children with
  | [] => 0
  | c :: _ =>
    match lookupType tc c with
    | some t => if t.getKind = .FUNCTION_TYPE then 1 else 0
    | none => 0

mutual
/-- Every node of kind `APPLY` of a term has a head and at least one argument. -/
def appliesHaveArgs : Expr → Bool
  | .leaf k _ => k != .APPLY
  | .node k cs => (k != .APPLY || decide (2 ≤ cs.length)) && appliesHaveArgsList cs
/-- Every node of kind `APPLY` of the terms of a sequence has a head and an argument. -/
def appliesHaveArgsList : List Expr → Bool
  | [] => true
  | c :: cs => appliesHaveArgs c && appliesHaveArgsList cs
end

/-- A node of a literal kind is a `Literal` object, with a boolean for the kind `BOOLEAN`
and an integer for the kind `NUMERAL`: the payloads that `evaluateLiteralOpInternal`
reads through `asLiteral`. -/
def literalObject : Expr → Bool
  | .leaf k l =>
    (k != .BOOLEAN || (match l with
      | .bool _ => true
      | _ => false))
    && (k != .NUMERAL || (match l with
      | .int _ => true
      | _ => false))
  | .node k _ => !isLiteral k

/-- The length of the vector `args` covers the positions that
`evaluateLiteralOpInternal` reads for the kind `k`: exactly two for `EVAL_IS_EQ`, which
asserts it, the positions 0 to 2 for the conditional, `alf.requires`, `alf.cons`,
`alf.concat`, `alf.extract` and `alf.find`, the positions 0 and 1 for `alf.to_list` and
`alf.from_list`, and one argument for any other kind. -/
def argsRead (k : Kind) (n : Nat) : Bool :=
  match k with
  | .EVAL_IS_EQ => n == 2
  | .EVAL_IF_THEN_ELSE | .EVAL_REQUIRES | .EVAL_CONS | .EVAL_CONCAT | .EVAL_EXTRACT
  | .EVAL_FIND => decide (3 ≤ n)
  | .EVAL_TO_LIST | .EVAL_FROM_LIST => decide (2 ≤ n)
  | _ => decide (1 ≤ n)

/-- The step that the loop of `getNAryChildren` takes on a term `e` that is an
application `((op x) y)` of the curried operator `op`: the element that is pushed and
the tail where the loop goes on; `none` when `e` is not such an application. -/
def listStep (op : Expr) (isLeft : Bool) (e : Expr) : Option (Expr × Expr) :=
  if e.getKind = .APPLY then
    match e.children[0]?, e.children[1]? with
    | some cop, some e1 =>
      if cop.getKind = .APPLY then
        match cop.children[0]?, cop.children[1]? with
        | some cop0, some cop1 =>
          if cop0 = op then some (if isLeft then (e1, cop1) else (cop1, e1)) else none
        | _, _ => none
      else none
    | _, _ => none
  else none

/-- The term `e` is a list of exactly one element of the operator `op`: an application
`((op x) y)` whose tail is not again such an application. -/
def oneElementList (op : Expr) (isLeft : Bool) (e : Expr) : Bool :=
  match listStep op isLeft e with
  | none => false
  | some (_, t) => (listStep op isLeft t).isNone

/-- The walk of the spine of a term `e` over the curried operator `op`, from the outermost
application: the elements in the order the walk meets them, and the term where the spine
ends (the first tail that is not an application `((op x) y)`).  The walk passes to a
proper subterm at each step and is given the size of the term as fuel. -/
def spineWalk (op : Expr) (isLeft : Bool) : Nat → Expr → List Expr × Expr
  | 0, e => ([], e)
  | fuel + 1, e =>
    match listStep op isLeft e with
    | none => ([], e)
    | some (h, t) => (h :: (spineWalk op isLeft fuel t).1, (spineWalk op isLeft fuel t).2)

/-- The elements of the spine of `e` over `op`, in the order of the walk from the
outermost application. -/
def spineElems (op : Expr) (isLeft : Bool) (e : Expr) : List Expr :=
  (spineWalk op isLeft e.size e).1

/-- The term in which the spine of `e` over `op` ends. -/
def spineEnd (op : Expr) (isLeft : Bool) (e : Expr) : Expr :=
  (spineWalk op isLeft e.size e).2

/-- The elements `elems(l)` of a list in reading order, as the specification words them:
for a right-associative operator `elems(op(x, t))` is `x` followed by `elems(t)`, for a
left-associative operator `elems(op(t, x))` is `elems(t)` followed by `x`. -/
def elems (op : Expr) (isLeft : Bool) (l : Expr) : List Expr :=
  if isLeft then (spineElems op isLeft l).reverse else spineElems op isLeft l

/-- The index `i` that `getLiteralOpType` computes from the types of the children: 1
when the first type is of kind `FUNCTION_TYPE`, else 0. -/
def childTypesIndex (cts : List Expr) : Nat :=
  match cts with
  | [] => 0
  | t0 :: _ => if t0.getKind = .FUNCTION_TYPE then 1 else 0

namespace Store

/-- Well-formedness of the node `n` at the handle `h` of a store: the children have
smaller handles (a node is built after its children); the children of a hashed node are
hashed; a node has a payload exactly when its kind is a literal or a symbol (it is then
a `Literal` object), and a node with a payload has no children; a hashed node is the
node that the search of the hash-cons table finds for its key. -/
def nodeOk (s : Store) (h : Nat) (n : StoreNode) : Bool :=
  n.children.all (fun c => decide (c < h))
    && (!n.hashed || n.children.all (fun c => s.isHashed c))
    && (n.payload.isSome == (isLiteral n.kind || isSymbol n.kind))
    && (!n.payload.isSome || n.children.isEmpty)
    && (!n.hashed || decide (findHashedFrom n.kind n.payload n.children s.nodes 0 = some h))

/-- Well-formedness of a store: every node is well formed at its handle. -/
def ok (s : Store) : Bool :=
  (List.range s.nodes.length).all (fun h =>
    match s.get? h with
    | some n => s.nodeOk h n
    | none => false)

/-- The store `s2` is the store `s` with more nodes at its end. -/
def Extends (s s2 : Store) : Prop := ∃ more, s2.nodes = s.nodes ++ more

/-- The map `visited` of `ensureHashed` is sound for a store: a key with a non-null entry
is a handle of the store, and the entry is the handle of a hashed node that stands for
the same term as the key. -/
def VisitedSound (s : Store) (V : List (Nat × Option Nat)) : Prop :=
  ∀ x h, assocFind x V = some (some h) →
    x < s.nodes.length ∧ s.isHashed h = true ∧ s.expr h = s.expr x

/-- The loop of `ensureHashed`, started in the store `s` with the map `V`, works off the
handles `todo` on top of its stack within `bound` passes: it then holds a well-formed
store that extends `s` and a sound map in which every handle of `todo` has a non-null
entry; the entries of the handles from `lim` on are untouched, no null entry is added,
and an entry that was not null is still not null. -/
def RunTo (s : Store) (V : List (Nat × Option Nat)) (todo : List Nat) (lim bound : Nat) :
    Prop :=
  ∃ (n : Nat) (s2 : Store) (V2 : List (Nat × Option Nat)), n ≤ bound
    ∧ (∀ fuel W, ensureHashedLoop (fuel + n) s V (todo ++ W) = ensureHashedLoop fuel s2 V2 W)
    ∧ s2.ok = true ∧ Extends s s2 ∧ VisitedSound s2 V2
    ∧ (∀ c ∈ todo, ∃ r, assocFind c V2 = some (some r))
    ∧ (∀ x, lim ≤ x → assocFind x V2 = assocFind x V)
    ∧ (∀ x, assocFind x V2 = some none → assocFind x V = some none)
    ∧ (∀ x h, assocFind x V = some (some h) → ∃ h2, assocFind x V2 = some (some h2))

end Store

/-- Well-formedness of a memory: the store is well formed and the member `d_negOne`, when
it is not null, is the address of a numeral `-1`. -/
def Store.Memory.ok (m : Store.Memory) : Bool :=
  m.store.ok
    && (match m.d_negOne with
        | none => true
        | some h =>
          match m.store.get? h with
          | some n => decide (n.kind = .NUMERAL ∧ n.payload = some (.int (-1)))
          | none => false)

/-- The vector `W2` is the vector `W` of nodes to visit without some occurrences of the
node `t`. -/
inductive VisitSkips (t : Expr) : List Expr → List Expr → Prop where
  | nil : VisitSkips t [] []
  | cons (x : Expr) (W W2 : List Expr) : VisitSkips t W W2 → VisitSkips t (x :: W) (x :: W2)
  | skip (W W2 : List Expr) : VisitSkips t W W2 → VisitSkips t (t :: W) W2

/-- The map `V2` records the node `t` as itself and is the map `V` on every other node;
the map `V` has no entry for `t`, or records `t` as itself. -/
def VisitedSeeded (t : Expr) (V V2 : List (Expr × Option Expr)) : Prop :=
  assocFind t V2 = some (some t)
    ∧ (assocFind t V = none ∨ assocFind t V = some (some t))
    ∧ ∀ key, key ≠ t → assocFind key V2 = assocFind key V

/-! ## Theorems -/

/-! ### Basic facts on the data model -/

@[simp] theorem Expr.getKind_node (k : Kind) (cs : List Expr) : (Expr.node k cs).getKind = k := rfl

@[simp] theorem Expr.getKind_leaf (k : Kind) (l : Literal) : (Expr.leaf k l).getKind = k := rfl

@[simp] theorem Expr.children_node (k : Kind) (cs : List Expr) :
    (Expr.node k cs).children = cs := rfl

@[simp] theorem Expr.children_leaf (k : Kind) (l : Literal) : (Expr.leaf k l).children = [] := rfl

theorem assocFind_cons_self {α β : Type} [DecidableEq α] (k : α) (v : β) (m : List (α × β)) :
    assocFind k ((k, v) :: m) = some v := by
  simp [assocFind]

theorem assocFind_cons_ne {α β : Type} [DecidableEq α] (k a : α) (v : β) (m : List (α × β))
    (h : a ≠ k) : assocFind k ((a, v) :: m) = assocFind k m := by
  simp [assocFind, h]

theorem assocFind_mem {α β : Type} [DecidableEq α] (k : α) (v : β) (m : List (α × β))
    (h : assocFind k m = some v) : (k, v) ∈ m := by
  induction m with
  | nil => simp [assocFind] at h
  | cons hd tl ih =>
    obtain ⟨a, b⟩ := hd
    by_cases hak : a = k
    · subst hak
      simp [assocFind] at h
      simp [h]
    · rw [assocFind_cons_ne _ _ _ _ hak] at h
      exact List.mem_cons_of_mem _ (ih h)

theorem ctxExtends_refl (c : Ctx) : ctxExtends c c := fun _ _ h => h

theorem ctxExtends_trans {c1 c2 c3 : Ctx} (h12 : ctxExtends c1 c2) (h23 : ctxExtends c2 c3) :
    ctxExtends c1 c3 := fun k v h => h23 k v (h12 k v h)

theorem ctxExtends_cons (c : Ctx) (k v : Expr) (h : assocFind k c = none) :
    ctxExtends c ((k, v) :: c) := by
  intro a b hab
  have hne : k ≠ a := by
    intro hka
    subst hka
    rw [h] at hab
    cases hab
  rw [assocFind_cons_ne _ _ _ _ hne]
  exact hab

theorem Expr.size_pos (e : Expr) : 0 < e.size := by
  cases e <;> simp [Expr.size] 

theorem Expr.size_le_sizeList_of_mem {c : Expr} {cs : List Expr} (h : c ∈ cs) :
    c.size ≤ Expr.sizeList cs := by
  induction cs with
  | nil => cases h
  | cons hd tl ih =>
    simp only [Expr.sizeList]
    rcases List.mem_cons.1 h with h1 | h1
    · subst h1
      omega
    · have := ih h1
      omega

theorem Expr.size_lt_of_mem_children {c e : Expr} (h : c ∈ e.children) : c.size < e.size := by
  cases e with
  | leaf k l => simp [Expr.children] at h
  | node k cs =>
    have := Expr.size_le_sizeList_of_mem h
    simp only [Expr.size]
    simp only [Expr.children] at this
    omega

theorem Expr.isGroundList_iff (cs : List Expr) :
    Expr.isGroundList cs = true ↔ ∀ c ∈ cs, c.isGround = true := by
  induction cs with
  | nil => simp [Expr.isGroundList]
  | cons hd tl ih => simp [Expr.isGroundList, ih]

theorem Expr.isGround_children {e : Expr} (h : e.isGround = true) :
    ∀ c ∈ e.children, c.isGround = true := by
  cases e with
  | leaf k l => simp [Expr.children]
  | node k cs =>
    simp only [Expr.isGround, Bool.and_eq_true] at h
    exact (Expr.isGroundList_iff cs).1 h.2

theorem Expr.isGround_kind {e : Expr} (h : e.isGround = true) : e.getKind ≠ .PARAM := by
  cases e with
  | leaf k l => simpa [Expr.isGround, Expr.getKind] using h
  | node k cs =>
    simp only [Expr.isGround, Bool.and_eq_true] at h
    simpa [Expr.getKind] using h.1

theorem substituteList_eq_map (ctx : Ctx) (cs : List Expr) :
    substituteList ctx cs = cs.map (substitute ctx) := by
  induction cs with
  | nil => simp [substituteList]
  | cons hd tl ih => simp [substituteList, ih]

theorem substitute_of_not_param (ctx : Ctx) (e : Expr) (h : e.getKind ≠ .PARAM) :
    substitute ctx e = match e with
      | .leaf k l => .leaf k l
      | .node k cs => .node k (cs.map (substitute ctx)) := by
  cases e with
  | leaf k l =>
    simp only [Expr.getKind] at h
    simp [substitute, h]
  | node k cs =>
    simp only [Expr.getKind] at h
    simp [substitute, h, substituteList_eq_map]

theorem substitute_ground (ctx : Ctx) :
    ∀ (n : Nat) (e : Expr), e.size ≤ n → e.isGround = true → substitute ctx e = e := by
  intro n
  induction n with
  | zero =>
    intro e hs
    have := e.size_pos
    omega
  | succ n ih =>
    intro e hs hg
    rw [substitute_of_not_param ctx e (Expr.isGround_kind hg)]
    cases e with
    | leaf k l => rfl
    | node k cs =>
      simp only
      congr 1
      have hall : ∀ c ∈ cs, substitute ctx c = c := by
        intro c hc
        have h1 : c.size < (Expr.node k cs).size := Expr.size_lt_of_mem_children hc
        exact ih c (by omega) (Expr.isGround_children hg c hc)
      exact (List.map_congr_left hall).trans (List.map_id cs)

/-! ### The matcher: soundness -/

theorem matchClosed_mono {stack stack2 : List (Expr × Expr)} {visited visited2 : MatchVisited}
    {ctx ctx2 : Ctx} {pr : Expr × Expr} (h : MatchClosed stack visited ctx pr)
    (hctx : ctxExtends ctx ctx2)
    (hq : ∀ q, q ∈ visited ∨ q ∈ stack → q.1 = q.2 ∨ q ∈ visited2 ∨ q ∈ stack2) :
    MatchClosed stack2 visited2 ctx2 pr := by
  rcases h with ⟨h0, hk, hf⟩ | ⟨h0, hn, hk, hc⟩
  · exact Or.inl ⟨h0, hk, hctx _ _ hf⟩
  · refine Or.inr ⟨h0, hn, hk, ?_⟩
    intro q hqz
    rcases hc q hqz with h1 | h1
    · exact Or.inl h1
    · exact hq q h1

theorem matchLoop_true_closed :
    ∀ (fuel : Nat) (stack : List (Expr × Expr)) (visited : MatchVisited) (ctx : Ctx)
      (r : MatchResult),
      matchLoop fuel stack visited ctx = some r → r.ret = true →
      (∀ pr ∈ visited, MatchClosed stack visited ctx pr) →
      (∀ pr ∈ r.visited, MatchClosed [] r.visited r.ctx pr) ∧ ctxExtends ctx r.ctx
        ∧ (∀ pr ∈ visited, pr ∈ r.visited)
        ∧ (∀ pr ∈ stack, pr.1 = pr.2 ∨ pr ∈ r.visited) := by
  intro fuel
  induction fuel with
  | zero =>
    intro stack visited ctx r h hr hinv
    cases stack with
    | nil =>
      simp only [matchLoop, Option.some.injEq] at h
      subst h
      exact ⟨hinv, ctxExtends_refl _, fun _ h => h, fun _ h => by cases h⟩
    | cons curr rest => simp [matchLoop] at h
  | succ fuel ih =>
    intro stack visited ctx r h hr hinv
    cases stack with
    | nil =>
      simp only [matchLoop, Option.some.injEq] at h
      subst h
      exact ⟨hinv, ctxExtends_refl _, fun _ h => h, fun _ h => by cases h⟩
    | cons curr rest =>
      simp only [matchLoop] at h
      split at h
      · -- identical pair
        rename_i heq
        have hinv2 : ∀ pr ∈ visited, MatchClosed rest visited ctx pr := by
          intro pr hpr
          refine matchClosed_mono (hinv pr hpr) (ctxExtends_refl _) ?_
          intro q hq
          rcases hq with hq | hq
          · exact Or.inr (Or.inl hq)
          · rcases List.mem_cons.1 hq with hq | hq
            · subst hq
              exact Or.inl heq
            · exact Or.inr (Or.inr hq)
        obtain ⟨h1, h2, h3, h4⟩ := ih rest visited ctx r h hr hinv2
        refine ⟨h1, h2, h3, ?_⟩
        intro pr hpr
        rcases List.mem_cons.1 hpr with hpr | hpr
        · subst hpr
          exact Or.inl heq
        · exact h4 pr hpr
      · split at h
        · -- already processed
          rename_i hmem
          have hinv2 : ∀ pr ∈ visited, MatchClosed rest visited ctx pr := by
            intro pr hpr
            refine matchClosed_mono (hinv pr hpr) (ctxExtends_refl _) ?_
            intro q hq
            rcases hq with hq | hq
            · exact Or.inr (Or.inl hq)
            · rcases List.mem_cons.1 hq with hq | hq
              · subst hq
                exact Or.inr (Or.inl hmem)
              · exact Or.inr (Or.inr hq)
          obtain ⟨h1, h2, h3, h4⟩ := ih rest visited ctx r h hr hinv2
          refine ⟨h1, h2, h3, ?_⟩
          intro pr hpr
          rcases List.mem_cons.1 hpr with hpr | hpr
          · subst hpr
            exact Or.inr (h3 _ hmem)
          · exact h4 pr hpr
        · -- a pair processed now
          have hstep : ∀ (stack2 : List (Expr × Expr)) (ctx2 : Ctx),
              matchLoop fuel stack2 (curr :: visited) ctx2 = some r →
              ctxExtends ctx ctx2 →
              MatchClosed stack2 (curr :: visited) ctx2 curr →
              (∀ q ∈ rest, q ∈ stack2) →
              (∀ pr ∈ r.visited, MatchClosed [] r.visited r.ctx pr) ∧ ctxExtends ctx r.ctx
                ∧ (∀ pr ∈ visited, pr ∈ r.visited)
                ∧ (∀ pr ∈ curr :: rest, pr.1 = pr.2 ∨ pr ∈ r.visited) := by
            intro stack2 ctx2 hrun hext hcurr hrest
            have hinv2 : ∀ pr ∈ curr :: visited, MatchClosed stack2 (curr :: visited) ctx2 pr := by
              intro pr hpr
              rcases List.mem_cons.1 hpr with hpr | hpr
              · subst hpr
                exact hcurr
              · refine matchClosed_mono (hinv pr hpr) hext ?_
                intro q hq
                rcases hq with hq | hq
                · exact Or.inr (Or.inl (List.mem_cons_of_mem _ hq))
                · rcases List.mem_cons.1 hq with hq | hq
                  · subst hq
                    exact Or.inr (Or.inl (List.mem_cons_self _ _))
                  · exact Or.inr (Or.inr (hrest q hq))
            obtain ⟨h1, h2, h3, h4⟩ := ih stack2 (curr :: visited) ctx2 r hrun hr hinv2
            refine ⟨h1, ctxExtends_trans hext h2, fun pr hpr => h3 pr (List.mem_cons_of_mem _ hpr), ?_⟩
            intro pr hpr
            rcases List.mem_cons.1 hpr with hpr | hpr
            · subst hpr
              exact Or.inr (h3 _ (List.mem_cons_self _ _))
            · exact h4 pr (hrest pr hpr)
          split at h
          · rename_i hleaf
            split at h
            · rename_i hparam
              split at h
              · rename_i hfind
                exact hstep rest _ h (ctxExtends_cons _ _ _ hfind)
                  (Or.inl ⟨hleaf, hparam, assocFind_cons_self _ _ _⟩) (fun _ hq => hq)
              · rename_i bound hfind
                split at h
                · simp only [Option.some.injEq] at h
                  subst h
                  cases hr
                · rename_i hb
                  have hb2 : bound = curr.2 := by
                    by_contra hne
                    exact hb hne
                  subst hb2
                  exact hstep rest _ h (ctxExtends_refl _)
                    (Or.inl ⟨hleaf, hparam, hfind⟩) (fun _ hq => hq)
            · simp only [Option.some.injEq] at h
              subst h
              cases hr
          · rename_i hleaf
            split at h
            · simp only [Option.some.injEq] at h
              subst h
              cases hr
            · rename_i hop
              have hop2 : curr.1.getNumChildren = curr.2.getNumChildren
                  ∧ curr.1.getKind = curr.2.getKind := by
                constructor
                · by_contra hne
                  exact hop (Or.inl hne)
                · by_contra hne
                  exact hop (Or.inr hne)
              refine hstep _ _ h (ctxExtends_refl _) (Or.inr ⟨hleaf, hop2.1, hop2.2, ?_⟩)
                (fun q hq => List.mem_append_right _ hq)
              intro q hq
              exact Or.inr (Or.inr (List.mem_append_left _ (List.mem_reverse.2 hq)))

theorem map_eq_of_zip {α β : Type} (f : α → β) :
    ∀ (xs : List α) (ys : List β), xs.length = ys.length →
      (∀ q ∈ xs.zip ys, f q.1 = q.2) → xs.map f = ys := by
  intro xs
  induction xs with
  | nil =>
    intro ys hlen _
    cases ys with
    | nil => rfl
    | cons y ys => simp at hlen
  | cons x xs ih =>
    intro ys hlen h
    cases ys with
    | nil => simp at hlen
    | cons y ys =>
      simp only [List.length_cons, Nat.add_right_cancel_iff] at hlen
      simp only [List.map_cons, List.cons.injEq]
      refine ⟨h (x, y) (by simp), ih ys hlen ?_⟩
      intro q hq
      exact h q (by simp [hq])

theorem mem_zip_left {α β : Type} {xs : List α} {ys : List β} {q : α × β}
    (h : q ∈ xs.zip ys) : q.1 ∈ xs ∧ q.2 ∈ ys := by
  obtain ⟨a, b⟩ := q
  exact ⟨(List.of_mem_zip h).1, (List.of_mem_zip h).2⟩

theorem matchClosed_substitute (V : MatchVisited) (ctx : Ctx)
    (hV : ∀ pr ∈ V, MatchClosed [] V ctx pr) :
    ∀ (n : Nat) (a b : Expr), a.size ≤ n → b.isGround = true → (a = b ∨ (a, b) ∈ V) →
      substitute ctx a = b := by
  intro n
  induction n with
  | zero =>
    intro a b hs
    have := a.size_pos
    omega
  | succ n ih =>
    intro a b hs hg hab
    rcases hab with hab | hab
    · subst hab
      exact substitute_ground ctx _ a (Nat.le_refl _) hg
    · rcases hV _ hab with ⟨h0, hk, hf⟩ | ⟨h0, hn, hk, hc⟩
      · simp only at h0 hk hf
        cases a with
        | leaf k l =>
          simp only [Expr.getKind] at hk
          subst hk
          simp [substitute, hf]
        | node k cs =>
          simp only [Expr.getKind] at hk
          subst hk
          simp [substitute, hf]
      · simp only at h0 hn hk hc
        have hkb : b.getKind ≠ .PARAM := Expr.isGround_kind hg
        rw [substitute_of_not_param ctx a (by rw [hk]; exact hkb)]
        cases a with
        | leaf k l => simp [Expr.getNumChildren, Expr.children] at h0
        | node k cs =>
          cases b with
          | leaf k2 l2 =>
            simp [Expr.getNumChildren, Expr.children] at hn h0
            exact absurd hn h0
          | node k2 cs2 =>
            simp only [Expr.getKind] at hk
            simp only [Expr.getNumChildren, Expr.children] at hn
            simp only [Expr.children] at hc
            subst hk
            simp only [Expr.node.injEq, true_and]
            apply map_eq_of_zip _ _ _ hn
            intro q hq
            have hq1 := mem_zip_left hq
            have hsz : q.1.size < (Expr.node k cs).size :=
              Expr.size_lt_of_mem_children hq1.1
            have hgq : q.2.isGround = true := Expr.isGround_children hg _ hq1.2
            refine ih q.1 q.2 (by omega) hgq ?_
            rcases hc q hq with h1 | h1 | h1
            · exact Or.inl h1
            · exact Or.inr h1
            · cases h1

theorem matchVisited_eq_matchLoop (a b : Expr) (ctx : Ctx) (visited : MatchVisited)
    (r : MatchResult) (h : matchLoop (matchFuel [(a, b)]) [(a, b)] visited ctx = some r) :
    matchVisited a b ctx visited = r := by
  simp [matchVisited, h]

/-! ### The matcher: the loop halts within its fuel -/

theorem matchFuel_append (xs ys : List (Expr × Expr)) :
    matchFuel (xs ++ ys) = matchFuel xs + matchFuel ys := by
  induction xs with
  | nil => simp [matchFuel]
  | cons x xs ih => simp [matchFuel, ih, Nat.add_assoc]

theorem matchFuel_reverse (xs : List (Expr × Expr)) : matchFuel xs.reverse = matchFuel xs := by
  induction xs with
  | nil => rfl
  | cons x xs ih =>
    simp [matchFuel_append, matchFuel, ih, Nat.add_comm]

theorem matchFuel_zip_le (cs ds : List Expr) : matchFuel (cs.zip ds) ≤ Expr.sizeList cs := by
  induction cs generalizing ds with
  | nil => simp [matchFuel]
  | cons c cs ih =>
    cases ds with
    | nil => simp [matchFuel]
    | cons d ds =>
      have := ih ds
      rw [List.zip_cons_cons]
      simp only [matchFuel, Expr.sizeList]
      omega

theorem Expr.size_eq_children (e : Expr) : e.size = 1 + Expr.sizeList e.children := by
  cases e <;> simp [Expr.size, Expr.children, Expr.sizeList]

theorem matchLoop_isSome :
    ∀ (fuel : Nat) (stack : List (Expr × Expr)) (visited : MatchVisited) (ctx : Ctx),
      matchFuel stack ≤ fuel → ∃ r, matchLoop fuel stack visited ctx = some r := by
  intro fuel
  induction fuel with
  | zero =>
    intro stack visited ctx hf
    cases stack with
    | nil => exact ⟨_, rfl⟩
    | cons curr rest =>
      have := curr.1.size_pos
      simp only [matchFuel] at hf
      omega
  | succ fuel ih =>
    intro stack visited ctx hf
    cases stack with
    | nil => exact ⟨_, rfl⟩
    | cons curr rest =>
      have hpos := curr.1.size_pos
      simp only [matchFuel] at hf
      have hrest : matchFuel rest ≤ fuel := by omega
      simp only [matchLoop]
      split
      · exact ih _ _ _ hrest
      · split
        · exact ih _ _ _ hrest
        · split
          · split
            · split
              · exact ih _ _ _ hrest
              · split
                · exact ⟨_, rfl⟩
                · exact ih _ _ _ hrest
            · exact ⟨_, rfl⟩
          · split
            · exact ⟨_, rfl⟩
            · apply ih
              have h1 := matchFuel_zip_le curr.1.children curr.2.children
              have h2 := curr.1.size_eq_children
              rw [matchFuel_append, matchFuel_reverse]
              omega

theorem matchVisited_spec (a b : Expr) (ctx : Ctx) (visited : MatchVisited) :
    matchLoop (matchFuel [(a, b)]) [(a, b)] visited ctx = some (matchVisited a b ctx visited) := by
  obtain ⟨r, hr⟩ := matchLoop_isSome (matchFuel [(a, b)]) [(a, b)] visited ctx (Nat.le_refl _)
  rw [matchVisited_eq_matchLoop a b ctx visited r hr]
  exact hr

/-! ### The matcher: completeness -/

theorem paramsAreLeavesList_iff (cs : List Expr) :
    paramsAreLeavesList cs = true ↔ ∀ c ∈ cs, paramsAreLeaves c = true := by
  induction cs with
  | nil => simp [paramsAreLeavesList]
  | cons hd tl ih => simp [paramsAreLeavesList, ih]

theorem mem_zip_map {α β : Type} (f : α → β) (xs : List α) (q : α × β)
    (h : q ∈ xs.zip (xs.map f)) : q.1 ∈ xs ∧ q.2 = f q.1 := by
  induction xs with
  | nil => simp at h
  | cons x xs ih =>
    simp only [List.map_cons, List.zip_cons_cons, List.mem_cons] at h
    rcases h with h | h
    · subst h
      simp
    · have := ih h
      exact ⟨List.mem_cons_of_mem _ this.1, this.2⟩

theorem matchLoop_complete (σ : Ctx) :
    ∀ (fuel : Nat) (stack : List (Expr × Expr)) (visited : MatchVisited) (ctx : Ctx)
      (r : MatchResult),
      matchLoop fuel stack visited ctx = some r →
      ctxExtends ctx σ →
      (∀ pr ∈ stack, paramsAreLeaves pr.1 = true ∧ substitute σ pr.1 = pr.2) →
      r.ret = true := by
  intro fuel
  induction fuel with
  | zero =>
    intro stack visited ctx r h _ _
    cases stack with
    | nil =>
      simp only [matchLoop, Option.some.injEq] at h
      subst h
      rfl
    | cons curr rest => simp [matchLoop] at h
  | succ fuel ih =>
    intro stack visited ctx r h hext hst
    cases stack with
    | nil =>
      simp only [matchLoop, Option.some.injEq] at h
      subst h
      rfl
    | cons curr rest =>
      have hrest : ∀ pr ∈ rest, paramsAreLeaves pr.1 = true ∧ substitute σ pr.1 = pr.2 :=
        fun pr hpr => hst pr (List.mem_cons_of_mem _ hpr)
      obtain ⟨hwf, hsub⟩ := hst curr (List.mem_cons_self _ _)
      obtain ⟨a, b⟩ := curr
      simp only at hwf hsub
      simp only [matchLoop] at h
      split at h
      · exact ih _ _ _ _ h hext hrest
      · rename_i hne
        split at h
        · exact ih _ _ _ _ h hext hrest
        · split at h
          · rename_i hleaf
            split at h
            · rename_i hparam
              -- a parameter: it is bound by σ to the term
              have hσ : assocFind a σ = some b := by
                cases a with
                | leaf k l =>
                  simp only [Expr.getKind] at hparam
                  subst hparam
                  simp only [substitute, if_true] at hsub
                  split at hsub
                  · rename_i v hv
                    rw [hv, hsub]
                  · exact absurd hsub hne
                | node k cs =>
                  simp only [Expr.getKind] at hparam
                  subst hparam
                  simp [paramsAreLeaves] at hwf
              split at h
              · refine ih _ _ _ _ h ?_ hrest
                intro k v hkv
                by_cases hak : a = k
                · subst hak
                  rw [assocFind_cons_self] at hkv
                  cases hkv
                  exact hσ
                · rw [assocFind_cons_ne _ _ _ _ hak] at hkv
                  exact hext k v hkv
              · rename_i bound hfind
                have hb : bound = b := by
                  have := hext _ _ hfind
                  rw [hσ] at this
                  cases this
                  rfl
                split at h
                · rename_i hbne
                  exact absurd hb hbne
                · exact ih _ _ _ _ h hext hrest
            · rename_i hparam
              exfalso
              apply hne
              rw [substitute_of_not_param σ a hparam] at hsub
              cases a with
              | leaf k l => exact hsub
              | node k cs =>
                simp only [Expr.getNumChildren, Expr.children, List.length_eq_zero] at hleaf
                subst hleaf
                simpa using hsub
          · rename_i hleaf
            cases a with
            | leaf k l => simp [Expr.getNumChildren, Expr.children] at hleaf
            | node k cs =>
              simp only [paramsAreLeaves, Bool.and_eq_true, bne_iff_ne, ne_eq] at hwf
              rw [substitute_of_not_param σ _ (by simpa [Expr.getKind] using hwf.1)] at hsub
              simp only at hsub
              subst hsub
              split at h
              · rename_i hop
                simp [Expr.getNumChildren, Expr.children, Expr.getKind] at hop
              · refine ih _ _ _ _ h hext ?_
                intro pr hpr
                rcases List.mem_append.1 hpr with hpr | hpr
                · have hz := mem_zip_map (substitute σ) cs pr (by
                    simpa [Expr.children] using List.mem_reverse.1 hpr)
                  exact ⟨(paramsAreLeavesList_iff cs).1 hwf.2 _ hz.1, hz.2.symm⟩
                · exact hrest pr hpr

/-! ### Applications -/

theorem matchVisited_self (a : Expr) (ctx : Ctx) (visited : MatchVisited) :
    matchVisited a a ctx visited = ⟨true, ctx, visited⟩ := by
  apply matchVisited_eq_matchLoop
  have hpos := a.size_pos
  obtain ⟨n, hn⟩ : ∃ n, matchFuel [(a, a)] = n + 1 := ⟨a.size - 1, by simp [matchFuel]; omega⟩
  rw [hn]
  simp [matchLoop]

theorem matchClosed_ground_eq (V : MatchVisited) (ctx : Ctx)
    (hV : ∀ pr ∈ V, MatchClosed [] V ctx pr) :
    ∀ (n : Nat) (a b : Expr), a.size ≤ n → a.isGround = true → (a = b ∨ (a, b) ∈ V) →
      a = b := by
  intro n
  induction n with
  | zero =>
    intro a b hs
    have := a.size_pos
    omega
  | succ n ih =>
    intro a b hs hg hab
    rcases hab with hab | hab
    · exact hab
    · rcases hV _ hab with ⟨_, hk, _⟩ | ⟨h0, hn, hk, hc⟩
      · exact absurd hk (Expr.isGround_kind hg)
      · simp only at h0 hn hk hc
        cases a with
        | leaf k l => simp [Expr.getNumChildren] at h0
        | node k cs =>
          cases b with
          | leaf k2 l2 =>
            simp [Expr.getNumChildren] at hn h0
            exact absurd hn h0
          | node k2 cs2 =>
            simp only [Expr.getKind_node] at hk
            simp only [Expr.getNumChildren, Expr.children_node] at hn
            simp only [Expr.children_node] at hc
            subst hk
            simp only [Expr.node.injEq, true_and]
            have hmap := map_eq_of_zip id cs cs2 hn (by
              intro q hq
              have hq1 := mem_zip_left hq
              have hsz : q.1.size < (Expr.node k cs).size :=
                Expr.size_lt_of_mem_children hq1.1
              have hgq : q.1.isGround = true := Expr.isGround_children hg _ hq1.1
              refine ih q.1 q.2 (by omega) hgq ?_
              rcases hc q hq with h1 | h1 | h1
              · exact Or.inl h1
              · exact Or.inr h1
              · cases h1)
            simpa using hmap

theorem matchVisited_ground_ne (a b : Expr) (ctx : Ctx) (hg : a.isGround = true)
    (hne : a ≠ b) : (matchVisited a b ctx []).ret = false := by
  by_contra hret
  have hret2 : (matchVisited a b ctx []).ret = true := by
    cases h : (matchVisited a b ctx []).ret
    · exact absurd h hret
    · rfl
  have hrun := matchVisited_spec a b ctx []
  obtain ⟨h1, _, _, h4⟩ :=
    matchLoop_true_closed _ _ _ _ _ hrun hret2 (fun _ h => by cases h)
  exact hne (matchClosed_ground_eq _ _ h1 _ a b (Nat.le_refl _) hg (h4 (a, b) (by simp)))

theorem appArgs_of_types (tc : TypeChecker) (R : Expr) :
    ∀ (Ts args tys : List Expr), (∀ T ∈ Ts, T.getKind ≠ .QUOTE_TYPE) →
      args.length = Ts.length → args.map (lookupType tc) = tys.map some →
      appArgs tc (Ts ++ [R]) args = some tys := by
  intro Ts
  induction Ts with
  | nil =>
    intro args tys _ hlen htys
    cases args with
    | nil =>
      cases tys with
      | nil => simp [appArgs]
      | cons t tys => simp at htys
    | cons a args => simp at hlen
  | cons T Ts ih =>
    intro args tys hq hlen htys
    cases args with
    | nil => simp at hlen
    | cons a args =>
      cases tys with
      | nil => simp at htys
      | cons t tys =>
        simp only [List.map_cons, List.cons.injEq] at htys
        simp only [List.length_cons, Nat.add_right_cancel_iff] at hlen
        have hT : T.getKind ≠ .QUOTE_TYPE := hq T (List.mem_cons_self _ _)
        have := ih args tys (fun T2 h2 => hq T2 (List.mem_cons_of_mem _ h2)) hlen htys.2
        simp [appArgs, hT, htys.1, this]

theorem appMatch_ground (R : Expr) :
    ∀ (Ts tys : List Expr), (∀ T ∈ Ts, T.isGround = true ∧ T.getKind ≠ .QUOTE_TYPE) →
      tys.length = Ts.length →
      appMatch (Ts ++ [R]) tys [] [] = some (if tys = Ts then some [] else none) := by
  intro Ts
  induction Ts with
  | nil =>
    intro tys _ hlen
    cases tys with
    | nil => simp [appMatch]
    | cons t tys => simp at hlen
  | cons T Ts ih =>
    intro tys hT hlen
    cases tys with
    | nil => simp at hlen
    | cons t tys =>
      simp only [List.length_cons, Nat.add_right_cancel_iff] at hlen
      obtain ⟨hTg, hTq⟩ := hT T (List.mem_cons_self _ _)
      have ih2 := ih tys (fun T2 h2 => hT T2 (List.mem_cons_of_mem _ h2)) hlen
      by_cases hTt : T = t
      · subst hTt
        simp only [List.cons_append, appMatch, hTq, if_false, matchVisited_self]
        simp [ih2]
      · have hret := matchVisited_ground_ne T t [] hTg hTt
        have hne : ¬ (t :: tys = T :: Ts) := by
          intro h
          cases h
          exact hTt rfl
        simp [appMatch, hTq, hret, hne]

theorem evaluate_shortcut (env : Env) (fuel : Nat) (R : Expr) (ctx : Ctx)
    (hev : env.isEvaluatable R = false) (hg : R.isGround = true ∨ ctx = []) (hfuel : 2 ≤ fuel) :
    evaluate env fuel R ctx = some R := by
  obtain ⟨n, rfl⟩ : ∃ n, fuel = n + 2 := ⟨fuel - 2, by omega⟩
  have hcond : (!env.isEvaluatable R && (R.isGround || decide (ctx = []))) = true := by
    rcases hg with hg | hg <;> simp [hev, hg]
  simp [evaluate, evaluateLoop, EvFrame.new, evalVisit, hcond, evalFinish, assocFind,
    ensureHashed]

/-! ### The walk of `getType` -/

theorem getTypeInternal_typeCache (env : Env) (fuel : Nat) (tc tc1 : TypeChecker) (e : Expr)
    (r : Option Expr) (h : getTypeInternal env fuel tc e = some (r, tc1)) :
    tc1.d_typeCache = tc.d_typeCache := by
  unfold getTypeInternal at h
  simp only at h
  repeat' (split at h)
  all_goals
    cases h
    try rfl

theorem getTypeLoop_cacheExtends (env : Env) (fuelEval : Nat) :
    ∀ (fuel : Nat) (toVisit visited : List Expr) (ret : Option Expr) (tc tc2 : TypeChecker)
      (r : Option Expr),
      getTypeLoop env fuelEval fuel toVisit visited ret tc = some (r, tc2) →
      cacheExtends tc.d_typeCache tc2.d_typeCache := by
  intro fuel
  induction fuel with
  | zero =>
    intro toVisit visited ret tc tc2 r h
    cases toVisit with
    | nil =>
      simp only [getTypeLoop, Option.some.injEq, Prod.mk.injEq] at h
      rw [← h.2]
      exact fun _ _ h => h
    | cons cur rest => simp [getTypeLoop] at h
  | succ fuel ih =>
    intro toVisit visited ret tc tc2 r h
    cases toVisit with
    | nil =>
      simp only [getTypeLoop, Option.some.injEq, Prod.mk.injEq] at h
      rw [← h.2]
      exact fun _ _ h => h
    | cons cur rest =>
      simp only [getTypeLoop] at h
      split at h
      · exact ih _ _ _ _ _ _ h
      · rename_i hnone
        split at h
        · exact ih _ _ _ _ _ _ h
        · split at h
          · cases h
          · rename_i tc1 hint
            simp only [Option.some.injEq, Prod.mk.injEq] at h
            rw [← h.2, getTypeInternal_typeCache _ _ _ _ _ _ hint]
            exact fun _ _ h => h
          · rename_i t tc1 hint
            have hc := getTypeInternal_typeCache _ _ _ _ _ _ hint
            have := ih _ _ _ _ _ _ h
            intro k v hkv
            apply this
            simp only
            rw [hc]
            have hne : cur ≠ k := by
              intro hck
              subst hck
              rw [hnone] at hkv
              cases hkv
            rw [assocFind_cons_ne _ _ _ _ hne]
            exact hkv

theorem getTypeLoop_result_cached (env : Env) (fuelEval : Nat) (e : Expr) :
    ∀ (fuel : Nat) (toVisit visited : List Expr) (ret : Option Expr) (tc tc2 : TypeChecker)
      (t : Expr), toVisit.getLast? = some e →
      getTypeLoop env fuelEval fuel toVisit visited ret tc = some (some t, tc2) →
      assocFind e tc2.d_typeCache = some t := by
  intro fuel
  induction fuel with
  | zero =>
    intro toVisit visited ret tc tc2 t hlast h
    cases toVisit with
    | nil => simp at hlast
    | cons cur rest => simp [getTypeLoop] at h
  | succ fuel ih =>
    intro toVisit visited ret tc tc2 t hlast h
    cases toVisit with
    | nil => simp at hlast
    | cons cur rest =>
      simp only [getTypeLoop] at h
      split at h
      · rename_i t0 hfound
        cases rest with
        | nil =>
          simp only [List.getLast?_singleton, Option.some.injEq] at hlast
          subst hlast
          simp only [getTypeLoop, Option.some.injEq, Prod.mk.injEq] at h
          obtain ⟨h1, h2⟩ := h
          subst h1 h2
          exact hfound
        | cons x xs =>
          refine ih _ _ _ _ _ _ ?_ h
          simpa [List.getLast?_cons_cons] using hlast
      · split at h
        · refine ih _ _ _ _ _ _ ?_ h
          rw [List.getLast?_append_of_ne_nil _ (by simp)]
          exact hlast
        · split at h
          · cases h
          · cases h
          · rename_i t1 tc1 hint
            cases rest with
            | nil =>
              simp only [List.getLast?_singleton, Option.some.injEq] at hlast
              subst hlast
              simp only [getTypeLoop, Option.some.injEq, Prod.mk.injEq] at h
              obtain ⟨h1, h2⟩ := h
              subst h1 h2
              exact assocFind_cons_self _ _ _
            | cons x xs =>
              refine ih _ _ _ _ _ _ ?_ h
              simpa [List.getLast?_cons_cons] using hlast

/-! ### The evaluator on terms where it only substitutes -/

theorem evaluateLoop_step (env : Env) (fuel : Nat) (evf : EvFrame) (below : List EvFrame)
    (trie : ExprTrie) (ev : Option Expr) (cur : Expr) (rest : List Expr)
    (estack : List EvFrame) (trie1 : ExprTrie) (hv : evf.d_visit = cur :: rest)
    (h : evalVisit env evf below trie cur rest = some (estack, trie1)) :
    evaluateLoop env (fuel + 1) ⟨evf :: below, trie, ev⟩
      = evaluateLoop env fuel ⟨estack, trie1, ev⟩ := by
  rw [evaluateLoop]
  simp only [hv, h]

theorem evaluateLoop_finish (env : Env) (fuel : Nat) (evf : EvFrame) (below : List EvFrame)
    (trie : ExprTrie) (ev : Option Expr) (s : EvState) (hv : evf.d_visit = [])
    (h : evalFinish evf below trie = some s) :
    evaluateLoop env (fuel + 1) ⟨evf :: below, trie, ev⟩ = evaluateLoop env fuel s := by
  rw [evaluateLoop]
  simp only [hv, h]

theorem substituteList_nil_ctx (n : Nat) :
    ∀ e : Expr, e.size ≤ n → substitute [] e = e := by
  induction n with
  | zero =>
    intro e hs
    have := e.size_pos
    omega
  | succ n ih =>
    intro e hs
    cases e with
    | leaf k l => by_cases hk : k = .PARAM <;> simp [substitute, hk, assocFind]
    | node k cs =>
      by_cases hk : k = .PARAM
      · simp [substitute, hk, assocFind]
      · simp only [substitute, hk, if_false, substituteList_eq_map, Expr.node.injEq, true_and]
        have hall : ∀ c ∈ cs, substitute [] c = c := by
          intro c hc
          have h1 : c.size < (Expr.node k cs).size :=
            Expr.size_lt_of_mem_children (by simpa using hc)
          exact ih c (by omega)
        exact (List.map_congr_left hall).trans (List.map_id cs)

theorem substitute_nil (e : Expr) : substitute [] e = e :=
  substituteList_nil_ctx e.size e (Nat.le_refl _)

theorem substitute_param (ctx : Ctx) (e : Expr) (h : e.getKind = .PARAM) :
    substitute ctx e = (match assocFind e ctx with
      | some v => v
      | none => e) := by
  cases e with
  | leaf k l =>
    simp only [Expr.getKind_leaf] at h
    simp [substitute, h]
  | node k cs =>
    simp only [Expr.getKind_node] at h
    simp [substitute, h]

theorem evalPlainList_iff (env : Env) (ctx : Ctx) (cs : List Expr) :
    evalPlainList env ctx cs = true ↔ ∀ c ∈ cs, evalPlain env ctx c = true := by
  induction cs with
  | nil => simp [evalPlainList]
  | cons hd tl ih => simp [evalPlainList, ih]

/-- What `evalPlain` says of a node that is not a parameter. -/
theorem evalPlain_not_param (env : Env) (ctx : Ctx) (e : Expr)
    (h : evalPlain env ctx e = true) (hk : e.getKind ≠ .PARAM) :
    isLiteralOp e.getKind = false ∧ env.isCompiled e = false
      ∧ (e.getKind = .APPLY → ∃ c, e.children[0]? = some c
          ∧ (substitute ctx c).getKind ≠ .PROGRAM_CONST ∧ (substitute ctx c).getKind ≠ .ORACLE)
      ∧ ∀ c ∈ e.children, evalPlain env ctx c = true := by
  cases e with
  | leaf k l =>
    simp only [Expr.getKind_leaf] at hk
    simp only [evalPlain, Bool.or_eq_true, beq_iff_eq, hk, false_or, Bool.and_eq_true,
      Bool.not_eq_true', bne_iff_ne, ne_eq] at h
    refine ⟨h.1.1, h.2, ?_, by simp⟩
    intro hap
    exact absurd hap h.1.2
  | node k cs =>
    simp only [Expr.getKind_node] at hk
    simp only [evalPlain, Bool.or_eq_true, beq_iff_eq, hk, false_or, Bool.and_eq_true,
      Bool.not_eq_true', bne_iff_ne, ne_eq] at h
    obtain ⟨⟨⟨h1, h2⟩, h3⟩, h4⟩ := h
    refine ⟨h1, h2, ?_, by simpa using (evalPlainList_iff env ctx cs).1 h4⟩
    intro hap
    simp only [Expr.getKind_node] at hap
    rcases h3 with h3 | h3
    · exact absurd hap h3
    · cases cs with
      | nil => simp at h3
      | cons c cs =>
        simp only [Bool.and_eq_true, bne_iff_ne, ne_eq] at h3
        exact ⟨c, by simp, h3.1, h3.2⟩

theorem visitedKeeps_refl (V : List (Expr × Option Expr)) : VisitedKeeps V V :=
  ⟨fun _ => Iff.rfl, fun _ _ h => h⟩

theorem visitedKeeps_trans {V V2 V3 : List (Expr × Option Expr)} (h1 : VisitedKeeps V V2)
    (h2 : VisitedKeeps V2 V3) : VisitedKeeps V V3 :=
  ⟨fun k => (h2.1 k).trans (h1.1 k), fun k v h => h2.2 k v (h1.2 k v h)⟩

theorem visitedKeeps_record {ctx : Ctx} {V : List (Expr × Option Expr)} (cur : Expr)
    (hok : VisitedOk ctx V) (hs : assocFind cur V ≠ some none) :
    VisitedKeeps V ((cur, some (substitute ctx cur)) :: V)
      ∧ VisitedOk ctx ((cur, some (substitute ctx cur)) :: V) := by
  refine ⟨⟨?_, ?_⟩, ?_⟩
  · intro k
    by_cases hk : cur = k
    · subst hk
      rw [assocFind_cons_self]
      constructor
      · intro h
        cases h
      · intro h
        exact absurd h hs
    · rw [assocFind_cons_ne _ _ _ _ hk]
  · intro k v h
    by_cases hk : cur = k
    · subst hk
      rw [assocFind_cons_self, hok _ _ h]
    · rw [assocFind_cons_ne _ _ _ _ hk]
      exact h
  · intro k v h
    by_cases hk : cur = k
    · subst hk
      rw [assocFind_cons_self] at h
      cases h
      rfl
    · rw [assocFind_cons_ne _ _ _ _ hk] at h
      exact hok _ _ h

theorem visitListRun_of_visitRun (env : Env) (ctx : Ctx) (init : Expr)
    (res : Option (List Expr)) (below : List EvFrame) (trie : ExprTrie) (ev : Option Expr)
    (n : Nat)
    (ih : ∀ (cur : Expr), cur.size ≤ n → evalPlain env ctx cur = true →
      ∀ (V : List (Expr × Option Expr)) (rest : List Expr), VisitedOk ctx V →
        (∀ k, assocFind k V = some none → cur.size < k.size) →
        VisitRun env ctx init res below trie ev V cur rest) :
    ∀ (cs : List Expr), (∀ c ∈ cs, c.size ≤ n ∧ evalPlain env ctx c = true) →
      ∀ (V : List (Expr × Option Expr)) (rest : List Expr), VisitedOk ctx V →
        (∀ k, assocFind k V = some none → ∀ c ∈ cs, c.size < k.size) →
        VisitListRun env ctx init res below trie ev V cs rest := by
  intro cs
  induction cs with
  | nil =>
    intro _ V rest hok _
    exact ⟨0, V, by simp [Expr.sizeList], fun fuel => rfl, by simp, hok, visitedKeeps_refl V⟩
  | cons c cs ihcs =>
    intro hcs V rest hok hsent
    obtain ⟨hc1, hc2⟩ := hcs c (List.mem_cons_self _ _)
    obtain ⟨m1, V1, hm1, hrun1, hfind1, hok1, hkeep1⟩ :=
      ih c hc1 hc2 V (cs ++ rest) hok (fun k hk => hsent k hk c (List.mem_cons_self _ _))
    obtain ⟨m2, V2, hm2, hrun2, hfind2, hok2, hkeep2⟩ :=
      ihcs (fun c2 h2 => hcs c2 (List.mem_cons_of_mem _ h2)) V1 rest hok1
        (fun k hk c2 h2 => hsent k ((hkeep1.1 k).1 hk) c2 (List.mem_cons_of_mem _ h2))
    refine ⟨m2 + m1, V2, ?_, ?_, ?_, hok2, visitedKeeps_trans hkeep1 hkeep2⟩
    · simp only [Expr.sizeList]
      omega
    · intro fuel
      rw [← Nat.add_assoc, List.cons_append, hrun1, hrun2]
    · intro c2 h2
      rcases List.mem_cons.1 h2 with h2 | h2
      · subst h2
        exact hkeep2.2 _ _ hfind1
      · exact hfind2 c2 h2

theorem Expr.sizeList_append (xs ys : List Expr) :
    Expr.sizeList (xs ++ ys) = Expr.sizeList xs + Expr.sizeList ys := by
  induction xs with
  | nil => simp [Expr.sizeList]
  | cons x xs ih => simp [Expr.sizeList, ih, Nat.add_assoc]

theorem Expr.sizeList_reverse (xs : List Expr) : Expr.sizeList xs.reverse = Expr.sizeList xs := by
  induction xs with
  | nil => rfl
  | cons x xs ih => simp [Expr.sizeList_append, Expr.sizeList, ih, Nat.add_comm]

theorem allNonNull_map_some (f : Expr → Expr) (cs : List Expr) :
    allNonNull (cs.map (fun c => some (f c))) = some (cs.map f) := by
  induction cs with
  | nil => rfl
  | cons c cs ih => simp [allNonNull, ih]

theorem evalChildren_of_recorded (ctx : Ctx) (V : List (Expr × Option Expr)) (cs : List Expr)
    (h : ∀ c ∈ cs, assocFind c V = some (some (substitute ctx c))) :
    evalChildren V cs = cs.map (fun c => some (substitute ctx c)) := by
  unfold evalChildren
  apply List.map_congr_left
  intro c hc
  simp [h c hc]

theorem evalChanged_of_recorded (ctx : Ctx) (V : List (Expr × Option Expr)) (cs : List Expr)
    (h : ∀ c ∈ cs, assocFind c V = some (some (substitute ctx c))) :
    evalChanged V cs = cs.any (fun c => decide (substitute ctx c ≠ c)) := by
  unfold evalChanged
  induction cs with
  | nil => rfl
  | cons c cs ih =>
    simp only [List.any_cons]
    rw [ih (fun c2 h2 => h c2 (List.mem_cons_of_mem _ h2))]
    simp [h c (List.mem_cons_self _ _)]

theorem substitute_eq_rebuild (ctx : Ctx) (e : Expr) (hk : e.getKind ≠ .PARAM) :
    substitute ctx e
      = (if e.children.any (fun c => decide (substitute ctx c ≠ c)) then
           .node e.getKind (e.children.map (substitute ctx))
         else e) := by
  rw [substitute_of_not_param ctx e hk]
  cases e with
  | leaf k l => simp
  | node k cs =>
    simp only [Expr.children_node, Expr.getKind_node]
    split
    · rfl
    · rename_i hany
      simp only [List.any_eq_true, decide_eq_true_eq, not_exists, not_and, not_not] at hany
      simp only [Expr.node.injEq, true_and]
      exact (List.map_congr_left hany).trans (List.map_id cs)

theorem evalRevisit_plain (env : Env) (ctx : Ctx) (trie : ExprTrie) (cur : Expr)
    (hparam : cur.getKind ≠ .PARAM) (hplain : evalPlain env ctx cur = true) :
    evalRevisit env trie cur (cur.children.map (fun c => some (substitute ctx c)))
      = some (.evaluated none trie) := by
  obtain ⟨hlit, _, happ, _⟩ := evalPlain_not_param env ctx cur hplain hparam
  unfold evalRevisit
  by_cases hap : cur.getKind = .APPLY
  · obtain ⟨c, hc, h1, h2⟩ := happ hap
    have h0 : (cur.children.map (fun c => some (substitute ctx c)))[0]?
        = some (some (substitute ctx c)) := by
      simp [List.getElem?_map, hc]
    simp only [hap, if_true, h0]
    simp [h1, h2]
  · have hite : cur.getKind ≠ .EVAL_IF_THEN_ELSE := by
      intro h
      rw [h] at hlit
      simp [isLiteralOp] at hlit
    simp [hap, hite, hlit]

theorem evalVisit_revisit (env : Env) (ctx : Ctx) (init : Expr) (res : Option (List Expr))
    (below : List EvFrame) (trie : ExprTrie) (V : List (Expr × Option Expr)) (cur : Expr)
    (rest : List Expr)
    (hcond : (!env.isEvaluatable cur && (cur.isGround || decide (ctx = []))) = false)
    (hparam : cur.getKind ≠ .PARAM) (hV : assocFind cur V = some none)
    (hplain : evalPlain env ctx cur = true)
    (hch : ∀ c ∈ cur.children, assocFind c V = some (some (substitute ctx c))) :
    evalVisit env ⟨init, ctx, V, cur :: rest, res⟩ below trie cur rest
      = some (⟨init, ctx, (cur, some (substitute ctx cur)) :: V, rest, res⟩ :: below, trie) := by
  have h1 := evalChildren_of_recorded ctx V cur.children hch
  have h2 := evalChanged_of_recorded ctx V cur.children hch
  have h3 := evalRevisit_plain env ctx trie cur hparam hplain
  have h4 := substitute_eq_rebuild ctx cur hparam
  unfold evalVisit
  simp only [hcond, hparam, hV, h1, h2, h3, if_false, Bool.false_eq_true]
  rw [h4]
  split
  · simp [allNonNull_map_some]
  · rfl

theorem evalVisit_first (env : Env) (ctx : Ctx) (init : Expr) (res : Option (List Expr))
    (below : List EvFrame) (trie : ExprTrie) (V : List (Expr × Option Expr)) (cur : Expr)
    (rest : List Expr)
    (hcond : (!env.isEvaluatable cur && (cur.isGround || decide (ctx = []))) = false)
    (hparam : cur.getKind ≠ .PARAM) (hV : assocFind cur V = none)
    (hcomp : env.isCompiled cur = false) (hite : cur.getKind ≠ .EVAL_IF_THEN_ELSE) :
    evalVisit env ⟨init, ctx, V, cur :: rest, res⟩ below trie cur rest
      = some (⟨init, ctx, (cur, none) :: V, cur.children.reverse ++ cur :: rest, res⟩ :: below,
          trie) := by
  unfold evalVisit
  simp [hcond, hparam, hV, hcomp, hite]

theorem visitRun_of_evalPlain (env : Env) (ctx : Ctx) (init : Expr)
    (res : Option (List Expr)) (below : List EvFrame) (trie : ExprTrie) (ev : Option Expr) :
    ∀ (n : Nat) (cur : Expr), cur.size ≤ n → evalPlain env ctx cur = true →
      ∀ (V : List (Expr × Option Expr)) (rest : List Expr), VisitedOk ctx V →
        (∀ k, assocFind k V = some none → cur.size < k.size) →
        VisitRun env ctx init res below trie ev V cur rest := by
  intro n
  induction n with
  | zero =>
    intro cur hs
    have := cur.size_pos
    omega
  | succ n ih =>
    intro cur hs hplain V rest hok hsent
    have hnosent : assocFind cur V ≠ some none := by
      intro h
      have := hsent cur h
      omega
    have hpos := cur.size_pos
    -- the visit takes one pass and records the substitution
    have hone : evalVisit env ⟨init, ctx, V, cur :: rest, res⟩ below trie cur rest
        = some (⟨init, ctx, (cur, some (substitute ctx cur)) :: V, rest, res⟩ :: below, trie) →
        VisitRun env ctx init res below trie ev V cur rest := by
      intro hstep
      obtain ⟨hkeep, hok2⟩ := visitedKeeps_record cur hok hnosent
      refine ⟨1, _, by omega, ?_, assocFind_cons_self _ _ _, hok2, hkeep⟩
      intro fuel
      exact evaluateLoop_step env fuel _ below trie ev cur rest _ trie rfl hstep
    by_cases hcond : (!env.isEvaluatable cur && (cur.isGround || decide (ctx = []))) = true
    · -- the term stays the same
      have hsub : substitute ctx cur = cur := by
        simp only [Bool.and_eq_true, Bool.not_eq_true', Bool.or_eq_true,
          decide_eq_true_eq] at hcond
        rcases hcond.2 with hg | hg
        · exact substitute_ground ctx _ cur (Nat.le_refl _) hg
        · rw [hg]
          exact substitute_nil cur
      apply hone
      unfold evalVisit
      simp [hcond, hsub]
    · have hcond2 : (!env.isEvaluatable cur && (cur.isGround || decide (ctx = []))) = false := by
        simpa using hcond
      by_cases hparam : cur.getKind = .PARAM
      · apply hone
        unfold evalVisit
        rw [substitute_param ctx cur hparam]
        simp only [hcond2, hparam, if_true, Bool.false_eq_true, if_false]
        cases assocFind cur ctx <;> rfl
      · obtain ⟨hlit, hcomp, _, hchildren⟩ := evalPlain_not_param env ctx cur hplain hparam
        have hite : cur.getKind ≠ .EVAL_IF_THEN_ELSE := by
          intro h
          rw [h] at hlit
          simp [isLiteralOp] at hlit
        cases hV : assocFind cur V with
        | none =>
          -- first visit: the children are scheduled
          have hfirst := evalVisit_first env ctx init res below trie V cur rest hcond2 hparam hV
            hcomp hite
          have hok1 : VisitedOk ctx ((cur, none) :: V) := by
            intro k v h
            by_cases hk : cur = k
            · subst hk
              rw [assocFind_cons_self] at h
              cases h
            · rw [assocFind_cons_ne _ _ _ _ hk] at h
              exact hok _ _ h
          have hlist := visitListRun_of_visitRun env ctx init res below trie ev n ih
            cur.children.reverse
            (by
              intro c hc
              have hc2 : c ∈ cur.children := List.mem_reverse.1 hc
              have := Expr.size_lt_of_mem_children hc2
              exact ⟨by omega, hchildren c hc2⟩)
            ((cur, none) :: V) (cur :: rest) hok1
            (by
              intro k hk c hc
              have hc2 : c ∈ cur.children := List.mem_reverse.1 hc
              have hlt := Expr.size_lt_of_mem_children hc2
              by_cases hkc : cur = k
              · subst hkc
                exact hlt
              · rw [assocFind_cons_ne _ _ _ _ hkc] at hk
                have := hsent k hk
                omega)
          obtain ⟨m, V1, hm, hrun, hfind, hokV1, hkeep⟩ := hlist
          have hcur1 : assocFind cur V1 = some none :=
            (hkeep.1 cur).2 (assocFind_cons_self _ _ _)
          have hrev := evalVisit_revisit env ctx init res below trie V1 cur rest hcond2 hparam
            hcur1 hplain (fun c hc => hfind c (List.mem_reverse.2 hc))
          refine ⟨1 + m + 1, (cur, some (substitute ctx cur)) :: V1, ?_, ?_,
            assocFind_cons_self _ _ _, ?_, ?_, ?_⟩
          · have h1 := cur.size_eq_children
            rw [Expr.sizeList_reverse] at hm
            omega
          · intro fuel
            rw [← Nat.add_assoc, ← Nat.add_assoc,
              evaluateLoop_step env (fuel + 1 + m) _ below trie ev cur rest _ trie rfl hfirst,
              hrun, evaluateLoop_step env fuel _ below trie ev cur rest _ trie rfl hrev]
          · intro k v h
            by_cases hk : cur = k
            · subst hk
              rw [assocFind_cons_self] at h
              cases h
              rfl
            · rw [assocFind_cons_ne _ _ _ _ hk] at h
              exact hokV1 _ _ h
          · intro k
            by_cases hk : cur = k
            · subst hk
              rw [assocFind_cons_self, hV]
              simp
            · rw [assocFind_cons_ne _ _ _ _ hk, hkeep.1 k, assocFind_cons_ne _ _ _ _ hk]
          · intro k v h
            by_cases hk : cur = k
            · subst hk
              rw [hV] at h
              cases h
            · rw [assocFind_cons_ne _ _ _ _ hk]
              apply hkeep.2
              rw [assocFind_cons_ne _ _ _ _ hk]
              exact h
        | some entry =>
          cases entry with
          | none => exact absurd hV hnosent
          | some v =>
            -- already recorded
            refine ⟨1, V, by omega, ?_, ?_, hok, visitedKeeps_refl V⟩
            · intro fuel
              apply evaluateLoop_step env fuel _ below trie ev cur rest _ trie rfl
              unfold evalVisit
              simp [hcond2, hparam, hV]
            · rw [hV, hok _ _ hV]

/-- On a term where the evaluator only substitutes, `evaluate` returns the substitution
of the context into the term, within `2 * size + 1` passes of its loops. -/
theorem evaluate_of_evalPlain (env : Env) (ctx : Ctx) (e : Expr)
    (hplain : evalPlain env ctx e = true) (fuel : Nat) (hfuel : 2 * e.size + 1 ≤ fuel) :
    evaluate env fuel e ctx = some (substitute ctx e) := by
  obtain ⟨m, V2, hm, hrun, hfind, _, _⟩ :=
    visitRun_of_evalPlain env ctx e none [] [] none e.size e (Nat.le_refl _) hplain [] []
      (fun _ _ h => by simp [assocFind] at h) (fun _ h => by simp [assocFind] at h)
  obtain ⟨k, rfl⟩ : ∃ k, fuel = (k + 1) + m := ⟨fuel - 1 - m, by omega⟩
  unfold evaluate EvFrame.new
  rw [hrun]
  have hfin : evalFinish ⟨e, ctx, V2, [], none⟩ [] []
      = some ⟨[], [], some (substitute ctx e)⟩ := by
    simp [evalFinish, hfind]
  rw [evaluateLoop_finish env k _ [] [] none _ rfl hfin]
  cases k <;> simp [evaluateLoop, ensureHashed]

theorem evaluateLoop_nil (env : Env) (fuel : Nat) (trie : ExprTrie) (ev : Option Expr) :
    evaluateLoop env fuel ⟨[], trie, ev⟩ = ev.map ensureHashed := by
  cases fuel <;> cases ev <;> simp [evaluateLoop]

theorem evaluateLoop_step_none (env : Env) (fuel : Nat) (evf : EvFrame) (below : List EvFrame)
    (trie : ExprTrie) (ev : Option Expr) (cur : Expr) (rest : List Expr)
    (hv : evf.d_visit = cur :: rest)
    (h : evalVisit env evf below trie cur rest = none) :
    evaluateLoop env (fuel + 1) ⟨evf :: below, trie, ev⟩ = none := by
  rw [evaluateLoop]
  simp only [hv, h]

theorem evaluateLoop_finish_none (env : Env) (fuel : Nat) (evf : EvFrame)
    (below : List EvFrame) (trie : ExprTrie) (ev : Option Expr) (hv : evf.d_visit = [])
    (h : evalFinish evf below trie = none) :
    evaluateLoop env (fuel + 1) ⟨evf :: below, trie, ev⟩ = none := by
  rw [evaluateLoop]
  simp only [hv, h]

theorem evaluateLoop_mono (env : Env) :
    ∀ (fuel : Nat) (s : EvState) (r : Expr), evaluateLoop env fuel s = some r →
      ∀ k, evaluateLoop env (fuel + k) s = some r := by
  intro fuel
  induction fuel with
  | zero =>
    intro s r h k
    obtain ⟨estack, trie, ev⟩ := s
    cases estack with
    | nil =>
      rw [evaluateLoop_nil] at h ⊢
      exact h
    | cons evf below => simp [evaluateLoop] at h
  | succ fuel ih =>
    intro s r h k
    obtain ⟨estack, trie, ev⟩ := s
    cases estack with
    | nil =>
      rw [evaluateLoop_nil] at h ⊢
      exact h
    | cons evf below =>
      have hk : fuel + 1 + k = (fuel + k) + 1 := by omega
      rw [hk]
      cases hv : evf.d_visit with
      | cons cur rest =>
        cases hstep : evalVisit env evf below trie cur rest with
        | none =>
          rw [evaluateLoop_step_none env fuel evf below trie ev cur rest hv hstep] at h
          cases h
        | some st =>
          obtain ⟨estack, trie1⟩ := st
          rw [evaluateLoop_step env fuel evf below trie ev cur rest _ _ hv hstep] at h
          rw [evaluateLoop_step env (fuel + k) evf below trie ev cur rest _ _ hv hstep]
          exact ih _ _ h k
      | nil =>
        cases hfin : evalFinish evf below trie with
        | none =>
          rw [evaluateLoop_finish_none env fuel evf below trie ev hv hfin] at h
          cases h
        | some s2 =>
          rw [evaluateLoop_finish env fuel evf below trie ev s2 hv hfin] at h
          rw [evaluateLoop_finish env (fuel + k) evf below trie ev s2 hv hfin]
          exact ih _ _ h k

theorem evaluate_mono (env : Env) (fuel fuel2 : Nat) (e : Expr) (ctx : Ctx) (r : Expr)
    (h : evaluate env fuel e ctx = some r) (hle : fuel ≤ fuel2) :
    evaluate env fuel2 e ctx = some r := by
  obtain ⟨k, rfl⟩ : ∃ k, fuel2 = fuel + k := ⟨fuel2 - fuel, by omega⟩
  exact evaluateLoop_mono env fuel _ r h k

theorem evaluate_unique (env : Env) (fuel fuel2 : Nat) (e : Expr) (ctx : Ctx) (r r2 : Expr)
    (h : evaluate env fuel e ctx = some r) (h2 : evaluate env fuel2 e ctx = some r2) :
    r = r2 := by
  have a := evaluate_mono env fuel (max fuel fuel2) e ctx r h (Nat.le_max_left _ _)
  have b := evaluate_mono env fuel2 (max fuel fuel2) e ctx r2 h2 (Nat.le_max_right _ _)
  rw [a] at b
  exact Option.some.inj b

theorem plainTermList_iff (cs : List Expr) :
    plainTermList cs = true ↔ ∀ c ∈ cs, plainTerm c = true := by
  induction cs with
  | nil => simp [plainTermList]
  | cons hd tl ih => simp [plainTermList, ih]

theorem notCompiledList_iff (env : Env) (cs : List Expr) :
    notCompiledList env cs = true ↔ ∀ c ∈ cs, notCompiled env c = true := by
  induction cs with
  | nil => simp [notCompiledList]
  | cons hd tl ih => simp [notCompiledList, ih]

theorem notCompiled_self (env : Env) (e : Expr) (h : notCompiled env e = true) :
    env.isCompiled e = false := by
  cases e with
  | leaf k l => simpa [notCompiled] using h
  | node k cs =>
    simp only [notCompiled, Bool.and_eq_true, Bool.not_eq_true'] at h
    exact h.1

theorem notCompiled_children (env : Env) (e : Expr) (h : notCompiled env e = true) :
    ∀ c ∈ e.children, notCompiled env c = true := by
  cases e with
  | leaf k l => simp
  | node k cs =>
    simp only [notCompiled, Bool.and_eq_true] at h
    simpa using (notCompiledList_iff env cs).1 h.2

/-- What `plainTerm` says of a term. -/
theorem plainTerm_spec (e : Expr) (h : plainTerm e = true) :
    isLiteralOp e.getKind = false
      ∧ (e.getKind = .APPLY → ∃ c, e.children[0]? = some c
          ∧ c.getKind ≠ .PROGRAM_CONST ∧ c.getKind ≠ .ORACLE)
      ∧ ∀ c ∈ e.children, plainTerm c = true := by
  cases e with
  | leaf k l =>
    simp only [plainTerm, Bool.and_eq_true, Bool.not_eq_true', bne_iff_ne, ne_eq] at h
    exact ⟨h.1, fun hap => absurd hap h.2, by simp⟩
  | node k cs =>
    simp only [plainTerm, Bool.and_eq_true, Bool.not_eq_true', Bool.or_eq_true, bne_iff_ne,
      ne_eq] at h
    obtain ⟨⟨h1, h3⟩, h4⟩ := h
    refine ⟨h1, ?_, by simpa using (plainTermList_iff cs).1 h4⟩
    intro hap
    simp only [Expr.getKind_node] at hap
    rcases h3 with h3 | h3
    · exact absurd hap h3
    · cases cs with
      | nil => simp at h3
      | cons c cs =>
        simp only [Bool.and_eq_true, bne_iff_ne, ne_eq] at h3
        exact ⟨c, by simp, h3.1, h3.2⟩

/-- The predicate `evalPlain` from its characteristic facts. -/
theorem evalPlain_intro (env : Env) (ctx : Ctx) (e : Expr)
    (hlit : isLiteralOp e.getKind = false) (hcomp : env.isCompiled e = false)
    (happ : e.getKind = .APPLY → ∃ c, e.children[0]? = some c
          ∧ (substitute ctx c).getKind ≠ .PROGRAM_CONST ∧ (substitute ctx c).getKind ≠ .ORACLE)
    (hch : ∀ c ∈ e.children, evalPlain env ctx c = true) :
    evalPlain env ctx e = true := by
  cases e with
  | leaf k l =>
    simp only [Expr.getKind_leaf] at hlit happ
    have hk : k ≠ .APPLY := by
      intro h
      obtain ⟨c, hc, _⟩ := happ h
      simp at hc
    simp [evalPlain, hlit, hcomp, hk]
  | node k cs =>
    simp only [Expr.getKind_node, Expr.children_node] at hlit happ hch
    have hl := (evalPlainList_iff env ctx cs).2 hch
    by_cases hk : k = .APPLY
    · obtain ⟨c, hc, h1, h2⟩ := happ hk
      cases cs with
      | nil => simp at hc
      | cons c2 cs =>
        simp only [List.getElem?_cons_zero, Option.some.injEq] at hc
        subst hc
        simp [evalPlain, hlit, hcomp, h1, h2, hl]
    · simp [evalPlain, hlit, hcomp, hk, hl]

theorem evalPlain_of_ground (env : Env) (ctx : Ctx) :
    ∀ (n : Nat) (a : Expr), a.size ≤ n → a.isGround = true → plainTerm a = true →
      notCompiled env a = true → evalPlain env ctx a = true := by
  intro n
  induction n with
  | zero =>
    intro a hs
    have := a.size_pos
    omega
  | succ n ih =>
    intro a hs hg hp hc
    obtain ⟨hlit, happ, hch⟩ := plainTerm_spec a hp
    apply evalPlain_intro env ctx a hlit (notCompiled_self env a hc)
    · intro hap
      obtain ⟨c, hc0, h1, h2⟩ := happ hap
      have hcmem : c ∈ a.children := List.getElem?_mem hc0
      have hcg := Expr.isGround_children hg c hcmem
      refine ⟨c, hc0, ?_, ?_⟩
      · rw [substitute_ground ctx _ c (Nat.le_refl _) hcg]
        exact h1
      · rw [substitute_ground ctx _ c (Nat.le_refl _) hcg]
        exact h2
    · intro c hcmem
      have := Expr.size_lt_of_mem_children hcmem
      exact ih c (by omega) (Expr.isGround_children hg c hcmem) (hch c hcmem)
        (notCompiled_children env a hc c hcmem)

theorem exists_zip_partner {α β : Type} :
    ∀ (xs : List α) (ys : List β), xs.length = ys.length → ∀ x ∈ xs, ∃ y, (x, y) ∈ xs.zip ys := by
  intro xs
  induction xs with
  | nil => intro ys _ x hx; cases hx
  | cons a xs ih =>
    intro ys hlen x hx
    cases ys with
    | nil => simp at hlen
    | cons b ys =>
      simp only [List.length_cons, Nat.add_right_cancel_iff] at hlen
      rcases List.mem_cons.1 hx with hx | hx
      · subst hx
        exact ⟨b, by simp⟩
      · obtain ⟨y, hy⟩ := ih ys hlen x hx
        exact ⟨y, by simp [hy]⟩

theorem matchClosed_evalPlain (env : Env) (V : MatchVisited) (ctx : Ctx)
    (hV : ∀ pr ∈ V, MatchClosed [] V ctx pr) :
    ∀ (n : Nat) (a b : Expr), a.size ≤ n → b.isGround = true → plainTerm b = true →
      notCompiled env a = true → (a = b ∨ (a, b) ∈ V) → evalPlain env ctx a = true := by
  intro n
  induction n with
  | zero =>
    intro a b hs
    have := a.size_pos
    omega
  | succ n ih =>
    intro a b hs hg hp hc hab
    rcases hab with hab | hab
    · subst hab
      exact evalPlain_of_ground env ctx _ a (Nat.le_refl _) hg hp hc
    · rcases hV _ hab with ⟨_, hk, _⟩ | ⟨h0, hn, hk, hzip⟩
      · simp only at hk
        cases a with
        | leaf k l =>
          simp only [Expr.getKind_leaf] at hk
          simp [evalPlain, hk]
        | node k cs =>
          simp only [Expr.getKind_node] at hk
          simp [evalPlain, hk]
      · simp only at h0 hn hk hzip
        obtain ⟨hlit, happ, hch⟩ := plainTerm_spec b hp
        have hpair : ∀ q ∈ a.children.zip b.children, q.1 = q.2 ∨ q ∈ V := by
          intro q hq
          rcases hzip q hq with h1 | h1 | h1
          · exact Or.inl h1
          · exact Or.inr h1
          · cases h1
        apply evalPlain_intro env ctx a (hk ▸ hlit) (notCompiled_self env a hc)
        · intro hap
          obtain ⟨b0, hb0, h1, h2⟩ := happ (hk ▸ hap)
          have hb0mem : b0 ∈ b.children := List.getElem?_mem hb0
          cases hac : a.children with
          | nil => simp [Expr.getNumChildren, hac] at h0
          | cons a0 as =>
            cases hbc : b.children with
            | nil => simp [hbc] at hb0
            | cons b1 bs =>
              simp only [hbc, List.getElem?_cons_zero, Option.some.injEq] at hb0
              subst hb0
              have hq : (a0, b1) ∈ a.children.zip b.children := by simp [hac, hbc]
              have hsub := matchClosed_substitute V ctx hV _ a0 b1 (Nat.le_refl _)
                (Expr.isGround_children hg b1 hb0mem) (hpair _ hq)
              refine ⟨a0, by simp, ?_, ?_⟩
              · rw [hsub]
                exact h1
              · rw [hsub]
                exact h2
        · intro c hcmem
          obtain ⟨d, hd⟩ := exists_zip_partner a.children b.children hn c hcmem
          have hdmem := (mem_zip_left hd).2
          have := Expr.size_lt_of_mem_children hcmem
          exact ih c d (by omega) (Expr.isGround_children hg d hdmem) (hch d hdmem)
            (notCompiled_children env a hc c hcmem) (hpair _ hd)

/-! ### The post-order walk -/

theorem getTypePostOrder_eq (env : Env) (fuel : Nat) (e : Expr) (tc : TypeChecker) :
    getTypePostOrder env fuel e tc
      = (match assocFind e tc.d_typeCache with
        | some t => some (some t, tc)
        | none =>
          match getTypePostOrderList env fuel e.children tc with
          | none => none
          | some (false, tc1) => some (none, tc1)
          | some (true, tc1) => postOrderNode env fuel e tc1) := by
  cases e with
  | leaf k l => simp [getTypePostOrder, getTypePostOrderList]
  | node k cs => simp [getTypePostOrder]

theorem Expr.mem_subterms_self (e : Expr) : e ∈ e.subterms := by
  cases e <;> simp [Expr.subterms]

theorem Expr.subterms_eq (e : Expr) : e.subterms = e :: Expr.subtermsList e.children := by
  cases e <;> simp [Expr.subterms, Expr.subtermsList]

theorem Expr.mem_subtermsList {x : Expr} {cs : List Expr} :
    x ∈ Expr.subtermsList cs ↔ ∃ c ∈ cs, x ∈ c.subterms := by
  induction cs with
  | nil => simp [Expr.subtermsList]
  | cons c cs ih => simp [Expr.subtermsList, ih]

theorem Expr.size_le_of_mem_subterms :
    ∀ (n : Nat) (e x : Expr), e.size ≤ n → x ∈ e.subterms → x.size ≤ e.size := by
  intro n
  induction n with
  | zero =>
    intro e x hs
    have := e.size_pos
    omega
  | succ n ih =>
    intro e x hs hx
    rw [Expr.subterms_eq] at hx
    rcases List.mem_cons.1 hx with hx | hx
    · subst hx
      exact Nat.le_refl _
    · obtain ⟨c, hc, hxc⟩ := Expr.mem_subtermsList.1 hx
      have h1 := Expr.size_lt_of_mem_children hc
      have h2 := ih c x (by omega) hxc
      omega

theorem Expr.not_mem_subtermsList_children (e : Expr) : e ∉ Expr.subtermsList e.children := by
  intro h
  obtain ⟨c, hc, hxc⟩ := Expr.mem_subtermsList.1 h
  have h1 := Expr.size_lt_of_mem_children hc
  have h2 := Expr.size_le_of_mem_subterms _ c e (Nat.le_refl _) hxc
  omega

theorem walkFacts_refl (env : Env) (fuel : Nat) (nodes : List Expr) (tc : TypeChecker) :
    WalkFacts env fuel nodes tc tc :=
  ⟨fun _ _ h => h, fun _ h => Or.inl h, fun h => h, fun _ _ h => Or.inl h⟩

theorem walkFacts_trans {env : Env} {fuel : Nat} {n1 n2 nodes : List Expr}
    {tc tc1 tc2 : TypeChecker} (h1 : WalkFacts env fuel n1 tc tc1)
    (h2 : WalkFacts env fuel n2 tc1 tc2) (hn1 : ∀ x ∈ n1, x ∈ nodes) (hn2 : ∀ x ∈ n2, x ∈ nodes) :
    WalkFacts env fuel nodes tc tc2 := by
  obtain ⟨a1, b1, c1, d1⟩ := h1
  obtain ⟨a2, b2, c2, d2⟩ := h2
  refine ⟨fun k v h => a2 k v (a1 k v h), ?_, fun h => c2 (c1 h), ?_⟩
  · intro k hk
    rcases b2 k hk with h | h
    · rcases b1 k h with h | h
      · exact Or.inl h
      · exact Or.inr (hn1 k h)
    · exact Or.inr (hn2 k h)
  · intro k v hk
    rcases d2 k v hk with h | h
    · exact d1 k v h
    · exact Or.inr h

theorem walkFacts_same_cache {env : Env} {fuel : Nat} {nodes : List Expr}
    {tc tc2 : TypeChecker} (h : tc2.d_typeCache = tc.d_typeCache) :
    WalkFacts env fuel nodes tc tc2 := by
  refine ⟨?_, ?_, ?_, ?_⟩ <;> rw [h]
  · exact fun _ _ h => h
  · exact fun _ h => Or.inl h
  · exact fun h => h
  · exact fun _ _ h => Or.inl h

/-- The facts on the typing of one node whose children all have a type in a closed
cache. -/
theorem postOrderNode_facts (env : Env) (fuel : Nat) (e : Expr) (tc tc2 : TypeChecker)
    (r : Option Expr) (hnone : assocFind e tc.d_typeCache = none)
    (hch : ∀ c ∈ e.children, assocFind c tc.d_typeCache ≠ none)
    (h : postOrderNode env fuel e tc = some (r, tc2)) :
    WalkFacts env fuel [e] tc tc2
      ∧ (r = none → WalkFailure env fuel [e] tc2)
      ∧ (∀ t, r = some t → assocFind e tc2.d_typeCache = some t) := by
  unfold postOrderNode at h
  split at h
  · cases h
  · rename_i tc1 hint
    cases h
    have hc := getTypeInternal_typeCache _ _ _ _ _ _ hint
    refine ⟨walkFacts_same_cache hc, ?_, ?_⟩
    · intro _
      exact ⟨e, tc, by simp, hint, by rw [hc]; exact hnone⟩
    · intro t ht
      cases ht
  · rename_i t tc1 hint
    cases h
    have hc := getTypeInternal_typeCache _ _ _ _ _ _ hint
    refine ⟨⟨?_, ?_, ?_, ?_⟩, ?_, ?_⟩
    · intro k v hk
      simp only
      rw [hc]
      have hne : e ≠ k := by
        intro hek
        subst hek
        rw [hnone] at hk
        cases hk
      rw [assocFind_cons_ne _ _ _ _ hne]
      exact hk
    · intro k hk
      simp only at hk
      rw [hc] at hk
      by_cases hek : e = k
      · subst hek
        exact Or.inr (by simp)
      · rw [assocFind_cons_ne _ _ _ _ hek] at hk
        exact Or.inl hk
    · intro hclosed x hx y hy
      simp only at hx ⊢
      rw [hc] at hx ⊢
      have hold : ∀ z, assocFind z tc.d_typeCache ≠ none →
          assocFind z ((e, t) :: tc.d_typeCache) ≠ none := by
        intro z hz
        by_cases hez : e = z
        · subst hez
          rw [assocFind_cons_self]
          simp
        · rw [assocFind_cons_ne _ _ _ _ hez]
          exact hz
      by_cases hex : e = x
      · subst hex
        rw [Expr.subterms_eq] at hy
        rcases List.mem_cons.1 hy with hy | hy
        · subst hy
          rw [assocFind_cons_self]
          simp
        · obtain ⟨c, hcmem, hyc⟩ := Expr.mem_subtermsList.1 hy
          exact hold y (hclosed c (hch c hcmem) y hyc)
      · rw [assocFind_cons_ne _ _ _ _ hex] at hx
        exact hold y (hclosed x hx y hy)
    · intro k v hk
      simp only at hk
      rw [hc] at hk
      by_cases hek : e = k
      · subst hek
        rw [assocFind_cons_self] at hk
        cases hk
        exact Or.inr ⟨tc, tc1, hint⟩
      · rw [assocFind_cons_ne _ _ _ _ hek] at hk
        exact Or.inl hk
    · intro hr
      cases hr
    · intro t2 ht
      cases ht
      exact assocFind_cons_self _ _ _

theorem walkFailure_mono {env : Env} {fuel : Nat} {n1 nodes : List Expr} {tc2 : TypeChecker}
    (h : WalkFailure env fuel n1 tc2) (hn : ∀ x ∈ n1, x ∈ nodes) :
    WalkFailure env fuel nodes tc2 := by
  obtain ⟨n, tcn, h1, h2, h3⟩ := h
  exact ⟨n, tcn, hn n h1, h2, h3⟩

/-- The facts on the walk of a sequence of children, from the facts on the walk of a
term of bounded size. -/
theorem getTypePostOrderList_facts (env : Env) (fuel : Nat) (n : Nat)
    (ih : ∀ (e : Expr), e.size ≤ n → ∀ (tc tc2 : TypeChecker) (r : Option Expr),
      getTypePostOrder env fuel e tc = some (r, tc2) →
      WalkFacts env fuel e.subterms tc tc2
        ∧ (r = none → WalkFailure env fuel e.subterms tc2 ∧ FailureAt env fuel tc2 e)
        ∧ (∀ t, r = some t → assocFind e tc2.d_typeCache = some t)) :
    ∀ (cs : List Expr), (∀ c ∈ cs, c.size ≤ n) → ∀ (tc tc2 : TypeChecker) (ok : Bool),
      getTypePostOrderList env fuel cs tc = some (ok, tc2) →
      WalkFacts env fuel (Expr.subtermsList cs) tc tc2
        ∧ (ok = false → WalkFailure env fuel (Expr.subtermsList cs) tc2
            ∧ ∃ c ∈ cs, FailureAt env fuel tc2 c)
        ∧ (ok = true → ∀ c ∈ cs, assocFind c tc2.d_typeCache ≠ none) := by
  intro cs
  induction cs with
  | nil =>
    intro _ tc tc2 ok h
    simp only [getTypePostOrderList, Option.some.injEq, Prod.mk.injEq] at h
    obtain ⟨h1, h2⟩ := h
    subst h1 h2
    exact ⟨walkFacts_refl _ _ _ _, (fun h => by cases h), (fun _ c hc => by cases hc)⟩
  | cons c cs ihcs =>
    intro hsz tc tc2 ok h
    have hsub1 : ∀ x ∈ Expr.subtermsList cs, x ∈ Expr.subtermsList (c :: cs) := by
      intro x hx
      simp [Expr.subtermsList, hx]
    have hsub2 : ∀ x ∈ c.subterms, x ∈ Expr.subtermsList (c :: cs) := by
      intro x hx
      simp [Expr.subtermsList, hx]
    simp only [getTypePostOrderList] at h
    split at h
    · cases h
    · rename_i tc1 hlist
      cases h
      obtain ⟨f1, f2, _⟩ := ihcs (fun c2 h2 => hsz c2 (List.mem_cons_of_mem _ h2)) _ _ _ hlist
      obtain ⟨w, c2, hc2, hfa⟩ := f2 rfl
      exact ⟨walkFacts_trans f1 (walkFacts_refl env fuel [] _) hsub1 (by simp),
        (fun _ => ⟨walkFailure_mono w hsub1, c2, List.mem_cons_of_mem _ hc2, hfa⟩), (fun h => by cases h)⟩
    · rename_i tc1 hlist
      obtain ⟨f1, _, f3⟩ := ihcs (fun c2 h2 => hsz c2 (List.mem_cons_of_mem _ h2)) _ _ _ hlist
      split at h
      · cases h
      · rename_i tc3 hwalk
        cases h
        obtain ⟨g1, g2, _⟩ := ih c (hsz c (List.mem_cons_self _ _)) _ _ _ hwalk
        exact ⟨walkFacts_trans f1 g1 hsub1 hsub2,
          (fun _ => ⟨walkFailure_mono (g2 rfl).1 hsub2, c, List.mem_cons_self _ _, (g2 rfl).2⟩),
          (fun h => by cases h)⟩
      · rename_i t tc3 hwalk
        cases h
        obtain ⟨g1, _, g3⟩ := ih c (hsz c (List.mem_cons_self _ _)) _ _ _ hwalk
        refine ⟨walkFacts_trans f1 g1 hsub1 hsub2, (fun h => by cases h), ?_⟩
        intro _ c2 hc2
        rcases List.mem_cons.1 hc2 with hc2 | hc2
        · subst hc2
          rw [g3 t rfl]
          simp
        · have := f3 rfl c2 hc2
          cases hfind : assocFind c2 tc1.d_typeCache with
          | none => exact absurd hfind this
          | some v =>
            rw [g1.1 c2 v hfind]
            simp

theorem getTypePostOrder_facts (env : Env) (fuel : Nat) :
    ∀ (n : Nat) (e : Expr), e.size ≤ n → ∀ (tc tc2 : TypeChecker) (r : Option Expr),
      getTypePostOrder env fuel e tc = some (r, tc2) →
      WalkFacts env fuel e.subterms tc tc2
        ∧ (r = none → WalkFailure env fuel e.subterms tc2 ∧ FailureAt env fuel tc2 e)
        ∧ (∀ t, r = some t → assocFind e tc2.d_typeCache = some t) := by
  intro n
  induction n with
  | zero =>
    intro e hs
    have := e.size_pos
    omega
  | succ n ih =>
    intro e hs tc tc2 r h
    rw [getTypePostOrder_eq] at h
    split at h
    · rename_i t hfound
      cases h
      exact ⟨walkFacts_refl _ _ _ _, (fun h => by cases h),
        (fun t2 ht => by cases ht; exact hfound)⟩
    · rename_i hnone
      have hsubc : ∀ x ∈ Expr.subtermsList e.children, x ∈ e.subterms := by
        intro x hx
        rw [Expr.subterms_eq]
        exact List.mem_cons_of_mem _ hx
      have hlistfacts := getTypePostOrderList_facts env fuel n ih e.children
        (fun c hc => by
          have := Expr.size_lt_of_mem_children hc
          omega)
      have hkeep : ∀ tc1 : TypeChecker,
          WalkFacts env fuel (Expr.subtermsList e.children) tc tc1 →
          assocFind e tc1.d_typeCache = none := by
        intro tc1 f1
        by_contra hc
        rcases f1.2.1 e hc with h1 | h1
        · exact h1 hnone
        · exact Expr.not_mem_subtermsList_children e h1
      split at h
      · cases h
      · rename_i tc1 hlist
        cases h
        obtain ⟨f1, f2, _⟩ := hlistfacts _ _ _ hlist
        obtain ⟨w, c, hc, hfa⟩ := f2 rfl
        exact ⟨walkFacts_trans f1 (walkFacts_refl env fuel [] _) hsubc (by simp),
          (fun _ => ⟨walkFailure_mono w hsubc, FailureAt.underChild e c hc (hkeep _ f1) hfa⟩),
          (fun t ht => by cases ht)⟩
      · rename_i tc1 hlist
        obtain ⟨f1, _, f3⟩ := hlistfacts _ _ _ hlist
        have hnone1 := hkeep _ f1
        obtain ⟨g1, g2, g3⟩ := postOrderNode_facts env fuel e tc1 tc2 r hnone1 (f3 rfl) h
        have hself : ∀ x ∈ [e], x ∈ e.subterms := by
          intro x hx
          simp only [List.mem_singleton] at hx
          subst hx
          exact Expr.mem_subterms_self _
        refine ⟨walkFacts_trans f1 g1 hsubc hself, ?_, g3⟩
        intro hr
        refine ⟨walkFailure_mono (g2 hr) hself, ?_⟩
        obtain ⟨n2, tcn, hn1, hn2, hn3⟩ := g2 hr
        simp only [List.mem_singleton] at hn1
        subst hn1
        exact FailureAt.atNode _ tcn hn2 hn3

/-! ### The loop of `getType` refines the post-order walk -/

theorem getTypeLoop_cached (env : Env) (fuelEval fuel : Nat) (cur : Expr) (rest visited : List Expr)
    (ret : Option Expr) (tc : TypeChecker) (t : Expr)
    (h : assocFind cur tc.d_typeCache = some t) :
    getTypeLoop env fuelEval (fuel + 1) (cur :: rest) visited ret tc
      = getTypeLoop env fuelEval fuel rest visited (some t) tc := by
  simp [getTypeLoop, h]

theorem getTypeLoop_expand (env : Env) (fuelEval fuel : Nat) (cur : Expr)
    (rest visited : List Expr) (ret : Option Expr) (tc : TypeChecker)
    (h : assocFind cur tc.d_typeCache = none) (hv : cur ∉ visited) :
    getTypeLoop env fuelEval (fuel + 1) (cur :: rest) visited ret tc
      = getTypeLoop env fuelEval fuel (cur.children.reverse ++ cur :: rest) (cur :: visited)
          ret tc := by
  simp [getTypeLoop, h, hv]

theorem getTypeLoop_type (env : Env) (fuelEval fuel : Nat) (cur : Expr)
    (rest visited : List Expr) (ret : Option Expr) (tc : TypeChecker)
    (h : assocFind cur tc.d_typeCache = none) (hv : cur ∈ visited) :
    getTypeLoop env fuelEval (fuel + 1) (cur :: rest) visited ret tc
      = (match postOrderNode env fuelEval cur tc with
        | none => none
        | some (none, tc1) => some (none, tc1)
        | some (some t, tc2) => getTypeLoop env fuelEval fuel rest visited (some t) tc2) := by
  simp only [getTypeLoop, h, hv, not_true_eq_false, if_false, postOrderNode]
  cases getTypeInternal env fuelEval tc cur with
  | none => rfl
  | some res =>
    obtain ⟨r, tc1⟩ := res
    cases r <;> rfl

theorem listRun_of_nodeRun (env : Env) (fuelEval : Nat) (n : Nat)
    (ih : ∀ (e : Expr), e.size ≤ n → ∀ (rest visited : List Expr) (ret : Option Expr)
      (tc : TypeChecker),
      (∀ v ∈ visited, assocFind v tc.d_typeCache = none → e.size < v.size) →
      NodeRun env fuelEval e rest visited ret tc) :
    ∀ (cs : List Expr), (∀ c ∈ cs, c.size ≤ n) →
      ∀ (rest visited : List Expr) (ret : Option Expr) (tc : TypeChecker),
      (∀ v ∈ visited, assocFind v tc.d_typeCache = none → ∀ c ∈ cs, c.size < v.size) →
      ListRun env fuelEval cs rest visited ret tc := by
  intro cs
  induction cs with
  | nil =>
    intro _ rest visited ret tc _
    refine ⟨0, by simp [Expr.sizeList], ?_⟩
    simp only [getTypePostOrderList]
    exact ⟨visited, ret, fun fuel => rfl, fun _ h => h, fun _ h => Or.inl h⟩
  | cons c cs ihcs =>
    intro hsz rest visited ret tc hvis
    obtain ⟨m1, hm1, hrun1⟩ := ihcs (fun c2 h2 => hsz c2 (List.mem_cons_of_mem _ h2))
      (c :: rest) visited ret tc (fun v hv hnone c2 h2 => hvis v hv hnone c2 (List.mem_cons_of_mem _ h2))
    have hstack : (c :: cs).reverse ++ rest = cs.reverse ++ (c :: rest) := by simp
    rw [ListRun, hstack]
    simp only [getTypePostOrderList]
    cases hlist : getTypePostOrderList env fuelEval cs tc with
    | none =>
      rw [hlist] at hrun1
      exact ⟨m1, by simp only [Expr.sizeList]; omega, hrun1⟩
    | some res =>
      obtain ⟨ok, tc1⟩ := res
      rw [hlist] at hrun1
      cases ok with
      | false => exact ⟨m1, by simp only [Expr.sizeList]; omega, hrun1⟩
      | true =>
        obtain ⟨visited1, ret1, hloop1, hsub1, hnew1⟩ := hrun1
        have hext := (getTypePostOrderList_facts env fuelEval (Expr.sizeList cs)
          (fun e _ => getTypePostOrder_facts env fuelEval e.size e (Nat.le_refl _)) cs
          (fun c2 h2 => Expr.size_le_sizeList_of_mem h2) _ _ _ hlist).1.1
        obtain ⟨m2, hm2a, hm2, hrun2⟩ := ih c (hsz c (List.mem_cons_self _ _)) rest visited1
          ret1 tc1 (by
            intro v hv hnone
            rcases hnew1 v hv with h1 | h1
            · refine hvis v h1 ?_ c (List.mem_cons_self _ _)
              cases hfind : assocFind v tc.d_typeCache with
              | none => rfl
              | some t =>
                rw [hext v t hfind] at hnone
                cases hnone
            · exact absurd hnone h1)
        refine ⟨m2 + m1, by simp only [Expr.sizeList]; omega, ?_⟩
        simp only
        cases hwalk : getTypePostOrder env fuelEval c tc1 with
        | none =>
          rw [hwalk] at hrun2
          simp only
          intro fuel
          rw [← Nat.add_assoc, hloop1, hrun2]
        | some res2 =>
          obtain ⟨r, tc2⟩ := res2
          rw [hwalk] at hrun2
          cases r with
          | none =>
            simp only
            intro fuel
            rw [← Nat.add_assoc, hloop1, hrun2]
          | some t =>
            obtain ⟨visited2, hloop2, hsub2, hnew2⟩ := hrun2
            have hext2 := (getTypePostOrder_facts env fuelEval c.size c (Nat.le_refl _) _ _ _
              hwalk).1.1
            refine ⟨visited2, some t, ?_, fun v hv => hsub2 v (hsub1 v hv), ?_⟩
            · intro fuel
              rw [← Nat.add_assoc, hloop1, hloop2]
            · intro v hv
              rcases hnew2 v hv with h1 | h1
              · rcases hnew1 v h1 with h2 | h2
                · exact Or.inl h2
                · refine Or.inr ?_
                  cases hfind : assocFind v tc1.d_typeCache with
                  | none => exact absurd hfind h2
                  | some t2 =>
                    rw [hext2 v t2 hfind]
                    simp
              · exact Or.inr h1

theorem nodeRun_of_size (env : Env) (fuelEval : Nat) :
    ∀ (n : Nat) (e : Expr), e.size ≤ n → ∀ (rest visited : List Expr) (ret : Option Expr)
      (tc : TypeChecker),
      (∀ v ∈ visited, assocFind v tc.d_typeCache = none → e.size < v.size) →
      NodeRun env fuelEval e rest visited ret tc := by
  intro n
  induction n with
  | zero =>
    intro e hs
    have := e.size_pos
    omega
  | succ n ih =>
    intro e hs rest visited ret tc hvis
    have hpos := e.size_pos
    rw [NodeRun, getTypePostOrder_eq]
    cases hfind : assocFind e tc.d_typeCache with
    | some t =>
      refine ⟨1, Nat.le_refl _, by omega, ?_⟩
      simp only
      exact ⟨visited, fun fuel => getTypeLoop_cached env fuelEval fuel e rest visited ret tc t hfind,
        fun _ h => h, fun _ h => Or.inl h⟩
    | none =>
      have hnotvis : e ∉ visited := by
        intro hmem
        have := hvis e hmem hfind
        omega
      have hexp := fun fuel =>
        getTypeLoop_expand env fuelEval fuel e rest visited ret tc hfind hnotvis
      obtain ⟨m1, hm1, hrun1⟩ := listRun_of_nodeRun env fuelEval n ih e.children
        (fun c hc => by
          have := Expr.size_lt_of_mem_children hc
          omega)
        (e :: rest) (e :: visited) ret tc
        (by
          intro v hv hnone c hc
          have hlt := Expr.size_lt_of_mem_children hc
          rcases List.mem_cons.1 hv with hv | hv
          · subst hv
            exact hlt
          · have := hvis v hv hnone
            omega)
      have hsz := e.size_eq_children
      simp only
      cases hlist : getTypePostOrderList env fuelEval e.children tc with
      | none =>
        rw [hlist] at hrun1
        refine ⟨m1 + 1, by omega, by omega, ?_⟩
        simp only
        intro fuel
        rw [← Nat.add_assoc, hexp, hrun1]
      | some res =>
        obtain ⟨ok, tc1⟩ := res
        rw [hlist] at hrun1
        cases ok with
        | false =>
          refine ⟨m1 + 1, by omega, by omega, ?_⟩
          simp only
          intro fuel
          rw [← Nat.add_assoc, hexp, hrun1]
        | true =>
          obtain ⟨visited1, ret1, hloop1, hsub1, hnew1⟩ := hrun1
          obtain ⟨f1, _, f3⟩ := getTypePostOrderList_facts env fuelEval (Expr.sizeList e.children)
            (fun e2 _ => getTypePostOrder_facts env fuelEval e2.size e2 (Nat.le_refl _))
            e.children (fun c2 h2 => Expr.size_le_sizeList_of_mem h2) _ _ _ hlist
          have hnone1 : assocFind e tc1.d_typeCache = none := by
            by_contra hc
            rcases f1.2.1 e hc with h1 | h1
            · exact h1 hfind
            · exact Expr.not_mem_subtermsList_children e h1
          have hmem1 : e ∈ visited1 := hsub1 e (List.mem_cons_self _ _)
          have htype := fun fuel =>
            getTypeLoop_type env fuelEval fuel e rest visited1 ret1 tc1 hnone1 hmem1
          refine ⟨1 + m1 + 1, by omega, by omega, ?_⟩
          simp only
          cases hnode : postOrderNode env fuelEval e tc1 with
          | none =>
            simp only
            intro fuel
            rw [← Nat.add_assoc, ← Nat.add_assoc, hexp, hloop1, htype, hnode]
          | some res2 =>
            obtain ⟨r, tc2⟩ := res2
            obtain ⟨g1, _, g3⟩ := postOrderNode_facts env fuelEval e tc1 tc2 r hnone1 (f3 rfl) hnode
            cases r with
            | none =>
              simp only
              intro fuel
              rw [← Nat.add_assoc, ← Nat.add_assoc, hexp, hloop1, htype, hnode]
            | some t =>
              simp only
              refine ⟨visited1, ?_, fun v hv => hsub1 v (List.mem_cons_of_mem _ hv), ?_⟩
              · intro fuel
                rw [← Nat.add_assoc, ← Nat.add_assoc, hexp, hloop1, htype, hnode]
              · intro v hv
                rcases hnew1 v hv with h1 | h1
                · rcases List.mem_cons.1 h1 with h2 | h2
                  · subst h2
                    refine Or.inr ?_
                    rw [g3 t rfl]
                    simp
                  · exact Or.inl h2
                · refine Or.inr ?_
                  cases hf : assocFind v tc1.d_typeCache with
                  | none => exact absurd hf h1
                  | some t2 =>
                    rw [g1.1 v t2 hf]
                    simp

/-- The loop of `getType` computes the post-order walk, when its fuel covers two passes
for each node of the term. -/
theorem getType_eq_getTypePostOrder (env : Env) (fuel : Nat) (tc : TypeChecker) (e : Expr)
    (hfuel : 2 * e.size ≤ fuel) :
    getType env fuel tc e = getTypePostOrder env fuel e tc := by
  obtain ⟨m, _, hm2, hrun⟩ := nodeRun_of_size env fuel e.size e (Nat.le_refl _) [] [] none tc
    (fun _ h => by cases h)
  obtain ⟨k, rfl⟩ : ∃ k, fuel = k + m := ⟨fuel - m, by omega⟩
  unfold getType
  cases hwalk : getTypePostOrder env (k + m) e tc with
  | none =>
    rw [hwalk] at hrun
    exact hrun k
  | some res =>
    obtain ⟨r, tc2⟩ := res
    rw [hwalk] at hrun
    cases r with
    | none => exact hrun k
    | some t =>
      obtain ⟨visited2, hloop, _, _⟩ := hrun
      rw [hloop k]
      cases k <;> simp [getTypeLoop]

/-! ### Literal type rules -/

theorem literalTypeRulesInit_registered (opts : Options) (k : Kind) :
    assocFind k (literalTypeRulesInit opts) ≠ none ↔ registeredKind opts k := by
  obtain ⟨d, h⟩ := opts
  cases d <;> cases h <;> cases k <;>
    simp [literalTypeRulesInit, assocFind, registeredKind]

theorem assocFind_cons_of_some {α β : Type} [DecidableEq α] (k a : α) (v : β)
    (m : List (α × β)) (h : assocFind a m ≠ none) :
    assocFind k ((a, v) :: m) ≠ none ↔ assocFind k m ≠ none := by
  by_cases hk : k = a
  · subst hk
    simp [assocFind_cons_self, h]
  · rw [assocFind_cons_ne k a v m (fun h => hk h.symm)]

theorem rulesReachable_registered (env : Env) (opts : Options)
    (rules : List (Kind × Option Expr)) (hr : RulesReachable env opts rules) (k : Kind) :
    assocFind k rules ≠ none ↔ registeredKind opts k := by
  induction hr with
  | init => exact literalTypeRulesInit_registered opts k
  | set rules rules2 k2 t _ hset ih =>
    unfold setLiteralTypeRule at hset
    cases hf : assocFind k2 rules with
    | none => simp [hf] at hset
    | some cur =>
      simp only [hf] at hset
      split at hset
      · cases hset
      · cases hset
        rw [assocFind_cons_of_some k k2 t rules (by simp [hf])]
        exact ih
  | getOrSet rules rules2 k2 t _ hget ih =>
    unfold getOrSetLiteralTypeRule at hget
    cases hf : assocFind k2 rules with
    | none => simp [hf] at hget
    | some cur =>
      cases cur with
      | none =>
        simp only [hf] at hget
        cases hget
        rw [assocFind_cons_of_some k k2 _ rules (by simp [hf])]
        exact ih
      | some t2 =>
        simp only [hf] at hget
        cases hget
        exact ih

/-! ### Programs -/

theorem evaluateRules_first_match (children : List Expr) (c pat body : Expr)
    (post : List Expr) (hpat : c.children[0]? = some pat)
    (hlen : pat.children.length = children.length)
    (hm : (matchArgs (pat.children.drop 1) (children.drop 1) []).1 = true)
    (hbody : c.children[1]? = some body) :
    ∀ (pre : List Expr) (ctx0 : Ctx),
      (∀ r ∈ pre, ∃ p, r.children[0]? = some p ∧ p.children.length = children.length
        ∧ (matchArgs (p.children.drop 1) (children.drop 1) []).1 = false) →
      evaluateRules children (pre ++ c :: post) ctx0
        = some (some body, (matchArgs (pat.children.drop 1) (children.drop 1) []).2) := by
  intro pre
  induction pre with
  | nil =>
    intro ctx0 _
    simp only [List.nil_append, evaluateRules, hpat, hlen, hm, hbody]
    simp
  | cons r pre ih =>
    intro ctx0 hpre
    obtain ⟨p, hp, hplen, hpm⟩ := hpre r (List.mem_cons_self _ _)
    simp only [List.cons_append, evaluateRules, hp, hplen, hpm]
    simp only [ne_eq, not_true_eq_false, if_false, Bool.false_eq_true]
    exact ih _ (fun r2 h2 => hpre r2 (List.mem_cons_of_mem _ h2))

theorem evaluateRules_no_match (children : List Expr) :
    ∀ (rules : List Expr) (ctx0 : Ctx),
      (∀ r ∈ rules, ∃ p, r.children[0]? = some p
        ∧ (p.children.length = children.length →
            (matchArgs (p.children.drop 1) (children.drop 1) []).1 = false)) →
      ∃ ctx1, evaluateRules children rules ctx0 = some (none, ctx1) := by
  intro rules
  induction rules with
  | nil =>
    intro ctx0 _
    exact ⟨ctx0, rfl⟩
  | cons r rules ih =>
    intro ctx0 hrules
    obtain ⟨p, hp, hpm⟩ := hrules r (List.mem_cons_self _ _)
    by_cases hlen : p.children.length = children.length
    · have hpm2 := hpm hlen
      simp only [evaluateRules, hp, hlen, hpm2]
      simp only [ne_eq, not_true_eq_false, if_false, Bool.false_eq_true]
      exact ih _ (fun r2 h2 => hrules r2 (List.mem_cons_of_mem _ h2))
    · have hlen2 : ¬ children.length = p.children.length := fun h => hlen h.symm
      exact ⟨[], by simp [evaluateRules, hp, hlen2]⟩

/-! ### Arity errors -/

theorem checkArity_true_iff (k : Kind) (n : Nat) : checkArity k n = true ↔ arityTable k n := by
  cases k <;> simp [checkArity, arityTable]
  omega

theorem getTypeLoop_cached_children (env : Env) (fuelEval : Nat) :
    ∀ (cs : List Expr) (fuel : Nat) (rest visited : List Expr) (ret : Option Expr)
      (tc : TypeChecker), (∀ c ∈ cs, assocFind c tc.d_typeCache ≠ none) →
      ∃ ret2, getTypeLoop env fuelEval (fuel + cs.length) (cs ++ rest) visited ret tc
        = getTypeLoop env fuelEval fuel rest visited ret2 tc := by
  intro cs
  induction cs with
  | nil =>
    intro fuel rest visited ret tc _
    exact ⟨ret, rfl⟩
  | cons c cs ih =>
    intro fuel rest visited ret tc h
    cases hc : assocFind c tc.d_typeCache with
    | none => exact absurd hc (h c (List.mem_cons_self _ _))
    | some t =>
      obtain ⟨ret2, h2⟩ := ih fuel rest visited (some t) tc
        (fun x hx => h x (List.mem_cons_of_mem _ hx))
      refine ⟨ret2, ?_⟩
      have hf : fuel + (c :: cs).length = (fuel + cs.length) + 1 := by
        simp only [List.length_cons]
        omega
      rw [hf, List.cons_append, getTypeLoop_cached env fuelEval _ c _ visited ret tc t hc]
      exact h2

theorem getType_of_cached_children (env : Env) (fuel : Nat) (tc : TypeChecker) (e : Expr)
    (hcached : ∀ c ∈ e.children, lookupType tc c ≠ none) (hnew : lookupType tc e = none)
    (hfuel : e.getNumChildren + 2 ≤ fuel) :
    getType env fuel tc e
      = (match getTypeInternal env fuel tc e with
        | none => none
        | some (none, tc1) => some (none, tc1)
        | some (some t, tc1) =>
          some (some t, { tc1 with d_typeCache := (e, t) :: tc1.d_typeCache })) := by
  obtain ⟨n, hn⟩ : ∃ n, fuel = ((n + 1) + e.children.reverse.length) + 1 :=
    ⟨fuel - e.getNumChildren - 2, by
      simp only [List.length_reverse, Expr.getNumChildren] at hfuel ⊢
      omega⟩
  unfold getType
  unfold lookupType at hnew
  have hc2 : ∀ c ∈ e.children.reverse, assocFind c tc.d_typeCache ≠ none := by
    intro c hc
    exact hcached c (List.mem_reverse.mp hc)
  obtain ⟨ret2, h2⟩ := getTypeLoop_cached_children env fuel e.children.reverse (n + 1) [e] [e]
    none tc hc2
  conv => lhs; arg 3; rw [hn]
  rw [getTypeLoop_expand env fuel _ e [] [] none tc hnew (by simp), h2,
    getTypeLoop_type env fuel n e [] [e] ret2 tc hnew (by simp)]
  simp only [postOrderNode]
  cases getTypeInternal env fuel tc e with
  | none => rfl
  | some res =>
    obtain ⟨r, tc1⟩ := res
    cases r with
    | none => rfl
    | some t => cases n <;> simp [getTypeLoop]

theorem getTypeInternal_literalOp (env : Env) (fuel : Nat) (tc : TypeChecker) (e : Expr)
    (hk : isLiteralOp e.getKind = true) :
    getTypeInternal env fuel tc e
      = (match getLiteralOpType env tc.d_literalTypeRules e.getKind
            (e.children.map (lookupType tc)) with
        | none => none
        | some (r, rules1) => some (r, { tc with d_literalTypeRules := rules1 })) := by
  unfold getTypeInternal
  cases hkind : e.getKind <;> simp [hkind, isLiteralOp] at hk ⊢

theorem getLiteralOpType_arity (env : Env) (tc : TypeChecker) (e : Expr)
    (hcached : ∀ c ∈ e.children, lookupType tc c ≠ none)
    (har : checkArity e.getKind (e.getNumChildren - literalOpIndex tc e) = false) :
    getLiteralOpType env tc.d_literalTypeRules e.getKind (e.children.map (lookupType tc))
      = some (none, tc.d_literalTypeRules) := by
  unfold getLiteralOpType
  unfold literalOpIndex Expr.getNumChildren at har
  cases hcs : e.children with
  | nil =>
    rw [hcs] at har
    simp at har
    simp [har]
  | cons c cs =>
    rw [hcs] at har
    cases hc : lookupType tc c with
    | none => exact absurd hc (hcached c (by rw [hcs]; exact List.mem_cons_self _ _))
    | some t =>
      simp only [hc] at har
      simp only [List.map_cons, hc, List.length_cons, List.length_map]
      simp only [List.length_cons] at har
      simp [har]

/-! ### Lists of an associative operator -/

theorem appliesHaveArgsList_iff (cs : List Expr) :
    appliesHaveArgsList cs = true ↔ ∀ c ∈ cs, appliesHaveArgs c = true := by
  induction cs with
  | nil => simp [appliesHaveArgsList]
  | cons c cs ih => simp [appliesHaveArgsList, ih]

theorem appliesHaveArgs_children (e : Expr) (h : appliesHaveArgs e = true) :
    ∀ c ∈ e.children, appliesHaveArgs c = true := by
  cases e with
  | leaf k l => simp
  | node k cs =>
    simp only [appliesHaveArgs, Bool.and_eq_true] at h
    exact (appliesHaveArgsList_iff cs).mp h.2

theorem appliesHaveArgs_apply (e : Expr) (h : appliesHaveArgs e = true)
    (hk : e.getKind = .APPLY) :
    ∃ c0 c1, e.children[0]? = some c0 ∧ e.children[1]? = some c1 := by
  cases e with
  | leaf k l =>
    simp only [Expr.getKind_leaf] at hk
    simp [appliesHaveArgs, hk] at h
  | node k cs =>
    simp only [Expr.getKind_node] at hk
    simp only [appliesHaveArgs, hk, Bool.and_eq_true] at h
    match cs, h with
    | c0 :: c1 :: _, _ => exact ⟨c0, c1, by simp, by simp⟩
    | [_], h => simp at h
    | [], h => simp at h

theorem listStep_tail (op : Expr) (isLeft : Bool) (e h t : Expr)
    (hs : listStep op isLeft e = some (h, t)) :
    t.size < e.size ∧ (appliesHaveArgs e = true → appliesHaveArgs t = true) := by
  unfold listStep at hs
  split at hs
  · split at hs
    · rename_i cop e1 hc0 hc1
      split at hs
      · split at hs
        · rename_i cop0 cop1 hcc0 hcc1
          split at hs
          · have he1 : e1 ∈ e.children := List.getElem?_mem hc1
            have hcop : cop ∈ e.children := List.getElem?_mem hc0
            have hcop1 : cop1 ∈ cop.children := List.getElem?_mem hcc1
            have s1 := Expr.size_lt_of_mem_children he1
            have s2 := Expr.size_lt_of_mem_children hcop
            have s3 := Expr.size_lt_of_mem_children hcop1
            cases isLeft
            · simp only [Bool.false_eq_true, if_false, Option.some.injEq, Prod.mk.injEq] at hs
              obtain ⟨_, rfl⟩ := hs
              exact ⟨s1, fun hw => appliesHaveArgs_children e hw _ he1⟩
            · simp only [if_true, Option.some.injEq, Prod.mk.injEq] at hs
              obtain ⟨_, rfl⟩ := hs
              exact ⟨by omega, fun hw =>
                appliesHaveArgs_children cop (appliesHaveArgs_children e hw _ hcop) _ hcop1⟩
          · cases hs
        · cases hs
      · cases hs
    · cases hs
  · cases hs

theorem getNAryChildrenLoop_step (op : Expr) (checkNil : Option Expr) (isLeft : Bool)
    (maxChildren fuel : Nat) (e : Expr) (children : List Expr)
    (hwf : appliesHaveArgs e = true) :
    getNAryChildrenLoop op checkNil isLeft maxChildren (fuel + 1) e children
      = (match listStep op isLeft e with
        | none =>
          (match checkNil with
          | some nil => if e ≠ nil then some (none, children) else some (some e, children)
          | none => some (some e, children))
        | some (h, t) =>
          if (children ++ [h]).length = maxChildren then some (some t, children ++ [h])
          else getNAryChildrenLoop op checkNil isLeft maxChildren fuel t (children ++ [h])) := by
  conv => lhs; unfold getNAryChildrenLoop
  unfold listStep
  by_cases hk : e.getKind = .APPLY
  · obtain ⟨cop, e1, h0, h1⟩ := appliesHaveArgs_apply e hwf hk
    have hcopwf := appliesHaveArgs_children e hwf cop (List.getElem?_mem h0)
    by_cases hck : cop.getKind = .APPLY
    · obtain ⟨cop0, cop1, hc0, hc1⟩ := appliesHaveArgs_apply cop hcopwf hck
      by_cases hop : cop0 = op
      · cases isLeft <;> simp [hk, h0, h1, hck, hc0, hc1, hop]
      · simp [hk, h0, h1, hck, hc0, hc1, hop]
    · simp [hk, h0, h1, hck]
  · simp [hk]

theorem getNAryChildrenLoop_total (op : Expr) (isLeft : Bool) :
    ∀ (fuel : Nat) (e : Expr) (children : List Expr), appliesHaveArgs e = true →
      e.size < fuel → children ≠ [] →
      ∃ a hs, getNAryChildrenLoop op none isLeft 0 fuel e children = some (some a, hs)
        ∧ hs ≠ [] := by
  intro fuel
  induction fuel with
  | zero =>
    intro e children _ h _
    omega
  | succ fuel ih =>
    intro e children hwf hsize hne
    rw [getNAryChildrenLoop_step op none isLeft 0 fuel e children hwf]
    cases hs : listStep op isLeft e with
    | none => exact ⟨e, children, rfl, hne⟩
    | some p =>
      obtain ⟨h, t⟩ := p
      obtain ⟨hsz, hwt⟩ := listStep_tail op isLeft e h t hs
      have hlen : ¬ (children ++ [h]).length = 0 := by simp
      simp only [hlen, if_false]
      exact ih t (children ++ [h]) (hwt hwf) (by omega) (by simp)

theorem evaluateLiteralOpInternal_list (env : Env) (k : Kind) (op x : Expr)
    (hk : k = .EVAL_TO_LIST ∨ k = .EVAL_FROM_LIST)
    (hop : op.isGround = true) (hopk : isLiteral op.getKind = false)
    (hx : x.isGround = true) :
    evaluateLiteralOpInternal env k [op, x] = evaluateListOp env k [op, x] := by
  have hg : isGround [op, x] = true := by simp [isGround, hop, hx]
  rcases hk with hk | hk <;> subst hk <;>
    simp [evaluateLiteralOpInternal, hg, hopk]

theorem evaluateListOp_toList (env : Env) (op eps e : Expr) (attr : Attr)
    (hinfo : env.getAppInfo op = some ⟨attr, eps⟩)
    (hattr : attr = .RIGHT_ASSOC_NIL ∨ attr = .LEFT_ASSOC_NIL)
    (hwf : appliesHaveArgs e = true) :
    evaluateListOp env .EVAL_TO_LIST [op, e]
      = some (some (if e = eps ∨ listStep op (decide (attr = .LEFT_ASSOC_NIL)) e ≠ none then e
          else buildList op (decide (attr = .LEFT_ASSOC_NIL)) [e] eps)) := by
  have hat : ¬ (attr ≠ .RIGHT_ASSOC_NIL ∧ attr ≠ .LEFT_ASSOC_NIL) := by
    rcases hattr with h | h <;> simp [h]
  simp only [evaluateListOp, List.getElem?_cons_zero, hinfo, hat, if_false,
    List.getElem?_cons_succ]
  by_cases he : e = eps
  · simp [he]
  · simp only [he, if_false, false_or]
    obtain ⟨n, hn⟩ : ∃ n, e.size = n + 1 := ⟨e.size - 1, by have := Expr.size_pos e; omega⟩
    simp only [getNAryChildren]
    rw [getNAryChildrenLoop_step op none _ 0 e.size e [] hwf]
    cases hs : listStep op (decide (attr = .LEFT_ASSOC_NIL)) e with
    | none => simp
    | some p =>
      obtain ⟨h, t⟩ := p
      obtain ⟨hsz, hwt⟩ := listStep_tail op _ e h t hs
      obtain ⟨a, hs2, hrun, hne⟩ := getNAryChildrenLoop_total op (decide (attr = .LEFT_ASSOC_NIL))
        e.size t ([] ++ [h]) (hwt hwf) hsz (by simp)
      have hlen : ¬ ([] ++ [h]).length = 0 := by simp
      simp only [hlen, if_false, hrun]
      simp [hne]

theorem evaluateListOp_fromList_nil (env : Env) (op eps : Expr) (attr : Attr)
    (hinfo : env.getAppInfo op = some ⟨attr, eps⟩)
    (hattr : attr = .RIGHT_ASSOC_NIL ∨ attr = .LEFT_ASSOC_NIL)
    (hwf : appliesHaveArgs eps = true)
    (hnil : listStep op (decide (attr = .LEFT_ASSOC_NIL)) eps = none) :
    evaluateListOp env .EVAL_FROM_LIST [op, eps] = some (some eps) := by
  have hat : ¬ (attr ≠ .RIGHT_ASSOC_NIL ∧ attr ≠ .LEFT_ASSOC_NIL) := by
    rcases hattr with h | h <;> simp [h]
  simp only [evaluateListOp, List.getElem?_cons_zero, hinfo, hat, if_false,
    List.getElem?_cons_succ, getNAryChildren]
  rw [getNAryChildrenLoop_step op (some eps) _ 2 eps.size eps [] hwf, hnil]
  simp

theorem evaluateListOp_fromList_long (env : Env) (op eps e h1 t1 h2 t2 : Expr) (attr : Attr)
    (hinfo : env.getAppInfo op = some ⟨attr, eps⟩)
    (hattr : attr = .RIGHT_ASSOC_NIL ∨ attr = .LEFT_ASSOC_NIL)
    (hwf : appliesHaveArgs e = true)
    (hs1 : listStep op (decide (attr = .LEFT_ASSOC_NIL)) e = some (h1, t1))
    (hs2 : listStep op (decide (attr = .LEFT_ASSOC_NIL)) t1 = some (h2, t2)) :
    evaluateListOp env .EVAL_FROM_LIST [op, e] = some (some e) := by
  have hat : ¬ (attr ≠ .RIGHT_ASSOC_NIL ∧ attr ≠ .LEFT_ASSOC_NIL) := by
    rcases hattr with h | h <;> simp [h]
  obtain ⟨hsz, hwt⟩ := listStep_tail op _ e h1 t1 hs1
  obtain ⟨n, hn⟩ : ∃ n, e.size = n + 1 := ⟨e.size - 1, by omega⟩
  simp only [evaluateListOp, List.getElem?_cons_zero, hinfo, hat, if_false,
    List.getElem?_cons_succ, getNAryChildren]
  rw [getNAryChildrenLoop_step op (some eps) _ 2 e.size e [] hwf, hs1]
  simp only [List.nil_append, List.length_singleton, OfNat.one_ne_ofNat, if_false]
  rw [hn, getNAryChildrenLoop_step op (some eps) _ 2 n t1 [h1] (hwt hwf), hs2]
  simp

theorem evaluateListOp_fromList_singleton (env : Env) (op eps e : Expr) (attr : Attr)
    (hinfo : env.getAppInfo op = some ⟨attr, eps⟩)
    (hattr : attr = .RIGHT_ASSOC_NIL ∨ attr = .LEFT_ASSOC_NIL)
    (hwf : appliesHaveArgs eps = true)
    (hnil : listStep op (decide (attr = .LEFT_ASSOC_NIL)) eps = none) :
    evaluateListOp env .EVAL_FROM_LIST
        [op, buildList op (decide (attr = .LEFT_ASSOC_NIL)) [e] eps]
      = some (some e) := by
  have hat : ¬ (attr ≠ .RIGHT_ASSOC_NIL ∧ attr ≠ .LEFT_ASSOC_NIL) := by
    rcases hattr with h | h <;> simp [h]
  have hstep : ∀ n, getNAryChildrenLoop op (some eps) (decide (attr = .LEFT_ASSOC_NIL)) 2
      (n + 1) eps [e] = some (some eps, [e]) := by
    intro n
    rw [getNAryChildrenLoop_step op (some eps) _ 2 n eps [e] hwf, hnil]
    simp
  have hstep2 : ∀ n, getNAryChildrenLoop op (some eps) (decide (attr = .LEFT_ASSOC_NIL)) 2
      (1 + n) eps [e] = some (some eps, [e]) := by
    intro n
    rw [Nat.add_comm]
    exact hstep n
  rcases hattr with h | h
  · subst h
    have hd : decide (Attr.RIGHT_ASSOC_NIL = Attr.LEFT_ASSOC_NIL) = false := by decide
    simp only [hd] at hstep2
    simp only [evaluateListOp, List.getElem?_cons_zero, hinfo, hat, if_false,
      List.getElem?_cons_succ, getNAryChildren, buildList, hd,
      Bool.false_eq_true, List.reverse_cons, List.reverse_nil, List.nil_append,
      List.foldl_cons, List.foldl_nil]
    rw [getNAryChildrenLoop]
    simp [hstep2, Expr.size, Expr.sizeList]
  · subst h
    simp only [decide_True] at hstep2
    simp only [evaluateListOp, List.getElem?_cons_zero, hinfo, hat, if_false,
      List.getElem?_cons_succ, getNAryChildren, buildList, decide_True,
      if_true, List.foldl_cons, List.foldl_nil]
    rw [getNAryChildrenLoop]
    simp [hstep2, Expr.size, Expr.sizeList]

theorem evaluateListOp_fromList_one (env : Env) (op eps e h : Expr) (attr : Attr)
    (hinfo : env.getAppInfo op = some ⟨attr, eps⟩)
    (hattr : attr = .RIGHT_ASSOC_NIL ∨ attr = .LEFT_ASSOC_NIL)
    (hwf : appliesHaveArgs e = true) (hepswf : appliesHaveArgs eps = true)
    (hnil : listStep op (decide (attr = .LEFT_ASSOC_NIL)) eps = none)
    (hs1 : listStep op (decide (attr = .LEFT_ASSOC_NIL)) e = some (h, eps)) :
    evaluateListOp env .EVAL_FROM_LIST [op, e] = some (some h) := by
  have hat : ¬ (attr ≠ .RIGHT_ASSOC_NIL ∧ attr ≠ .LEFT_ASSOC_NIL) := by
    rcases hattr with h | h <;> simp [h]
  obtain ⟨hsz, _⟩ := listStep_tail op _ e h eps hs1
  obtain ⟨n, hn⟩ : ∃ n, e.size = n + 1 := ⟨e.size - 1, by omega⟩
  simp only [evaluateListOp, List.getElem?_cons_zero, hinfo, hat, if_false,
    List.getElem?_cons_succ, getNAryChildren]
  rw [getNAryChildrenLoop_step op (some eps) _ 2 e.size e [] hwf, hs1]
  simp only [List.nil_append, List.length_singleton, OfNat.one_ne_ofNat, if_false]
  rw [hn, getNAryChildrenLoop_step op (some eps) _ 2 n eps [h] hepswf, hnil]
  simp

theorem buildList_singleton_isGround (op eps e : Expr) (isLeft : Bool)
    (hop : op.isGround = true) (heps : eps.isGround = true) (he : e.isGround = true) :
    (buildList op isLeft [e] eps).isGround = true := by
  cases isLeft <;> simp [buildList, Expr.isGround, Expr.isGroundList, hop, heps, he]

/-! ### The evaluator: a frame inside a stack -/

theorem assocFind_append {α β : Type} [DecidableEq α] (k : α) (m m2 : List (α × β)) :
    assocFind k (m ++ m2)
      = (match assocFind k m with
        | some v => some v
        | none => assocFind k m2) := by
  induction m with
  | nil => rfl
  | cons p m ih =>
    obtain ⟨a, v⟩ := p
    by_cases h : a = k
    · subst h
      simp [assocFind_cons_self]
    · rw [List.cons_append, assocFind_cons_ne k a v _ h, assocFind_cons_ne k a v _ h]
      exact ih

theorem assocFind_append_of_none {α β : Type} [DecidableEq α] (k : α) (m m2 : List (α × β))
    (h : assocFind k m2 = none) : assocFind k (m ++ m2) = assocFind k m := by
  rw [assocFind_append, h]
  cases assocFind k m <;> rfl

theorem evalChildren_append (V Vx : List (Expr × Option Expr)) (cs : List Expr)
    (h : ∀ c ∈ cs, assocFind c Vx = none) :
    evalChildren (V ++ Vx) cs = evalChildren V cs := by
  unfold evalChildren
  apply List.map_congr_left
  intro c hc
  rw [assocFind_append_of_none c V Vx (h c hc)]

theorem evalChanged_append (V Vx : List (Expr × Option Expr)) (cs : List Expr)
    (h : ∀ c ∈ cs, assocFind c Vx = none) :
    evalChanged (V ++ Vx) cs = evalChanged V cs := by
  unfold evalChanged
  induction cs with
  | nil => rfl
  | cons c cs ih =>
    simp only [List.any_cons]
    rw [assocFind_append_of_none c V Vx (h c (List.mem_cons_self _ _)),
      ih (fun x hx => h x (List.mem_cons_of_mem _ hx))]

theorem evalRevisit_schedule (env : Env) (trie : ExprTrie) (cur : Expr)
    (cchildren : List (Option Expr)) (schedule : List Expr)
    (h : evalRevisit env trie cur cchildren = some (.cannotEvaluate schedule)) :
    ∀ s ∈ schedule, s ∈ cur.children := by
  have key : ∀ (i : Nat) (c : Expr), cur.children[i]? = some c → c ∈ cur.children :=
    fun i c hc => List.getElem?_mem hc
  unfold evalRevisit at h
  simp only at h
  repeat' split at h
  all_goals cases h
  all_goals
    intro s hs
    simp only [List.mem_append, List.mem_singleton, List.not_mem_nil, or_false,
      false_or] at hs <;>
    first
      | (subst hs
         exact key _ _ (by assumption))
      | (rcases hs with hs | hs <;> subst hs <;> exact key _ _ (by assumption))
theorem evalVisit_embed (env : Env) (init init2 : Expr) (ctx : Ctx)
    (V V2 : List (Expr × Option Expr)) (rest rest2 : List Expr)
    (res res2 : Option (List Expr)) (below below2 : List EvFrame) (trie : ExprTrie)
    (cur : Expr)
    (hfind : assocFind cur V2 = assocFind cur V)
    (hch : (!env.isEvaluatable cur && (cur.isGround || decide (ctx = []))) = false →
      cur.getKind ≠ .PARAM → assocFind cur V = some none →
      evalChildren V2 cur.children = evalChildren V cur.children)
    (hchg : evalChanged V2 cur.children = evalChanged V cur.children)
    (st : List EvFrame) (trie1 : ExprTrie)
    (h : evalVisit env ⟨init, ctx, V, cur :: rest, res⟩ below trie cur rest = some (st, trie1)) :
    ∃ (pre : List EvFrame) (add : List (Expr × Option Expr)) (W : List Expr),
      st = pre ++ ⟨init, ctx, add ++ V, W ++ rest, res⟩ :: below
      ∧ evalVisit env ⟨init2, ctx, V2, cur :: rest2, res2⟩ below2 trie cur rest2
          = some (pre ++ ⟨init2, ctx, add ++ V2, W ++ rest2, res2⟩ :: below2, trie1)
      ∧ (∀ p ∈ add, p.1 = cur) ∧ (∀ w ∈ W, w = cur ∨ w ∈ cur.children)
      ∧ (pre ≠ [] → W = [cur] ∧ add = []) := by
  unfold evalVisit at h ⊢
  simp only [hfind, hchg] at h ⊢
  by_cases hc1 : (!env.isEvaluatable cur && (cur.isGround || decide (ctx = []))) = true
  · simp only [hc1, if_true, Option.some.injEq, Prod.mk.injEq] at h ⊢
    obtain ⟨rfl, rfl⟩ := h
    exact ⟨[], [(cur, some cur)], [], rfl, ⟨rfl, rfl⟩, by simp, by simp, by simp⟩
  · simp only [hc1, if_false, Bool.false_eq_true] at h ⊢
    by_cases hp : cur.getKind = .PARAM
    · simp only [hp, if_true] at h ⊢
      cases hf : assocFind cur ctx with
      | none =>
        simp only [hf, Option.some.injEq, Prod.mk.injEq] at h ⊢
        obtain ⟨rfl, rfl⟩ := h
        exact ⟨[], [(cur, some cur)], [], rfl, ⟨rfl, rfl⟩, by simp, by simp, by simp⟩
      | some v =>
        simp only [hf, Option.some.injEq, Prod.mk.injEq] at h ⊢
        obtain ⟨rfl, rfl⟩ := h
        exact ⟨[], [(cur, some v)], [], rfl, ⟨rfl, rfl⟩, by simp, by simp, by simp⟩
    · simp only [hp, if_false] at h ⊢
      cases hv : assocFind cur V with
      | none =>
        simp only [hv] at h ⊢
        by_cases hcomp : env.isCompiled cur = true
        · simp only [hcomp, if_true] at h ⊢
          cases hrun : env.run_evaluate cur ctx with
          | none => simp [hrun] at h
          | some retev =>
            simp only [hrun, Option.some.injEq, Prod.mk.injEq] at h ⊢
            obtain ⟨rfl, rfl⟩ := h
            exact ⟨[], [(cur, some retev)], [], rfl, ⟨rfl, rfl⟩, by simp, by simp, by simp⟩
        · simp only [hcomp, if_false, Bool.false_eq_true] at h ⊢
          by_cases hite : cur.getKind = .EVAL_IF_THEN_ELSE
          · simp only [hite, if_true] at h ⊢
            cases hc0 : cur.children[0]? with
            | none => simp [hc0] at h
            | some c0 =>
              simp only [hc0, Option.some.injEq, Prod.mk.injEq] at h ⊢
              obtain ⟨rfl, rfl⟩ := h
              exact ⟨[], [(cur, none)], [c0, cur], rfl, ⟨rfl, rfl⟩, by simp,
                (by
                  intro w hw
                  simp only [List.mem_cons, List.mem_singleton, List.not_mem_nil,
                    or_false] at hw
                  rcases hw with rfl | rfl
                  · exact Or.inr (List.getElem?_mem hc0)
                  · exact Or.inl rfl), by simp⟩
          · simp only [hite, if_false, Option.some.injEq, Prod.mk.injEq] at h ⊢
            obtain ⟨rfl, rfl⟩ := h
            exact ⟨[], [(cur, none)], cur.children.reverse ++ [cur], by simp, by simp,
              by simp, (by
                intro w hw
                simp only [List.mem_append, List.mem_reverse, List.mem_singleton] at hw
                rcases hw with hw | rfl
                · exact Or.inr hw
                · exact Or.inl rfl), by simp⟩
      | some v =>
        cases v with
        | some v1 =>
          simp only [hv, Option.some.injEq, Prod.mk.injEq] at h ⊢
          obtain ⟨rfl, rfl⟩ := h
          exact ⟨[], [], [], rfl, ⟨rfl, rfl⟩, by simp, by simp, by simp⟩
        | none =>
          simp only [hv, hch (Bool.eq_false_iff.mpr hc1) hp hv] at h ⊢
          cases hr : evalRevisit env trie cur (evalChildren V cur.children) with
          | none => simp [hr] at h
          | some rv =>
            cases rv with
            | newContext frame trie2 =>
              simp only [hr, Option.some.injEq, Prod.mk.injEq] at h ⊢
              obtain ⟨rfl, rfl⟩ := h
              exact ⟨[frame], [], [cur], rfl, ⟨rfl, rfl⟩, by simp, by simp, fun _ => ⟨rfl, rfl⟩⟩
            | cannotEvaluate schedule =>
              have hs := evalRevisit_schedule env trie cur _ schedule hr
              simp only [hr, Option.some.injEq, Prod.mk.injEq] at h ⊢
              obtain ⟨rfl, rfl⟩ := h
              exact ⟨[], [], schedule ++ [cur], by simp, by simp, by simp, (by
                intro w hw
                simp only [List.mem_append, List.mem_singleton] at hw
                rcases hw with hw | rfl
                · exact Or.inr (hs w hw)
                · exact Or.inl rfl), by simp⟩
            | evaluated e trie2 =>
              cases e with
              | some ev =>
                simp only [hr, Option.some.injEq, Prod.mk.injEq] at h ⊢
                obtain ⟨rfl, rfl⟩ := h
                exact ⟨[], [(cur, some ev)], [], rfl, ⟨rfl, rfl⟩, by simp, by simp, by simp⟩
              | none =>
                simp only [hr] at h ⊢
                by_cases hcg : evalChanged V cur.children = true
                · simp only [hcg, if_true] at h ⊢
                  cases hall : allNonNull (evalChildren V cur.children) with
                  | none => simp [hall] at h
                  | some cch =>
                    simp only [hall, Option.some.injEq, Prod.mk.injEq] at h ⊢
                    obtain ⟨rfl, rfl⟩ := h
                    exact ⟨[], [(cur, some (.node cur.getKind cch))], [], rfl, ⟨rfl, rfl⟩,
                      by simp, by simp, by simp⟩
                · simp only [hcg, if_false, Bool.false_eq_true, Option.some.injEq,
                    Prod.mk.injEq] at h ⊢
                  obtain ⟨rfl, rfl⟩ := h
                  exact ⟨[], [(cur, some cur)], [], rfl, ⟨rfl, rfl⟩, by simp, by simp, by simp⟩
theorem evaluateLoop_evaluated_irrel (env : Env) :
    ∀ (fuel : Nat) (f : EvFrame) (st : List EvFrame) (trie : ExprTrie) (ev1 ev2 : Option Expr),
      evaluateLoop env fuel ⟨f :: st, trie, ev1⟩ = evaluateLoop env fuel ⟨f :: st, trie, ev2⟩ := by
  intro fuel
  induction fuel with
  | zero =>
    intro f st trie ev1 ev2
    simp [evaluateLoop]
  | succ fuel ih =>
    intro f st trie ev1 ev2
    cases hv : f.d_visit with
    | cons cur rest =>
      cases hstep : evalVisit env f st trie cur rest with
      | none =>
        rw [evaluateLoop_step_none env fuel f st trie ev1 cur rest hv hstep,
          evaluateLoop_step_none env fuel f st trie ev2 cur rest hv hstep]
      | some p =>
        obtain ⟨estack, trie1⟩ := p
        rw [evaluateLoop_step env fuel f st trie ev1 cur rest _ _ hv hstep,
          evaluateLoop_step env fuel f st trie ev2 cur rest _ _ hv hstep]
        obtain ⟨finit, fctx, fV, fW, fres⟩ := f
        simp only at hv
        subst hv
        obtain ⟨pre, add, W, hst, _, _, _, _⟩ := evalVisit_embed env finit finit fctx fV fV rest
          rest fres fres st st trie cur rfl (fun _ _ _ => rfl) rfl estack trie1 hstep
        subst hst
        cases pre with
        | nil => exact ih _ _ _ _ _
        | cons p pre => exact ih _ _ _ _ _
    | nil =>
      cases hfin : evalFinish f st trie with
      | none =>
        rw [evaluateLoop_finish_none env fuel f st trie ev1 hv hfin,
          evaluateLoop_finish_none env fuel f st trie ev2 hv hfin]
      | some s =>
        rw [evaluateLoop_finish env fuel f st trie ev1 s hv hfin,
          evaluateLoop_finish env fuel f st trie ev2 s hv hfin]

theorem evalFinish_nil (evf : EvFrame) (trie : ExprTrie) (s : EvState)
    (h : evalFinish evf [] trie = some s) :
    ∃ evaluated trie1, assocFind evf.d_init evf.d_visited = some evaluated
      ∧ s = ⟨[], trie1, evaluated⟩ := by
  unfold evalFinish at h
  cases hf : assocFind evf.d_init evf.d_visited with
  | none => simp [hf] at h
  | some evaluated =>
    simp only [hf, Option.some.injEq] at h
    exact ⟨evaluated, _, rfl, h.symm⟩

theorem evalFinish_cons (evf evp : EvFrame) (below1 : List EvFrame) (trie : ExprTrie)
    (s : EvState) (h : evalFinish evf (evp :: below1) trie = some s) :
    ∃ evaluated back rest trie1, evp.d_visit = back :: rest
      ∧ s = ⟨{ evp with d_visited := (back, evaluated) :: evp.d_visited, d_visit := rest }
              :: below1, trie1, evaluated⟩
      ∧ ∀ (evp2 : EvFrame) (below2 : List EvFrame) (rest2 : List Expr),
          evp2.d_visit = back :: rest2 →
          evalFinish evf (evp2 :: below2) trie
            = some ⟨{ evp2 with d_visited := (back, evaluated) :: evp2.d_visited,
                                 d_visit := rest2 } :: below2, trie1, evaluated⟩ := by
  unfold evalFinish at h
  cases hf : assocFind evf.d_init evf.d_visited with
  | none => simp [hf] at h
  | some evaluated =>
    cases hv : evp.d_visit with
    | nil => simp [hf, hv] at h
    | cons back rest =>
      simp only [hf, hv, Option.some.injEq] at h
      refine ⟨evaluated, back, rest, _, rfl, h.symm, ?_⟩
      intro evp2 below2 rest2 hv2
      unfold evalFinish
      simp only [hf, hv2]

theorem assocFind_append_ne_none {α β : Type} [DecidableEq α] (k : α) (m m2 : List (α × β))
    (h : assocFind k (m ++ m2) ≠ none) :
    (∃ p ∈ m, p.1 = k) ∨ assocFind k m2 ≠ none := by
  rw [assocFind_append] at h
  cases hf : assocFind k m with
  | none =>
    rw [hf] at h
    exact Or.inr h
  | some v =>
    have := assocFind_mem k v m hf
    exact Or.inl ⟨(k, v), this, rfl⟩
theorem evaluateLoop_embed (env : Env) (S : Expr → Prop)
    (hS : ∀ e, S e → ∀ c ∈ e.children, S c)
    (init init2 : Expr) (ctx : Ctx) (Vx : List (Expr × Option Expr)) (Wx : List Expr)
    (res res2 : Option (List Expr)) (below2 : List EvFrame)
    (hVx : ∀ k, S k → assocFind k Vx = none) :
    ∀ (fuel : Nat) (frames : List EvFrame) (V : List (Expr × Option Expr)) (W : List Expr)
      (trie : ExprTrie) (ev : Option Expr) (r : Expr),
      (∀ w ∈ W, S w) →
      evaluateLoop env fuel ⟨frames ++ [⟨init, ctx, V, W, res⟩], trie, ev⟩ = some r →
      ∃ (k : Nat) (V2 : List (Expr × Option Expr)) (trie2 : ExprTrie),
        k ≤ fuel ∧ assocFind init V2 = some (some r)
        ∧ (∀ x, assocFind x V2 ≠ none → assocFind x V ≠ none ∨ S x)
        ∧ ∀ n ev1 ev2,
            evaluateLoop env (k + n)
                ⟨frames ++ ⟨init2, ctx, V ++ Vx, W ++ Wx, res2⟩ :: below2, trie, ev1⟩
              = evaluateLoop env n ⟨⟨init2, ctx, V2 ++ Vx, Wx, res2⟩ :: below2, trie2, ev2⟩ := by
  intro fuel
  induction fuel with
  | zero =>
    intro frames V W trie ev r _ h
    cases frames <;> simp [evaluateLoop] at h
  | succ fuel ih =>
    intro frames V W trie ev r hW h
    cases frames with
    | nil =>
      simp only [List.nil_append] at h ⊢
      cases W with
      | nil =>
        cases hfin : evalFinish ⟨init, ctx, V, [], res⟩ [] trie with
        | none =>
          rw [evaluateLoop_finish_none env fuel _ [] trie ev rfl hfin] at h
          cases h
        | some s =>
          rw [evaluateLoop_finish env fuel _ [] trie ev s rfl hfin] at h
          obtain ⟨evaluated, trie1, hf, rfl⟩ := evalFinish_nil _ trie s hfin
          rw [evaluateLoop_nil] at h
          cases evaluated with
          | none => cases h
          | some e0 =>
            simp only [Option.map_some', ensureHashed, Option.some.injEq] at h
            subst h
            refine ⟨0, V, trie, Nat.zero_le _, hf, fun x hx => Or.inl hx, ?_⟩
            intro n ev1 ev2
            simp only [Nat.zero_add, List.nil_append]
            exact evaluateLoop_evaluated_irrel env n _ _ trie ev1 ev2
      | cons cur rest =>
        cases hstep : evalVisit env ⟨init, ctx, V, cur :: rest, res⟩ [] trie cur rest with
        | none =>
          rw [evaluateLoop_step_none env fuel _ [] trie ev cur rest rfl hstep] at h
          cases h
        | some p =>
          obtain ⟨st, trie1⟩ := p
          rw [evaluateLoop_step env fuel _ [] trie ev cur rest _ _ rfl hstep] at h
          have hcur : S cur := hW cur (List.mem_cons_self _ _)
          have hch : ∀ c ∈ cur.children, assocFind c Vx = none :=
            fun c hc => hVx c (hS cur hcur c hc)
          obtain ⟨pre, add, W1, hst, hemb, hadd, hW1, _⟩ :=
            evalVisit_embed env init init2 ctx V (V ++ Vx) rest (rest ++ Wx) res res2 []
              below2 trie cur (assocFind_append_of_none cur V Vx (hVx cur hcur))
              (fun _ _ _ => evalChildren_append V Vx _ hch) (evalChanged_append V Vx _ hch)
              st trie1 hstep
          subst hst
          have hW2 : ∀ w ∈ W1 ++ rest, S w := by
            intro w hw
            rcases List.mem_append.mp hw with hw | hw
            · rcases hW1 w hw with rfl | hw
              · exact hcur
              · exact hS cur hcur w hw
            · exact hW w (List.mem_cons_of_mem _ hw)
          obtain ⟨k, V2, trie2, hk, hfind, hkeys, heq⟩ :=
            ih pre (add ++ V) (W1 ++ rest) trie1 ev r hW2 h
          refine ⟨k + 1, V2, trie2, Nat.succ_le_succ hk, hfind, ?_, ?_⟩
          · intro x hx
            rcases hkeys x hx with h1 | h1
            · rcases assocFind_append_ne_none x add V h1 with ⟨p, hp, hpx⟩ | h2
              · rw [← hpx, hadd p hp]
                exact Or.inr hcur
              · exact Or.inl h2
            · exact Or.inr h1
          · intro n ev1 ev2
            have hn : k + 1 + n = (k + n) + 1 := by omega
            rw [hn, List.cons_append,
              evaluateLoop_step env (k + n) _ below2 trie ev1 cur (rest ++ Wx) _ _ rfl hemb]
            have := heq n ev1 ev2
            simp only [List.append_assoc] at this ⊢
            exact this
    | cons f fs =>
      simp only [List.cons_append] at h ⊢
      cases hv : f.d_visit with
      | cons cur rest =>
        cases hstep : evalVisit env f (fs ++ [⟨init, ctx, V, W, res⟩]) trie cur rest with
        | none =>
          rw [evaluateLoop_step_none env fuel f _ trie ev cur rest hv hstep] at h
          cases h
        | some p =>
          obtain ⟨st, trie1⟩ := p
          rw [evaluateLoop_step env fuel f _ trie ev cur rest _ _ hv hstep] at h
          obtain ⟨finit, fctx, fV, fW, fres⟩ := f
          simp only at hv
          subst hv
          obtain ⟨pre, add, W1, hst, hemb, _, _, _⟩ :=
            evalVisit_embed env finit finit fctx fV fV rest rest fres fres
              (fs ++ [⟨init, ctx, V, W, res⟩])
              (fs ++ ⟨init2, ctx, V ++ Vx, W ++ Wx, res2⟩ :: below2) trie cur rfl
              (fun _ _ _ => rfl) rfl st trie1 hstep
          subst hst
          have h2 : evaluateLoop env fuel
              ⟨(pre ++ ⟨finit, fctx, add ++ fV, W1 ++ rest, fres⟩ :: fs)
                ++ [⟨init, ctx, V, W, res⟩], trie1, ev⟩ = some r := by
            simpa only [List.append_assoc, List.cons_append] using h
          obtain ⟨k, V2, trie2, hk, hfind, hkeys, heq⟩ := ih _ V W trie1 ev r hW h2
          refine ⟨k + 1, V2, trie2, Nat.succ_le_succ hk, hfind, hkeys, ?_⟩
          intro n ev1 ev2
          have hn : k + 1 + n = (k + n) + 1 := by omega
          rw [hn, evaluateLoop_step env (k + n) _ _ trie ev1 cur rest _ _ rfl hemb]
          have := heq n ev1 ev2
          simp only [List.append_assoc, List.cons_append] at this ⊢
          exact this
      | nil =>
        cases hfin : evalFinish f (fs ++ [⟨init, ctx, V, W, res⟩]) trie with
        | none =>
          rw [evaluateLoop_finish_none env fuel f _ trie ev hv hfin] at h
          cases h
        | some s =>
          rw [evaluateLoop_finish env fuel f _ trie ev s hv hfin] at h
          cases fs with
          | nil =>
            simp only [List.nil_append] at hfin ⊢
            obtain ⟨evaluated, back, rest, trie1, hvp, rfl, hpar⟩ :=
              evalFinish_cons f _ [] trie s hfin
            simp only at hvp
            subst hvp
            have hfin2 := hpar ⟨init2, ctx, V ++ Vx, (back :: rest) ++ Wx, res2⟩ below2
              (rest ++ Wx) rfl
            have hW2 : ∀ w ∈ rest, S w := fun w hw => hW w (List.mem_cons_of_mem _ hw)
            obtain ⟨k, V2, trie2, hk, hfind, hkeys, heq⟩ :=
              ih [] ((back, evaluated) :: V) rest trie1 evaluated r hW2 h
            refine ⟨k + 1, V2, trie2, Nat.succ_le_succ hk, hfind, ?_, ?_⟩
            · intro x hx
              rcases hkeys x hx with h1 | h1
              · by_cases hxb : back = x
                · subst hxb
                  exact Or.inr (hW back (List.mem_cons_self _ _))
                · rw [assocFind_cons_ne x back evaluated V hxb] at h1
                  exact Or.inl h1
              · exact Or.inr h1
            · intro n ev1 ev2
              have hn : k + 1 + n = (k + n) + 1 := by omega
              rw [hn, evaluateLoop_finish env (k + n) f _ trie ev1 _ hv hfin2]
              have := heq n evaluated ev2
              simp only [List.nil_append, List.cons_append] at this ⊢
              exact this
          | cons f2 fs2 =>
            simp only [List.cons_append] at hfin ⊢
            obtain ⟨evaluated, back, rest, trie1, hvp, rfl, hpar⟩ :=
              evalFinish_cons f f2 _ trie s hfin
            have hfin2 := hpar f2 (fs2 ++ ⟨init2, ctx, V ++ Vx, W ++ Wx, res2⟩ :: below2)
              rest hvp
            have h2 : evaluateLoop env fuel
                ⟨({ f2 with d_visited := (back, evaluated) :: f2.d_visited, d_visit := rest }
                    :: fs2) ++ [⟨init, ctx, V, W, res⟩], trie1, evaluated⟩ = some r := by
              simpa only [List.cons_append] using h
            obtain ⟨k, V2, trie2, hk, hfind, hkeys, heq⟩ := ih _ V W trie1 evaluated r hW h2
            refine ⟨k + 1, V2, trie2, Nat.succ_le_succ hk, hfind, hkeys, ?_⟩
            intro n ev1 ev2
            have hn : k + 1 + n = (k + n) + 1 := by omega
            rw [hn, evaluateLoop_finish env (k + n) f _ trie ev1 _ hv hfin2]
            have := heq n evaluated ev2
            simp only [List.cons_append] at this ⊢
            exact this

theorem evalVisit_again (env : Env) (init : Expr) (ctx : Ctx)
    (V : List (Expr × Option Expr)) (rest : List Expr) (res : Option (List Expr))
    (below : List EvFrame) (trie : ExprTrie) (cur r : Expr)
    (hrec : assocFind cur V = some (some r))
    (hfix : (!env.isEvaluatable cur && (cur.isGround || decide (ctx = []))) = true → r = cur)
    (hpar : cur.getKind = .PARAM →
      r = (match assocFind cur ctx with
          | some v => v
          | none => cur)) :
    ∃ V2, evalVisit env ⟨init, ctx, V, cur :: rest, res⟩ below trie cur rest
        = some (⟨init, ctx, V2, rest, res⟩ :: below, trie)
      ∧ assocFind cur V2 = some (some r)
      ∧ ∀ k, k ≠ cur → assocFind k V2 = assocFind k V := by
  unfold evalVisit
  by_cases hc1 : (!env.isEvaluatable cur && (cur.isGround || decide (ctx = []))) = true
  · have hr := hfix hc1
    subst hr
    simp only [hc1, if_true]
    exact ⟨_, rfl, assocFind_cons_self _ _ _,
      fun k hk => assocFind_cons_ne k r _ V (fun h => hk h.symm)⟩
  · simp only [hc1, if_false, Bool.false_eq_true]
    by_cases hp : cur.getKind = .PARAM
    · have hr := hpar hp
      simp only [hp, if_true]
      cases hf : assocFind cur ctx with
      | none =>
        simp only [hf] at hr ⊢
        subst hr
        exact ⟨_, rfl, assocFind_cons_self _ _ _,
          fun k hk => assocFind_cons_ne k r _ V (fun h => hk h.symm)⟩
      | some v =>
        simp only [hf] at hr ⊢
        subst hr
        exact ⟨_, rfl, assocFind_cons_self _ _ _,
          fun k hk => assocFind_cons_ne k cur _ V (fun h => hk h.symm)⟩
    · simp only [hp, if_false, hrec]
      exact ⟨V, rfl, hrec, fun _ _ => rfl⟩

theorem evaluate_nil_fixed (env : Env) (x : Expr)
    (h : (!env.isEvaluatable x && (x.isGround || decide (([] : Ctx) = []))) = true
      ∨ x.getKind = .PARAM) :
    evaluate env 2 x [] = some x := by
  by_cases hev : env.isEvaluatable x = false
  · exact evaluate_shortcut env 2 x [] hev (Or.inr rfl) (Nat.le_refl _)
  · have hev2 : env.isEvaluatable x = true := by simpa using hev
    rcases h with h | h
    · simp [hev2] at h
    · simp [evaluate, evaluateLoop, EvFrame.new, evalVisit, hev2, h, evalFinish, assocFind,
        ensureHashed]

theorem evaluateLoop_shortcuts (env : Env) (init : Expr) (ctx : Ctx)
    (res : Option (List Expr)) (below : List EvFrame) (trie : ExprTrie) (ev : Option Expr) :
    ∀ (cs : List Expr) (V : List (Expr × Option Expr)) (rest : List Expr),
      (∀ c ∈ cs, (!env.isEvaluatable c && (c.isGround || decide (ctx = []))) = true) →
      ∃ V2, (∀ fuel, evaluateLoop env (fuel + cs.length)
              ⟨⟨init, ctx, V, cs ++ rest, res⟩ :: below, trie, ev⟩
            = evaluateLoop env fuel ⟨⟨init, ctx, V2, rest, res⟩ :: below, trie, ev⟩)
        ∧ (∀ c ∈ cs, assocFind c V2 = some (some c))
        ∧ (∀ k, k ∉ cs → assocFind k V2 = assocFind k V) := by
  intro cs
  induction cs with
  | nil =>
    intro V rest _
    exact ⟨V, fun _ => rfl, (fun _ h => by cases h), fun _ _ => rfl⟩
  | cons c cs ih =>
    intro V rest hcs
    have hc := hcs c (List.mem_cons_self _ _)
    have hstep : evalVisit env ⟨init, ctx, V, c :: (cs ++ rest), res⟩ below trie c (cs ++ rest)
        = some (⟨init, ctx, (c, some c) :: V, cs ++ rest, res⟩ :: below, trie) := by
      unfold evalVisit
      simp only [hc, if_true]
    obtain ⟨V2, hrun, hrec, hkeep⟩ := ih ((c, some c) :: V) rest
      (fun x hx => hcs x (List.mem_cons_of_mem _ hx))
    refine ⟨V2, ?_, ?_, ?_⟩
    · intro fuel
      have hf : fuel + (c :: cs).length = (fuel + cs.length) + 1 := by
        simp only [List.length_cons]
        omega
      rw [hf, List.cons_append, evaluateLoop_step env _ _ below trie ev c (cs ++ rest) _ _ rfl
        hstep]
      exact hrun fuel
    · intro x hx
      by_cases hxc : x ∈ cs
      · exact hrec x hxc
      · rcases List.mem_cons.mp hx with rfl | hx2
        · rw [hkeep x hxc]
          exact assocFind_cons_self _ _ _
        · exact absurd hx2 hxc
    · intro k hk
      have hk1 : k ∉ cs := fun h => hk (List.mem_cons_of_mem _ h)
      have hk2 : c ≠ k := fun h => hk (h ▸ List.mem_cons_self _ _)
      rw [hkeep k hk1, assocFind_cons_ne k c _ V hk2]

theorem evalChildren_of_fixed (V : List (Expr × Option Expr)) (cs : List Expr)
    (h : ∀ c ∈ cs, assocFind c V = some (some c)) :
    evalChildren V cs = cs.map some := by
  unfold evalChildren
  apply List.map_congr_left
  intro c hc
  rw [h c hc]

theorem evalChanged_of_fixed (V : List (Expr × Option Expr)) (cs : List Expr)
    (h : ∀ c ∈ cs, assocFind c V = some (some c)) :
    evalChanged V cs = false := by
  unfold evalChanged
  rw [List.any_eq_false]
  intro c hc
  rw [h c hc]
  simp

theorem allNonNull_map_id (cs : List Expr) : allNonNull (cs.map some) = some cs := by
  induction cs with
  | nil => rfl
  | cons c cs ih => simp [allNonNull, ih]

theorem map_ensureHashed (cs : List Expr) : cs.map ensureHashed = cs := by
  induction cs with
  | nil => rfl
  | cons c cs ih =>
    rw [List.map_cons, ih]
    rfl

theorem evalRevisit_program (env : Env) (hd : Expr) (rest : List Expr) (body : Expr)
    (newCtx : Ctx) (hk : hd.getKind = .PROGRAM_CONST)
    (hprog : evaluateProgramInternal env (hd :: rest) [] = some (some body, newCtx)) :
    evalRevisit env [] (.node .APPLY (hd :: rest)) ((hd :: rest).map some)
      = some (if body.isGround = true ∨ newCtx = []
          then .evaluated (some body) [(hd :: rest, body)]
          else .newContext (EvFrame.new body newCtx (some (hd :: rest))) []) := by
  unfold evalRevisit
  simp only [Expr.getKind_node, if_true, List.map_cons, List.getElem?_cons_zero, hk, true_or]
  have h1 : allNonNull (some hd :: rest.map some) = some (hd :: rest) :=
    allNonNull_map_id (hd :: rest)
  simp only [h1, map_ensureHashed, assocFind, hprog]
  by_cases hb : body.isGround = true ∨ newCtx = [] <;> simp [hb]
theorem evaluate_program_call (env : Env) (hd : Expr) (rest : List Expr) (body : Expr)
    (newCtx : Ctx)
    (hev : env.isEvaluatable (.node .APPLY (hd :: rest)) = true)
    (hcomp : env.isCompiled (.node .APPLY (hd :: rest)) = false)
    (hk : hd.getKind = .PROGRAM_CONST)
    (hargs : ∀ a ∈ hd :: rest, env.isEvaluatable a = false)
    (hprog : evaluateProgramInternal env (hd :: rest) [] = some (some body, newCtx)) :
    (body.isGround = true ∨ newCtx = [] →
        ∀ fuel, rest.length + 4 ≤ fuel →
          evaluate env fuel (.node .APPLY (hd :: rest)) [] = some body)
      ∧ (¬ (body.isGround = true ∨ newCtx = []) →
        ∀ fuel r, evaluate env fuel body newCtx = some r →
          evaluate env (fuel + rest.length + 5) (.node .APPLY (hd :: rest)) [] = some r) := by
  -- the first visit of the call
  have h1 := evalVisit_first env [] (.node .APPLY (hd :: rest)) none [] [] []
    (.node .APPLY (hd :: rest)) [] (by simp [hev]) (by simp) rfl hcomp (by simp)
  -- the visits of the arguments
  have hsc : ∀ c ∈ (hd :: rest).reverse,
      (!env.isEvaluatable c && (c.isGround || decide (([] : Ctx) = []))) = true := by
    intro c hc
    simp [hargs c (List.mem_reverse.mp hc)]
  obtain ⟨V2, hrun, hrec, hkeep⟩ := evaluateLoop_shortcuts env (.node .APPLY (hd :: rest)) []
    none [] [] none (hd :: rest).reverse [(.node .APPLY (hd :: rest), none)]
    [.node .APPLY (hd :: rest)] hsc
  have hrec2 : ∀ c ∈ hd :: rest, assocFind c V2 = some (some c) :=
    fun c hc => hrec c (List.mem_reverse.mpr hc)
  have hKnot : Expr.node .APPLY (hd :: rest) ∉ (hd :: rest).reverse := by
    intro h
    have := Expr.size_lt_of_mem_children
      (e := Expr.node .APPLY (hd :: rest)) (List.mem_reverse.mp h)
    omega
  have hK : assocFind (Expr.node .APPLY (hd :: rest)) V2 = some none := by
    rw [hkeep _ hKnot]
    exact assocFind_cons_self _ _ _
  -- the second visit of the call
  have hrev := evalRevisit_program env hd rest body newCtx hk hprog
  have hlen : (hd :: rest).reverse.length = rest.length + 1 := by simp
  refine ⟨?_, ?_⟩
  · intro hb fuel hfuel
    have h3 : evalVisit env ⟨.node .APPLY (hd :: rest), [], V2, [.node .APPLY (hd :: rest)], none⟩
        [] [] (.node .APPLY (hd :: rest)) []
        = some ([⟨.node .APPLY (hd :: rest), [],
            (.node .APPLY (hd :: rest), some body) :: V2, [], none⟩], [(hd :: rest, body)]) := by
      unfold evalVisit
      simp only [hev, Expr.getKind_node, hK, Expr.children_node,
        evalChildren_of_fixed V2 _ hrec2, hrev, hb, if_true]
      simp
    have h4 : evalFinish ⟨.node .APPLY (hd :: rest), [],
        (.node .APPLY (hd :: rest), some body) :: V2, [], none⟩ [] [(hd :: rest, body)]
        = some ⟨[], [(hd :: rest, body)], some body⟩ := by
      simp [evalFinish, assocFind]
    obtain ⟨m, hm⟩ : ∃ m, fuel = (((m + 1) + 1) + (hd :: rest).reverse.length) + 1 :=
      ⟨fuel - rest.length - 4, by rw [hlen]; omega⟩
    unfold evaluate
    rw [hm, EvFrame.new, evaluateLoop_step env _ _ [] [] none _ [] _ _ rfl h1]
    simp only [Expr.children_node]
    rw [hrun, evaluateLoop_step env (m + 1) _ [] [] none _ [] _ _ rfl h3,
      evaluateLoop_finish env m _ [] _ none _ rfl h4, evaluateLoop_nil]
    rfl
  · intro hb fuel r hbody
    have h3 : evalVisit env ⟨.node .APPLY (hd :: rest), [], V2, [.node .APPLY (hd :: rest)], none⟩
        [] [] (.node .APPLY (hd :: rest)) []
        = some ([EvFrame.new body newCtx (some (hd :: rest)),
            ⟨.node .APPLY (hd :: rest), [], V2, [.node .APPLY (hd :: rest)], none⟩], []) := by
      unfold evalVisit
      simp only [hev, Expr.getKind_node, hK, Expr.children_node,
        evalChildren_of_fixed V2 _ hrec2, hrev, hb, if_false]
      simp
    obtain ⟨k, V3, trie3, hkle, hfind, _, heq⟩ :=
      evaluateLoop_embed env (fun _ => True) (fun _ _ _ _ => trivial) body body newCtx
        [] [] none (some (hd :: rest))
        [⟨.node .APPLY (hd :: rest), [], V2, [.node .APPLY (hd :: rest)], none⟩]
        (fun _ _ => rfl) fuel [] [] [body] [] none r (fun _ _ => trivial) hbody
    have h5 : evalFinish ⟨body, newCtx, V3, [], some (hd :: rest)⟩
        [⟨.node .APPLY (hd :: rest), [], V2, [.node .APPLY (hd :: rest)], none⟩] trie3
        = some ⟨[⟨.node .APPLY (hd :: rest), [],
            (.node .APPLY (hd :: rest), some r) :: V2, [], none⟩],
            (hd :: rest, r) :: trie3, some r⟩ := by
      simp [evalFinish, hfind]
    have h6 : evalFinish ⟨.node .APPLY (hd :: rest), [],
        (.node .APPLY (hd :: rest), some r) :: V2, [], none⟩ [] ((hd :: rest, r) :: trie3)
        = some ⟨[], (hd :: rest, r) :: trie3, some r⟩ := by
      simp [evalFinish, assocFind]
    obtain ⟨m, hm⟩ : ∃ m, fuel = k + m := ⟨fuel - k, by omega⟩
    have hfuel : fuel + rest.length + 5
        = (((k + (m + 2)) + 1) + (hd :: rest).reverse.length) + 1 := by
      rw [hlen]
      omega
    unfold evaluate
    rw [hfuel, EvFrame.new, evaluateLoop_step env _ _ [] [] none _ [] _ _ rfl h1]
    simp only [Expr.children_node]
    rw [hrun, evaluateLoop_step env _ _ [] [] none _ [] _ _ rfl h3]
    have hrun2 := heq (m + 2) none none
    simp only [List.nil_append, List.append_nil, List.cons_append, EvFrame.new] at hrun2 ⊢
    rw [hrun2, evaluateLoop_finish env (m + 1) _ _ trie3 none _ rfl h5,
      evaluateLoop_finish env m _ [] _ (some r) _ rfl h6, evaluateLoop_nil]
    rfl

/-! ### The evaluator: a node that is already recorded as itself -/

theorem visitSkips_refl (t : Expr) : ∀ W : List Expr, VisitSkips t W W
  | [] => VisitSkips.nil
  | x :: W => VisitSkips.cons x W W (visitSkips_refl t W)

theorem visitSkips_append (t : Expr) {L L2 W W2 : List Expr} (h1 : VisitSkips t L L2)
    (h2 : VisitSkips t W W2) : VisitSkips t (L ++ W) (L2 ++ W2) := by
  induction h1 with
  | nil => exact h2
  | cons x A B _ ih => exact VisitSkips.cons x _ _ ih
  | skip A B _ ih => exact VisitSkips.skip _ _ ih

theorem visitSkips_all (t : Expr) (L : List Expr) (hL : ∀ x ∈ L, x = t) :
    VisitSkips t L [] := by
  induction L with
  | nil => exact VisitSkips.nil
  | cons x L ih =>
    have hx := hL x (List.mem_cons_self _ _)
    subst hx
    exact VisitSkips.skip _ _ (ih (fun y hy => hL y (List.mem_cons_of_mem _ hy)))

theorem visitSkips_cons_inv (t x : Expr) (W W2 : List Expr) (hx : x ≠ t)
    (h : VisitSkips t (x :: W) (x :: W2)) : VisitSkips t W W2 := by
  cases h with
  | cons _ _ _ h => exact h
  | skip _ _ _ => exact absurd rfl hx

theorem visitedSeeded_of_ne (t : Expr) {V V2 : List (Expr × Option Expr)}
    (h : VisitedSeeded t V V2) (key : Expr) (hk : assocFind key V ≠ none) :
    assocFind key V2 = assocFind key V := by
  by_cases hkt : key = t
  · subst hkt
    rcases h.2.1 with h1 | h1
    · exact absurd h1 hk
    · rw [h.1, h1]
  · exact h.2.2 key hkt

theorem visitedSeeded_cons (t : Expr) {V V2 : List (Expr × Option Expr)}
    (h : VisitedSeeded t V V2) (k : Expr) (v : Option Expr) (hk : k ≠ t ∨ v = some t) :
    VisitedSeeded t ((k, v) :: V) ((k, v) :: V2) := by
  by_cases hkt : k = t
  · subst hkt
    have hv : v = some k := by
      rcases hk with hk | hk
      · exact absurd rfl hk
      · exact hk
    subst hv
    refine ⟨assocFind_cons_self _ _ _, Or.inr (assocFind_cons_self _ _ _), ?_⟩
    intro key hkey
    rw [assocFind_cons_ne key k _ _ (fun h => hkey h.symm),
      assocFind_cons_ne key k _ _ (fun h => hkey h.symm)]
    exact h.2.2 key hkey
  · refine ⟨?_, ?_, ?_⟩
    · rw [assocFind_cons_ne t k _ _ hkt]
      exact h.1
    · rw [assocFind_cons_ne t k _ _ hkt]
      exact h.2.1
    · intro key hkey
      by_cases hkk : k = key
      · subst hkk
        rw [assocFind_cons_self, assocFind_cons_self]
      · rw [assocFind_cons_ne key k _ _ hkk, assocFind_cons_ne key k _ _ hkk]
        exact h.2.2 key hkey

theorem visitedSeeded_record (t : Expr) {V V2 : List (Expr × Option Expr)}
    (h : VisitedSeeded t V V2) : VisitedSeeded t ((t, some t) :: V) V2 := by
  refine ⟨h.1, Or.inr (assocFind_cons_self _ _ _), ?_⟩
  intro key hkey
  rw [assocFind_cons_ne key t _ _ (fun h => hkey h.symm)]
  exact h.2.2 key hkey

theorem evalChanged_seeded (t : Expr) {V V2 : List (Expr × Option Expr)}
    (h : VisitedSeeded t V V2) (cs : List Expr) :
    evalChanged V2 cs = evalChanged V cs := by
  unfold evalChanged
  induction cs with
  | nil => rfl
  | cons c cs ih =>
    simp only [List.any_cons, ih]
    congr 1
    by_cases hct : c = t
    · subst hct
      rcases h.2.1 with h1 | h1
      · rw [h.1, h1]
        simp
      · rw [h.1, h1]
    · rw [h.2.2 c hct]

theorem evalChildren_seeded_eq (t : Expr) {V V2 : List (Expr × Option Expr)}
    (h : VisitedSeeded t V V2) (cs : List Expr)
    (ht : assocFind t V ≠ none ∨ t ∉ cs) :
    evalChildren V2 cs = evalChildren V cs := by
  unfold evalChildren
  apply List.map_congr_left
  intro c hc
  by_cases hct : c = t
  · subst hct
    rcases ht with ht | ht
    · rw [visitedSeeded_of_ne c h c ht]
    · exact absurd hc ht
  · rw [h.2.2 c hct]
theorem visitedSeeded_lookup (t : Expr) {V V2 : List (Expr × Option Expr)}
    (h : VisitedSeeded t V V2) (c : Expr) :
    (match assocFind c V2 with
      | some v => v
      | none => none)
        = (match assocFind c V with
          | some v => v
          | none => none)
      ∨ (c = t
        ∧ (match assocFind c V with
          | some v => v
          | none => none) = none
        ∧ (match assocFind c V2 with
          | some v => v
          | none => none) = some t) := by
  by_cases hct : c = t
  · subst hct
    rcases h.2.1 with h1 | h1
    · right
      exact ⟨rfl, by rw [h1], by rw [h.1]⟩
    · left
      rw [h.1, h1]
  · left
    rw [h.2.2 c hct]

theorem evalChildren_getElem (V : List (Expr × Option Expr)) (cs : List Expr) (i : Nat) :
    (evalChildren V cs)[i]?
      = (cs[i]?).map (fun cp =>
          match assocFind cp V with
          | some v => v
          | none => none) := by
  simp [evalChildren, List.getElem?_map]

theorem evalChildren_seeded_of_allNonNull (t : Expr) {V V2 : List (Expr × Option Expr)}
    (h : VisitedSeeded t V V2) :
    ∀ (cs l : List Expr), allNonNull (evalChildren V cs) = some l →
      evalChildren V2 cs = evalChildren V cs := by
  intro cs
  induction cs with
  | nil =>
    intro l _
    rfl
  | cons c cs ih =>
    intro l hl
    simp only [evalChildren, List.map_cons] at hl ⊢
    rcases visitedSeeded_lookup t h c with h1 | ⟨_, h1, _⟩
    · rw [h1]
      cases hv : (match assocFind c V with
        | some v => v
        | none => none) with
      | none =>
        rw [hv] at hl
        simp [allNonNull] at hl
      | some e =>
        rw [hv] at hl
        simp only [allNonNull] at hl
        cases hl2 : allNonNull (List.map (fun cp =>
            match assocFind cp V with
            | some v => v
            | none => none) cs) with
        | none => simp [hl2] at hl
        | some l2 =>
          have := ih l2 hl2
          simp only [evalChildren] at this
          rw [this]
    · rw [h1] at hl
      simp [allNonNull] at hl
theorem evalChildren_seeded_getElem (t : Expr) {V V2 : List (Expr × Option Expr)}
    (h : VisitedSeeded t V V2) (cs : List Expr) (i : Nat) :
    ((evalChildren V cs)[i]? = none ∧ (evalChildren V2 cs)[i]? = none ∧ cs[i]? = none)
      ∨ (∃ child r, cs[i]? = some child ∧ (evalChildren V cs)[i]? = some r
          ∧ ((evalChildren V2 cs)[i]? = some r
            ∨ (child = t ∧ r = none ∧ (evalChildren V2 cs)[i]? = some (some t)))) := by
  rw [evalChildren_getElem, evalChildren_getElem]
  cases hc : cs[i]? with
  | none => exact Or.inl ⟨rfl, rfl, rfl⟩
  | some child =>
    right
    refine ⟨child, _, rfl, rfl, ?_⟩
    rcases visitedSeeded_lookup t h child with h1 | ⟨h1, h2, h3⟩
    · left
      simp only [Option.map_some', h1]
    · right
      exact ⟨h1, h2, by simp only [Option.map_some', h3]⟩

theorem evalRevisit_seeded (env : Env) (t : Expr) {V V2 : List (Expr × Option Expr)}
    (hs : VisitedSeeded t V V2) (trie : ExprTrie) (cur : Expr) (rv : Revisit)
    (h : evalRevisit env trie cur (evalChildren V cur.children) = some rv) :
    evalRevisit env trie cur (evalChildren V2 cur.children) = some rv
      ∨ (∃ L L2, rv = .cannotEvaluate L ∧ L2 ≠ []
          ∧ evalRevisit env trie cur (evalChildren V2 cur.children) = some (.cannotEvaluate L2)
          ∧ VisitSkips t L L2)
      ∨ (∃ L, rv = .cannotEvaluate L ∧ ∀ x ∈ L, x = t) := by
  have hall : ∀ l, allNonNull (evalChildren V cur.children) = some l →
      evalChildren V2 cur.children = evalChildren V cur.children :=
    evalChildren_seeded_of_allNonNull t hs cur.children
  -- the first child, which the operator reads in every case
  have hfirst : ∀ c0, (evalChildren V cur.children)[0]? = some (some c0) →
      (evalChildren V2 cur.children)[0]? = some (some c0) := by
    intro c0 h0
    rcases evalChildren_seeded_getElem t hs cur.children 0 with ⟨h1, _, _⟩ | ⟨child, r, _, h1, h2⟩
    · rw [h1] at h0
      cases h0
    · rw [h1] at h0
      rcases h2 with h2 | ⟨_, h3, _⟩
      · rw [h2]
        exact h0
      · rw [h3] at h0
        cases h0
  unfold evalRevisit at h ⊢
  simp only at h ⊢
  by_cases hap : cur.getKind = .APPLY
  · simp only [hap, if_true] at h ⊢
    cases h0 : (evalChildren V cur.children)[0]? with
    | none => simp [h0] at h
    | some o =>
      cases o with
      | none => simp [h0] at h
      | some c0 =>
        simp only [h0, hfirst c0 h0] at h ⊢
        by_cases hprog : c0.getKind = .PROGRAM_CONST ∨ c0.getKind = .ORACLE
        · simp only [hprog, if_true] at h ⊢
          cases hl : allNonNull (evalChildren V cur.children) with
          | none => simp [hl] at h
          | some l =>
            rw [hall l hl]
            exact Or.inl h
        · simp only [hprog, if_false] at h ⊢
          exact Or.inl h
  · simp only [hap, if_false] at h ⊢
    by_cases hite : cur.getKind = .EVAL_IF_THEN_ELSE
    · simp only [hite, if_true] at h ⊢
      cases h0 : (evalChildren V cur.children)[0]? with
      | none => simp [h0] at h
      | some o =>
        cases o with
        | none => simp [h0] at h
        | some c0 =>
          simp only [h0, hfirst c0 h0] at h ⊢
          by_cases hb : c0.getKind = .BOOLEAN
          · simp only [hb, if_true] at h ⊢
            cases hab : asBool c0 with
            | none => simp [hab] at h
            | some b =>
              simp only [hab] at h ⊢
              rcases evalChildren_seeded_getElem t hs cur.children (if b = true then 1 else 2)
                with ⟨h1, _, _⟩ | ⟨child, r, hc, h1, h2⟩
              · simp [h1] at h
              · simp only [h1, hc] at h ⊢
                rcases h2 with h2 | ⟨hct, hr, h2⟩
                · rw [h2]
                  exact Or.inl h
                · subst hr
                  simp only [Option.some.injEq] at h
                  subst h
                  subst hct
                  exact Or.inr (Or.inr ⟨[child], rfl, by simp⟩)
          · simp only [hb, if_false] at h ⊢
            rcases evalChildren_seeded_getElem t hs cur.children 1
              with ⟨h1, _, _⟩ | ⟨child1, r1, hc1, h1, h12⟩
            · simp [h1] at h
            · rcases evalChildren_seeded_getElem t hs cur.children 2
                with ⟨h2, _, _⟩ | ⟨child2, r2, hc2, h2, h22⟩
              · simp [h1, h2] at h
              · simp only [h1, h2, hc1, hc2] at h ⊢
                rcases h12 with h12 | ⟨hct1, hr1, h12⟩
                · rcases h22 with h22 | ⟨hct2, hr2, h22⟩
                  · rw [h12, h22]
                    exact Or.inl h
                  · subst hr2
                    subst hct2
                    rw [h12, h22]
                    cases r1 with
                    | none =>
                      simp only [if_true, List.cons_append, List.nil_append, reduceCtorEq,
                        if_false, Option.some.injEq] at h ⊢
                      subst h
                      exact Or.inr (Or.inl ⟨[child2, child1], [child1], rfl, by simp,
                        by simp, VisitSkips.skip _ _ (visitSkips_refl _ _)⟩)
                    | some e1 =>
                      simp only [reduceCtorEq, if_false, if_true, List.append_nil,
                        Option.some.injEq] at h ⊢
                      subst h
                      exact Or.inr (Or.inr ⟨[child2], rfl, by simp⟩)
                · subst hr1
                  subst hct1
                  rcases h22 with h22 | ⟨hct2, hr2, h22⟩
                  · rw [h12, h22]
                    cases r2 with
                    | none =>
                      simp only [if_true, List.cons_append, List.nil_append, reduceCtorEq,
                        if_false, Option.some.injEq, List.append_nil] at h ⊢
                      subst h
                      exact Or.inr (Or.inl ⟨[child2, child1], [child2], rfl, by simp,
                        by simp, VisitSkips.cons _ _ _ (visitSkips_all _ _ (by simp))⟩)
                    | some e2 =>
                      simp only [reduceCtorEq, if_false, if_true, List.nil_append,
                        Option.some.injEq] at h ⊢
                      subst h
                      exact Or.inr (Or.inr ⟨[child1], rfl, by simp⟩)
                  · subst hr2
                    subst hct2
                    simp only [if_true, List.cons_append, List.nil_append, reduceCtorEq,
                      if_false, Option.some.injEq] at h
                    subst h
                    exact Or.inr (Or.inr ⟨[child2, child2], rfl, by simp⟩)
    · simp only [hite, if_false] at h ⊢
      by_cases hlit : isLiteralOp cur.getKind = true
      · simp only [hlit, if_true] at h ⊢
        cases hl : allNonNull (evalChildren V cur.children) with
        | none => simp [hl] at h
        | some l =>
          rw [hall l hl]
          exact Or.inl h
      · simp only [hlit, if_false, Bool.false_eq_true] at h ⊢
        exact Or.inl h
theorem visitedSeeded_append (t : Expr) {V V2 : List (Expr × Option Expr)}
    (h : VisitedSeeded t V V2) :
    ∀ add : List (Expr × Option Expr), (∀ p ∈ add, p.1 ≠ t) →
      VisitedSeeded t (add ++ V) (add ++ V2) := by
  intro add
  induction add with
  | nil =>
    intro _
    exact h
  | cons p add ih =>
    intro hadd
    obtain ⟨k, v⟩ := p
    exact visitedSeeded_cons t (ih (fun q hq => hadd q (List.mem_cons_of_mem _ hq))) k v
      (Or.inl (hadd (k, v) (List.mem_cons_self _ _)))

theorem evalVisit_seeded (env : Env) (t init : Expr) (ctx : Ctx)
    (V V2 : List (Expr × Option Expr)) (rest rest2 : List Expr) (res : Option (List Expr))
    (below below2 : List EvFrame) (trie : ExprTrie) (cur : Expr)
    (hst : (!env.isEvaluatable t && (t.isGround || decide (ctx = []))) = true)
    (hs : VisitedSeeded t V V2) (st : List EvFrame) (trie1 : ExprTrie)
    (h : evalVisit env ⟨init, ctx, V, cur :: rest, res⟩ below trie cur rest = some (st, trie1)) :
    (∃ pre add L L2, st = pre ++ ⟨init, ctx, add ++ V, L ++ rest, res⟩ :: below
        ∧ evalVisit env ⟨init, ctx, V2, cur :: rest2, res⟩ below2 trie cur rest2
            = some (pre ++ ⟨init, ctx, add ++ V2, L2 ++ rest2, res⟩ :: below2, trie1)
        ∧ VisitSkips t L L2 ∧ VisitedSeeded t (add ++ V) (add ++ V2)
        ∧ (pre ≠ [] → L = [cur] ∧ L2 = [cur] ∧ cur ≠ t))
      ∨ (∃ L, st = ⟨init, ctx, V, L ++ cur :: rest, res⟩ :: below ∧ trie1 = trie
          ∧ (∀ x ∈ L, x = t) ∧ cur ≠ t) := by
  by_cases hcur : cur = t
  · subst hcur
    left
    unfold evalVisit at h ⊢
    simp only [hst, if_true, Option.some.injEq, Prod.mk.injEq] at h ⊢
    obtain ⟨rfl, rfl⟩ := h
    exact ⟨[], [(cur, some cur)], [], [], rfl, ⟨rfl, rfl⟩, VisitSkips.nil,
      visitedSeeded_cons cur hs cur (some cur) (Or.inr rfl), by simp⟩
  · by_cases hrv : (!env.isEvaluatable cur && (cur.isGround || decide (ctx = []))) = false
        ∧ cur.getKind ≠ .PARAM ∧ assocFind cur V = some none
    · obtain ⟨hc1, hp, hv⟩ := hrv
      have hv2 : assocFind cur V2 = some none := by
        rw [hs.2.2 cur hcur]
        exact hv
      have hchg := evalChanged_seeded t hs cur.children
      unfold evalVisit at h ⊢
      simp only [hc1, hp, hv, hv2, hchg, if_false, Bool.false_eq_true] at h ⊢
      cases hr : evalRevisit env trie cur (evalChildren V cur.children) with
      | none => simp [hr] at h
      | some rv =>
        rcases evalRevisit_seeded env t hs trie cur rv hr with
          h2 | ⟨L, L2, hrv, _, h2, hsk⟩ | ⟨L, hrv, hL⟩
        · simp only [hr, h2] at h ⊢
          cases rv with
          | newContext frame trie2 =>
            simp only [Option.some.injEq, Prod.mk.injEq] at h ⊢
            obtain ⟨rfl, rfl⟩ := h
            exact Or.inl ⟨[frame], [], [cur], [cur], rfl, ⟨rfl, rfl⟩, visitSkips_refl _ _, hs,
              fun _ => ⟨rfl, rfl, hcur⟩⟩
          | cannotEvaluate schedule =>
            simp only [Option.some.injEq, Prod.mk.injEq] at h ⊢
            obtain ⟨rfl, rfl⟩ := h
            exact Or.inl ⟨[], [], schedule ++ [cur], schedule ++ [cur], by simp, by simp,
              visitSkips_refl _ _, hs, by simp⟩
          | evaluated e trie2 =>
            cases e with
            | some ev =>
              simp only [Option.some.injEq, Prod.mk.injEq] at h ⊢
              obtain ⟨rfl, rfl⟩ := h
              exact Or.inl ⟨[], [(cur, some ev)], [], [], rfl, ⟨rfl, rfl⟩, VisitSkips.nil,
                visitedSeeded_cons t hs cur _ (Or.inl hcur), by simp⟩
            | none =>
              simp only at h ⊢
              by_cases hcg : evalChanged V cur.children = true
              · simp only [hcg, if_true] at h ⊢
                cases hall : allNonNull (evalChildren V cur.children) with
                | none => simp [hall] at h
                | some cch =>
                  rw [evalChildren_seeded_of_allNonNull t hs cur.children cch hall]
                  simp only [hall, Option.some.injEq, Prod.mk.injEq] at h ⊢
                  obtain ⟨rfl, rfl⟩ := h
                  exact Or.inl ⟨[], [(cur, some (.node cur.getKind cch))], [], [], rfl,
                    ⟨rfl, rfl⟩, VisitSkips.nil, visitedSeeded_cons t hs cur _ (Or.inl hcur),
                    by simp⟩
              · simp only [hcg, if_false, Bool.false_eq_true, Option.some.injEq,
                  Prod.mk.injEq] at h ⊢
                obtain ⟨rfl, rfl⟩ := h
                exact Or.inl ⟨[], [(cur, some cur)], [], [], rfl, ⟨rfl, rfl⟩, VisitSkips.nil,
                  visitedSeeded_cons t hs cur _ (Or.inl hcur), by simp⟩
        · subst hrv
          simp only [hr, h2, Option.some.injEq, Prod.mk.injEq] at h ⊢
          obtain ⟨rfl, rfl⟩ := h
          exact Or.inl ⟨[], [], L ++ [cur], L2 ++ [cur], by simp, by simp,
            visitSkips_append t hsk (visitSkips_refl _ _), hs, by simp⟩
        · subst hrv
          simp only [hr, Option.some.injEq, Prod.mk.injEq] at h
          obtain ⟨rfl, rfl⟩ := h
          exact Or.inr ⟨L, rfl, rfl, hL, hcur⟩
    · obtain ⟨pre, add, W, hst2, hemb, hadd, _, hpre⟩ :=
        evalVisit_embed env init init ctx V V2 rest rest2 res res below below2 trie cur
          (hs.2.2 cur hcur) (fun a b c => absurd ⟨a, b, c⟩ hrv)
          (evalChanged_seeded t hs cur.children) st trie1 h
      exact Or.inl ⟨pre, add, W, W, hst2, hemb, visitSkips_refl _ _,
        visitedSeeded_append t hs add (fun p hp => by rw [hadd p hp]; exact hcur),
        fun hne => ⟨(hpre hne).1, (hpre hne).1, hcur⟩⟩
theorem evaluateLoop_seeded (env : Env) (t : Expr) (ctx : Ctx) (init : Expr)
    (res : Option (List Expr))
    (hst : (!env.isEvaluatable t && (t.isGround || decide (ctx = []))) = true) :
    ∀ (fuel : Nat) (frames : List EvFrame) (V V2 : List (Expr × Option Expr))
      (W W2 : List Expr) (trie : ExprTrie) (ev : Option Expr) (r : Expr),
      VisitedSeeded t V V2 → VisitSkips t W W2 →
      (frames ≠ [] → ∃ back rest rest2, W = back :: rest ∧ W2 = back :: rest2 ∧ back ≠ t) →
      evaluateLoop env fuel ⟨frames ++ [⟨init, ctx, V, W, res⟩], trie, ev⟩ = some r →
      evaluateLoop env fuel ⟨frames ++ [⟨init, ctx, V2, W2, res⟩], trie, ev⟩ = some r := by
  intro fuel
  induction fuel with
  | zero =>
    intro frames V V2 W W2 trie ev r _ _ _ h
    cases frames <;> simp [evaluateLoop] at h
  | succ fuel ih =>
    intro frames V V2 W W2 trie ev r hs hsk hinv h
    cases frames with
    | nil =>
      simp only [List.nil_append] at h ⊢
      cases hsk with
      | nil =>
        cases hfin : evalFinish ⟨init, ctx, V, [], res⟩ [] trie with
        | none =>
          rw [evaluateLoop_finish_none env fuel _ [] trie ev rfl hfin] at h
          cases h
        | some s =>
          have hfin2 : evalFinish ⟨init, ctx, V2, [], res⟩ [] trie = some s := by
            unfold evalFinish at hfin ⊢
            simp only at hfin ⊢
            cases hf : assocFind init V with
            | none => simp [hf] at hfin
            | some e =>
              rw [visitedSeeded_of_ne t hs init (by rw [hf]; simp), hf]
              rw [hf] at hfin
              exact hfin
          rw [evaluateLoop_finish env fuel _ [] trie ev s rfl hfin] at h
          rw [evaluateLoop_finish env fuel _ [] trie ev s rfl hfin2]
          exact h
      | cons cur W1 W3 hsk1 =>
        cases hstep : evalVisit env ⟨init, ctx, V, cur :: W1, res⟩ [] trie cur W1 with
        | none =>
          rw [evaluateLoop_step_none env fuel _ [] trie ev cur W1 rfl hstep] at h
          cases h
        | some p =>
          obtain ⟨st, trie1⟩ := p
          rw [evaluateLoop_step env fuel _ [] trie ev cur W1 _ _ rfl hstep] at h
          rcases evalVisit_seeded env t init ctx V V2 W1 W3 res [] [] trie cur hst hs st trie1
            hstep with ⟨pre, add, L, L2, hst2, hemb, hskL, hs2, hpre⟩ | ⟨L, hst2, htrie, hL, hct⟩
          · subst hst2
            rw [evaluateLoop_step env fuel _ [] trie ev cur W3 _ _ rfl hemb]
            refine ih pre (add ++ V) (add ++ V2) (L ++ W1) (L2 ++ W3) trie1 ev r hs2
              (visitSkips_append t hskL hsk1) ?_ h
            intro hne
            obtain ⟨h1, h2, h3⟩ := hpre hne
            exact ⟨cur, W1, W3, by rw [h1]; rfl, by rw [h2]; rfl, h3⟩
          · subst hst2
            subst htrie
            have h2 := ih [] V V2 (L ++ cur :: W1) (cur :: W3) trie1 ev r hs
              (by
                have := visitSkips_append t (visitSkips_all t L hL)
                  (VisitSkips.cons cur W1 W3 hsk1)
                simpa using this)
              (fun hne => absurd rfl hne) h
            exact evaluateLoop_mono env fuel _ r h2 1
      | skip W1 W3 hsk1 =>
        have hstep : evalVisit env ⟨init, ctx, V, t :: W1, res⟩ [] trie t W1
            = some ([⟨init, ctx, (t, some t) :: V, W1, res⟩], trie) := by
          unfold evalVisit
          simp only [hst, if_true]
        rw [evaluateLoop_step env fuel _ [] trie ev t W1 _ _ rfl hstep] at h
        have h2 := ih [] ((t, some t) :: V) V2 W1 W2 trie ev r (visitedSeeded_record t hs) hsk1
          (fun hne => absurd rfl hne) h
        exact evaluateLoop_mono env fuel _ r h2 1
    | cons f fs =>
      obtain ⟨back, rest, rest2, hW, hW2, hback⟩ := hinv (by simp)
      subst hW
      subst hW2
      have hsk1 := visitSkips_cons_inv t back rest rest2 hback hsk
      simp only [List.cons_append] at h ⊢
      cases hv : f.d_visit with
      | cons cur restf =>
        cases hstep : evalVisit env f (fs ++ [⟨init, ctx, V, back :: rest, res⟩]) trie cur restf
          with
        | none =>
          rw [evaluateLoop_step_none env fuel f _ trie ev cur restf hv hstep] at h
          cases h
        | some p =>
          obtain ⟨st, trie1⟩ := p
          rw [evaluateLoop_step env fuel f _ trie ev cur restf _ _ hv hstep] at h
          obtain ⟨finit, fctx, fV, fW, fres⟩ := f
          simp only at hv
          subst hv
          obtain ⟨pre, add, W1, hst2, hemb, _, _, _⟩ :=
            evalVisit_embed env finit finit fctx fV fV restf restf fres fres
              (fs ++ [⟨init, ctx, V, back :: rest, res⟩])
              (fs ++ [⟨init, ctx, V2, back :: rest2, res⟩]) trie cur rfl
              (fun _ _ _ => rfl) rfl st trie1 hstep
          subst hst2
          rw [evaluateLoop_step env fuel _ _ trie ev cur restf _ _ rfl hemb]
          have h2 : evaluateLoop env fuel
              ⟨(pre ++ ⟨finit, fctx, add ++ fV, W1 ++ restf, fres⟩ :: fs)
                ++ [⟨init, ctx, V, back :: rest, res⟩], trie1, ev⟩ = some r := by
            simpa only [List.append_assoc, List.cons_append] using h
          have h3 := ih _ V V2 (back :: rest) (back :: rest2) trie1 ev r hs hsk
            (fun _ => ⟨back, rest, rest2, rfl, rfl, hback⟩) h2
          simpa only [List.append_assoc, List.cons_append] using h3
      | nil =>
        cases hfin : evalFinish f (fs ++ [⟨init, ctx, V, back :: rest, res⟩]) trie with
        | none =>
          rw [evaluateLoop_finish_none env fuel f _ trie ev hv hfin] at h
          cases h
        | some s =>
          rw [evaluateLoop_finish env fuel f _ trie ev s hv hfin] at h
          cases fs with
          | nil =>
            simp only [List.nil_append] at hfin ⊢
            obtain ⟨evaluated, back1, rest1, trie1, hvp, rfl, hpar⟩ :=
              evalFinish_cons f _ [] trie s hfin
            simp only [List.cons.injEq] at hvp
            obtain ⟨rfl, rfl⟩ := hvp
            have hfin2 := hpar ⟨init, ctx, V2, back :: rest2, res⟩ [] rest2 rfl
            rw [evaluateLoop_finish env fuel f _ trie ev _ hv hfin2]
            exact ih [] ((back, evaluated) :: V) ((back, evaluated) :: V2) rest rest2 trie1
              evaluated r (visitedSeeded_cons t hs back evaluated (Or.inl hback)) hsk1
              (fun hne => absurd rfl hne) h
          | cons f2 fs2 =>
            simp only [List.cons_append] at hfin ⊢
            obtain ⟨evaluated, back1, rest1, trie1, hvp, rfl, hpar⟩ :=
              evalFinish_cons f f2 _ trie s hfin
            have hfin2 := hpar f2 (fs2 ++ [⟨init, ctx, V2, back :: rest2, res⟩]) rest1 hvp
            rw [evaluateLoop_finish env fuel f _ trie ev _ hv hfin2]
            have h2 : evaluateLoop env fuel
                ⟨({ f2 with d_visited := (back1, evaluated) :: f2.d_visited, d_visit := rest1 }
                    :: fs2) ++ [⟨init, ctx, V, back :: rest, res⟩], trie1, evaluated⟩
                = some r := by
              simpa only [List.cons_append] using h
            have h3 := ih _ V V2 (back :: rest) (back :: rest2) trie1 evaluated r hs hsk
              (fun _ => ⟨back, rest, rest2, rfl, rfl, hback⟩) h2
            simpa only [List.cons_append] using h3

/-! ### The spine of a list and the walk of `getNAryChildren` -/

theorem spineWalk_fuel (op : Expr) (isLeft : Bool) :
    ∀ (n : Nat) (e : Expr) (f1 f2 : Nat), e.size ≤ n → n ≤ f1 → n ≤ f2 →
      spineWalk op isLeft f1 e = spineWalk op isLeft f2 e := by
  intro n
  induction n with
  | zero =>
    intro e f1 f2 h
    have := Expr.size_pos e
    omega
  | succ n ih =>
    intro e f1 f2 hs h1 h2
    obtain ⟨g1, rfl⟩ : ∃ g, f1 = g + 1 := ⟨f1 - 1, by omega⟩
    obtain ⟨g2, rfl⟩ : ∃ g, f2 = g + 1 := ⟨f2 - 1, by omega⟩
    simp only [spineWalk]
    cases hstep : listStep op isLeft e with
    | none => rfl
    | some p =>
      obtain ⟨h, t⟩ := p
      have hsz := (listStep_tail op isLeft e h t hstep).1
      simp only
      rw [ih t g1 g2 (by omega) (by omega) (by omega)]

theorem spineElems_eq (op : Expr) (isLeft : Bool) (e : Expr) :
    spineElems op isLeft e
      = (match listStep op isLeft e with
        | none => []
        | some (h, t) => h :: spineElems op isLeft t) := by
  obtain ⟨n, hn⟩ : ∃ n, e.size = n + 1 := ⟨e.size - 1, by have := Expr.size_pos e; omega⟩
  unfold spineElems
  rw [hn, spineWalk]
  cases hstep : listStep op isLeft e with
  | none => rfl
  | some p =>
    obtain ⟨h, t⟩ := p
    have hsz := (listStep_tail op isLeft e h t hstep).1
    simp only
    rw [spineWalk_fuel op isLeft t.size t n t.size (Nat.le_refl _) (by omega) (Nat.le_refl _)]

theorem spineEnd_eq (op : Expr) (isLeft : Bool) (e : Expr) :
    spineEnd op isLeft e
      = (match listStep op isLeft e with
        | none => e
        | some (_, t) => spineEnd op isLeft t) := by
  obtain ⟨n, hn⟩ : ∃ n, e.size = n + 1 := ⟨e.size - 1, by have := Expr.size_pos e; omega⟩
  unfold spineEnd
  rw [hn, spineWalk]
  cases hstep : listStep op isLeft e with
  | none => rfl
  | some p =>
    obtain ⟨h, t⟩ := p
    have hsz := (listStep_tail op isLeft e h t hstep).1
    simp only
    rw [spineWalk_fuel op isLeft t.size t n t.size (Nat.le_refl _) (by omega) (Nat.le_refl _)]

/-- The walk of `getNAryChildren` without a bound on the number of children: the vector
receives the elements of the spine, and the result is the end of the spine, or null when
a nil element is given and the spine does not end in it. -/
theorem getNAryChildrenLoop_spine (op : Expr) (checkNil : Option Expr) (isLeft : Bool) :
    ∀ (fuel : Nat) (e : Expr) (children : List Expr), appliesHaveArgs e = true →
      e.size < fuel →
      getNAryChildrenLoop op checkNil isLeft 0 fuel e children
        = some ((match checkNil with
                | some nil =>
                  if spineEnd op isLeft e ≠ nil then none else some (spineEnd op isLeft e)
                | none => some (spineEnd op isLeft e)),
            children ++ spineElems op isLeft e) := by
  intro fuel
  induction fuel with
  | zero =>
    intro e children _ h
    omega
  | succ fuel ih =>
    intro e children hwf hsize
    rw [getNAryChildrenLoop_step op checkNil isLeft 0 fuel e children hwf,
      spineElems_eq op isLeft e, spineEnd_eq op isLeft e]
    cases hs : listStep op isLeft e with
    | none =>
      cases checkNil with
      | none => simp
      | some nil =>
        by_cases h : e = nil
        · simp [h]
        · simp [h]
    | some p =>
      obtain ⟨h, t⟩ := p
      obtain ⟨hsz, hwt⟩ := listStep_tail op isLeft e h t hs
      have hlen : ¬ (children ++ [h]).length = 0 := by simp
      simp only [hlen, if_false]
      rw [ih t (children ++ [h]) (hwt hwf) (by omega)]
      simp

/-- The walk of `getNAryChildren` with a bound `mx > 0` on the number of children: the
vector receives the elements of the spine up to the bound. -/
theorem getNAryChildrenLoop_take (op : Expr) (checkNil : Option Expr) (isLeft : Bool)
    (mx : Nat) :
    ∀ (fuel : Nat) (e : Expr) (children : List Expr), appliesHaveArgs e = true →
      e.size < fuel → children.length < mx →
      ∃ r, getNAryChildrenLoop op checkNil isLeft mx fuel e children
        = some (r, children ++ (spineElems op isLeft e).take (mx - children.length)) := by
  intro fuel
  induction fuel with
  | zero =>
    intro e children _ h
    omega
  | succ fuel ih =>
    intro e children hwf hsize hlen
    rw [getNAryChildrenLoop_step op checkNil isLeft mx fuel e children hwf,
      spineElems_eq op isLeft e]
    cases hs : listStep op isLeft e with
    | none =>
      cases checkNil with
      | none => exact ⟨some e, by simp⟩
      | some nil =>
        by_cases h : e = nil
        · exact ⟨some e, by simp [h]⟩
        · exact ⟨none, by simp [h]⟩
    | some p =>
      obtain ⟨h, t⟩ := p
      obtain ⟨hsz, hwt⟩ := listStep_tail op isLeft e h t hs
      obtain ⟨k, hk⟩ : ∃ k, mx - children.length = k + 1 := ⟨mx - children.length - 1, by omega⟩
      simp only [hk, List.take_succ_cons]
      by_cases hfull : (children ++ [h]).length = mx
      · have hk0 : k = 0 := by
          simp only [List.length_append, List.length_singleton] at hfull
          omega
        subst hk0
        exact ⟨some t, by simp [hfull]⟩
      · simp only [hfull, if_false]
        have hlen2 : (children ++ [h]).length < mx := by
          simp only [List.length_append, List.length_singleton] at hfull ⊢
          omega
        obtain ⟨r, hr⟩ := ih t (children ++ [h]) (hwt hwf) (by omega) hlen2
        refine ⟨r, ?_⟩
        rw [hr]
        have : mx - (children ++ [h]).length = k := by
          simp only [List.length_append, List.length_singleton]
          omega
        rw [this]
        simp

theorem evaluateLiteralOpInternal_listOp (env : Env) (k : Kind) (op : Expr) (rest : List Expr)
    (hk : k = .EVAL_TO_LIST ∨ k = .EVAL_FROM_LIST ∨ k = .EVAL_CONS ∨ k = .EVAL_CONCAT
      ∨ k = .EVAL_EXTRACT ∨ k = .EVAL_FIND)
    (hg : isGround (op :: rest) = true) (hopk : isLiteral op.getKind = false) :
    evaluateLiteralOpInternal env k (op :: rest) = evaluateListOp env k (op :: rest) := by
  rcases hk with hk | hk | hk | hk | hk | hk <;> subst hk <;>
    simp [evaluateLiteralOpInternal, hg, hopk]

theorem getNAryChildren_spine (op : Expr) (checkNil : Option Expr) (isLeft : Bool) (e : Expr)
    (hwf : appliesHaveArgs e = true) :
    getNAryChildren e op checkNil [] isLeft 0
      = some ((match checkNil with
              | some nil =>
                if spineEnd op isLeft e ≠ nil then none else some (spineEnd op isLeft e)
              | none => some (spineEnd op isLeft e)),
          spineElems op isLeft e) := by
  unfold getNAryChildren
  rw [getNAryChildrenLoop_spine op checkNil isLeft (e.size + 1) e [] hwf (by omega)]
  simp

theorem getNAryChildren_take (op : Expr) (checkNil : Option Expr) (isLeft : Bool) (e : Expr)
    (mx : Nat) (hwf : appliesHaveArgs e = true) :
    ∃ r, getNAryChildren e op checkNil [] isLeft (mx + 1)
      = some (r, (spineElems op isLeft e).take (mx + 1)) := by
  unfold getNAryChildren
  obtain ⟨r, hr⟩ := getNAryChildrenLoop_take op checkNil isLeft (mx + 1) (e.size + 1) e []
    hwf (by omega) (by simp)
  exact ⟨r, by simpa using hr⟩

theorem indexOf_least (x : Expr) :
    ∀ (xs : List Expr) (i : Nat), xs[i]? = some x → (∀ j, j < i → xs[j]? ≠ some x) →
      xs.indexOf x = i := by
  intro xs
  induction xs with
  | nil =>
    intro i h
    simp at h
  | cons y ys ih =>
    intro i h hleast
    cases i with
    | zero =>
      simp only [List.getElem?_cons_zero, Option.some.injEq] at h
      subst h
      simp
    | succ i =>
      have hy : y ≠ x := by
        intro hyx
        exact hleast 0 (by omega) (by simp [hyx])
      rw [List.indexOf_cons_ne _ hy]
      simp only [List.getElem?_cons_succ] at h
      rw [ih i h (fun j hj hx => hleast (j + 1) (by omega) (by simpa using hx))]

theorem getLast?_take_succ (xs : List Expr) (i : Nat) (h : i < xs.length) :
    (xs.take (i + 1)).getLast? = xs[i]? := by
  rw [List.getLast?_eq_getElem?, List.length_take, Nat.min_eq_left (by omega)]
  simp [List.getElem?_take]

/-! ### The entry points return a node -/

theorem literalObject_leaf (a : Expr) (h : literalObject a = true)
    (hk : isLiteral a.getKind = true) : ∃ k l, a = .leaf k l := by
  cases a with
  | leaf k l => exact ⟨k, l, rfl⟩
  | node k cs => simp [literalObject, Expr.getKind] at h hk; simp [h] at hk

theorem argsAsLiterals_some :
    ∀ args : List Expr, (∀ a ∈ args, literalObject a = true) →
      args.all (fun e => isLiteral e.getKind) = true →
      ∃ lits, argsAsLiterals args = some lits := by
  intro args
  induction args with
  | nil =>
    intro _ _
    exact ⟨[], rfl⟩
  | cons a args ih =>
    intro hobj hall
    simp only [List.all_cons, Bool.and_eq_true] at hall
    obtain ⟨lits, hl⟩ := ih (fun b hb => hobj b (List.mem_cons_of_mem _ hb)) hall.2
    obtain ⟨k, l, rfl⟩ := literalObject_leaf a (hobj a (List.mem_cons_self _ _)) hall.1
    exact ⟨(k, l) :: lits, by simp [argsAsLiterals, asLiteral, hl]⟩

/-- The walk of `getNAryChildren` returns on a term whose applications have a head and
an argument, with or without a bound on the number of elements. -/
theorem getNAryChildren_returns (op : Expr) (checkNil : Option Expr) (isLeft : Bool)
    (e : Expr) (mx : Nat) (hwf : appliesHaveArgs e = true) :
    ∃ r, getNAryChildren e op checkNil [] isLeft mx = some r := by
  cases mx with
  | zero => exact ⟨_, getNAryChildren_spine op checkNil isLeft e hwf⟩
  | succ mx =>
    obtain ⟨r, hr⟩ := getNAryChildren_take op checkNil isLeft e mx hwf
    exact ⟨_, hr⟩

/-- The list operations return, null or not, when the vector `args` covers the positions
that they read and the arguments are well formed. -/
theorem evaluateListOp_returns (env : Env) (k : Kind) (args : List Expr)
    (hn : argsRead k args.length = true)
    (hargs : ∀ a ∈ args, appliesHaveArgs a = true ∧ literalObject a = true) :
    ∃ r, evaluateListOp env k args = some r := by
  cases args with
  | nil => cases k <;> simp [argsRead] at hn
  | cons op rest =>
    unfold evaluateListOp
    simp only [List.getElem?_cons_zero]
    cases hinfo : env.getAppInfo op with
    | none => exact ⟨_, rfl⟩
    | some ac =>
      simp only
      by_cases hat : ac.d_attrCons ≠ .RIGHT_ASSOC_NIL ∧ ac.d_attrCons ≠ .LEFT_ASSOC_NIL
      · rw [if_pos hat]
        exact ⟨_, rfl⟩
      · rw [if_neg hat]
        have hwalk : ∀ (e : Expr) (cn : Option Expr) (mx : Nat), e ∈ rest →
            ∃ r, getNAryChildren e op cn [] (decide (ac.d_attrCons = .LEFT_ASSOC_NIL)) mx
              = some r :=
          fun e cn mx he => getNAryChildren_returns op cn _ e mx
            (hargs e (List.mem_cons_of_mem _ he)).1
        cases rest with
        | nil => cases k <;> (first | exact ⟨_, rfl⟩ | (simp [argsRead] at hn))
        | cons a1 rest2 =>
          by_cases hk1 : k = .EVAL_TO_LIST
          · subst hk1
            simp only [List.getElem?_cons_succ, List.getElem?_cons_zero]
            by_cases hnil : a1 = ac.d_attrConsTerm
            · rw [if_pos hnil]
              exact ⟨_, rfl⟩
            · rw [if_neg hnil]
              obtain ⟨⟨a, hs⟩, hr⟩ := hwalk a1 none 0 (List.mem_cons_self _ _)
              rw [hr]
              simp only
              by_cases hne : hs ≠ []
              · rw [if_pos hne]
                exact ⟨_, rfl⟩
              · rw [if_neg hne]
                cases a <;> exact ⟨_, rfl⟩
          by_cases hk2 : k = .EVAL_FROM_LIST
          · subst hk2
            simp only [List.getElem?_cons_succ, List.getElem?_cons_zero]
            obtain ⟨⟨a, hs⟩, hr⟩ := hwalk a1 (some ac.d_attrConsTerm) 2 (List.mem_cons_self _ _)
            rw [hr]
            simp only
            by_cases hl : hs.length = 1
            · rw [if_pos hl]
              cases a <;> exact ⟨_, rfl⟩
            · rw [if_neg hl]
              exact ⟨_, rfl⟩
          cases rest2 with
          | nil =>
            cases k <;>
              (first | exact ⟨_, rfl⟩ | exact absurd rfl hk1 | exact absurd rfl hk2
                     | (simp [argsRead] at hn))
          | cons a2 rest3 =>
            have hm1 : a1 ∈ a1 :: a2 :: rest3 := List.mem_cons_self _ _
            have hm2 : a2 ∈ a1 :: a2 :: rest3 := List.mem_cons_of_mem _ (List.mem_cons_self _ _)
            by_cases hk3 : k = .EVAL_CONS ∨ k = .EVAL_CONCAT
            · cases hleft : decide (ac.d_attrCons = .LEFT_ASSOC_NIL) with
              | false =>
                obtain ⟨⟨b, hs⟩, hr⟩ := hwalk a2 (some ac.d_attrConsTerm) 0 hm2
                obtain ⟨⟨b1, hs1⟩, hr1⟩ := hwalk a1 (some ac.d_attrConsTerm) 0 hm1
                rw [hleft] at hr hr1
                rcases hk3 with h | h <;> subst h <;> cases b <;> cases b1 <;>
                  simp [hr, hr1]
              | true =>
                obtain ⟨⟨b, hs⟩, hr⟩ := hwalk a1 (some ac.d_attrConsTerm) 0 hm1
                obtain ⟨⟨b1, hs1⟩, hr1⟩ := hwalk a2 (some ac.d_attrConsTerm) 0 hm2
                rw [hleft] at hr hr1
                rcases hk3 with h | h <;> subst h <;> cases b <;> cases b1 <;>
                  simp [hr, hr1]
            by_cases hk4 : k = .EVAL_EXTRACT
            · subst hk4
              simp only [List.getElem?_cons_succ, List.getElem?_cons_zero]
              by_cases hnum : a2.getKind ≠ .NUMERAL
              · rw [if_pos hnum]
                exact ⟨_, rfl⟩
              · rw [if_neg hnum]
                have hnum2 : a2.getKind = .NUMERAL := by simpa using hnum
                have hobj := (hargs a2 (List.mem_cons_of_mem _ hm2)).2
                cases a2 with
                | node k2 cs =>
                  simp only [Expr.getKind] at hnum2
                  simp [literalObject, hnum2, isLiteral] at hobj
                | leaf k2 l =>
                  simp only [Expr.getKind] at hnum2
                  subst hnum2
                  cases l with
                  | int index =>
                    simp only
                    by_cases hfit : (!fitsUnsignedInt index) = true
                    · rw [if_pos hfit]
                      exact ⟨_, rfl⟩
                    · rw [if_neg hfit]
                      obtain ⟨⟨b, hs⟩, hr⟩ :=
                        hwalk a1 (some ac.d_attrConsTerm) (index.toNat + 1) hm1
                      rw [hr]
                      simp only
                      by_cases hl : hs.length = index.toNat + 1
                      · rw [if_pos hl]
                        exact ⟨_, rfl⟩
                      · rw [if_neg hl]
                        exact ⟨_, rfl⟩
                  | bool _ => simp [literalObject] at hobj
                  | rat _ _ => simp [literalObject] at hobj
                  | bv _ _ => simp [literalObject] at hobj
                  | str _ => simp [literalObject] at hobj
                  | sym _ => simp [literalObject] at hobj
            by_cases hk5 : k = .EVAL_FIND
            · subst hk5
              simp only [List.getElem?_cons_succ, List.getElem?_cons_zero]
              obtain ⟨⟨b, hs⟩, hr⟩ := hwalk a1 (some ac.d_attrConsTerm) 0 hm1
              rw [hr]
              simp only
              by_cases hmem : a2 ∈ hs
              · rw [if_pos hmem]
                exact ⟨_, rfl⟩
              · rw [if_neg hmem]
                exact ⟨_, rfl⟩
            cases k <;>
              (first | exact ⟨_, rfl⟩ | exact absurd rfl hk1 | exact absurd rfl hk2
                     | exact absurd (Or.inl rfl) hk3 | exact absurd (Or.inr rfl) hk3
                     | exact absurd rfl hk4 | exact absurd rfl hk5)

/-- The internal method of the literal operators returns, null or not, when the vector
`args` covers the positions that it reads and the arguments are well formed. -/
theorem evaluateLiteralOpInternal_returns (env : Env) (k : Kind) (args : List Expr)
    (hn : argsRead k args.length = true)
    (hargs : ∀ a ∈ args, appliesHaveArgs a = true ∧ literalObject a = true) :
    ∃ r, evaluateLiteralOpInternal env k args = some r := by
  have hne : args ≠ [] := by
    intro h
    subst h
    cases k <;> simp [argsRead] at hn
  have hgen : ∃ r, (if (!isGround args) = true then some none
      else if args.all (fun e => isLiteral e.getKind) = true then
        match argsAsLiterals args with
        | none => none
        | some lits =>
          match env.literalEvaluate k lits with
          | none => some none
          | some (rk, rl) => some (some (.leaf rk rl))
      else evaluateListOp env k args : Option (Option Expr)) = some r := by
    by_cases hg : (!isGround args) = true
    · rw [if_pos hg]
      exact ⟨_, rfl⟩
    · rw [if_neg hg]
      by_cases hall : args.all (fun e => isLiteral e.getKind) = true
      · rw [if_pos hall]
        obtain ⟨lits, hl⟩ := argsAsLiterals_some args (fun a ha => (hargs a ha).2) hall
        rw [hl]
        simp only
        cases hle : env.literalEvaluate k lits with
        | none => exact ⟨_, rfl⟩
        | some r => exact ⟨_, rfl⟩
      · rw [if_neg hall]
        exact evaluateListOp_returns env k args hn hargs
  unfold evaluateLiteralOpInternal
  rw [if_neg hne]
  by_cases hk1 : k = .EVAL_IS_EQ
  · subst hk1
    match args, hn with
    | [a0, a1], _ =>
      simp only
      by_cases h1 : ensureHashed a0 = ensureHashed a1
      · rw [if_pos h1]
        exact ⟨_, rfl⟩
      · rw [if_neg h1]
        by_cases h2 : isGround [a0, a1] = true
        · rw [if_pos h2]
          exact ⟨_, rfl⟩
        · rw [if_neg h2]
          exact ⟨_, rfl⟩
  by_cases hk2 : k = .EVAL_IF_THEN_ELSE
  · subst hk2
    match args, hn, hargs with
    | a0 :: a1 :: a2 :: rest, _, hargs =>
      simp only [List.getElem?_cons_zero]
      by_cases hb : a0.getKind = .BOOLEAN
      · rw [if_pos hb]
        have hobj := (hargs a0 (List.mem_cons_self _ _)).2
        cases a0 with
        | node k2 cs =>
          simp only [Expr.getKind] at hb
          simp [literalObject, hb, isLiteral] at hobj
        | leaf k2 l =>
          simp only [Expr.getKind] at hb
          subst hb
          cases l with
          | bool b => cases b <;> simp [asBool]
          | int _ => simp [literalObject] at hobj
          | rat _ _ => simp [literalObject] at hobj
          | bv _ _ => simp [literalObject] at hobj
          | str _ => simp [literalObject] at hobj
          | sym _ => simp [literalObject] at hobj
      · rw [if_neg hb]
        exact ⟨_, rfl⟩
  by_cases hk3 : k = .EVAL_REQUIRES
  · subst hk3
    match args, hn with
    | a0 :: a1 :: a2 :: rest, _ =>
      simp only [List.getElem?_cons_zero, List.getElem?_cons_succ]
      by_cases h1 : ensureHashed a0 = ensureHashed a1
      · rw [if_pos h1]
        exact ⟨_, rfl⟩
      · rw [if_neg h1]
        exact ⟨_, rfl⟩
  by_cases hk4 : k = .EVAL_HASH
  · subst hk4
    match args, hne with
    | a0 :: rest, _ =>
      simp only [List.getElem?_cons_zero]
      by_cases h1 : a0.isGround = true
      · rw [if_pos h1]
        exact ⟨_, rfl⟩
      · rw [if_neg h1]
        exact ⟨_, rfl⟩
  cases k <;>
    (first | exact hgen | exact absurd rfl hk1 | exact absurd rfl hk2 | exact absurd rfl hk3
           | exact absurd rfl hk4)

theorem evaluateRules_returns (children : List Expr) :
    ∀ (rules : List Expr) (ctx0 : Ctx),
      (∀ r ∈ rules, ∃ p b, r.children[0]? = some p ∧ r.children[1]? = some b) →
      ∃ res, evaluateRules children rules ctx0 = some res := by
  intro rules
  induction rules with
  | nil =>
    intro ctx0 _
    exact ⟨_, rfl⟩
  | cons r rules ih =>
    intro ctx0 hrules
    obtain ⟨p, b, hp, hb⟩ := hrules r (List.mem_cons_self _ _)
    simp only [evaluateRules, hp, hb]
    by_cases hlen : children.length ≠ p.children.length
    · rw [if_pos hlen]
      exact ⟨_, rfl⟩
    · rw [if_neg hlen]
      by_cases hm : (matchArgs (p.children.drop 1) (children.drop 1) []).1 = true
      · rw [if_pos hm]
        exact ⟨_, rfl⟩
      · rw [if_neg hm]
        exact ih _ (fun r2 h2 => hrules r2 (List.mem_cons_of_mem _ h2))

/-! ### The expression store -/

theorem Store.get?_lt (s : Store) (h : Nat) (n : StoreNode) (hg : s.get? h = some n) :
    h < s.nodes.length := by
  unfold Store.get? at hg
  by_contra hge
  rw [List.getElem?_eq_none (by omega)] at hg
  cases hg

theorem Store.get?_of_extends (s s2 : Store) (hext : Store.Extends s s2) (h : Nat)
    (n : StoreNode) (hg : s.get? h = some n) : s2.get? h = some n := by
  obtain ⟨more, hm⟩ := hext
  have hlt := Store.get?_lt s h n hg
  unfold Store.get? at hg ⊢
  rw [hm, List.getElem?_append_left hlt]
  exact hg

theorem Store.extends_refl (s : Store) : Store.Extends s s := ⟨[], by simp⟩

theorem Store.extends_trans (s1 s2 s3 : Store) (h12 : Store.Extends s1 s2)
    (h23 : Store.Extends s2 s3) : Store.Extends s1 s3 := by
  obtain ⟨m1, h1⟩ := h12
  obtain ⟨m2, h2⟩ := h23
  exact ⟨m1 ++ m2, by rw [h2, h1, List.append_assoc]⟩

theorem Store.extends_length (s s2 : Store) (hext : Store.Extends s s2) :
    s.nodes.length ≤ s2.nodes.length := by
  obtain ⟨more, hm⟩ := hext
  rw [hm, List.length_append]
  omega

theorem Store.isHashed_of_extends (s s2 : Store) (hext : Store.Extends s s2) (h : Nat)
    (hh : s.isHashed h = true) : s2.isHashed h = true := by
  unfold Store.isHashed at hh ⊢
  cases hg : s.get? h with
  | none => simp [hg] at hh
  | some n =>
    rw [Store.get?_of_extends s s2 hext h n hg]
    simpa [hg] using hh

theorem Store.ok_spec (s : Store) :
    s.ok = true ↔ ∀ h n, s.get? h = some n → s.nodeOk h n = true := by
  unfold Store.ok
  rw [List.all_eq_true]
  constructor
  · intro hall h n hg
    have := hall h (List.mem_range.mpr (Store.get?_lt s h n hg))
    simpa [hg] using this
  · intro hall h hmem
    have hlt := List.mem_range.mp hmem
    have hg : s.get? h = some s.nodes[h] := by
      unfold Store.get?
      exact List.getElem?_eq_getElem hlt
    rw [hg]
    exact hall h _ hg

/-- What well-formedness says of a node. -/
theorem Store.nodeOk_spec (s : Store) (h : Nat) (n : StoreNode) (hn : s.nodeOk h n = true) :
    (∀ c ∈ n.children, c < h)
      ∧ (n.hashed = true → ∀ c ∈ n.children, s.isHashed c = true)
      ∧ (n.payload.isSome = (isLiteral n.kind || isSymbol n.kind))
      ∧ (n.payload.isSome = true → n.children = [])
      ∧ (n.hashed = true → Store.findHashedFrom n.kind n.payload n.children s.nodes 0 = some h) := by
  simp only [Store.nodeOk, Bool.and_eq_true, List.all_eq_true, decide_eq_true_eq,
    Bool.or_eq_true, Bool.not_eq_true', beq_iff_eq, List.isEmpty_iff] at hn
  obtain ⟨⟨⟨⟨h1, h2⟩, h3⟩, h4⟩, h5⟩ := hn
  refine ⟨h1, ?_, h3, ?_, ?_⟩
  · intro hh
    rcases h2 with h2 | h2
    · rw [hh] at h2
      cases h2
    · exact h2
  · intro hp
    rcases h4 with h4 | h4
    · rw [hp] at h4
      cases h4
    · exact h4
  · intro hh
    rcases h5 with h5 | h5
    · rw [hh] at h5
      cases h5
    · exact h5

theorem Store.findHashedFrom_some (k : Kind) (p : Option Literal) (cs : List Nat) :
    ∀ (l : List StoreNode) (i h : Nat), Store.findHashedFrom k p cs l i = some h →
      ∃ j n, h = i + j ∧ l[j]? = some n ∧ n.hashed = true ∧ n.kind = k ∧ n.payload = p
        ∧ n.children = cs := by
  intro l
  induction l with
  | nil =>
    intro i h hf
    simp [Store.findHashedFrom] at hf
  | cons n rest ih =>
    intro i h hf
    unfold Store.findHashedFrom at hf
    split at hf
    · rename_i hkey
      cases hf
      exact ⟨0, n, rfl, by simp, hkey⟩
    · obtain ⟨j, m, hj, hm, hkey⟩ := ih (i + 1) h hf
      exact ⟨j + 1, m, by omega, by simpa using hm, hkey⟩

theorem Store.findHashedFrom_none (k : Kind) (p : Option Literal) (cs : List Nat) :
    ∀ (l : List StoreNode) (i : Nat), Store.findHashedFrom k p cs l i = none →
      ∀ (j : Nat) (n : StoreNode), l[j]? = some n →
        ¬ (n.hashed = true ∧ n.kind = k ∧ n.payload = p ∧ n.children = cs) := by
  intro l
  induction l with
  | nil =>
    intro i _ j n hj
    simp at hj
  | cons m rest ih =>
    intro i hf j n hj
    unfold Store.findHashedFrom at hf
    split at hf
    · cases hf
    · rename_i hkey
      cases j with
      | zero =>
        simp only [List.getElem?_cons_zero, Option.some.injEq] at hj
        subst hj
        exact hkey
      | succ j =>
        simp only [List.getElem?_cons_succ] at hj
        exact ih (i + 1) hf j n hj

theorem Store.findHashedFrom_append_some (k : Kind) (p : Option Literal) (cs : List Nat)
    (l2 : List StoreNode) :
    ∀ (l : List StoreNode) (i h : Nat), Store.findHashedFrom k p cs l i = some h →
      Store.findHashedFrom k p cs (l ++ l2) i = some h := by
  intro l
  induction l with
  | nil =>
    intro i h hf
    simp [Store.findHashedFrom] at hf
  | cons n rest ih =>
    intro i h hf
    unfold Store.findHashedFrom at hf
    simp only [List.cons_append]
    unfold Store.findHashedFrom
    split
    · rename_i hkey
      simpa [hkey] using hf
    · rename_i hkey
      simp only [hkey, if_false] at hf
      exact ih (i + 1) h hf

theorem Store.findHashedFrom_append_none (k : Kind) (p : Option Literal) (cs : List Nat)
    (l2 : List StoreNode) :
    ∀ (l : List StoreNode) (i : Nat), Store.findHashedFrom k p cs l i = none →
      Store.findHashedFrom k p cs (l ++ l2) i
        = Store.findHashedFrom k p cs l2 (i + l.length) := by
  intro l
  induction l with
  | nil =>
    intro i _
    simp
  | cons n rest ih =>
    intro i hf
    unfold Store.findHashedFrom at hf
    simp only [List.cons_append]
    conv => lhs; unfold Store.findHashedFrom
    split at hf
    · cases hf
    · rename_i hkey
      simp only [hkey, if_false]
      rw [ih (i + 1) hf, List.length_cons]
      congr 1
      omega
theorem Store.child_lt (s : Store) (hok : s.ok = true) (h : Nat) (n : StoreNode)
    (hg : s.get? h = some n) : ∀ c ∈ n.children, c < h :=
  (Store.nodeOk_spec s h n ((Store.ok_spec s).mp hok h n hg)).1

theorem Store.isHashed_spec (s : Store) (h : Nat) (hh : s.isHashed h = true) :
    ∃ n, s.get? h = some n ∧ n.hashed = true := by
  unfold Store.isHashed at hh
  cases hg : s.get? h with
  | none => simp [hg] at hh
  | some n => exact ⟨n, rfl, by simpa [hg] using hh⟩

theorem Store.isHashed_of_get? (s : Store) (h : Nat) (n : StoreNode)
    (hg : s.get? h = some n) (hh : n.hashed = true) : s.isHashed h = true := by
  simp [Store.isHashed, hg, hh]

theorem Store.denote_fuel (s : Store) (hok : s.ok = true) :
    ∀ (h f1 f2 : Nat), h + 1 ≤ f1 → h + 1 ≤ f2 → s.denote f1 h = s.denote f2 h := by
  intro h
  induction h using Nat.strong_induction_on with
  | _ h ih =>
    intro f1 f2 h1 h2
    obtain ⟨g1, rfl⟩ : ∃ g, f1 = g + 1 := ⟨f1 - 1, by omega⟩
    obtain ⟨g2, rfl⟩ : ∃ g, f2 = g + 1 := ⟨f2 - 1, by omega⟩
    cases hg : s.get? h with
    | none => simp [Store.denote, hg]
    | some n =>
      simp only [Store.denote, hg]
      cases hp : n.payload with
      | some l => rfl
      | none =>
        have hc := Store.child_lt s hok h n hg
        simp only [Expr.node.injEq, true_and]
        apply List.map_congr_left
        intro c hcm
        have := hc c hcm
        exact ih c this g1 g2 (by omega) (by omega)

theorem Store.expr_eq (s : Store) (hok : s.ok = true) (h : Nat) (n : StoreNode)
    (hg : s.get? h = some n) :
    s.expr h = (match n.payload with
      | some l => .leaf n.kind l
      | none => .node n.kind (n.children.map s.expr)) := by
  unfold Store.expr
  simp only [Store.denote, hg]
  cases hp : n.payload with
  | some l => rfl
  | none =>
    simp only [Expr.node.injEq, true_and]
    apply List.map_congr_left
    intro c hcm
    have := Store.child_lt s hok h n hg c hcm
    exact Store.denote_fuel s hok c h (c + 1) (by omega) (Nat.le_refl _)

theorem Store.denote_of_extends (s s2 : Store) (hok : s.ok = true)
    (hext : Store.Extends s s2) :
    ∀ (f h : Nat), h < s.nodes.length → s2.denote f h = s.denote f h := by
  intro f
  induction f with
  | zero =>
    intro h _
    rfl
  | succ f ih =>
    intro h hlt
    have hg : s.get? h = some s.nodes[h] := by
      unfold Store.get?
      exact List.getElem?_eq_getElem hlt
    simp only [Store.denote, hg, Store.get?_of_extends s s2 hext h _ hg]
    cases hp : (s.nodes[h]).payload with
    | some l => rfl
    | none =>
      simp only [Expr.node.injEq, true_and]
      apply List.map_congr_left
      intro c hcm
      have := Store.child_lt s hok h _ hg c hcm
      exact ih c (by omega)

theorem Store.expr_of_extends (s s2 : Store) (hok : s.ok = true)
    (hext : Store.Extends s s2) (h : Nat) (hlt : h < s.nodes.length) :
    s2.expr h = s.expr h :=
  Store.denote_of_extends s s2 hok hext (h + 1) h hlt

theorem Store.hashable_of_extends (s s2 : Store) (hext : Store.Extends s s2) :
    ∀ (f h : Nat), s.hashable f h = true → s2.hashable f h = true := by
  intro f
  induction f with
  | zero =>
    intro h hh
    simp [Store.hashable] at hh
  | succ f ih =>
    intro h hh
    unfold Store.hashable at hh ⊢
    cases hg : s.get? h with
    | none => simp [hg] at hh
    | some n =>
      rw [Store.get?_of_extends s s2 hext h n hg]
      simp only [hg, Bool.or_eq_true, Bool.and_eq_true, Bool.not_eq_true',
        List.all_eq_true] at hh ⊢
      rcases hh with hh | ⟨h1, h2⟩
      · exact Or.inl hh
      · exact Or.inr ⟨h1, fun c hc => ih c (h2 c hc)⟩

theorem map_injOn_eq {α β : Type} (f : α → β) :
    ∀ (l1 l2 : List α), l1.map f = l2.map f →
      (∀ a ∈ l1, ∀ b ∈ l2, f a = f b → a = b) → l1 = l2 := by
  intro l1
  induction l1 with
  | nil =>
    intro l2 hm _
    cases l2 with
    | nil => rfl
    | cons b l2 => simp at hm
  | cons a l1 ih =>
    intro l2 hm hinj
    cases l2 with
    | nil => simp at hm
    | cons b l2 =>
      simp only [List.map_cons, List.cons.injEq] at hm
      have hab := hinj a (List.mem_cons_self _ _) b (List.mem_cons_self _ _) hm.1
      subst hab
      rw [ih l2 hm.2 (fun x hx y hy hxy =>
        hinj x (List.mem_cons_of_mem _ hx) y (List.mem_cons_of_mem _ hy) hxy)]

/-- Hashed nodes are canonical: two hashed handles of a well-formed store that stand for
the same term are the same handle. -/
theorem Store.hashed_expr_inj (s : Store) (hok : s.ok = true) :
    ∀ (m h1 h2 : Nat), h1 ≤ m → s.isHashed h1 = true → s.isHashed h2 = true →
      s.expr h1 = s.expr h2 → h1 = h2 := by
  intro m
  induction m using Nat.strong_induction_on with
  | _ m ih =>
    intro h1 h2 hm hh1 hh2 he
    obtain ⟨n1, hg1, hn1⟩ := Store.isHashed_spec s h1 hh1
    obtain ⟨n2, hg2, hn2⟩ := Store.isHashed_spec s h2 hh2
    obtain ⟨hlt1, hch1, _, hp1, hu1⟩ := Store.nodeOk_spec s h1 n1 ((Store.ok_spec s).mp hok h1 n1 hg1)
    obtain ⟨_, hch2, _, hp2, hu2⟩ := Store.nodeOk_spec s h2 n2 ((Store.ok_spec s).mp hok h2 n2 hg2)
    rw [Store.expr_eq s hok h1 n1 hg1, Store.expr_eq s hok h2 n2 hg2] at he
    have hkey : n1.kind = n2.kind ∧ n1.payload = n2.payload ∧ n1.children = n2.children := by
      cases hq1 : n1.payload with
      | some l1 =>
        cases hq2 : n2.payload with
        | some l2 =>
          simp only [hq1, hq2, Expr.leaf.injEq] at he
          refine ⟨he.1, by rw [he.2], ?_⟩
          rw [hp1 (by simp [hq1]), hp2 (by simp [hq2])]
        | none => simp [hq1, hq2] at he
      | none =>
        cases hq2 : n2.payload with
        | some l2 => simp [hq1, hq2] at he
        | none =>
          simp only [hq1, hq2, Expr.node.injEq] at he
          refine ⟨he.1, rfl, ?_⟩
          apply map_injOn_eq s.expr _ _ he.2
          intro a ha b hb hab
          have := hlt1 a ha
          exact ih a (by omega) a b (Nat.le_refl _) (hch1 hn1 a ha) (hch2 hn2 b hb) hab
    have e1 := hu1 hn1
    have e2 := hu2 hn2
    rw [hkey.1, hkey.2.1, hkey.2.2, e2] at e1
    exact (Option.some.inj e1).symm
theorem Store.nodeOk_intro (s : Store) (h : Nat) (n : StoreNode)
    (h1 : ∀ c ∈ n.children, c < h)
    (h2 : n.hashed = true → ∀ c ∈ n.children, s.isHashed c = true)
    (h3 : n.payload.isSome = (isLiteral n.kind || isSymbol n.kind))
    (h4 : n.payload.isSome = true → n.children = [])
    (h5 : n.hashed = true →
      Store.findHashedFrom n.kind n.payload n.children s.nodes 0 = some h) :
    s.nodeOk h n = true := by
  simp only [Store.nodeOk, Bool.and_eq_true, List.all_eq_true, decide_eq_true_eq,
    Bool.or_eq_true, Bool.not_eq_true', beq_iff_eq, List.isEmpty_iff]
  refine ⟨⟨⟨⟨h1, ?_⟩, h3⟩, ?_⟩, ?_⟩
  · cases hh : n.hashed with
    | false => exact Or.inl rfl
    | true => exact Or.inr (h2 hh)
  · cases hp : n.payload.isSome with
    | false => exact Or.inl rfl
    | true => exact Or.inr (h4 hp)
  · cases hh : n.hashed with
    | false => exact Or.inl rfl
    | true => exact Or.inr (h5 hh)

/-- Interning keeps a store well formed, only adds to it, and returns the handle of a
hashed node with the key. -/
theorem Store.intern_spec (s : Store) (hok : s.ok = true) (k : Kind) (p : Option Literal)
    (cs : List Nat) (hcs : ∀ c ∈ cs, s.isHashed c = true)
    (hshape : p.isSome = (isLiteral k || isSymbol k)) (hleaf : p.isSome = true → cs = []) :
    (s.intern k p cs).2.ok = true ∧ Store.Extends s (s.intern k p cs).2
      ∧ (s.intern k p cs).2.get? (s.intern k p cs).1 = some ⟨k, p, cs, true⟩ := by
  unfold Store.intern
  cases hf : Store.findHashedFrom k p cs s.nodes 0 with
  | some h =>
    obtain ⟨j, n, hj, hn, hh, hk, hp, hc⟩ := Store.findHashedFrom_some k p cs s.nodes 0 h hf
    refine ⟨hok, Store.extends_refl s, ?_⟩
    have hjh : j = h := by omega
    subst hjh
    obtain ⟨nk, np, nc, nh⟩ := n
    simp only at hh hk hp hc
    subst hh hk hp hc
    exact hn
  | none =>
    have hext : Store.Extends s ⟨s.nodes ++ [⟨k, p, cs, true⟩]⟩ := ⟨[⟨k, p, cs, true⟩], rfl⟩
    have hnew : (⟨s.nodes ++ [⟨k, p, cs, true⟩]⟩ : Store).get? s.nodes.length
        = some ⟨k, p, cs, true⟩ := by
      simp [Store.get?]
    refine ⟨?_, hext, hnew⟩
    rw [Store.ok_spec]
    intro h n hg
    by_cases hlt : h < s.nodes.length
    · -- a node of the store before
      have hg0 : s.get? h = some n := by
        unfold Store.get? at hg ⊢
        simpa [List.getElem?_append_left hlt] using hg
      obtain ⟨h1, h2, h3, h4, h5⟩ := Store.nodeOk_spec s h n ((Store.ok_spec s).mp hok h n hg0)
      refine Store.nodeOk_intro _ h n h1 ?_ h3 h4 ?_
      · intro hh c hc
        exact Store.isHashed_of_extends s _ hext c (h2 hh c hc)
      · intro hh
        exact Store.findHashedFrom_append_some _ _ _ _ _ 0 h (h5 hh)
    · -- the node that is added
      have hlen := Store.get?_lt _ h n hg
      simp only [List.length_append, List.length_singleton] at hlen
      have hh : h = s.nodes.length := by omega
      subst hh
      rw [hnew] at hg
      cases hg
      refine Store.nodeOk_intro _ _ _ ?_ ?_ hshape hleaf ?_
      · intro c hc
        obtain ⟨m, hm, _⟩ := Store.isHashed_spec s c (hcs c hc)
        exact Store.get?_lt s c m hm
      · intro _ c hc
        exact Store.isHashed_of_extends s _ hext c (hcs c hc)
      · intro _
        simp only
        rw [Store.findHashedFrom_append_none k p cs _ s.nodes 0 hf]
        simp [Store.findHashedFrom]
theorem Store.loop_hashed (s : Store) (V : List (Nat × Option Nat)) (cur : Nat)
    (W : List Nat) (fuel : Nat) (nd : StoreNode) (hg : s.get? cur = some nd)
    (hh : nd.hashed = true) :
    Store.ensureHashedLoop (fuel + 1) s V (cur :: W)
      = Store.ensureHashedLoop fuel s ((cur, some cur) :: V) W := by
  rw [Store.ensureHashedLoop]
  simp only [hg, hh, if_true]

theorem Store.loop_done (s : Store) (V : List (Nat × Option Nat)) (cur : Nat)
    (W : List Nat) (fuel : Nat) (nd : StoreNode) (r : Nat) (hg : s.get? cur = some nd)
    (hh : nd.hashed = false) (hv : assocFind cur V = some (some r)) :
    Store.ensureHashedLoop (fuel + 1) s V (cur :: W) = Store.ensureHashedLoop fuel s V W := by
  rw [Store.ensureHashedLoop]
  simp only [hg, hh, hv, Bool.false_eq_true, if_false]

theorem Store.loop_first (s : Store) (V : List (Nat × Option Nat)) (cur : Nat)
    (W : List Nat) (fuel : Nat) (nd : StoreNode) (hg : s.get? cur = some nd)
    (hh : nd.hashed = false) (hv : assocFind cur V = none) :
    Store.ensureHashedLoop (fuel + 1) s V (cur :: W)
      = Store.ensureHashedLoop fuel s ((cur, none) :: V) (nd.children.reverse ++ cur :: W) := by
  rw [Store.ensureHashedLoop]
  simp only [hg, hh, hv, Bool.false_eq_true, if_false]

theorem Store.loop_literal (s : Store) (V : List (Nat × Option Nat)) (cur : Nat)
    (W : List Nat) (fuel : Nat) (nd : StoreNode) (hg : s.get? cur = some nd)
    (hh : nd.hashed = false) (hv : assocFind cur V = some none)
    (hl : isLiteral nd.kind = true) :
    Store.ensureHashedLoop (fuel + 1) s V (cur :: W)
      = Store.ensureHashedLoop fuel (s.mkLiteralInternal nd).2
          ((cur, some (s.mkLiteralInternal nd).1) :: V) W := by
  rw [Store.ensureHashedLoop]
  simp only [hg, hh, hv, hl, Bool.false_eq_true, if_false, if_true]

theorem Store.loop_node (s : Store) (V : List (Nat × Option Nat)) (cur : Nat)
    (W : List Nat) (fuel : Nat) (nd : StoreNode) (cc : List Nat)
    (hg : s.get? cur = some nd)
    (hh : nd.hashed = false) (hv : assocFind cur V = some none)
    (hl : isLiteral nd.kind = false) (hs : isSymbol nd.kind = false)
    (hc : Store.hashedChildren V nd.children = some cc) :
    Store.ensureHashedLoop (fuel + 1) s V (cur :: W)
      = Store.ensureHashedLoop fuel (s.mkExprInternal nd.kind cc).2
          ((cur, some (s.mkExprInternal nd.kind cc).1) :: V) W := by
  rw [Store.ensureHashedLoop]
  simp only [hg, hh, hv, hl, hs, hc, Bool.false_eq_true, if_false]

theorem Store.hashedChildren_spec (s : Store) (V : List (Nat × Option Nat))
    (hV : Store.VisitedSound s V) :
    ∀ cs : List Nat, (∀ c ∈ cs, ∃ r, assocFind c V = some (some r)) →
      ∃ cc, Store.hashedChildren V cs = some cc ∧ (∀ r ∈ cc, s.isHashed r = true)
        ∧ cc.map s.expr = cs.map s.expr := by
  intro cs
  induction cs with
  | nil =>
    intro _
    exact ⟨[], rfl, (fun _ h => by cases h), rfl⟩
  | cons c cs ih =>
    intro hall
    obtain ⟨r, hr⟩ := hall c (List.mem_cons_self _ _)
    obtain ⟨cc, hcc, hh, hm⟩ := ih (fun x hx => hall x (List.mem_cons_of_mem _ hx))
    obtain ⟨_, hrh, hre⟩ := hV c r hr
    refine ⟨r :: cc, by simp [Store.hashedChildren, hr, hcc], ?_, by simp [hre, hm]⟩
    intro x hx
    rcases List.mem_cons.mp hx with h | h
    · rw [h]
      exact hrh
    · exact hh x h

theorem Store.visitedSound_of_extends (s s2 : Store) (hok : s.ok = true)
    (hext : Store.Extends s s2) (V : List (Nat × Option Nat))
    (hV : Store.VisitedSound s V) : Store.VisitedSound s2 V := by
  intro x h hx
  obtain ⟨hlt, hh, he⟩ := hV x h hx
  obtain ⟨n, hn, _⟩ := Store.isHashed_spec s h hh
  have hhlt := Store.get?_lt s h n hn
  refine ⟨?_, Store.isHashed_of_extends s s2 hext h hh, ?_⟩
  · have := Store.extends_length s s2 hext
    omega
  · rw [Store.expr_of_extends s s2 hok hext h hhlt, Store.expr_of_extends s s2 hok hext x hlt]
    exact he

theorem Store.visitedSound_cons (s : Store) (V : List (Nat × Option Nat))
    (hV : Store.VisitedSound s V) (x : Nat) (r : Option Nat)
    (hr : ∀ h, r = some h → x < s.nodes.length ∧ s.isHashed h = true ∧ s.expr h = s.expr x) :
    Store.VisitedSound s ((x, r) :: V) := by
  intro y h hy
  by_cases hxy : x = y
  · subst hxy
    rw [assocFind_cons_self] at hy
    exact hr h (Option.some.inj hy)
  · rw [assocFind_cons_ne y x r V hxy] at hy
    exact hV y h hy

theorem Store.hashable_spec (s : Store) (f h : Nat) (hh : s.hashable f h = true) :
    ∃ g nd, f = g + 1 ∧ s.get? h = some nd
      ∧ (nd.hashed = true
          ∨ (nd.hashed = false ∧ isSymbol nd.kind = false
              ∧ ∀ c ∈ nd.children, s.hashable g c = true)) := by
  cases f with
  | zero => simp [Store.hashable] at hh
  | succ g =>
    unfold Store.hashable at hh
    cases hg : s.get? h with
    | none => simp [hg] at hh
    | some nd =>
      simp only [hg, Bool.or_eq_true, Bool.and_eq_true, Bool.not_eq_true',
        List.all_eq_true] at hh
      refine ⟨g, nd, rfl, rfl, ?_⟩
      cases hnh : nd.hashed with
      | true => exact Or.inl rfl
      | false =>
        rcases hh with hh | hh
        · rw [hnh] at hh
          cases hh
        · exact Or.inr ⟨rfl, hh.1, hh.2⟩
/-- The loop of `ensureHashed` works off a handle on top of its stack: from a sound map
without null entry at or below the handle, the handle gets a non-null entry, within
twice the size of its term. -/
theorem Store.runTo_visit :
    ∀ (cur : Nat) (s : Store) (V : List (Nat × Option Nat)) (f : Nat),
      s.ok = true → s.hashable f cur = true → Store.VisitedSound s V →
      (∀ x, assocFind x V = some none → cur < x) →
      Store.RunTo s V [cur] (cur + 1) (2 * (s.expr cur).size) := by
  intro cur
  induction cur using Nat.strong_induction_on with
  | _ cur ih =>
    intro s V f hok hhash hV hpend
    obtain ⟨g, nd, rfl, hg, hcase⟩ := Store.hashable_spec s f cur hhash
    have hcurlt := Store.get?_lt s cur nd hg
    have hsize := Expr.size_pos (s.expr cur)
    rcases hcase with hh | ⟨hh, hsym, hchildren⟩
    · -- the node is hashed: it is recorded as itself
      refine ⟨1, s, (cur, some cur) :: V, by omega, ?_, hok, Store.extends_refl s, ?_, ?_, ?_,
        ?_, ?_⟩
      · intro fuel W
        exact Store.loop_hashed s V cur W fuel nd hg hh
      · exact Store.visitedSound_cons s V hV cur (some cur) (fun h hh2 => by
          cases hh2
          exact ⟨hcurlt, Store.isHashed_of_get? s cur nd hg hh, rfl⟩)
      · intro c hc
        rw [List.mem_singleton.mp hc]
        exact ⟨cur, assocFind_cons_self _ _ _⟩
      · intro x hx
        exact assocFind_cons_ne x cur _ V (by omega)
      · intro x hx
        by_cases hxc : cur = x
        · subst hxc
          rw [assocFind_cons_self] at hx
          cases hx
        · rwa [assocFind_cons_ne x cur _ V hxc] at hx
      · intro x h hx
        by_cases hxc : cur = x
        · subst hxc
          exact ⟨cur, assocFind_cons_self _ _ _⟩
        · exact ⟨h, by rw [assocFind_cons_ne x cur _ V hxc]; exact hx⟩
    · cases hv : assocFind cur V with
      | some e =>
        cases e with
        | none => exact absurd (hpend cur hv) (Nat.lt_irrefl _)
        | some r =>
          -- the node has its entry already
          refine ⟨1, s, V, by omega, ?_, hok, Store.extends_refl s, hV, ?_, fun _ _ => rfl,
            fun _ h => h, fun x h hx => ⟨h, hx⟩⟩
          · intro fuel W
            exact Store.loop_done s V cur W fuel nd r hg hh hv
          · intro c hc
            rw [List.mem_singleton.mp hc]
            exact ⟨r, hv⟩
      | none =>
        obtain ⟨hclt, _, hshape, hleaf, _⟩ :=
          Store.nodeOk_spec s cur nd ((Store.ok_spec s).mp hok cur nd hg)
        -- the children, from the last to the first
        have hlist : ∀ (cs : List Nat) (s1 : Store) (V1 : List (Nat × Option Nat)),
            s1.ok = true → (∀ c ∈ cs, c < cur ∧ s1.hashable g c = true) →
            Store.VisitedSound s1 V1 → (∀ x, assocFind x V1 = some none → cur ≤ x) →
            Store.RunTo s1 V1 cs.reverse cur (2 * Expr.sizeList (cs.map s1.expr)) := by
          intro cs
          induction cs with
          | nil =>
            intro s1 V1 hok1 _ hV1 _
            exact ⟨0, s1, V1, by simp, fun _ _ => rfl, hok1, Store.extends_refl s1, hV1,
              (fun _ h => by cases h), fun _ _ => rfl, fun _ h => h, fun x h hx => ⟨h, hx⟩⟩
          | cons c rest ihl =>
            intro s1 V1 hok1 hcs hV1 hpend1
            obtain ⟨n1, s2, V2, hn1, hrun1, hok2, hext2, hV2, hdone2, hlim2, hp2, hst2⟩ :=
              ihl s1 V1 hok1 (fun x hx => hcs x (List.mem_cons_of_mem _ hx)) hV1 hpend1
            obtain ⟨hc1, hc2⟩ := hcs c (List.mem_cons_self _ _)
            obtain ⟨_, cn, _, hcg, _⟩ := Store.hashable_spec s1 g c hc2
            have hclt1 := Store.get?_lt s1 c cn hcg
            obtain ⟨n2, s3, V3, hn2, hrun2, hok3, hext3, hV3, hdone3, hlim3, hp3, hst3⟩ :=
              ih c hc1 s2 V2 g hok2 (Store.hashable_of_extends s1 s2 hext2 g c hc2) hV2
                (fun x hx => by
                  have := hpend1 x (hp2 x hx)
                  omega)
            rw [Store.expr_of_extends s1 s2 hok1 hext2 c hclt1] at hn2
            refine ⟨n1 + n2, s3, V3, ?_, ?_, hok3, Store.extends_trans s1 s2 s3 hext2 hext3,
              hV3, ?_, ?_, fun x hx => hp2 x (hp3 x hx), ?_⟩
            · simp only [List.map_cons, Expr.sizeList]
              omega
            · intro fuel W
              have e1 : fuel + (n1 + n2) = (fuel + n2) + n1 := by omega
              rw [e1, List.reverse_cons, List.append_assoc, hrun1, hrun2]
            · intro x hx
              simp only [List.reverse_cons, List.mem_append, List.mem_reverse,
                List.mem_singleton] at hx
              rcases hx with hx | hx
              · obtain ⟨r, hr⟩ := hdone2 x (List.mem_reverse.mpr hx)
                exact hst3 x r hr
              · rw [hx]
                exact hdone3 c (List.mem_singleton.mpr rfl)
            · intro x hx
              rw [hlim3 x (by omega), hlim2 x hx]
            · intro x h hx
              obtain ⟨h2, hh2⟩ := hst2 x h hx
              exact hst3 x h2 hh2
        -- the first visit of the node records a null entry and pushes the children
        have hV1 : Store.VisitedSound s ((cur, none) :: V) :=
          Store.visitedSound_cons s V hV cur none (fun h hh2 => by cases hh2)
        obtain ⟨n1, s2, V2, hn1, hrun1, hok2, hext2, hV2, hdone2, hlim2, hp2, hst2⟩ :=
          hlist nd.children s ((cur, none) :: V) hok
            (fun c hc => ⟨hclt c hc, hchildren c hc⟩) hV1
            (fun x hx => by
              by_cases hxc : cur = x
              · omega
              · rw [assocFind_cons_ne x cur _ V hxc] at hx
                have := hpend x hx
                omega)
        have hg2 : s2.get? cur = some nd := Store.get?_of_extends s s2 hext2 cur nd hg
        have hv2 : assocFind cur V2 = some none := by
          rw [hlim2 cur (Nat.le_refl _)]
          exact assocFind_cons_self _ _ _
        have hexpr := Store.expr_eq s hok cur nd hg
        -- what the second visit records, for a handle `r` of a hashed copy of the node
        have hfinish : ∀ (s3 : Store) (r : Nat), s3.ok = true → Store.Extends s2 s3 →
            s3.isHashed r = true → s3.expr r = s.expr cur →
            (∀ fuel W, Store.ensureHashedLoop (fuel + 1) s2 V2 (cur :: W)
              = Store.ensureHashedLoop fuel s3 ((cur, some r) :: V2) W) →
            1 + n1 + 1 ≤ 2 * (s.expr cur).size →
            Store.RunTo s V [cur] (cur + 1) (2 * (s.expr cur).size) := by
          intro s3 r hok3 hext3 hr hre hstep hbound
          have hext13 := Store.extends_trans s s2 s3 hext2 hext3
          refine ⟨1 + n1 + 1, s3, (cur, some r) :: V2, hbound, ?_, hok3, hext13, ?_, ?_, ?_, ?_,
            ?_⟩
          · intro fuel W
            have e1 : fuel + (1 + n1 + 1) = ((fuel + 1) + n1) + 1 := by omega
            rw [e1, List.singleton_append, Store.loop_first s V cur W _ nd hg hh hv, hrun1,
              hstep]
          · refine Store.visitedSound_cons s3 V2
              (Store.visitedSound_of_extends s2 s3 hok2 hext3 V2 hV2) cur (some r) ?_
            intro h hh2
            cases hh2
            refine ⟨?_, hr, ?_⟩
            · have := Store.extends_length s s3 hext13
              omega
            · rw [hre, Store.expr_of_extends s s3 hok hext13 cur hcurlt]
          · intro c hc
            rw [List.mem_singleton.mp hc]
            exact ⟨r, assocFind_cons_self _ _ _⟩
          · intro x hx
            rw [assocFind_cons_ne x cur _ V2 (by omega), hlim2 x (by omega),
              assocFind_cons_ne x cur _ V (by omega)]
          · intro x hx
            by_cases hxc : cur = x
            · subst hxc
              rw [assocFind_cons_self] at hx
              cases hx
            · rw [assocFind_cons_ne x cur _ V2 hxc] at hx
              have := hp2 x hx
              rwa [assocFind_cons_ne x cur _ V hxc] at this
          · intro x h hx
            by_cases hxc : cur = x
            · subst hxc
              exact ⟨r, assocFind_cons_self _ _ _⟩
            · rw [assocFind_cons_ne x cur _ V2 hxc]
              exact hst2 x h (by rw [assocFind_cons_ne x cur _ V hxc]; exact hx)
        by_cases hlit : isLiteral nd.kind = true
        · -- a literal: the hashed literal with its kind and payload
          have hsome : nd.payload.isSome = true := by rw [hshape, hlit]; rfl
          have hnil := hleaf hsome
          obtain ⟨hok3, hext3, hget3⟩ := Store.intern_spec s2 hok2 nd.kind nd.payload []
            (fun _ h => by cases h) hshape (fun _ => rfl)
          obtain ⟨l, hl⟩ := Option.isSome_iff_exists.mp hsome
          refine hfinish (s2.intern nd.kind nd.payload []).2 (s2.intern nd.kind nd.payload []).1
            hok3 hext3
            (Store.isHashed_of_get? _ _ _ hget3 rfl) ?_ ?_ ?_
          · rw [Store.expr_eq _ hok3 _ _ hget3, hexpr]
            simp [hl]
          · intro fuel W
            exact Store.loop_literal s2 V2 cur W fuel nd hg2 hh hv2 hlit
          · have : n1 = 0 := by
              rw [hnil] at hn1
              simpa [Expr.sizeList] using hn1
            omega
        · -- an operator: the hashed node of its kind and of the entries of its children
          have hlit2 : isLiteral nd.kind = false := by simpa using hlit
          have hnone : nd.payload = none := by
            have : nd.payload.isSome = false := by rw [hshape, hlit2, hsym]; rfl
            simpa using this
          obtain ⟨cc, hcc, hcch, hccm⟩ := Store.hashedChildren_spec s2 V2 hV2 nd.children
            (fun c hc => hdone2 c (List.mem_reverse.mpr hc))
          obtain ⟨hok3, hext3, hget3⟩ := Store.intern_spec s2 hok2 nd.kind none cc hcch
            (by rw [hlit2, hsym]; rfl) (fun h => by cases h)
          refine hfinish (s2.intern nd.kind none cc).2 (s2.intern nd.kind none cc).1
            hok3 hext3 (Store.isHashed_of_get? _ _ _ hget3 rfl) ?_ ?_ ?_
          · rw [Store.expr_eq _ hok3 _ _ hget3, hexpr]
            simp only [hnone, Expr.node.injEq, true_and]
            have e1 : cc.map (s2.intern nd.kind none cc).2.expr = cc.map s2.expr := by
              apply List.map_congr_left
              intro r hr
              obtain ⟨m, hm, _⟩ := Store.isHashed_spec s2 r (hcch r hr)
              exact Store.expr_of_extends s2 _ hok2 hext3 r (Store.get?_lt s2 r m hm)
            have e2 : nd.children.map s2.expr = nd.children.map s.expr := by
              apply List.map_congr_left
              intro c hc
              have := hclt c hc
              exact Store.expr_of_extends s s2 hok hext2 c (by omega)
            rw [e1, hccm, e2]
          · intro fuel W
            exact Store.loop_node s2 V2 cur W fuel nd cc hg2 hh hv2 hlit2 hsym hcc
          · rw [hexpr]
            simp only [hnone, Expr.size]
            omega
/-- The method `ensureHashed` on a handle below which no symbol is un-hashed: with fuel for
twice the size of the term, it returns the handle of a hashed node that stands for the
same term, in a well-formed store that extends the given one. -/
theorem Store.ensureHashed_run (s : Store) (x f : Nat) (hok : s.ok = true)
    (hh : s.hashable f x = true) (fuel : Nat) (hfuel : 2 * (s.expr x).size ≤ fuel) :
    ∃ p s1, Store.ensureHashed fuel s x = some (some p, s1) ∧ s1.ok = true
      ∧ Store.Extends s s1 ∧ s1.isHashed p = true ∧ s1.expr p = s.expr x := by
  obtain ⟨g, nd, _, hg, _⟩ := Store.hashable_spec s f x hh
  have hlt := Store.get?_lt s x nd hg
  cases hnh : nd.hashed with
  | true =>
    refine ⟨x, s, ?_, hok, Store.extends_refl s, Store.isHashed_of_get? s x nd hg hnh, rfl⟩
    simp [Store.ensureHashed, hg, hnh]
  | false =>
    obtain ⟨n, s2, V2, hn, hrun, hok2, hext2, hV2, hdone2, _, _, _⟩ :=
      Store.runTo_visit x s [] f hok hh (fun _ _ h => by simp [assocFind] at h)
        (fun _ h => by simp [assocFind] at h)
    obtain ⟨r, hr⟩ := hdone2 x (List.mem_singleton.mpr rfl)
    obtain ⟨_, hrh, hre⟩ := hV2 x r hr
    obtain ⟨k, rfl⟩ : ∃ k, fuel = k + n := ⟨fuel - n, by omega⟩
    have hloop : Store.ensureHashedLoop (k + n) s [] [x] = some (s2, V2) := by
      have := hrun k []
      simp only [List.append_nil] at this
      rw [this]
      cases k <;> rfl
    refine ⟨r, s2, ?_, hok2, hext2, hrh, ?_⟩
    · simp [Store.ensureHashed, hg, hnh, hloop, hr]
    · rw [hre, Store.expr_of_extends s s2 hok hext2 x hlt]

/-! ### The matcher: more fuel, same run -/

theorem matchLoop_mono :
    ∀ (fuel : Nat) (stack : List (Expr × Expr)) (visited : MatchVisited) (ctx : Ctx)
      (r : MatchResult), matchLoop fuel stack visited ctx = some r →
      ∀ k, matchLoop (fuel + k) stack visited ctx = some r := by
  intro fuel
  induction fuel with
  | zero =>
    intro stack visited ctx r h k
    cases stack with
    | nil =>
      simp only [matchLoop, Option.some.injEq] at h
      subst h
      cases k <;> simp [matchLoop]
    | cons curr rest => simp [matchLoop] at h
  | succ fuel ih =>
    intro stack visited ctx r h k
    cases stack with
    | nil =>
      simp only [matchLoop, Option.some.injEq] at h
      subst h
      cases hk : fuel + 1 + k <;> simp [matchLoop]
    | cons curr rest =>
      have e : fuel + 1 + k = (fuel + k) + 1 := by omega
      rw [e]
      rw [matchLoop] at h ⊢
      by_cases h1 : curr.1 = curr.2
      · simp only [h1, if_true] at h ⊢
        exact ih _ _ _ _ h k
      · simp only [h1, if_false] at h ⊢
        by_cases h2 : curr ∈ visited
        · simp only [h2, if_true] at h ⊢
          exact ih _ _ _ _ h k
        · simp only [h2, if_false] at h ⊢
          by_cases h3 : curr.1.getNumChildren = 0
          · simp only [h3, if_true] at h ⊢
            by_cases h4 : curr.1.getKind = .PARAM
            · simp only [h4, if_true] at h ⊢
              cases hf : assocFind curr.1 ctx with
              | none =>
                simp only [hf] at h ⊢
                exact ih _ _ _ _ h k
              | some bound =>
                simp only [hf] at h ⊢
                by_cases h5 : bound = curr.2
                · simp only [h5, ne_eq, not_true_eq_false, if_false] at h ⊢
                  exact ih _ _ _ _ h k
                · simp only [ne_eq, h5, not_false_eq_true, if_true] at h ⊢
                  exact h
            · simp only [h4, if_false] at h ⊢
              exact h
          · simp only [h3, if_false] at h ⊢
            by_cases h6 : curr.1.getNumChildren ≠ curr.2.getNumChildren
                ∨ curr.1.getKind ≠ curr.2.getKind
            · simp only [h6, if_true] at h ⊢
              exact h
            · simp only [h6, if_false] at h ⊢
              exact ih _ _ _ _ h k

/-! ### The literal operators on handles -/

/-- A fresh transient node keeps a store well formed and only adds to it. -/
theorem Store.alloc_spec (s : Store) (hok : s.ok = true) (k : Kind) (p : Option Literal)
    (cs : List Nat) (hcs : ∀ c ∈ cs, c < s.nodes.length)
    (hshape : p.isSome = (isLiteral k || isSymbol k)) (hleaf : p.isSome = true → cs = []) :
    (s.alloc k p cs).1 = s.nodes.length ∧ (s.alloc k p cs).2.ok = true
      ∧ Store.Extends s (s.alloc k p cs).2
      ∧ (s.alloc k p cs).2.get? (s.alloc k p cs).1 = some ⟨k, p, cs, false⟩ := by
  unfold Store.alloc
  have hext : Store.Extends s ⟨s.nodes ++ [⟨k, p, cs, false⟩]⟩ := ⟨[⟨k, p, cs, false⟩], rfl⟩
  have hnew : (⟨s.nodes ++ [⟨k, p, cs, false⟩]⟩ : Store).get? s.nodes.length
      = some ⟨k, p, cs, false⟩ := by
    simp [Store.get?]
  refine ⟨rfl, ?_, hext, hnew⟩
  rw [Store.ok_spec]
  intro h n hg
  by_cases hlt : h < s.nodes.length
  · have hg0 : s.get? h = some n := by
      unfold Store.get? at hg ⊢
      simpa [List.getElem?_append_left hlt] using hg
    obtain ⟨h1, h2, h3, h4, h5⟩ := Store.nodeOk_spec s h n ((Store.ok_spec s).mp hok h n hg0)
    refine Store.nodeOk_intro _ h n h1 ?_ h3 h4 ?_
    · intro hh c hc
      exact Store.isHashed_of_extends s _ hext c (h2 hh c hc)
    · intro hh
      exact Store.findHashedFrom_append_some _ _ _ _ _ 0 h (h5 hh)
  · have hlen := Store.get?_lt _ h n hg
    simp only [List.length_append, List.length_singleton] at hlen
    have hh : h = s.nodes.length := by omega
    subst hh
    rw [hnew] at hg
    cases hg
    refine Store.nodeOk_intro _ _ _ hcs ?_ hshape hleaf ?_
    · intro hf
      cases hf
    · intro hf
      cases hf

/-- The kind and the children of the term of a handle are those of its node. -/
theorem Store.expr_node (s : Store) (hok : s.ok = true) (h : Nat) (n : StoreNode)
    (hg : s.get? h = some n) :
    (s.expr h).getKind = n.kind ∧ (s.expr h).children = n.children.map s.expr := by
  rw [Store.expr_eq s hok h n hg]
  obtain ⟨_, _, _, h4, _⟩ := Store.nodeOk_spec s h n ((Store.ok_spec s).mp hok h n hg)
  cases hp : n.payload with
  | some l => simp [Expr.getKind, Expr.children, h4 (by simp [hp])]
  | none => simp [Expr.getKind, Expr.children]

/-- The children of a hashed node are hashed. -/
theorem Store.isHashed_child (s : Store) (hok : s.ok = true) (h : Nat) (n : StoreNode)
    (hg : s.get? h = some n) (hh : n.hashed = true) (i c : Nat) (hc : n.children[i]? = some c) :
    s.isHashed c = true := by
  obtain ⟨_, h2, _, _, _⟩ := Store.nodeOk_spec s h n ((Store.ok_spec s).mp hok h n hg)
  exact h2 hh c (List.getElem?_mem hc)

/-- Two hashed handles are the same address exactly when they stand for the same term. -/
theorem Store.hashed_eq_iff (s : Store) (hok : s.ok = true) (h1 h2 : Nat)
    (hh1 : s.isHashed h1 = true) (hh2 : s.isHashed h2 = true) :
    h1 = h2 ↔ s.expr h1 = s.expr h2 :=
  ⟨fun h => by rw [h], Store.hashed_expr_inj s hok h1 h1 h2 (Nat.le_refl _) hh1 hh2⟩

/-- The exit of the loop of `getNAryChildren` on a hashed node: the test against the nil
element by address decides the equality of the terms. -/
theorem getNAryChildren_exit_hashed (s : Store) (hok : s.ok = true) (checkNil : Option Nat)
    (e : Nat) (children : List Nat)
    (he : s.isHashed e = true) (hch : ∀ c ∈ children, s.isHashed c = true) :
    (∀ n, checkNil = some n → s.isHashed n = true) →
    ((match checkNil with
      | some nil => if e ≠ nil then some (none, children) else some (some e, children)
      | none => some (some e, children) : Option (Option Nat × List Nat))).map
        (fun r => (r.1.map s.expr, r.2.map s.expr))
      = (match checkNil.map s.expr with
        | some nil =>
          if s.expr e ≠ nil then some (none, children.map s.expr)
          else some (some (s.expr e), children.map s.expr)
        | none => some (some (s.expr e), children.map s.expr))
    ∧ ∀ r cs, (match checkNil with
      | some nil => if e ≠ nil then some (none, children) else some (some e, children)
      | none => some (some e, children) : Option (Option Nat × List Nat)) = some (r, cs) →
      (∀ h, r = some h → s.isHashed h = true) ∧ (∀ c ∈ cs, s.isHashed c = true) := by
  intro hnil
  cases checkNil with
  | none =>
    refine ⟨rfl, ?_⟩
    intro r cs h
    simp only [Option.some.injEq, Prod.mk.injEq] at h
    obtain ⟨h1, h2⟩ := h
    subst h1 h2
    exact ⟨fun h hh => (by cases hh; exact he), hch⟩
  | some nil =>
    have hiff := Store.hashed_eq_iff s hok e nil he (hnil nil rfl)
    by_cases hen2 : e = nil
    · refine ⟨by simp [hen2], ?_⟩
      intro r cs h
      simp only [hen2, ne_eq, not_true_eq_false, if_false, Option.some.injEq,
        Prod.mk.injEq] at h
      obtain ⟨h1, h2⟩ := h
      subst h1 h2
      exact ⟨fun h hh => (by cases hh; exact hnil nil rfl), hch⟩
    · have hne : s.expr e ≠ s.expr nil := fun h => hen2 (hiff.mpr h)
      refine ⟨by simp [hen2, hne], ?_⟩
      intro r cs h
      simp only [ne_eq, hen2, not_false_eq_true, if_true, Option.some.injEq,
        Prod.mk.injEq] at h
      obtain ⟨h1, h2⟩ := h
      subst h1 h2
      exact ⟨fun h hh => (by cases hh), hch⟩

/-- On hashed nodes of a well-formed store the walk of `getNAryChildren` over addresses is
the walk over terms: the address tests decide equality of terms.  The nodes that the
walk returns are hashed. -/
theorem getNAryChildrenLoop_hashed (s : Store) (hok : s.ok = true) (op : Nat)
    (checkNil : Option Nat) (isLeft : Bool) (mx : Nat) (hop : s.isHashed op = true)
    (hnil : ∀ n, checkNil = some n → s.isHashed n = true) :
    ∀ (fuel e : Nat) (children : List Nat), s.isHashed e = true →
      (∀ c ∈ children, s.isHashed c = true) →
      (Store.getNAryChildrenLoop s op checkNil isLeft mx fuel e children).map
          (fun r => (r.1.map s.expr, r.2.map s.expr))
        = getNAryChildrenLoop (s.expr op) (checkNil.map s.expr) isLeft mx fuel (s.expr e)
            (children.map s.expr)
      ∧ ∀ r cs, Store.getNAryChildrenLoop s op checkNil isLeft mx fuel e children
          = some (r, cs) →
          (∀ h, r = some h → s.isHashed h = true) ∧ (∀ c ∈ cs, s.isHashed c = true) := by
  intro fuel
  induction fuel with
  | zero =>
    intro e children _ _
    simp [Store.getNAryChildrenLoop, getNAryChildrenLoop]
  | succ fuel ih =>
    intro e children he hch
    obtain ⟨en, hg, hen⟩ := Store.isHashed_spec s e he
    obtain ⟨hk, hc⟩ := Store.expr_node s hok e en hg
    have hfin := getNAryChildren_exit_hashed s hok checkNil e children he hch hnil
    unfold Store.getNAryChildrenLoop getNAryChildrenLoop
    simp only [hg, hk, hc, List.getElem?_map]
    by_cases hap : en.kind = .APPLY
    · simp only [hap, if_true]
      cases h0 : en.children[0]? with
      | none => simp
      | some cop =>
        have hcop := Store.isHashed_child s hok e en hg hen 0 cop h0
        obtain ⟨copn, hgc, hcn⟩ := Store.isHashed_spec s cop hcop
        obtain ⟨hkc, hcc⟩ := Store.expr_node s hok cop copn hgc
        simp only [Option.map_some', hgc, hkc, hcc, List.getElem?_map]
        by_cases hapc : copn.kind = .APPLY
        · simp only [hapc, ne_eq, not_true_eq_false, if_false]
          cases h00 : copn.children[0]? with
          | none => simp
          | some cop0 =>
            have hcop0 := Store.isHashed_child s hok cop copn hgc hcn 0 cop0 h00
            have hiff := Store.hashed_eq_iff s hok cop0 op hcop0 hop
            simp only [Option.map_some']
            by_cases hsame : cop0 = op
            · have hsameE : s.expr cop0 = s.expr op := hiff.mp hsame
              simp only [hsame, not_true_eq_false, if_false]
              cases h1 : en.children[1]? with
              | none => simp
              | some e1 =>
                cases h01 : copn.children[1]? with
                | none => simp
                | some cop1 =>
                  have he1 := Store.isHashed_child s hok e en hg hen 1 e1 h1
                  have hcop1 := Store.isHashed_child s hok cop copn hgc hcn 1 cop1 h01
                  have hch1 : ∀ c ∈ children ++ [if isLeft = true then e1 else cop1],
                      s.isHashed c = true := by
                    intro c hcm
                    rcases List.mem_append.mp hcm with h | h
                    · exact hch c h
                    · rw [List.mem_singleton.mp h]
                      cases isLeft <;> simp [he1, hcop1]
                  have htail : s.isHashed (if isLeft = true then cop1 else e1) = true := by
                    cases isLeft <;> simp [he1, hcop1]
                  obtain ⟨ih1, ih2⟩ := ih (if isLeft = true then cop1 else e1)
                    (children ++ [if isLeft = true then e1 else cop1]) htail hch1
                  simp only [Option.map_some', List.length_append, List.length_singleton,
                    List.length_map]
                  by_cases hmx : children.length + 1 = mx
                  · simp only [hmx, if_true]
                    refine ⟨?_, ?_⟩
                    · cases isLeft <;> simp
                    · intro r cs h
                      simp only [Option.some.injEq, Prod.mk.injEq] at h
                      obtain ⟨h1, h2⟩ := h
                      subst h1 h2
                      exact ⟨fun h hh => (by cases hh; exact htail), hch1⟩
                  · simp only [hmx, if_false]
                    refine ⟨?_, ih2⟩
                    rw [ih1]
                    cases isLeft <;> simp
            · have hneE : s.expr cop0 ≠ s.expr op := fun h => hsame (hiff.mpr h)
              simp only [hsame, hneE, not_false_eq_true, if_true]
              exact hfin
        · simp only [hapc, ne_eq, not_false_eq_true, if_true]
          exact hfin
    · simp only [hap, if_false]
      exact hfin

/-- The walk of `getNAryChildren` without a bound, on a hashed node of a well-formed store:
the elements are hashed nodes that stand for the elements of the spine of the term, and
the walk returns null exactly when the spine of the term does not end in the term of the
nil element. -/
theorem getNAryChildren_hashed_spine (s : Store) (hok : s.ok = true) (op nil e : Nat)
    (isLeft : Bool) (hop : s.isHashed op = true) (hnil : s.isHashed nil = true)
    (he : s.isHashed e = true) (hwf : appliesHaveArgs (s.expr e) = true) :
    ∃ r hs, Store.getNAryChildren s e op (some nil) [] isLeft 0 = some (r, hs)
      ∧ hs.map s.expr = spineElems (s.expr op) isLeft (s.expr e)
      ∧ (∀ c ∈ hs, s.isHashed c = true)
      ∧ (r = none ↔ spineEnd (s.expr op) isLeft (s.expr e) ≠ s.expr nil) := by
  obtain ⟨h1, h2⟩ := getNAryChildrenLoop_hashed s hok op (some nil) isLeft 0 hop
    (fun n hn => by cases hn; exact hnil) ((s.expr e).size + 1) e [] he
    (fun c hc => by cases hc)
  have hw := getNAryChildren_spine (s.expr op) (some (s.expr nil)) isLeft (s.expr e) hwf
  unfold getNAryChildren at hw
  simp only [Option.map_some', List.map_nil] at h1
  rw [hw] at h1
  unfold Store.getNAryChildren
  cases hr : Store.getNAryChildrenLoop s op (some nil) isLeft 0 ((s.expr e).size + 1) e [] with
  | none => simp [hr] at h1
  | some res =>
    obtain ⟨r, hs⟩ := res
    simp only [hr, Option.map_some', Option.some.injEq, Prod.mk.injEq, List.nil_append] at h1
    obtain ⟨h1r, h1s⟩ := h1
    refine ⟨r, hs, rfl, h1s, (h2 r hs hr).2, ?_⟩
    by_cases hend : spineEnd (s.expr op) isLeft (s.expr e) = s.expr nil
    · simp only [hend, ne_eq, not_true_eq_false, if_false] at h1r
      cases r with
      | none => simp at h1r
      | some x => simp [hend]
    · simp only [ne_eq, hend, not_false_eq_true, if_true] at h1r
      cases r with
      | none => simp [hend]
      | some x => simp at h1r

/-- The list of one element that the last loop of `evaluateLiteralOpInternal` builds on a
tail, and its canonical copy: `ensureHashed` returns the hashed node of the application
of the curried operator. -/
theorem buildList_one_hashed (s : Store) (hok : s.ok = true) (op hd tl : Nat) (isLeft : Bool)
    (hop : s.isHashed op = true) (hhd : s.isHashed hd = true) (htl : s.isHashed tl = true)
    (fuel : Nat)
    (hfuel : 2 * ((s.expr op).size + (s.expr hd).size + (s.expr tl).size + 2) ≤ fuel) :
    ∃ p s1, Store.ensureHashed fuel (s.buildList op isLeft [hd] tl).2
          (s.buildList op isLeft [hd] tl).1 = some (some p, s1)
      ∧ s1.ok = true ∧ Store.Extends s s1 ∧ s1.isHashed p = true
      ∧ s1.expr p
        = (if isLeft then .node .APPLY [.node .APPLY [s.expr op, s.expr tl], s.expr hd]
           else .node .APPLY [.node .APPLY [s.expr op, s.expr hd], s.expr tl]) := by
  obtain ⟨nop, hgop, hnop⟩ := Store.isHashed_spec s op hop
  obtain ⟨nhd, hghd, hnhd⟩ := Store.isHashed_spec s hd hhd
  obtain ⟨ntl, hgtl, hntl⟩ := Store.isHashed_spec s tl htl
  have hlop := Store.get?_lt s op nop hgop
  have hlhd := Store.get?_lt s hd nhd hghd
  have hltl := Store.get?_lt s tl ntl hgtl
  -- the two nodes of the loop
  let c1 : List Nat := if isLeft then [op, tl] else [op, hd]
  have hc1 : ∀ c ∈ c1, c < s.nodes.length := by
    intro c hc
    cases isLeft <;> simp [c1] at hc <;> rcases hc with h | h <;> omega
  obtain ⟨ha1, hok1, hext1, hg1⟩ := Store.alloc_spec s hok .APPLY none c1 hc1 rfl
    (fun h => by cases h)
  let s1 := (s.alloc .APPLY none c1).2
  let c2 : List Nat := if isLeft then [s.nodes.length, hd] else [s.nodes.length, tl]
  have hlen1 : s.nodes.length < s1.nodes.length := by
    simp [s1, Store.alloc]
  have hc2 : ∀ c ∈ c2, c < s1.nodes.length := by
    intro c hc
    cases isLeft <;> simp [c2] at hc <;> rcases hc with h | h <;> omega
  obtain ⟨ha2, hok2, hext2, hg2⟩ := Store.alloc_spec s1 hok1 .APPLY none c2 hc2 rfl
    (fun h => by cases h)
  let s2 := (s1.alloc .APPLY none c2).2
  have hbuild : s.buildList op isLeft [hd] tl = (s1.nodes.length, s2) := by
    cases isLeft <;> simp [Store.buildList, s2, s1, c1, c2, Store.alloc]
  have hext02 : Store.Extends s s2 := Store.extends_trans s s1 s2 hext1 hext2
  have hg1b : s2.get? s.nodes.length = some ⟨.APPLY, none, c1, false⟩ := by
    apply Store.get?_of_extends s1 s2 hext2
    rw [← ha1]
    exact hg1
  have hg2b : s2.get? s1.nodes.length = some ⟨.APPLY, none, c2, false⟩ := by
    rw [← ha2]
    exact hg2
  -- the terms of the nodes
  have hE : ∀ h, h < s.nodes.length → s2.expr h = s.expr h :=
    fun h hlt => Store.expr_of_extends s s2 hok hext02 h hlt
  have he1 : s2.expr s.nodes.length = .node .APPLY (c1.map s.expr) := by
    rw [Store.expr_eq s2 hok2 _ _ hg1b]
    simp only [Expr.node.injEq, true_and]
    apply List.map_congr_left
    intro c hc
    exact hE c (hc1 c hc)
  have he2 : s2.expr s1.nodes.length
      = (if isLeft then .node .APPLY [.node .APPLY [s.expr op, s.expr tl], s.expr hd]
         else .node .APPLY [.node .APPLY [s.expr op, s.expr hd], s.expr tl]) := by
    rw [Store.expr_eq s2 hok2 _ _ hg2b]
    cases isLeft <;> simp [c2, c1, he1, hE _ hlhd, hE _ hltl] at *
  -- the canonical copy
  have hh2 : ∀ h, s.isHashed h = true → s2.isHashed h = true :=
    fun h hh => Store.isHashed_of_extends s s2 hext02 h hh
  have hable : s2.hashable 3 s1.nodes.length = true := by
    cases isLeft <;>
      simp [Store.hashable, hg2b, hg1b, c1, c2, isSymbol,
        Store.get?_of_extends s s2 hext02 _ _ hgop, Store.get?_of_extends s s2 hext02 _ _ hghd,
        Store.get?_of_extends s s2 hext02 _ _ hgtl, hnop, hnhd, hntl]
  have hsz : 2 * (s2.expr s1.nodes.length).size ≤ fuel := by
    rw [he2]
    cases isLeft <;> simp [Expr.size, Expr.sizeList] <;> omega
  obtain ⟨p, s3, hrun, hok3, hext3, hhp, hep⟩ :=
    Store.ensureHashed_run s2 s1.nodes.length 3 hok2 hable fuel hsz
  rw [hbuild]
  exact ⟨p, s3, hrun, hok3, Store.extends_trans s s2 s3 hext02 hext3, hhp, by rw [hep, he2]⟩

/-- On ground arguments whose first is not a literal, a list operator on handles is
decided by the list operations. -/
theorem evaluateLiteralOpInternal_listOp_at (fuel : Nat) (tb : Store.Tables)
    (m : Store.Memory) (hok : m.store.ok = true) (k : Kind) (op : Nat) (rest : List Nat)
    (hk : k = .EVAL_TO_LIST ∨ k = .EVAL_FROM_LIST ∨ k = .EVAL_CONS ∨ k = .EVAL_CONCAT
      ∨ k = .EVAL_EXTRACT ∨ k = .EVAL_FIND)
    (hg : m.store.isGround (op :: rest) = true) (hop : m.store.isHashed op = true)
    (hopk : isLiteral (m.store.expr op).getKind = false) :
    Store.evaluateLiteralOpInternal fuel tb m k (op :: rest)
      = Store.evaluateListOp tb m k (op :: rest) := by
  obtain ⟨n, hgn, _⟩ := Store.isHashed_spec m.store op hop
  rw [(Store.expr_node m.store hok op n hgn).1] at hopk
  rcases hk with h | h | h | h | h | h <;> subst h <;>
    simp [Store.evaluateLiteralOpInternal, hg, Store.getKind, hgn, hopk]

/-- The node that `mkExprInternal` returns for hashed children of a well-formed store. -/
theorem mkExprInternal_hashed (s : Store) (hok : s.ok = true) (k : Kind) (cs : List Nat)
    (hcs : ∀ c ∈ cs, s.isHashed c = true)
    (hk : (isLiteral k || isSymbol k) = false) :
    (s.mkExprInternal k cs).2.ok = true ∧ Store.Extends s (s.mkExprInternal k cs).2
      ∧ (s.mkExprInternal k cs).2.isHashed (s.mkExprInternal k cs).1 = true
      ∧ (s.mkExprInternal k cs).2.expr (s.mkExprInternal k cs).1 = .node k (cs.map s.expr) := by
  obtain ⟨h1, h2, h3⟩ := Store.intern_spec s hok k none cs hcs (by simp [hk])
    (fun h => by cases h)
  unfold Store.mkExprInternal
  refine ⟨h1, h2, Store.isHashed_of_get? _ _ _ h3 rfl, ?_⟩
  rw [Store.expr_eq _ h1 _ _ h3]
  simp only [Expr.node.injEq, true_and]
  apply List.map_congr_left
  intro c hc
  obtain ⟨n, hn, _⟩ := Store.isHashed_spec s c (hcs c hc)
  exact Store.expr_of_extends s _ hok h2 c (Store.get?_lt s c n hn)

/-- Among hashed nodes of a well-formed store, `std::find` on addresses finds the first
node that stands for the term of the needle. -/
theorem indexOf_hashed (s : Store) (hok : s.ok = true) (x : Nat) (hx : s.isHashed x = true) :
    ∀ hs : List Nat, (∀ c ∈ hs, s.isHashed c = true) →
      (x ∈ hs ↔ s.expr x ∈ hs.map s.expr)
        ∧ hs.indexOf x = (hs.map s.expr).indexOf (s.expr x) := by
  intro hs
  induction hs with
  | nil =>
    intro _
    simp
  | cons c hs ih =>
    intro hall
    obtain ⟨ih1, ih2⟩ := ih (fun d hd => hall d (List.mem_cons_of_mem _ hd))
    have hiff := Store.hashed_eq_iff s hok c x (hall c (List.mem_cons_self _ _)) hx
    by_cases hcx : c = x
    · subst hcx
      simp
    · have hne : s.expr c ≠ s.expr x := fun h => hcx (hiff.mpr h)
      have hne2 : ¬ x = c := fun h => hcx h.symm
      have hne3 : ¬ s.expr x = s.expr c := fun h => hne h.symm
      refine ⟨?_, ?_⟩
      · simp only [List.mem_cons, List.map_cons, hne2, hne3, false_or]
        exact ih1
      · rw [List.indexOf_cons_ne _ hcx, List.map_cons, List.indexOf_cons_ne _ hne, ih2]

/-- A literal that is built with `new Literal`, and its canonical copy: `ensureHashed`
returns the hashed literal of the kind and the payload. -/
theorem alloc_literal_hashed (s : Store) (hok : s.ok = true) (k : Kind) (l : Literal)
    (hk : isLiteral k = true) (fuel : Nat) (hfuel : 2 ≤ fuel) :
    ∃ p s1, Store.ensureHashed fuel (s.alloc k (some l) []).2 (s.alloc k (some l) []).1
        = some (some p, s1)
      ∧ s1.ok = true ∧ Store.Extends s s1 ∧ s1.isHashed p = true
      ∧ s1.expr p = .leaf k l
      ∧ s1.get? (s.alloc k (some l) []).1 = some ⟨k, some l, [], false⟩ := by
  obtain ⟨ha, hok1, hext1, hg1⟩ := Store.alloc_spec s hok k (some l) []
    (fun c hc => by cases hc) (by simp [hk]) (fun _ => rfl)
  have he : (s.alloc k (some l) []).2.expr (s.alloc k (some l) []).1 = .leaf k l := by
    rw [Store.expr_eq _ hok1 _ _ hg1]
  have hable : (s.alloc k (some l) []).2.hashable 1 (s.alloc k (some l) []).1 = true := by
    have hs : isSymbol k = false := by cases k <;> simp [isLiteral] at hk <;> rfl
    simp [Store.hashable, hg1, hs]
  obtain ⟨p, s3, hrun, hok3, hext3, hhp, hep⟩ :=
    Store.ensureHashed_run _ _ 1 hok1 hable fuel (by rw [he]; simpa [Expr.size] using hfuel)
  exact ⟨p, s3, hrun, hok3, Store.extends_trans _ _ _ hext1 hext3, hhp, by rw [hep, he],
    Store.get?_of_extends _ s3 hext3 _ _ hg1⟩

/-- The canonical copy of a literal node of a well-formed store. -/
theorem ensureHashed_literal_node (s : Store) (hok : s.ok = true) (h : Nat) (n : StoreNode)
    (hg : s.get? h = some n) (k : Kind) (l : Literal) (hk : isLiteral k = true)
    (hnk : n.kind = k) (hnp : n.payload = some l) (fuel : Nat) (hfuel : 2 ≤ fuel) :
    ∃ p s1, Store.ensureHashed fuel s h = some (some p, s1)
      ∧ s1.ok = true ∧ Store.Extends s s1 ∧ s1.isHashed p = true
      ∧ s1.expr p = .leaf k l := by
  obtain ⟨_, _, _, h4, _⟩ := Store.nodeOk_spec s h n ((Store.ok_spec s).mp hok h n hg)
  have he : s.expr h = .leaf k l := by
    rw [Store.expr_eq s hok h n hg, hnp, hnk]
  have hable : s.hashable 1 h = true := by
    have hs : isSymbol n.kind = false := by
      rw [hnk]
      cases k <;> simp [isLiteral] at hk <;> rfl
    simp [Store.hashable, hg, hs, h4 (by simp [hnp])]
  obtain ⟨p, s3, hrun, hok3, hext3, hhp, hep⟩ :=
    Store.ensureHashed_run s h 1 hok hable fuel (by rw [he]; simpa [Expr.size] using hfuel)
  exact ⟨p, s3, hrun, hok3, hext3, hhp, by rw [hep, he]⟩

/-- The parts of the well-formedness of a memory. -/
theorem Memory_ok_spec (m : Store.Memory) :
    m.ok = true ↔ m.store.ok = true
      ∧ ∀ h, m.d_negOne = some h →
          ∃ n, m.store.get? h = some n ∧ n.kind = .NUMERAL ∧ n.payload = some (.int (-1)) := by
  unfold Store.Memory.ok
  cases hd : m.d_negOne with
  | none => simp
  | some h =>
    cases hg : m.store.get? h with
    | none => simp [hg]
    | some n => simp [hg]

/-! ### The claims -/

/-- C1: for every kind and every argument count, `checkArity` returns true exactly when
the count satisfies the arity table for the kind; in particular it returns false for
every kind that the table does not list. -/
theorem checkArity_iff_arityTable (k : Kind) (n : Nat) :
    checkArity k n = true ↔ arityTable k n := by
  cases k <;> simp [checkArity, arityTable]
  omega

/-- C2: soundness of `match` on ground terms.  For every pattern `p`, every term `t`
without `PARAM` node and every initial context, if `match` started with a fresh visited
set returns true, then the resulting context extends the initial one and replacing every
`PARAM` of `p` by its binding in the resulting context yields exactly `t`. -/
theorem match_sound_ground (p t : Expr) (ctx : Ctx) (hg : t.isGround = true)
    (hm : (matchFresh p t ctx).ret = true) :
    ctxExtends ctx (matchFresh p t ctx).ctx ∧ substitute (matchFresh p t ctx).ctx p = t := by
  have hrun := matchVisited_spec p t ctx []
  obtain ⟨h1, h2, _, h4⟩ :=
    matchLoop_true_closed _ _ _ _ _ hrun hm (fun _ h => by cases h)
  refine ⟨h2, ?_⟩
  exact matchClosed_substitute _ _ h1 _ p t (Nat.le_refl _) hg (h4 (p, t) (by simp))

/-- C3: completeness of `match`.  For every pattern `p` (a well-formed term: its `PARAM`
nodes are symbols, without children), every term `t` and every initial context, if some
context `σ` extends the initial one and its substitution into `p` yields `t`, then
`match` started with a fresh visited set returns true. -/
theorem match_complete (p t : Expr) (ctx σ : Ctx) (hwf : paramsAreLeaves p = true)
    (hext : ctxExtends ctx σ) (hsub : substitute σ p = t) :
    (matchFresh p t ctx).ret = true := by
  have hrun := matchVisited_spec p t ctx []
  refine matchLoop_complete σ _ _ _ _ _ hrun hext ?_
  intro pr hpr
  simp only [List.mem_singleton] at hpr
  subst hpr
  exact ⟨hwf, hsub⟩

/-- C4 (counterexample): the pattern `(alf.is_eq x a)` matches the ground term
`(alf.is_eq a a)` with the context `x -> a`, and `evaluate` of the pattern in that context
is `true`, which is not the term: no amount of fuel makes `evaluate` return the term. -/
theorem evaluate_match_disagreement :
    sIsEqTerm.isGround = true
      ∧ (matchFresh sIsEqPattern sIsEqTerm []).ret = true
      ∧ evaluate sampleEnv 10 sIsEqPattern (matchFresh sIsEqPattern sIsEqTerm []).ctx
          = some mkTrue
      ∧ ∀ fuel, evaluate sampleEnv fuel sIsEqPattern (matchFresh sIsEqPattern sIsEqTerm []).ctx
          ≠ some (ensureHashed sIsEqTerm) := by
  have h10 : evaluate sampleEnv 10 sIsEqPattern (matchFresh sIsEqPattern sIsEqTerm []).ctx
      = some mkTrue := by decide
  refine ⟨by decide, by decide, h10, ?_⟩
  intro fuel h
  have := evaluate_unique _ _ _ _ _ _ _ h10 h
  exact absurd this (by decide)

/-- C4 (amended): substitution agreement on constructor terms.  For every pattern `p`
without compiled node, every ground term `q` that contains no evaluation operator and no
application of a program or of an oracle, and every context, if `match(p, q, ctx)`
succeeds then `evaluate(p, ctx)`, in the context that the match produced, returns
`ensureHashed(q)` (within `2 * size(p) + 1` passes of its loops). -/
theorem evaluate_match_agreement (env : Env) (p q : Expr) (ctx : Ctx)
    (hg : q.isGround = true) (hq : plainTerm q = true) (hp : notCompiled env p = true)
    (hm : (matchFresh p q ctx).ret = true) (fuel : Nat) (hfuel : 2 * p.size + 1 ≤ fuel) :
    evaluate env fuel p (matchFresh p q ctx).ctx = some (ensureHashed q) := by
  have hrun := matchVisited_spec p q ctx []
  obtain ⟨h1, _, _, h4⟩ :=
    matchLoop_true_closed _ _ _ _ _ hrun hm (fun _ h => by cases h)
  have hroot := h4 (p, q) (by simp)
  have hplain := matchClosed_evalPlain env _ _ h1 _ p q (Nat.le_refl _) hg hq hp hroot
  have hsub := matchClosed_substitute _ _ h1 _ p q (Nat.le_refl _) hg hroot
  have := evaluate_of_evalPlain env _ p hplain fuel hfuel
  simp only [matchFresh, ensureHashed]
  rw [this, hsub]

/-- C5 (counterexample): the head `f` has the type `FUNCTION_TYPE(Int, Int)` and is
applied to two arguments with cached types; the type of the head is a `FUNCTION_TYPE`,
yet `getTypeApp` returns null. -/
theorem getTypeApp_function_head_null :
    (∃ hdType, lookupType sampleState sF = some hdType ∧ hdType.getKind = .FUNCTION_TYPE
        ∧ sampleEnv.isCompiled hdType = false)
      ∧ lookupType sampleState sA ≠ none ∧ lookupType sampleState sB ≠ none
      ∧ getTypeApp sampleEnv 10 sampleState [sF, sA, sB] = some none := by
  refine ⟨⟨_, rfl, rfl, rfl⟩, by decide, by decide, by decide⟩

/-- C5 (amended): type of an application with a simple function type.  Let the head `f`
have the cached type `hdType`, not compiled, and let the children `args` have the cached
types `tys`.  `getTypeApp(f :: args)` returns a non-null type only if `hdType` is a
`FUNCTION_TYPE`, and null for any other head type; when `hdType` is
`FUNCTION_TYPE(T1, ..., Tn, R)` with every `Ti` ground and not a `QUOTE_TYPE` and `R`
ground and not evaluatable, the call returns `R` exactly when the list of the types of the
arguments is `T1, ..., Tn`, and null otherwise.  Scenario S4:
`getType(APPLY(λ(x:Int). x, 7))` is `Int`. -/
theorem getTypeApp_simple_function (env : Env) (fuel : Nat) (tc : TypeChecker) (f : Expr)
    (args : List Expr) (hdType : Expr) (tys : List Expr)
    (hf : lookupType tc f = some hdType) (hcomp : env.isCompiled hdType = false)
    (htys : args.map (lookupType tc) = tys.map some) :
    (∀ t, getTypeApp env fuel tc (f :: args) = some (some t) → hdType.getKind = .FUNCTION_TYPE)
    ∧ (hdType.getKind ≠ .FUNCTION_TYPE → getTypeApp env fuel tc (f :: args) = some none)
    ∧ (∀ (Ts : List Expr) (R : Expr), hdType = .node .FUNCTION_TYPE (Ts ++ [R]) →
        (∀ T ∈ Ts, T.isGround = true ∧ T.getKind ≠ .QUOTE_TYPE) →
        R.isGround = true → env.isEvaluatable R = false → 2 ≤ fuel →
        getTypeApp env fuel tc (f :: args) = some (if tys = Ts then some R else none))
    ∧ (getType sampleEnv 20 sampleState sApplyLambda).map Prod.fst = some (some sInt) := by
  have hnon : hdType.getKind ≠ .FUNCTION_TYPE →
      getTypeApp env fuel tc (f :: args) = some none := by
    intro hk
    simp [getTypeApp, getTypeAppInternal, hf, hk]
  refine ⟨?_, hnon, ?_, by decide⟩
  · intro t ht
    by_contra hk
    rw [hnon hk] at ht
    cases ht
  · intro Ts R hty hTs hRg hRe hfuel
    subst hty
    have hlen : args.length = tys.length := by
      have := congrArg List.length htys
      simpa using this
    by_cases hn : args.length = Ts.length
    · have hargs := appArgs_of_types tc R Ts args tys (fun T hT => (hTs T hT).2) hn htys
      have hmatch := appMatch_ground R Ts tys hTs (hlen ▸ hn)
      simp only [getTypeApp, getTypeAppInternal, hf, Expr.getKind_node, Expr.children_node,
        hargs, hmatch, hcomp]
      by_cases heq : tys = Ts
      · simp [heq, hn, evaluate_shortcut env fuel R [] hRe (Or.inl hRg) hfuel]
      · simp [heq, hn]
    · have hne : tys ≠ Ts := by
        intro h
        rw [h] at hlen
        exact hn hlen
      have hn2 : ¬ Ts.length = args.length := fun h => hn h.symm
      simp [getTypeApp, getTypeAppInternal, hf, hn2, hne]

/-- C6: implicit quote upcast.  For a head `f` whose type is
`FUNCTION_TYPE(QUOTE_TYPE(p), R)`, not compiled, and any child `c`, `getTypeApp([f, c])`
matches `p` against the child `c` itself: when `match(p, c, empty)` succeeds with the
context `σ` the result is `evaluate(R, σ)`, otherwise it is null; the type of `c` is never
read, so that the result is the same in every state that gives `f` this type. -/
theorem getTypeApp_quote_upcast (env : Env) (fuel : Nat) (tc : TypeChecker) (f c p R : Expr)
    (hf : lookupType tc f = some (.node .FUNCTION_TYPE [.node .QUOTE_TYPE [p], R]))
    (hcomp : env.isCompiled (.node .FUNCTION_TYPE [.node .QUOTE_TYPE [p], R]) = false) :
    getTypeApp env fuel tc [f, c]
        = (if (matchFresh p c []).ret then
             (evaluate env fuel R (matchFresh p c []).ctx).map some
           else some none)
      ∧ ∀ tc2 : TypeChecker, lookupType tc2 f = lookupType tc f →
          getTypeApp env fuel tc2 [f, c] = getTypeApp env fuel tc [f, c] := by
  have key : ∀ tc2 : TypeChecker,
      lookupType tc2 f = some (.node .FUNCTION_TYPE [.node .QUOTE_TYPE [p], R]) →
      getTypeApp env fuel tc2 [f, c]
        = (if (matchFresh p c []).ret then
             (evaluate env fuel R (matchFresh p c []).ctx).map some
           else some none) := by
    intro tc2 h2
    have happ : appMatch [.node .QUOTE_TYPE [p], R] [c] [] []
        = some (if (matchFresh p c []).ret then some (matchFresh p c []).ctx else none) := by
      by_cases hm : (matchVisited p c [] []).ret = true <;> simp [appMatch, matchFresh, hm]
    have hargs : appArgs tc2 [.node .QUOTE_TYPE [p], R] [c] = some [c] := by
      simp [appArgs]
    simp only [getTypeApp, getTypeAppInternal, h2, Expr.getKind_node, Expr.children_node,
      hargs, happ, hcomp]
    by_cases hm : (matchFresh p c []).ret = true
    · cases hev : evaluate env fuel R (matchFresh p c []).ctx <;> simp [hm, hev]
    · simp [hm]
  refine ⟨key tc hf, ?_⟩
  intro tc2 h2
  rw [key tc hf, key tc2 (h2.trans hf)]

/-- C7: type cache stability.  A call of `getType` never changes or removes an entry of
the type cache; when `getType(e)` succeeds with the type `t` it leaves `t` in the cache as
the type of `e`; and in every state whose cache holds `t` for `e` (hence after any number
of further calls), `getType(e)` returns `t` and leaves the state as it is. -/
theorem getType_cache_stable (env : Env) (fuel : Nat) (tc tc2 : TypeChecker) (e : Expr)
    (r : Option Expr) (h : getType env fuel tc e = some (r, tc2)) :
    cacheExtends tc.d_typeCache tc2.d_typeCache
    ∧ (∀ t, r = some t → assocFind e tc2.d_typeCache = some t)
    ∧ (∀ (t : Expr) (tc3 : TypeChecker) (fuel3 : Nat),
        assocFind e tc3.d_typeCache = some t → 1 ≤ fuel3 →
        getType env fuel3 tc3 e = some (some t, tc3)) := by
  refine ⟨getTypeLoop_cacheExtends env fuel fuel _ _ _ _ _ _ h, ?_, ?_⟩
  · intro t ht
    subst ht
    exact getTypeLoop_result_cached env fuel e fuel _ _ _ _ _ _ (by simp) h
  · intro t tc3 fuel3 hc hf
    obtain ⟨n, rfl⟩ : ∃ n, fuel3 = n + 1 := ⟨fuel3 - 1, by omega⟩
    simp [getType, getTypeLoop, hc]

/-- C8: `getType` is all-or-nothing.  With fuel for two passes for each node of `e`, the
loop of `getType` computes the post-order walk of `e` that types each node without cached
type after its children and aborts with null at the first node on which `getTypeInternal`
returns null.  Hence a call never removes or changes a cache entry, writes entries only
for nodes of `e` and only with a non-null result of `getTypeInternal`, and keeps the cache
closed under subterms; a null result comes from a node `n` of `e` on which
`getTypeInternal` returned null, the call ends in the state that this `getTypeInternal`
left, in which neither `n` nor any node of the chain of the walk from `e` down to `n` has a
cache entry (`FailureAt`), nor, the cache being closed under subterms, any term that
contains `n`; and a non-null result is the cached type of `e`, every node of `e` that had
no cached type having received the non-null result of a call of `getTypeInternal`. -/
theorem getType_all_or_nothing (env : Env) (fuel : Nat) (tc : TypeChecker) (e : Expr)
    (hfuel : 2 * e.size ≤ fuel) :
    getType env fuel tc e = getTypePostOrder env fuel e tc
    ∧ ∀ (r : Option Expr) (tc2 : TypeChecker), getType env fuel tc e = some (r, tc2) →
        cacheExtends tc.d_typeCache tc2.d_typeCache
        ∧ (∀ k v, assocFind k tc2.d_typeCache = some v → assocFind k tc.d_typeCache = some v
            ∨ (k ∈ e.subterms
                ∧ ∃ tck tck2, getTypeInternal env fuel tck k = some (some v, tck2)))
        ∧ (cacheClosed tc.d_typeCache → cacheClosed tc2.d_typeCache)
        ∧ (r = none → FailureAt env fuel tc2 e
            ∧ ∃ n tcn, n ∈ e.subterms
              ∧ getTypeInternal env fuel tcn n = some (none, tc2)
              ∧ assocFind n tc2.d_typeCache = none
              ∧ (cacheClosed tc.d_typeCache →
                  ∀ a, n ∈ a.subterms → assocFind a tc2.d_typeCache = none))
        ∧ (∀ t, r = some t → assocFind e tc2.d_typeCache = some t
            ∧ (cacheClosed tc.d_typeCache → ∀ x ∈ e.subterms,
                assocFind x tc.d_typeCache = none →
                ∃ tcx tcx2 tx, getTypeInternal env fuel tcx x = some (some tx, tcx2)
                  ∧ assocFind x tc2.d_typeCache = some tx)) := by
  have heq := getType_eq_getTypePostOrder env fuel tc e hfuel
  refine ⟨heq, ?_⟩
  intro r tc2 h
  rw [heq] at h
  obtain ⟨⟨f1, f2, f3, f4⟩, g2, g3⟩ :=
    getTypePostOrder_facts env fuel e.size e (Nat.le_refl _) tc tc2 r h
  refine ⟨f1, ?_, f3, ?_, ?_⟩
  · intro k v hk
    rcases f4 k v hk with h1 | h1
    · exact Or.inl h1
    · rcases f2 k (by rw [hk]; simp) with h2 | h2
      · cases hold : assocFind k tc.d_typeCache with
        | none => exact absurd hold h2
        | some v2 =>
          have := f1 k v2 hold
          rw [hk] at this
          cases this
          exact Or.inl rfl
      · exact Or.inr ⟨h2, h1⟩
  · intro hr
    obtain ⟨⟨n, tcn, hn1, hn2, hn3⟩, hfa⟩ := g2 hr
    refine ⟨hfa, n, tcn, hn1, hn2, hn3, ?_⟩
    intro hclosed a ha
    by_contra hc
    exact f3 hclosed a hc n ha hn3
  · intro t ht
    refine ⟨g3 t ht, ?_⟩
    intro hclosed x hx hnone
    have hcached := f3 hclosed e (by rw [g3 t ht]; simp) x hx
    cases hfind : assocFind x tc2.d_typeCache with
    | none => exact absurd hfind hcached
    | some tx =>
      rcases f4 x tx hfind with h1 | ⟨tcx, tcx2, h1⟩
      · rw [hnone] at h1
        cases h1
      · exact ⟨tcx, tcx2, tx, h1, rfl⟩

/-- C9: types of the built-in type formers.  `getTypeInternal` returns `Type` for every
node of kind `TYPE`, `ABSTRACT_TYPE`, `BOOL_TYPE`, `FUNCTION_TYPE` or `QUOTE_TYPE`,
`AbstractType` for every `TUPLE` node, `Bool` for every `BOOLEAN` literal, the node itself
for a `NIL` node without children, and for a `PROOF_TYPE` node with one child `c` whose
cached type is `ctype` it returns `Type` when `ctype` has kind `BOOL_TYPE` and null
otherwise; the state is left as it was. -/
theorem getTypeInternal_type_formers (env : Env) (fuel : Nat) (tc : TypeChecker) :
    (∀ e : Expr, e.getKind = .TYPE ∨ e.getKind = .ABSTRACT_TYPE ∨ e.getKind = .BOOL_TYPE
        ∨ e.getKind = .FUNCTION_TYPE ∨ e.getKind = .QUOTE_TYPE →
        getTypeInternal env fuel tc e = some (some mkType, tc))
    ∧ (∀ e : Expr, e.getKind = .TUPLE →
        getTypeInternal env fuel tc e = some (some mkAbstractType, tc))
    ∧ (∀ e : Expr, e.getKind = .BOOLEAN →
        getTypeInternal env fuel tc e = some (some mkBoolType, tc))
    ∧ (∀ e : Expr, e.getKind = .NIL → e.getNumChildren = 0 →
        getTypeInternal env fuel tc e = some (some e, tc))
    ∧ (∀ c ctype : Expr, lookupType tc c = some ctype →
        getTypeInternal env fuel tc (.node .PROOF_TYPE [c])
          = some (if ctype.getKind = .BOOL_TYPE then some mkType else none, tc)) := by
  refine ⟨?_, ?_, ?_, ?_, ?_⟩
  · intro e h
    rcases h with h | h | h | h | h <;> simp [getTypeInternal, h]
  · intro e h
    simp [getTypeInternal, h]
  · intro e h
    simp [getTypeInternal, h]
  · intro e h h0
    simp [getTypeInternal, h, h0, checkArity]
  · intro c ctype h
    by_cases hk : ctype.getKind = .BOOL_TYPE <;> simp [getTypeInternal, h, hk]

/-- C10: type of a literal.  Let `n` be a literal node of kind `k` among `NUMERAL`,
`DECIMAL`, `RATIONAL`, `HEXADECIMAL`, `BINARY`, `STRING`, registered in the table of
literal type rules with the (possibly null) rule `stored`, and let `rule` be `stored`, or
`mkBuiltinType(k)` when `stored` is null.  Then `getTypeInternal(n)` is `rule` when `rule`
is ground and `evaluate(rule, {self -> n})` when it is not, and the call leaves `rule` in
the table as the rule of `k`; in particular, when no rule was set and the builtin type is
ground, the builtin type is the type returned. -/
theorem getTypeInternal_literal (env : Env) (fuel : Nat) (tc : TypeChecker) (n : Expr)
    (stored : Option Expr)
    (hk : n.getKind = .NUMERAL ∨ n.getKind = .DECIMAL ∨ n.getKind = .RATIONAL
      ∨ n.getKind = .HEXADECIMAL ∨ n.getKind = .BINARY ∨ n.getKind = .STRING)
    (hreg : assocFind n.getKind tc.d_literalTypeRules = some stored) :
    let rule := stored.getD (env.mkBuiltinType n.getKind)
    let rules1 :=
      if stored = none then (n.getKind, some rule) :: tc.d_literalTypeRules
      else tc.d_literalTypeRules
    let tc1 : TypeChecker := { tc with d_literalTypeRules := rules1 }
    getTypeInternal env fuel tc n
        = (if rule.isGround then some (some rule, tc1)
           else (evaluate env fuel rule [(env.mkSelf, n)]).map (fun r => (some r, tc1)))
      ∧ assocFind n.getKind tc1.d_literalTypeRules = some (some rule)
      ∧ (stored = none → (env.mkBuiltinType n.getKind).isGround = true →
          getTypeInternal env fuel tc n = some (some (env.mkBuiltinType n.getKind), tc1)) := by
  intro rule rules1 tc1
  have hget : getOrSetLiteralTypeRule env tc.d_literalTypeRules n.getKind = some (rule, rules1) := by
    cases stored with
    | none => simp [getOrSetLiteralTypeRule, hreg, rule, rules1]
    | some t => simp [getOrSetLiteralTypeRule, hreg, rule, rules1]
  have hrule : assocFind n.getKind tc1.d_literalTypeRules = some (some rule) := by
    cases stored with
    | none => simp [tc1, rules1, assocFind]
    | some t => simpa [tc1, rules1, rule] using hreg
  have hmain : getTypeInternal env fuel tc n
      = (if rule.isGround then some (some rule, tc1)
         else (evaluate env fuel rule [(env.mkSelf, n)]).map (fun r => (some r, tc1))) := by
    by_cases hg : rule.isGround = true
    · rcases hk with h | h | h | h | h | h <;>
        (rw [h] at hget; simp [getTypeInternal, h, hget, hg, tc1])
    · rcases hk with h | h | h | h | h | h <;>
        (rw [h] at hget
         simp only [getTypeInternal, h, hget, hg]
         cases evaluate env fuel rule [(env.mkSelf, n)] <;> simp [tc1])
  refine ⟨hmain, hrule, ?_⟩
  intro hs hg
  have hr : rule = env.mkBuiltinType n.getKind := by simp [rule, hs]
  rw [hmain, hr, if_pos hg]

/-- C11 (counterexample): the node `(alf.is_eq f a b)` has three children, all with
cached types, and three does not satisfy the arity table for `EVAL_IS_EQ`; the type of
the first child is a function type, so that `getLiteralOpType` checks the arity of the
two remaining children, and `getType` returns `Bool`.  The node `Proof(true, true)` has
two children with cached types, two does not satisfy the table for `PROOF_TYPE`, and
`getType` returns `Type`: `getTypeInternal` does not check the arity of a `PROOF_TYPE`. -/
theorem getType_arity_not_null :
    (∀ c ∈ (Expr.node .EVAL_IS_EQ [sF, sA, sB]).children, lookupType sampleState c ≠ none)
      ∧ ¬ arityTable .EVAL_IS_EQ (Expr.node .EVAL_IS_EQ [sF, sA, sB]).getNumChildren
      ∧ (getType sampleEnv 10 sampleState (.node .EVAL_IS_EQ [sF, sA, sB])).map Prod.fst
          = some (some mkBoolType)
      ∧ (∀ c ∈ (Expr.node .PROOF_TYPE [mkTrue, mkTrue]).children,
          lookupType sampleStateBool c ≠ none)
      ∧ ¬ arityTable .PROOF_TYPE (Expr.node .PROOF_TYPE [mkTrue, mkTrue]).getNumChildren
      ∧ (getType sampleEnv 10 sampleStateBool (.node .PROOF_TYPE [mkTrue, mkTrue])).map Prod.fst
          = some (some mkType) := by
  refine ⟨by decide, ?_, by decide, by decide, ?_, by decide⟩
  · unfold arityTable
    decide
  · unfold arityTable
    decide

/-- C11 (amended): arity errors in type checking.  Let `e` be a node without a type in
the cache, whose children all have cached types.  If `e` is a `NIL` with a number of
children that does not satisfy the arity table, `getType` returns null.  If `e` is an
evaluation operator, let `i` be 1 when the type of its first child is a function type
and 0 otherwise: if the number of children minus `i` does not satisfy the arity table
for the kind, `getType` returns null.  In both cases the state is left as it was. -/
theorem getType_arity_error (env : Env) (fuel : Nat) (tc : TypeChecker) (e : Expr)
    (hcached : ∀ c ∈ e.children, lookupType tc c ≠ none) (hnew : lookupType tc e = none)
    (hfuel : e.getNumChildren + 2 ≤ fuel) :
    (e.getKind = .NIL → ¬ arityTable .NIL e.getNumChildren →
        getType env fuel tc e = some (none, tc))
      ∧ (isLiteralOp e.getKind = true →
          ¬ arityTable e.getKind (e.getNumChildren - literalOpIndex tc e) →
          getType env fuel tc e = some (none, tc)) := by
  have hwalk := getType_of_cached_children env fuel tc e hcached hnew hfuel
  refine ⟨?_, ?_⟩
  · intro hk har
    rw [← checkArity_true_iff] at har
    have hint : getTypeInternal env fuel tc e = some (none, tc) := by
      simp [getTypeInternal, hk, har]
    rw [hwalk, hint]
  · intro hk har
    rw [← checkArity_true_iff] at har
    have har2 : checkArity e.getKind (e.getNumChildren - literalOpIndex tc e) = false := by
      simpa using har
    have hint : getTypeInternal env fuel tc e = some (none, tc) := by
      rw [getTypeInternal_literalOp env fuel tc e hk,
        getLiteralOpType_arity env tc e hcached har2]
    rw [hwalk, hint]

/-- C12: in a table of literal type rules that a type checker constructed with the
options `opts` can hold, `setLiteralTypeRule(k, t)` is fatal exactly when `k` is not a
registered literal kind or the rule stored for `k` is non-null and different from `t`;
when it is not fatal it stores `t` as the rule of `k` and leaves the rule of every
other kind.  The registered kinds are `BOOLEAN`, `NUMERAL`, `RATIONAL`, `BINARY`,
`STRING`, plus `DECIMAL` exactly when `normalizeDecimal` is false and `HEXADECIMAL`
exactly when `normalizeHexadecimal` is false: they are the kinds with an entry in the
table of the constructor and in every table reached from it. -/
theorem setLiteralTypeRule_fatal_iff (env : Env) (opts : Options)
    (rules : List (Kind × Option Expr)) (k : Kind) (t : Option Expr)
    (hr : RulesReachable env opts rules) :
    (setLiteralTypeRule rules k t = none ↔
        ¬ registeredKind opts k ∨ ∃ cur, assocFind k rules = some (some cur) ∧ t ≠ some cur)
      ∧ (∀ rules2, setLiteralTypeRule rules k t = some rules2 →
          assocFind k rules2 = some t
            ∧ (∀ k2, k2 ≠ k → assocFind k2 rules2 = assocFind k2 rules)
            ∧ RulesReachable env opts rules2)
      ∧ (∀ k2, assocFind k2 rules ≠ none ↔ registeredKind opts k2)
      ∧ (∀ k2, assocFind k2 (literalTypeRulesInit opts) = some none ↔ registeredKind opts k2) := by
  have hreg := rulesReachable_registered env opts rules hr
  refine ⟨?_, ?_, hreg, ?_⟩
  · rw [← hreg k]
    unfold setLiteralTypeRule
    cases hf : assocFind k rules with
    | none => simp
    | some cur =>
      cases cur with
      | none => simp
      | some c =>
        by_cases hct : some c = t
        · subst hct
          simp
        · have : t ≠ some c := fun h => hct h.symm
          simp [hct, this]
  · intro rules2 hset
    have hreach := RulesReachable.set rules rules2 k t hr hset
    unfold setLiteralTypeRule at hset
    cases hf : assocFind k rules with
    | none => simp [hf] at hset
    | some cur =>
      simp only [hf] at hset
      split at hset
      · cases hset
      · cases hset
        exact ⟨assocFind_cons_self _ _ _,
          fun k2 hk2 => assocFind_cons_ne k2 k t rules (fun h => hk2 h.symm), hreach⟩
  · intro k2
    rw [← literalTypeRulesInit_registered opts k2]
    obtain ⟨d, h⟩ := opts
    cases d <;> cases h <;> cases k2 <;> simp [literalTypeRulesInit, assocFind]

/-- C13: first-match rule selection.  For an interpreted program constant `hd` applied to
ground arguments, where the rules before the rule `c` have the arity of the call and
each fails to match the arguments, and `c` has the arity of the call and its argument
patterns all match the arguments in one shared context (the loop `matchArgs` from the
empty context), `evaluateProgram` returns the canonical form of the body of `c`, and the
context it leaves is the context of the match of `c`, whatever context was passed in. -/
theorem evaluateProgram_first_match (env : Env) (hd prog c pat body : Expr)
    (args pre post : List Expr) (outCtx : Ctx)
    (hk : hd.getKind = .PROGRAM_CONST) (hcomp : env.isCompiled hd = false)
    (hprog : env.getProgram hd = some prog) (hg : isGround (hd :: args) = true)
    (hrules : prog.children = pre ++ c :: post)
    (hpre : ∀ r ∈ pre, ∃ p, r.children[0]? = some p
      ∧ p.children.length = (hd :: args).length
      ∧ (matchArgs (p.children.drop 1) args []).1 = false)
    (hpat : c.children[0]? = some pat) (hbody : c.children[1]? = some body)
    (hlen : pat.children.length = (hd :: args).length)
    (hm : (matchArgs (pat.children.drop 1) args []).1 = true) :
    evaluateProgram env (hd :: args) outCtx
      = some (ensureHashed body, (matchArgs (pat.children.drop 1) args []).2) := by
  have h := evaluateRules_first_match (hd :: args) c pat body post hpat hlen
    (by simpa using hm) hbody pre outCtx (by simpa using hpre)
  simp only [List.drop_succ_cons, List.drop_zero] at h
  simp [evaluateProgram, evaluateProgramInternal, hg, hk, hcomp, hprog, hrules, h]

/-- C14 (counterexample): the program `down` has the rules `(down 0) -> 0` and
`(down (s 0)) -> (down 0)`.  On the ground, non-evaluatable arguments `[down, s(0)]`,
`evaluateProgram` returns the body `(down 0)` of the second rule, which is not the
unreduced application, with an empty context.  `evaluate` of the call `(down (s 0))` in
the empty context returns `(down 0)`, the body as it is, while `evaluate` of the body
returns `0`: whatever the fuel, the two results differ. -/
theorem evaluate_program_unfold_ground_body :
    evaluateProgram sampleProgramEnv [sDown, sSucc sZero] []
        = some (.node .APPLY [sDown, sZero], [])
      ∧ Expr.node .APPLY [sDown, sZero] ≠ mkExprInternal .APPLY [sDown, sSucc sZero]
      ∧ (∀ a ∈ [sDown, sSucc sZero],
          a.isGround = true ∧ sampleProgramEnv.isEvaluatable a = false)
      ∧ evaluate sampleProgramEnv 10 (.node .APPLY [sDown, sSucc sZero]) []
          = some (.node .APPLY [sDown, sZero])
      ∧ evaluate sampleProgramEnv 10 (.node .APPLY [sDown, sZero]) [] = some sZero
      ∧ ∀ fuel1 fuel2 r1 r2,
          evaluate sampleProgramEnv fuel1 (.node .APPLY [sDown, sSucc sZero]) [] = some r1 →
          evaluate sampleProgramEnv fuel2 (.node .APPLY [sDown, sZero]) [] = some r2 →
          r1 ≠ r2 := by
  have h1 : evaluate sampleProgramEnv 10 (.node .APPLY [sDown, sSucc sZero]) []
      = some (.node .APPLY [sDown, sZero]) := by decide
  have h2 : evaluate sampleProgramEnv 10 (.node .APPLY [sDown, sZero]) [] = some sZero := by
    decide
  refine ⟨by decide, by decide, by decide, h1, h2, ?_⟩
  intro fuel1 fuel2 r1 r2 e1 e2
  have a1 := evaluate_unique _ _ _ _ _ _ _ h1 e1
  have a2 := evaluate_unique _ _ _ _ _ _ _ h2 e2
  rw [← a1, ← a2]
  decide

/-- C14 (amended): one-step unfolding of a program call.  Let `hd` be a program constant
and `hd :: rest` ground arguments, none of them evaluatable, for which
`evaluateProgram`, started with an empty context, returns a body other than the unreduced
application, with the context `newCtx`.  If the body is not ground and `newCtx` is not
empty, then whenever `evaluate(body, newCtx)` returns `r`, `evaluate(APPLY(args))` in the
empty context returns `r` as well.  If the body is ground or `newCtx` is empty,
`evaluate(APPLY(args))` in the empty context returns the body as it is, without
evaluating it; this is `evaluate(body, newCtx)` when the body is not evaluatable. -/
theorem evaluate_program_unfold (env : Env) (hd : Expr) (rest : List Expr) (body : Expr)
    (newCtx : Ctx) (hk : hd.getKind = .PROGRAM_CONST)
    (hev : env.isEvaluatable (.node .APPLY (hd :: rest)) = true)
    (hcomp : env.isCompiled (.node .APPLY (hd :: rest)) = false)
    (hargs : ∀ a ∈ hd :: rest, a.isGround = true ∧ env.isEvaluatable a = false)
    (hprog : evaluateProgram env (hd :: rest) [] = some (body, newCtx))
    (hred : body ≠ mkExprInternal .APPLY (hd :: rest)) :
    (body.isGround = false ∧ newCtx ≠ [] →
        ∀ fuel r, evaluate env fuel body newCtx = some r →
          evaluate env (fuel + rest.length + 5) (.node .APPLY (hd :: rest)) [] = some r)
      ∧ (body.isGround = true ∨ newCtx = [] →
        ∀ fuel, rest.length + 4 ≤ fuel →
          evaluate env fuel (.node .APPLY (hd :: rest)) [] = some (ensureHashed body))
      ∧ (body.isGround = true ∨ newCtx = [] → env.isEvaluatable body = false →
        ∀ fuel, rest.length + 4 ≤ fuel →
          evaluate env fuel (.node .APPLY (hd :: rest)) [] = evaluate env fuel body newCtx) := by
  have hint : evaluateProgramInternal env (hd :: rest) [] = some (some body, newCtx) := by
    unfold evaluateProgram at hprog
    cases hi : evaluateProgramInternal env (hd :: rest) [] with
    | none => simp [hi] at hprog
    | some p =>
      obtain ⟨ret, c⟩ := p
      cases ret with
      | none =>
        simp only [hi, Option.some.injEq, Prod.mk.injEq] at hprog
        exact absurd hprog.1.symm hred
      | some ret =>
        simp only [hi, ensureHashed, Option.some.injEq, Prod.mk.injEq] at hprog
        rw [hprog.1, hprog.2]
  obtain ⟨hground, hpush⟩ := evaluate_program_call env hd rest body newCtx hev hcomp hk
    (fun a ha => (hargs a ha).2) hint
  refine ⟨?_, hground, ?_⟩
  · intro hb fuel r hr
    exact hpush (by simp [hb.1, hb.2]) fuel r hr
  · intro hb hbe fuel hfuel
    have hb2 : body.isGround = true ∨ newCtx = [] := hb
    rw [hground hb fuel hfuel, evaluate_shortcut env fuel body newCtx hbe hb2 (by omega)]

/-- C15: the no-reduction convention of the public entry points.

`evaluateProgram(args, ctx)` returns the node `APPLY(args)` when some argument is not
ground, when no rule of an interpreted program applies (each rule has another arity or
fails to match) and when the head is neither a program nor an oracle.  It reduces in the
other cases: for an interpreted program whose rule `c` is the first that matches, the
internal method returns the body of `c` and the public method `ensureHashed` of that body,
with the context of the match; for an oracle and for a compiled program the public method
returns `ensureHashed` of the node that the collaborator returns, and `APPLY(args)` when
that is null.  In general the public method returns `APPLY(args)` when the internal
method returns null and `ensureHashed` of its result otherwise.  The public method
returns a node for every non-empty `args`, provided that an interpreted program constant
has a program (the source asserts it) whose rules each have a pattern and a body.

`evaluateLiteralOp(k, args)` returns the node `(k args)` when the internal method returns
null and `ensureHashed` of its result otherwise.  For an operator `k` other than
`alf.is_eq`, the conditional, `alf.requires` and `alf.hash`, it returns `(k args)` when
some argument is not ground, and when the arguments are ground, not all literals, and
the first has no `AppInfo`; when the arguments are ground literals it returns the literal
that `Literal::evaluate` computes, and `(k args)` when that is of kind `NONE`.
`alf.is_eq` on `[a, b]` returns `true` when `a` and `b` are the same node, `false` when
they differ and are ground, and the unreduced application otherwise; `alf.requires` on
`[a, b, c]` returns `c` when `a` and `b` are the same node and the unreduced application
otherwise.  The public method returns a node whenever `args` covers the positions that
the operator reads, every `APPLY` among the arguments has a head and an argument, and
the arguments of a literal kind are `Literal` objects. -/
theorem evaluate_entry_points_total (env : Env) (args : List Expr) (ctx : Ctx) (k : Kind) :
    (isGround args = false →
        evaluateProgram env args ctx = some (mkExprInternal .APPLY args, ctx))
      ∧ (∀ hd rest prog, args = hd :: rest → isGround args = true →
          hd.getKind = .PROGRAM_CONST → env.isCompiled hd = false →
          env.getProgram hd = some prog →
          (∀ r ∈ prog.children, ∃ p, r.children[0]? = some p
            ∧ (p.children.length = args.length →
                (matchArgs (p.children.drop 1) rest []).1 = false)) →
          ∃ ctx1, evaluateProgram env args ctx = some (mkExprInternal .APPLY args, ctx1))
      ∧ (∀ hd rest, args = hd :: rest → isGround args = true →
          hd.getKind ≠ .PROGRAM_CONST → hd.getKind ≠ .ORACLE →
          evaluateProgram env args ctx = some (mkExprInternal .APPLY args, ctx))
      ∧ (∀ hd rest prog pre c post pat body, args = hd :: rest → isGround args = true →
          hd.getKind = .PROGRAM_CONST → env.isCompiled hd = false →
          env.getProgram hd = some prog → prog.children = pre ++ c :: post →
          (∀ r ∈ pre, ∃ p, r.children[0]? = some p ∧ p.children.length = args.length
            ∧ (matchArgs (p.children.drop 1) rest []).1 = false) →
          c.children[0]? = some pat → c.children[1]? = some body →
          pat.children.length = args.length →
          (matchArgs (pat.children.drop 1) rest []).1 = true →
          evaluateProgramInternal env args ctx
              = some (some body, (matchArgs (pat.children.drop 1) rest []).2)
            ∧ evaluateProgram env args ctx
              = some (ensureHashed body, (matchArgs (pat.children.drop 1) rest []).2))
      ∧ (∀ hd rest, args = hd :: rest → isGround args = true → hd.getKind = .ORACLE →
          evaluateProgram env args ctx
            = some (match env.runOracle args with
                    | some r => ensureHashed r
                    | none => mkExprInternal .APPLY args, ctx))
      ∧ (∀ hd rest, args = hd :: rest → isGround args = true →
          hd.getKind = .PROGRAM_CONST → env.isCompiled hd = true →
          evaluateProgram env args ctx
            = some (match (env.run_evaluateProgram args ctx).1 with
                    | some r => ensureHashed r
                    | none => mkExprInternal .APPLY args,
                (env.run_evaluateProgram args ctx).2))
      ∧ (∀ ctx1, evaluateProgramInternal env args ctx = some (none, ctx1) →
          evaluateProgram env args ctx = some (mkExprInternal .APPLY args, ctx1))
      ∧ (∀ r ctx1, evaluateProgramInternal env args ctx = some (some r, ctx1) →
          evaluateProgram env args ctx = some (ensureHashed r, ctx1))
      ∧ (args ≠ [] →
          (∀ hd, args[0]? = some hd → hd.getKind = .PROGRAM_CONST → env.isCompiled hd = false →
            ∃ prog, env.getProgram hd = some prog
              ∧ ∀ r ∈ prog.children, ∃ p b, r.children[0]? = some p ∧ r.children[1]? = some b) →
          ∃ r ctx1, evaluateProgram env args ctx = some (r, ctx1))
      ∧ (evaluateLiteralOpInternal env k args = some none →
          evaluateLiteralOp env k args = some (mkExprInternal k args))
      ∧ (∀ r, evaluateLiteralOpInternal env k args = some (some r) →
          evaluateLiteralOp env k args = some (ensureHashed r))
      ∧ (k ≠ .EVAL_IS_EQ → k ≠ .EVAL_IF_THEN_ELSE → k ≠ .EVAL_REQUIRES → k ≠ .EVAL_HASH →
          args ≠ [] →
          (isGround args = false → evaluateLiteralOp env k args = some (mkExprInternal k args))
          ∧ (∀ lits, isGround args = true → args.all (fun e => isLiteral e.getKind) = true →
              argsAsLiterals args = some lits →
              evaluateLiteralOp env k args
                = some (match env.literalEvaluate k lits with
                        | some (rk, rl) => ensureHashed (.leaf rk rl)
                        | none => mkExprInternal k args))
          ∧ (∀ op rest, args = op :: rest → isGround args = true →
              args.all (fun e => isLiteral e.getKind) = false → env.getAppInfo op = none →
              evaluateLiteralOp env k args = some (mkExprInternal k args)))
      ∧ (∀ a b, args = [a, b] →
          evaluateLiteralOp env .EVAL_IS_EQ args
            = some (if a = b then mkTrue
                    else if isGround args = true then mkFalse
                    else mkExprInternal .EVAL_IS_EQ args))
      ∧ (∀ a b c, args = [a, b, c] →
          evaluateLiteralOp env .EVAL_REQUIRES args
            = some (if a = b then ensureHashed c else mkExprInternal .EVAL_REQUIRES args))
      ∧ (argsRead k args.length = true →
          (∀ a ∈ args, appliesHaveArgs a = true ∧ literalObject a = true) →
          ∃ r, evaluateLiteralOp env k args = some r) := by
  refine ⟨?_, ?_, ?_, ?_, ?_, ?_, ?_, ?_, ?_, ?_, ?_, ?_, ?_, ?_, ?_⟩
  · intro hg
    simp [evaluateProgram, evaluateProgramInternal, hg]
  · intro hd rest prog hargs hg hk hcomp hprog hrules
    subst hargs
    obtain ⟨ctx1, h1⟩ := evaluateRules_no_match (hd :: rest) prog.children ctx
      (by simpa using hrules)
    exact ⟨ctx1, by
      simp [evaluateProgram, evaluateProgramInternal, hg, hk, hcomp, hprog, h1]⟩
  · intro hd rest hargs hg hk1 hk2
    subst hargs
    simp [evaluateProgram, evaluateProgramInternal, hg, hk1, hk2]
  · intro hd rest prog pre c post pat body hargs hg hk hcomp hprog hrules hpre hpat hbody
      hlen hm
    subst hargs
    have h := evaluateRules_first_match (hd :: rest) c pat body post hpat hlen
      (by simpa using hm) hbody pre ctx (by simpa using hpre)
    simp only [List.drop_succ_cons, List.drop_zero] at h
    have hint : evaluateProgramInternal env (hd :: rest) ctx
        = some (some body, (matchArgs (pat.children.drop 1) rest []).2) := by
      simp [evaluateProgramInternal, hg, hk, hcomp, hprog, hrules, h]
    exact ⟨hint, by simp [evaluateProgram, hint]⟩
  · intro hd rest hargs hg hk
    subst hargs
    cases ho : env.runOracle (hd :: rest) <;>
      simp [evaluateProgram, evaluateProgramInternal, hg, hk, ho]
  · intro hd rest hargs hg hk hcomp
    subst hargs
    cases hr : env.run_evaluateProgram (hd :: rest) ctx with
    | mk r c =>
      cases r <;> simp [evaluateProgram, evaluateProgramInternal, hg, hk, hcomp, hr]
  · intro ctx1 h
    simp [evaluateProgram, h]
  · intro r ctx1 h
    simp [evaluateProgram, h]
  · intro hne hprog
    have hint : ∃ res, evaluateProgramInternal env args ctx = some res := by
      unfold evaluateProgramInternal
      by_cases hg : (!isGround args) = true
      · rw [if_pos hg]
        exact ⟨_, rfl⟩
      · rw [if_neg hg]
        cases args with
        | nil => exact absurd rfl hne
        | cons hd rest =>
          simp only [List.getElem?_cons_zero]
          by_cases hk : hd.getKind = .PROGRAM_CONST
          · rw [if_pos hk]
            by_cases hcomp : env.isCompiled hd = true
            · rw [if_pos hcomp]
              exact ⟨_, rfl⟩
            · rw [if_neg hcomp]
              obtain ⟨prog, hp, hrules⟩ := hprog hd (by simp) hk (by simpa using hcomp)
              rw [hp]
              exact evaluateRules_returns (hd :: rest) prog.children ctx hrules
          · rw [if_neg hk]
            by_cases hko : hd.getKind = .ORACLE
            · rw [if_pos hko]
              exact ⟨_, rfl⟩
            · rw [if_neg hko]
              exact ⟨_, rfl⟩
    obtain ⟨⟨r, c⟩, hres⟩ := hint
    unfold evaluateProgram
    rw [hres]
    cases r <;> exact ⟨_, _, rfl⟩
  · intro h
    simp [evaluateLiteralOp, h]
  · intro r h
    simp [evaluateLiteralOp, h]
  · intro hk1 hk2 hk3 hk4 hne
    have hgen : evaluateLiteralOpInternal env k args
        = (if (!isGround args) = true then some none
          else if args.all (fun e => isLiteral e.getKind) = true then
            match argsAsLiterals args with
            | none => none
            | some lits =>
              match env.literalEvaluate k lits with
              | none => some none
              | some (rk, rl) => some (some (.leaf rk rl))
          else evaluateListOp env k args) := by
      unfold evaluateLiteralOpInternal
      rw [if_neg hne]
      cases k <;>
        (first | rfl | exact absurd rfl hk1 | exact absurd rfl hk2 | exact absurd rfl hk3
               | exact absurd rfl hk4)
    refine ⟨?_, ?_, ?_⟩
    · intro hg
      simp [evaluateLiteralOp, hgen, hg]
    · intro lits hg hall hl
      cases hle : env.literalEvaluate k lits with
      | none => simp [evaluateLiteralOp, hgen, hg, hall, hl, hle]
      | some r => simp [evaluateLiteralOp, hgen, hg, hall, hl, hle]
    · intro op rest hargs hg hall hinfo
      subst hargs
      simp [evaluateLiteralOp, hgen, hg, hall, evaluateListOp, hinfo]
  · intro a b hargs
    subst hargs
    by_cases hab : a = b
    · simp [evaluateLiteralOp, evaluateLiteralOpInternal, ensureHashed, hab]
    · by_cases hg : isGround [a, b] = true
      · simp [evaluateLiteralOp, evaluateLiteralOpInternal, ensureHashed, hab, hg]
      · simp [evaluateLiteralOp, evaluateLiteralOpInternal, ensureHashed, hab, hg]
  · intro a b c hargs
    subst hargs
    by_cases hab : a = b
    · simp [evaluateLiteralOp, evaluateLiteralOpInternal, ensureHashed, hab]
    · simp [evaluateLiteralOp, evaluateLiteralOpInternal, ensureHashed, hab]
  · intro hn hargs
    obtain ⟨r, hr⟩ := evaluateLiteralOpInternal_returns env k args hn hargs
    unfold evaluateLiteralOp
    rw [hr]
    cases r <;> exact ⟨_, rfl⟩

/-- C16 (counterexample): with `A = (alf.is_eq a a)`, the evaluation of
`EVAL_IF_THEN_ELSE(true, A, b)` in the empty context selects `A` and evaluates it: the
result is `true`, which is not `ensureHashed(A)`, whatever the fuel. -/
theorem evaluate_ite_reduces_branch :
    evaluate sampleEnv 10 (.node .EVAL_IF_THEN_ELSE [mkTrue, sIsEqTerm, sB]) [] = some mkTrue
      ∧ mkTrue ≠ ensureHashed sIsEqTerm
      ∧ ∀ fuel, evaluate sampleEnv fuel (.node .EVAL_IF_THEN_ELSE [mkTrue, sIsEqTerm, sB]) []
          ≠ some (ensureHashed sIsEqTerm) := by
  have h10 : evaluate sampleEnv 10 (.node .EVAL_IF_THEN_ELSE [mkTrue, sIsEqTerm, sB]) []
      = some mkTrue := by decide
  refine ⟨h10, by decide, ?_⟩
  intro fuel h
  have := evaluate_unique _ _ _ _ _ _ _ h10 h
  exact absurd this (by decide)

/-- C16 (amended): short circuit of `EVAL_IF_THEN_ELSE`.  Let the condition be the boolean
literal `b`, not evaluatable, and let the selected branch be `A` when `b` is true and `B`
when `b` is false.  For all terms `A` and `B`: if the selected branch is not evaluatable,
`evaluate(EVAL_IF_THEN_ELSE(b, A, B))` in the empty context is the selected branch,
`ensureHashed` of it, within six passes; and whenever `evaluate` of the selected branch in
the empty context returns `r`, `evaluate(EVAL_IF_THEN_ELSE(b, A, B))` returns `r` too,
within six more passes.  Nothing is assumed on the other branch, and neither the result
nor the number of passes depends on it: the other branch is not evaluated. -/
theorem evaluate_ite_short_circuit (env : Env) (b : Bool) (A B : Expr)
    (hev : env.isEvaluatable (.node .EVAL_IF_THEN_ELSE [.leaf .BOOLEAN (.bool b), A, B]) = true)
    (hcomp : env.isCompiled (.node .EVAL_IF_THEN_ELSE [.leaf .BOOLEAN (.bool b), A, B]) = false)
    (hcond : env.isEvaluatable (.leaf .BOOLEAN (.bool b)) = false) :
    (env.isEvaluatable (if b then A else B) = false →
        ∀ fuel, 6 ≤ fuel →
          evaluate env fuel (.node .EVAL_IF_THEN_ELSE [.leaf .BOOLEAN (.bool b), A, B]) []
            = some (ensureHashed (if b then A else B)))
      ∧ (∀ fuel r, evaluate env fuel (if b then A else B) [] = some r →
          evaluate env (fuel + 6) (.node .EVAL_IF_THEN_ELSE [.leaf .BOOLEAN (.bool b), A, B]) []
            = some r) := by
  obtain ⟨sel, hsel⟩ : ∃ sel : Expr, sel = if b then A else B := ⟨_, rfl⟩
  rw [← hsel]
  simp only [ensureHashed]
  have hKsize : (Expr.node .EVAL_IF_THEN_ELSE [.leaf .BOOLEAN (.bool b), A, B]).size
      = 1 + (1 + (A.size + (B.size + 0))) := by
    simp [Expr.size, Expr.sizeList]
  have hselK : sel ≠ .node .EVAL_IF_THEN_ELSE [.leaf .BOOLEAN (.bool b), A, B] := by
    intro h
    have h2 := congrArg Expr.size h
    rw [hKsize, hsel] at h2
    cases b <;> simp at h2 <;> omega
  have hcK : Expr.leaf .BOOLEAN (.bool b)
      ≠ .node .EVAL_IF_THEN_ELSE [.leaf .BOOLEAN (.bool b), A, B] := by
    intro h
    cases h
  have hidx : [Expr.leaf .BOOLEAN (.bool b), A, B][if b = true then 1 else 2]? = some sel := by
    rw [hsel]
    cases b <;> rfl
  -- the first visit of the operator, and the visit of its condition
  have h1 : evalVisit env ⟨.node .EVAL_IF_THEN_ELSE [.leaf .BOOLEAN (.bool b), A, B], [], [],
      [.node .EVAL_IF_THEN_ELSE [.leaf .BOOLEAN (.bool b), A, B]], none⟩ [] []
      (.node .EVAL_IF_THEN_ELSE [.leaf .BOOLEAN (.bool b), A, B]) []
      = some ([⟨.node .EVAL_IF_THEN_ELSE [.leaf .BOOLEAN (.bool b), A, B], [],
          [(.node .EVAL_IF_THEN_ELSE [.leaf .BOOLEAN (.bool b), A, B], none)],
          [.leaf .BOOLEAN (.bool b), .node .EVAL_IF_THEN_ELSE [.leaf .BOOLEAN (.bool b), A, B]],
          none⟩], []) := by
    unfold evalVisit
    simp [hev, hcomp, assocFind]
  have h2 : evalVisit env ⟨.node .EVAL_IF_THEN_ELSE [.leaf .BOOLEAN (.bool b), A, B], [],
      [(.node .EVAL_IF_THEN_ELSE [.leaf .BOOLEAN (.bool b), A, B], none)],
      [.leaf .BOOLEAN (.bool b), .node .EVAL_IF_THEN_ELSE [.leaf .BOOLEAN (.bool b), A, B]],
      none⟩ [] [] (.leaf .BOOLEAN (.bool b))
      [.node .EVAL_IF_THEN_ELSE [.leaf .BOOLEAN (.bool b), A, B]]
      = some ([⟨.node .EVAL_IF_THEN_ELSE [.leaf .BOOLEAN (.bool b), A, B], [],
          [(.leaf .BOOLEAN (.bool b), some (.leaf .BOOLEAN (.bool b))),
           (.node .EVAL_IF_THEN_ELSE [.leaf .BOOLEAN (.bool b), A, B], none)],
          [.node .EVAL_IF_THEN_ELSE [.leaf .BOOLEAN (.bool b), A, B]], none⟩], []) := by
    unfold evalVisit
    simp [hcond]
  -- the second visit of the operator, once the selected branch has the value `r`
  have hlast : ∀ (V : List (Expr × Option Expr)) (trie : ExprTrie) (r : Expr),
      assocFind (.node .EVAL_IF_THEN_ELSE [.leaf .BOOLEAN (.bool b), A, B]) V = some none →
      assocFind (.leaf .BOOLEAN (.bool b)) V = some (some (.leaf .BOOLEAN (.bool b))) →
      assocFind sel V = some (some r) →
      ∀ m ev, evaluateLoop env (m + 2)
          ⟨[⟨.node .EVAL_IF_THEN_ELSE [.leaf .BOOLEAN (.bool b), A, B], [], V,
            [.node .EVAL_IF_THEN_ELSE [.leaf .BOOLEAN (.bool b), A, B]], none⟩], trie, ev⟩
        = some r := by
    intro V trie r hK hc hs m ev
    have hcc : (evalChildren V [Expr.leaf .BOOLEAN (.bool b), A, B])[if b = true then 1 else 2]?
        = some (some r) := by
      rw [hsel] at hs
      cases b
      · simp only [Bool.false_eq_true, if_false] at hs
        simp [evalChildren, hs]
      · simp only [if_true] at hs
        simp [evalChildren, hs]
    have h3 : evalVisit env ⟨.node .EVAL_IF_THEN_ELSE [.leaf .BOOLEAN (.bool b), A, B], [], V,
        [.node .EVAL_IF_THEN_ELSE [.leaf .BOOLEAN (.bool b), A, B]], none⟩ [] trie
        (.node .EVAL_IF_THEN_ELSE [.leaf .BOOLEAN (.bool b), A, B]) []
        = some ([⟨.node .EVAL_IF_THEN_ELSE [.leaf .BOOLEAN (.bool b), A, B], [],
            (.node .EVAL_IF_THEN_ELSE [.leaf .BOOLEAN (.bool b), A, B], some r) :: V, [],
            none⟩], trie) := by
      unfold evalVisit
      simp only [hev, Expr.getKind_node, hK, Expr.children_node]
      have hrev : evalRevisit env trie
          (.node .EVAL_IF_THEN_ELSE [.leaf .BOOLEAN (.bool b), A, B])
          (evalChildren V [.leaf .BOOLEAN (.bool b), A, B])
          = some (.evaluated (some r) trie) := by
        unfold evalRevisit
        have h0 : (evalChildren V [Expr.leaf .BOOLEAN (.bool b), A, B])[0]?
            = some (some (.leaf .BOOLEAN (.bool b))) := by
          simp [evalChildren, hc]
        simp only [Expr.getKind_node, h0, Expr.getKind_leaf, asBool, hcc]
        simp
      simp [hrev]
    have h4 : evalFinish ⟨.node .EVAL_IF_THEN_ELSE [.leaf .BOOLEAN (.bool b), A, B], [],
        (.node .EVAL_IF_THEN_ELSE [.leaf .BOOLEAN (.bool b), A, B], some r) :: V, [], none⟩
        [] trie = some ⟨[], trie, some r⟩ := by
      simp [evalFinish, assocFind]
    rw [evaluateLoop_step env (m + 1) _ [] trie ev _ [] _ _ rfl h3,
      evaluateLoop_finish env m _ [] trie ev _ rfl h4, evaluateLoop_nil]
    rfl
  -- the second visit of the operator, when the selected branch has no value yet
  have hsched : ∀ (V : List (Expr × Option Expr)) (trie : ExprTrie),
      assocFind (.node .EVAL_IF_THEN_ELSE [.leaf .BOOLEAN (.bool b), A, B]) V = some none →
      assocFind (.leaf .BOOLEAN (.bool b)) V = some (some (.leaf .BOOLEAN (.bool b))) →
      assocFind sel V = none →
      evalVisit env ⟨.node .EVAL_IF_THEN_ELSE [.leaf .BOOLEAN (.bool b), A, B], [], V,
          [.node .EVAL_IF_THEN_ELSE [.leaf .BOOLEAN (.bool b), A, B]], none⟩ [] trie
          (.node .EVAL_IF_THEN_ELSE [.leaf .BOOLEAN (.bool b), A, B]) []
        = some ([⟨.node .EVAL_IF_THEN_ELSE [.leaf .BOOLEAN (.bool b), A, B], [], V,
            [sel, .node .EVAL_IF_THEN_ELSE [.leaf .BOOLEAN (.bool b), A, B]], none⟩],
            trie) := by
    intro V trie hK hc hs
    have hcc : (evalChildren V [Expr.leaf .BOOLEAN (.bool b), A, B])[if b = true then 1 else 2]?
        = some none := by
      rw [hsel] at hs
      cases b
      · simp only [Bool.false_eq_true, if_false] at hs
        simp [evalChildren, hs]
      · simp only [if_true] at hs
        simp [evalChildren, hs]
    have hrev : evalRevisit env trie
        (.node .EVAL_IF_THEN_ELSE [.leaf .BOOLEAN (.bool b), A, B])
        (evalChildren V [.leaf .BOOLEAN (.bool b), A, B])
        = some (.cannotEvaluate [sel]) := by
      unfold evalRevisit
      have h0 : (evalChildren V [Expr.leaf .BOOLEAN (.bool b), A, B])[0]?
          = some (some (.leaf .BOOLEAN (.bool b))) := by
        simp [evalChildren, hc]
      simp only [Expr.getKind_node, h0, Expr.getKind_leaf, asBool, hcc, Expr.children_node,
        hidx]
      simp
    unfold evalVisit
    simp only [hev, Expr.getKind_node, hK, Expr.children_node, hrev]
    simp
  refine ⟨?_, ?_⟩
  · intro hsv fuel hfuel
    obtain ⟨m, hm⟩ : ∃ m, fuel = ((((m + 2) + 1) + 1) + 1) + 1 := ⟨fuel - 6, by omega⟩
    unfold evaluate
    rw [hm, EvFrame.new, evaluateLoop_step env _ _ [] [] none _ [] _ _ rfl h1,
      evaluateLoop_step env _ _ [] [] none _ _ _ _ rfl h2]
    by_cases hsc : sel = .leaf .BOOLEAN (.bool b)
    · have := hlast [(.leaf .BOOLEAN (.bool b), some (.leaf .BOOLEAN (.bool b))),
        (.node .EVAL_IF_THEN_ELSE [.leaf .BOOLEAN (.bool b), A, B], none)] [] sel
        (by simp [assocFind]) (by simp [assocFind]) (by rw [hsc]; simp [assocFind])
        (m + 2) none
      exact this
    · have hsc2 : Expr.leaf .BOOLEAN (.bool b) ≠ sel := fun h => hsc h.symm
      have h3 := hsched [(.leaf .BOOLEAN (.bool b), some (.leaf .BOOLEAN (.bool b))),
        (.node .EVAL_IF_THEN_ELSE [.leaf .BOOLEAN (.bool b), A, B], none)] []
        (by simp [assocFind]) (by simp [assocFind])
        (by simp [assocFind, hsc2, hselK.symm])
      have h4 : evalVisit env ⟨.node .EVAL_IF_THEN_ELSE [.leaf .BOOLEAN (.bool b), A, B], [],
          [(.leaf .BOOLEAN (.bool b), some (.leaf .BOOLEAN (.bool b))),
           (.node .EVAL_IF_THEN_ELSE [.leaf .BOOLEAN (.bool b), A, B], none)],
          [sel, .node .EVAL_IF_THEN_ELSE [.leaf .BOOLEAN (.bool b), A, B]], none⟩ [] [] sel
          [.node .EVAL_IF_THEN_ELSE [.leaf .BOOLEAN (.bool b), A, B]]
          = some ([⟨.node .EVAL_IF_THEN_ELSE [.leaf .BOOLEAN (.bool b), A, B], [],
            [(sel, some sel), (.leaf .BOOLEAN (.bool b), some (.leaf .BOOLEAN (.bool b))),
             (.node .EVAL_IF_THEN_ELSE [.leaf .BOOLEAN (.bool b), A, B], none)],
            [.node .EVAL_IF_THEN_ELSE [.leaf .BOOLEAN (.bool b), A, B]], none⟩], []) := by
        unfold evalVisit
        simp [hsv]
      rw [evaluateLoop_step env _ _ [] [] none _ [] _ _ rfl h3,
        evaluateLoop_step env _ _ [] [] none _ _ _ _ rfl h4]
      exact hlast _ [] sel (by simp [assocFind, hsc2, hselK, hcK])
        (by simp [assocFind, hsc]) (by simp [assocFind]) m none
  · intro fuel r hrun
    have hstable : (!env.isEvaluatable (Expr.leaf .BOOLEAN (.bool b))
        && ((Expr.leaf .BOOLEAN (.bool b)).isGround || decide (([] : Ctx) = []))) = true := by
      simp [hcond]
    by_cases hsc : sel = .leaf .BOOLEAN (.bool b)
    · -- the selected branch is the condition, which is recorded already
      have hr : r = sel := by
        have h0 := evaluate_shortcut env 2 sel [] (by rw [hsc]; exact hcond) (Or.inr rfl)
          (Nat.le_refl _)
        exact (evaluate_unique env _ _ sel [] _ _ h0 hrun).symm
      subst hr
      have := hlast [(.leaf .BOOLEAN (.bool b), some (.leaf .BOOLEAN (.bool b))),
        (.node .EVAL_IF_THEN_ELSE [.leaf .BOOLEAN (.bool b), A, B], none)] [] r
        (by simp [assocFind]) (by simp [assocFind]) (by rw [hsc]; simp [assocFind])
        (fuel + 2) none
      have hfuel : fuel + 6 = (((fuel + 2) + 2) + 1) + 1 := by omega
      unfold evaluate
      rw [hfuel, EvFrame.new, evaluateLoop_step env _ _ [] [] none _ [] _ _ rfl h1,
        evaluateLoop_step env _ _ [] [] none _ _ _ _ rfl h2]
      exact this
    · have hsc2 : Expr.leaf .BOOLEAN (.bool b) ≠ sel := fun h => hsc h.symm
      have hS : ∀ e : Expr, e.size ≤ sel.size → ∀ c ∈ e.children, c.size ≤ sel.size := by
        intro e he c hc
        have := Expr.size_lt_of_mem_children hc
        omega
      have hne : ∀ k : Expr, k.size ≤ sel.size →
          k ≠ .node .EVAL_IF_THEN_ELSE [.leaf .BOOLEAN (.bool b), A, B] := by
        intro k hk h
        rw [h, hKsize, hsel] at hk
        cases b <;> simp at hk <;> omega
      have hVx : ∀ k : Expr, k.size ≤ sel.size →
          assocFind k [(Expr.node .EVAL_IF_THEN_ELSE [.leaf .BOOLEAN (.bool b), A, B],
            (none : Option Expr))] = none := by
        intro k hk
        rw [assocFind_cons_ne k _ _ _ (fun h => hne k hk h.symm)]
        rfl
      -- the run in which the condition is visited after the selected branch
      obtain ⟨k, V2, trie2, hk, hfind, hkeys, heq⟩ :=
        evaluateLoop_embed env (fun e => e.size ≤ sel.size) hS sel
          (.node .EVAL_IF_THEN_ELSE [.leaf .BOOLEAN (.bool b), A, B]) []
          [(.node .EVAL_IF_THEN_ELSE [.leaf .BOOLEAN (.bool b), A, B], none)]
          [.leaf .BOOLEAN (.bool b), .node .EVAL_IF_THEN_ELSE [.leaf .BOOLEAN (.bool b), A, B]]
          none none [] hVx fuel [] [] [sel] [] none r
          (by intro w hw; simp only [List.mem_singleton] at hw; subst hw; exact Nat.le_refl _)
          hrun
      have hK2 : assocFind (Expr.node .EVAL_IF_THEN_ELSE [.leaf .BOOLEAN (.bool b), A, B]) V2
          = none := by
        cases hf : assocFind (Expr.node .EVAL_IF_THEN_ELSE [.leaf .BOOLEAN (.bool b), A, B]) V2
          with
        | none => rfl
        | some v =>
          rcases hkeys _ (by rw [hf]; simp) with h | h
          · exact absurd rfl h
          · exact absurd rfl (hne _ h)
      have h4 : evalVisit env ⟨.node .EVAL_IF_THEN_ELSE [.leaf .BOOLEAN (.bool b), A, B], [],
          V2 ++ [(.node .EVAL_IF_THEN_ELSE [.leaf .BOOLEAN (.bool b), A, B], none)],
          [.leaf .BOOLEAN (.bool b),
            .node .EVAL_IF_THEN_ELSE [.leaf .BOOLEAN (.bool b), A, B]], none⟩ [] trie2
          (.leaf .BOOLEAN (.bool b))
          [.node .EVAL_IF_THEN_ELSE [.leaf .BOOLEAN (.bool b), A, B]]
          = some ([⟨.node .EVAL_IF_THEN_ELSE [.leaf .BOOLEAN (.bool b), A, B], [],
            (.leaf .BOOLEAN (.bool b), some (.leaf .BOOLEAN (.bool b)))
              :: (V2 ++ [(.node .EVAL_IF_THEN_ELSE [.leaf .BOOLEAN (.bool b), A, B], none)]),
            [.node .EVAL_IF_THEN_ELSE [.leaf .BOOLEAN (.bool b), A, B]], none⟩], trie2) := by
        unfold evalVisit
        simp [hcond]
      obtain ⟨m, hm⟩ : ∃ m, fuel = k + m := ⟨fuel - k, by omega⟩
      have hstd : evaluateLoop env (fuel + 3)
          ⟨[] ++ [⟨.node .EVAL_IF_THEN_ELSE [.leaf .BOOLEAN (.bool b), A, B], [],
            [(.node .EVAL_IF_THEN_ELSE [.leaf .BOOLEAN (.bool b), A, B], none)],
            [sel, .leaf .BOOLEAN (.bool b),
              .node .EVAL_IF_THEN_ELSE [.leaf .BOOLEAN (.bool b), A, B]], none⟩], [], none⟩
          = some r := by
        have hrun2 := heq (m + 3) none none
        simp only [List.nil_append, List.cons_append] at hrun2 ⊢
        have hf : fuel + 3 = k + (m + 3) := by omega
        rw [hf, hrun2, evaluateLoop_step env (m + 2) _ [] trie2 none _ _ _ _ rfl h4]
        exact hlast _ trie2 r
          (by rw [assocFind_cons_ne _ _ _ _ hcK, assocFind_append, hK2]; simp [assocFind])
          (assocFind_cons_self _ _ _)
          (by rw [assocFind_cons_ne _ _ _ _ hsc2, assocFind_append, hfind]) m none
      -- the run of the operator, in which the condition is recorded first
      have hseed := evaluateLoop_seeded env (.leaf .BOOLEAN (.bool b)) []
        (.node .EVAL_IF_THEN_ELSE [.leaf .BOOLEAN (.bool b), A, B]) none hstable (fuel + 3) []
        [(.node .EVAL_IF_THEN_ELSE [.leaf .BOOLEAN (.bool b), A, B], none)]
        [(.leaf .BOOLEAN (.bool b), some (.leaf .BOOLEAN (.bool b))),
          (.node .EVAL_IF_THEN_ELSE [.leaf .BOOLEAN (.bool b), A, B], none)]
        [sel, .leaf .BOOLEAN (.bool b),
          .node .EVAL_IF_THEN_ELSE [.leaf .BOOLEAN (.bool b), A, B]]
        [sel, .node .EVAL_IF_THEN_ELSE [.leaf .BOOLEAN (.bool b), A, B]] [] none r
        ⟨assocFind_cons_self _ _ _,
          Or.inl (by rw [assocFind_cons_ne _ _ _ _ hcK.symm]; rfl),
          fun key hkey => assocFind_cons_ne key _ _ _ (fun h => hkey h.symm)⟩
        (VisitSkips.cons _ _ _ (VisitSkips.skip _ _ (visitSkips_refl _ _)))
        (fun hne => absurd rfl hne) hstd
      have h3 := hsched [(.leaf .BOOLEAN (.bool b), some (.leaf .BOOLEAN (.bool b))),
        (.node .EVAL_IF_THEN_ELSE [.leaf .BOOLEAN (.bool b), A, B], none)] []
        (by simp [assocFind]) (by simp [assocFind])
        (by simp [assocFind, hsc2, hselK.symm])
      have hfuel : fuel + 6 = (((fuel + 3) + 1) + 1) + 1 := by omega
      unfold evaluate
      rw [hfuel, EvFrame.new, evaluateLoop_step env _ _ [] [] none _ [] _ _ rfl h1,
        evaluateLoop_step env _ _ [] [] none _ _ _ _ rfl h2,
        evaluateLoop_step env _ _ [] [] none _ [] _ _ rfl h3]
      simpa only [List.nil_append] using hseed

/-- C17: reflexivity of `EVAL_IS_EQ`.  For every term `x`, ground or not, whose evaluation
in the empty context returns (some `r`, with some fuel), the evaluation of
`EVAL_IS_EQ(x, x)` in the empty context returns `mkTrue()`, within four more passes.  The
node `EVAL_IS_EQ(x, x)` is an evaluation operator: it is flagged evaluatable and is not
compiled. -/
theorem evaluate_is_eq_refl (env : Env) (x r : Expr) (fuel : Nat)
    (hev : env.isEvaluatable (.node .EVAL_IS_EQ [x, x]) = true)
    (hcomp : env.isCompiled (.node .EVAL_IS_EQ [x, x]) = false)
    (hx : evaluate env fuel x [] = some r) :
    evaluate env (fuel + 4) (.node .EVAL_IS_EQ [x, x]) [] = some mkTrue := by
  have hKsize : (Expr.node .EVAL_IS_EQ [x, x]).size = 1 + (x.size + (x.size + 0)) := by
    simp [Expr.size, Expr.sizeList]
  have hS : ∀ e : Expr, e.size ≤ x.size → ∀ c ∈ e.children, c.size ≤ x.size := by
    intro e he c hc
    have := Expr.size_lt_of_mem_children hc
    omega
  have hne : ∀ k : Expr, k.size ≤ x.size → k ≠ .node .EVAL_IS_EQ [x, x] := by
    intro k hk h
    rw [h, hKsize] at hk
    have := x.size_pos
    omega
  have hVx : ∀ k : Expr, k.size ≤ x.size →
      assocFind k [(Expr.node .EVAL_IS_EQ [x, x], (none : Option Expr))] = none := by
    intro k hk
    rw [assocFind_cons_ne k _ _ _ (fun h => hne k hk h.symm)]
    rfl
  obtain ⟨k, V2, trie2, hk, hfind, hkeys, heq⟩ :=
    evaluateLoop_embed env (fun e => e.size ≤ x.size) hS x (.node .EVAL_IS_EQ [x, x]) []
      [(.node .EVAL_IS_EQ [x, x], none)] [x, .node .EVAL_IS_EQ [x, x]] none none [] hVx
      fuel [] [] [x] [] none r
      (by intro w hw; simp only [List.mem_singleton] at hw; subst hw; exact Nat.le_refl _)
      hx
  -- the first visit of the operator
  have h1 := evalVisit_first env [] (.node .EVAL_IS_EQ [x, x]) none [] [] []
    (.node .EVAL_IS_EQ [x, x]) [] (by simp [hev]) (by simp) rfl hcomp (by simp)
  -- the second visit of `x`
  have hxfix : (!env.isEvaluatable x && (x.isGround || decide (([] : Ctx) = []))) = true
      → r = x := by
    intro h
    exact (evaluate_unique env _ _ x [] _ _ (evaluate_nil_fixed env x (Or.inl h)) hx).symm
  have hxpar : x.getKind = .PARAM →
      r = (match assocFind x ([] : Ctx) with
          | some v => v
          | none => x) := by
    intro h
    exact (evaluate_unique env _ _ x [] _ _ (evaluate_nil_fixed env x (Or.inr h)) hx).symm
  have hfind2 : assocFind x (V2 ++ [(Expr.node .EVAL_IS_EQ [x, x], none)]) = some (some r) := by
    rw [assocFind_append, hfind]
  obtain ⟨V3, h2, hx3, hother⟩ := evalVisit_again env (.node .EVAL_IS_EQ [x, x]) []
    (V2 ++ [(.node .EVAL_IS_EQ [x, x], none)]) [.node .EVAL_IS_EQ [x, x]] none [] trie2 x r
    hfind2 hxfix hxpar
  have hK2 : assocFind (Expr.node .EVAL_IS_EQ [x, x]) V2 = none := by
    cases hf : assocFind (Expr.node .EVAL_IS_EQ [x, x]) V2 with
    | none => rfl
    | some v =>
      rcases hkeys _ (by rw [hf]; simp) with h | h
      · exact absurd rfl h
      · exact absurd rfl (hne _ h)
  have hK3 : assocFind (Expr.node .EVAL_IS_EQ [x, x]) V3 = some none := by
    rw [hother _ (hne x (Nat.le_refl _)).symm, assocFind_append, hK2]
    simp [assocFind]
  -- the second visit of the operator
  have h3 : evalVisit env ⟨.node .EVAL_IS_EQ [x, x], [], V3, [.node .EVAL_IS_EQ [x, x]], none⟩
      [] trie2 (.node .EVAL_IS_EQ [x, x]) []
      = some ([⟨.node .EVAL_IS_EQ [x, x], [],
          (.node .EVAL_IS_EQ [x, x], some mkTrue) :: V3, [], none⟩], trie2) := by
    unfold evalVisit
    simp [hev, hK3, evalChildren, hx3, evalRevisit, isLiteralOp, allNonNull,
      evaluateLiteralOpInternal, ensureHashed]
  have h4 : evalFinish ⟨.node .EVAL_IS_EQ [x, x], [],
      (.node .EVAL_IS_EQ [x, x], some mkTrue) :: V3, [], none⟩ [] trie2
      = some ⟨[], trie2, some mkTrue⟩ := by
    simp [evalFinish, assocFind]
  obtain ⟨m, hm⟩ : ∃ m, fuel = k + m := ⟨fuel - k, by omega⟩
  have hfuel : fuel + 4 = (k + (m + 3)) + 1 := by omega
  unfold evaluate
  rw [hfuel, EvFrame.new, evaluateLoop_step env _ _ [] [] none _ [] _ _ rfl h1]
  have hrun := heq (m + 3) none none
  simp only [List.nil_append, List.cons_append, Expr.children_node, List.reverse_cons,
    List.reverse_nil] at hrun ⊢
  rw [hrun, evaluateLoop_step env (m + 2) _ [] trie2 none x _ _ _ rfl h2,
    evaluateLoop_step env (m + 1) _ [] trie2 none _ [] _ _ rfl h3,
    evaluateLoop_finish env m _ [] trie2 none _ rfl h4, evaluateLoop_nil]
  rfl

/-- C18: the three-way result of `EVAL_IS_EQ`.  For all terms `a` and `b`,
`evaluateLiteralOp(EVAL_IS_EQ, [a, b])` is `true` when `ensureHashed(a)` and
`ensureHashed(b)` are the same node; else `false` when `a` and `b` are both ground; else
the unreduced application `EVAL_IS_EQ(a, b)`. -/
theorem evaluateLiteralOp_is_eq (env : Env) (a b : Expr) :
    evaluateLiteralOp env .EVAL_IS_EQ [a, b]
      = some (if ensureHashed a = ensureHashed b then mkTrue
              else if a.isGround = true ∧ b.isGround = true then mkFalse
              else mkExprInternal .EVAL_IS_EQ [a, b]) := by
  simp only [ensureHashed]
  by_cases h : a = b
  · simp [evaluateLiteralOp, evaluateLiteralOpInternal, h, ensureHashed]
  · by_cases hg : a.isGround = true ∧ b.isGround = true
    · have hg2 : isGround [a, b] = true := by
        simp only [isGround, List.all_cons, List.all_nil, Bool.and_true]
        simpa using hg
      simp [evaluateLiteralOp, evaluateLiteralOpInternal, h, hg, hg2, ensureHashed]
    · have hg2 : isGround [a, b] = false := by
        simp only [isGround, List.all_cons, List.all_nil, Bool.and_true]
        simpa using hg
      simp [evaluateLiteralOp, evaluateLiteralOpInternal, h, hg, hg2, ensureHashed]

/-- C19: for all terms `a`, `b` and `body`, `evaluateLiteralOp(EVAL_REQUIRES, [a, b, body])`
is `ensureHashed(body)` when `ensureHashed(a)` and `ensureHashed(b)` are the same node,
whether or not `body` is ground, and the unreduced application
`EVAL_REQUIRES(a, b, body)` in every other case. -/
theorem evaluateLiteralOp_requires (env : Env) (a b body : Expr) :
    evaluateLiteralOp env .EVAL_REQUIRES [a, b, body]
      = some (if ensureHashed a = ensureHashed b then ensureHashed body
              else mkExprInternal .EVAL_REQUIRES [a, b, body]) := by
  simp only [ensureHashed]
  by_cases h : a = b
  · simp [evaluateLiteralOp, evaluateLiteralOpInternal, h, ensureHashed]
  · simp [evaluateLiteralOp, evaluateLiteralOpInternal, h, ensureHashed]

/-- C20 (counterexample): for the operator `cons`, declared right associative with the
nil element `nil`, and the ground term `(cons a nil)`, which is a list of one element,
`EVAL_TO_LIST` returns the term and `EVAL_FROM_LIST` of that returns the element `a`,
which is not the term. -/
theorem list_round_trip_singleton :
    sampleProgramEnv.getAppInfo sCons = some ⟨.RIGHT_ASSOC_NIL, sNil⟩
      ∧ (sConsCell sA sNil).isGround = true
      ∧ evaluateLiteralOp sampleProgramEnv .EVAL_TO_LIST [sCons, sConsCell sA sNil]
          = some (sConsCell sA sNil)
      ∧ evaluateLiteralOp sampleProgramEnv .EVAL_FROM_LIST [sCons, sConsCell sA sNil] = some sA
      ∧ sA ≠ sConsCell sA sNil := by
  refine ⟨rfl, by decide, by decide, by decide, by decide⟩

/-- C20 (amended): list round trip.  Let `op` be a ground operator symbol, not a literal,
declared `RIGHT_ASSOC_NIL` or `LEFT_ASSOC_NIL` with a ground nil element `eps` that is
not itself an application of `op`, and let `e` be a ground term in which every `APPLY`
has a head and an argument.  If `e` is not a list of exactly one element, that is, `e`
is not an application `((op x) y)`, or its tail is again such an application, then
`EVAL_FROM_LIST` of the result of `EVAL_TO_LIST` on `e` is `e`.  If `e` is the list of
the one element `h` with the tail `eps`, the round trip returns `h`. -/
theorem list_round_trip (env : Env) (op eps e : Expr) (attr : Attr)
    (hinfo : env.getAppInfo op = some ⟨attr, eps⟩)
    (hattr : attr = .RIGHT_ASSOC_NIL ∨ attr = .LEFT_ASSOC_NIL)
    (hop : op.isGround = true) (hopk : isLiteral op.getKind = false)
    (heps : eps.isGround = true) (hepswf : appliesHaveArgs eps = true)
    (hnil : listStep op (decide (attr = .LEFT_ASSOC_NIL)) eps = none)
    (he : e.isGround = true) (hwf : appliesHaveArgs e = true) :
    (oneElementList op (decide (attr = .LEFT_ASSOC_NIL)) e = false →
        (evaluateLiteralOp env .EVAL_TO_LIST [op, e]).bind
            (fun l => evaluateLiteralOp env .EVAL_FROM_LIST [op, l]) = some e)
      ∧ (∀ h, listStep op (decide (attr = .LEFT_ASSOC_NIL)) e = some (h, eps) →
        (evaluateLiteralOp env .EVAL_TO_LIST [op, e]).bind
            (fun l => evaluateLiteralOp env .EVAL_FROM_LIST [op, l]) = some h) := by
  have hto : evaluateLiteralOp env .EVAL_TO_LIST [op, e]
      = some (if e = eps ∨ listStep op (decide (attr = .LEFT_ASSOC_NIL)) e ≠ none then e
          else buildList op (decide (attr = .LEFT_ASSOC_NIL)) [e] eps) := by
    simp only [evaluateLiteralOp,
      evaluateLiteralOpInternal_list env _ op e (Or.inl rfl) hop hopk he,
      evaluateListOp_toList env op eps e attr hinfo hattr hwf, ensureHashed]
  have hfrom : ∀ x r, x.isGround = true →
      evaluateListOp env .EVAL_FROM_LIST [op, x] = some (some r) →
      evaluateLiteralOp env .EVAL_FROM_LIST [op, x] = some r := by
    intro x r hx hr
    simp only [evaluateLiteralOp,
      evaluateLiteralOpInternal_list env _ op x (Or.inr rfl) hop hopk hx, hr, ensureHashed]
  refine ⟨?_, ?_⟩
  · intro hlist
    rw [hto, Option.some_bind]
    by_cases h1 : e = eps
    · simp only [h1, true_or, if_true]
      exact hfrom eps eps heps (evaluateListOp_fromList_nil env op eps attr hinfo hattr hepswf hnil)
    · cases hs : listStep op (decide (attr = .LEFT_ASSOC_NIL)) e with
      | none =>
        simp only [h1, ne_eq, not_true_eq_false, or_self, if_false]
        exact hfrom _ e (buildList_singleton_isGround op eps e _ hop heps he)
          (evaluateListOp_fromList_singleton env op eps e attr hinfo hattr hepswf hnil)
      | some p =>
        obtain ⟨h, t⟩ := p
        simp only [ne_eq, reduceCtorEq, not_false_eq_true, or_true, if_true]
        cases hs2 : listStep op (decide (attr = .LEFT_ASSOC_NIL)) t with
        | none => simp [oneElementList, hs, hs2] at hlist
        | some p2 =>
          obtain ⟨h2, t2⟩ := p2
          exact hfrom e e he
            (evaluateListOp_fromList_long env op eps e h t h2 t2 attr hinfo hattr hwf hs hs2)
  · intro h hs
    rw [hto, Option.some_bind]
    simp only [hs, ne_eq, reduceCtorEq, not_false_eq_true, or_true, if_true]
    exact hfrom e h he
      (evaluateListOp_fromList_one env op eps e h attr hinfo hattr hwf hepswf hnil hs)

/-- C21 (counterexample): the operator `+` is declared right associative with the nil
element `0`, and the tail is a transient numeral `0`, a node built with `new Literal` that
is not the hashed node of the nil element.  The arguments are ground and the spine of the
tail ends exactly in the term of the nil element, but `getNAryChildren` compares the
addresses: the internal method returns null and `evaluateLiteralOp(EVAL_CONS, [+, 1, 0])`
returns the unreduced application, not the application `(+ 1 0)`. -/
theorem evaluateLiteralOp_cons_transient_tail :
    sampleSumMemory.store.ok = true
      ∧ sampleSumMemory.store.isGround [0, 2, 8] = true
      ∧ spineEnd (sampleSumMemory.store.expr 0) false (sampleSumMemory.store.expr 8)
          = sampleSumMemory.store.expr 1
      ∧ Store.evaluateLiteralOpInternal 10 sampleSumTables sampleSumMemory .EVAL_CONS [0, 2, 8]
          = some (none, sampleSumMemory)
      ∧ (Store.evaluateLiteralOp 10 sampleSumTables sampleSumMemory .EVAL_CONS [0, 2, 8]).map
            (fun r => r.1.map r.2.store.expr)
          = some (some (.node .EVAL_CONS
              [sSum, .leaf .NUMERAL (.int 1), .leaf .NUMERAL (.int 0)]))
      ∧ Expr.node .EVAL_CONS [sSum, .leaf .NUMERAL (.int 1), .leaf .NUMERAL (.int 0)]
          ≠ .node .APPLY [.node .APPLY [sSum, .leaf .NUMERAL (.int 1)],
              .leaf .NUMERAL (.int 0)] := by
  refine ⟨by decide, by decide, by decide, by decide, by decide, by decide⟩

/-- C21 (amended): `EVAL_CONS` on hash-consed arguments.  In a well-formed store let the
operator `op`, its nil element `eps`, the element `a` and the tail `t` be hashed nodes;
let `op` be ground and not a literal, and `a` and `t` be ground, every `APPLY` of `t`
having a head and an argument.  When `op` is declared `RIGHT_ASSOC_NIL`,
`evaluateLiteralOp(EVAL_CONS, [op, a, t])` returns the hashed node of the application
`((op a) t)` if the spine of `t` over `op` ends in the nil element, and the hashed node
of the unreduced application of `EVAL_CONS` if it does not.  When `op` is declared
`LEFT_ASSOC_NIL`, the list is the second argument and the element the third:
`evaluateLiteralOp(EVAL_CONS, [op, t, a])` returns the hashed node of `((op t) a)` if the
spine of `t` ends in the nil element, and the unreduced application if it does not.  The
call only adds nodes to the store, which stays well formed. -/
theorem evaluateLiteralOp_cons_hashed (tb : Store.Tables) (m : Store.Memory)
    (op eps a t fuel : Nat) (attr : Attr)
    (hok : m.store.ok = true) (hinfo : tb.getAppInfo op = some ⟨attr, eps⟩)
    (hhop : m.store.isHashed op = true) (hheps : m.store.isHashed eps = true)
    (hha : m.store.isHashed a = true) (hht : m.store.isHashed t = true)
    (hop : (m.store.expr op).isGround = true)
    (hopk : isLiteral (m.store.expr op).getKind = false)
    (ha : (m.store.expr a).isGround = true) (ht : (m.store.expr t).isGround = true)
    (hwf : appliesHaveArgs (m.store.expr t) = true)
    (hfuel : 2 * ((m.store.expr op).size + (m.store.expr a).size + (m.store.expr t).size + 2)
      ≤ fuel) :
    (attr = .RIGHT_ASSOC_NIL →
        ∃ r m1, Store.evaluateLiteralOp fuel tb m .EVAL_CONS [op, a, t] = some (some r, m1)
          ∧ m1.store.ok = true ∧ Store.Extends m.store m1.store
          ∧ m1.store.isHashed r = true
          ∧ m1.store.expr r
            = (if spineEnd (m.store.expr op) false (m.store.expr t) = m.store.expr eps
               then .node .APPLY
                 [.node .APPLY [m.store.expr op, m.store.expr a], m.store.expr t]
               else .node .EVAL_CONS [m.store.expr op, m.store.expr a, m.store.expr t]))
      ∧ (attr = .LEFT_ASSOC_NIL →
        ∃ r m1, Store.evaluateLiteralOp fuel tb m .EVAL_CONS [op, t, a] = some (some r, m1)
          ∧ m1.store.ok = true ∧ Store.Extends m.store m1.store
          ∧ m1.store.isHashed r = true
          ∧ m1.store.expr r
            = (if spineEnd (m.store.expr op) true (m.store.expr t) = m.store.expr eps
               then .node .APPLY
                 [.node .APPLY [m.store.expr op, m.store.expr t], m.store.expr a]
               else .node .EVAL_CONS [m.store.expr op, m.store.expr t, m.store.expr a])) := by
  refine ⟨?_, ?_⟩
  · intro hattr
    subst hattr
    have hg : m.store.isGround [op, a, t] = true := by simp [Store.isGround, hop, ha, ht]
    obtain ⟨r, hs, hwalk, _, _, hnone⟩ :=
      getNAryChildren_hashed_spine m.store hok op eps t false hhop hheps hht hwf
    rw [Store.evaluateLiteralOp, evaluateLiteralOpInternal_listOp_at fuel tb m hok _ op [a, t]
      (Or.inr (Or.inr (Or.inl rfl))) hg hhop hopk]
    by_cases hend : spineEnd (m.store.expr op) false (m.store.expr t) = m.store.expr eps
    · obtain ⟨x, hx⟩ : ∃ x, r = some x := by
        cases r with
        | none => exact absurd hend (hnone.mp rfl)
        | some x => exact ⟨x, rfl⟩
      subst hx
      obtain ⟨p, s1, hrun, hok1, hext1, hhp, hep⟩ :=
        buildList_one_hashed m.store hok op a t false hhop hha hht fuel hfuel
      refine ⟨p, ⟨s1, m.d_negOne⟩, ?_, hok1, hext1, hhp, ?_⟩
      · simp [Store.evaluateListOp, hinfo, hwalk, hrun]
      · rw [hep, if_pos hend]
        simp
    · have hr : r = none := hnone.mpr hend
      subst hr
      obtain ⟨h1, h2, h3, h4⟩ := mkExprInternal_hashed m.store hok .EVAL_CONS [op, a, t]
        (by intro c hc; simp at hc; rcases hc with h | h | h <;> subst h <;> assumption) rfl
      refine ⟨(m.store.mkExprInternal .EVAL_CONS [op, a, t]).1,
        ⟨(m.store.mkExprInternal .EVAL_CONS [op, a, t]).2, m.d_negOne⟩, ?_, h1, h2, h3, ?_⟩
      · simp [Store.evaluateListOp, hinfo, hwalk]
      · rw [if_neg hend]
        simpa using h4
  · intro hattr
    subst hattr
    have hg : m.store.isGround [op, t, a] = true := by simp [Store.isGround, hop, ha, ht]
    obtain ⟨r, hs, hwalk, _, _, hnone⟩ :=
      getNAryChildren_hashed_spine m.store hok op eps t true hhop hheps hht hwf
    rw [Store.evaluateLiteralOp, evaluateLiteralOpInternal_listOp_at fuel tb m hok _ op [t, a]
      (Or.inr (Or.inr (Or.inl rfl))) hg hhop hopk]
    by_cases hend : spineEnd (m.store.expr op) true (m.store.expr t) = m.store.expr eps
    · obtain ⟨x, hx⟩ : ∃ x, r = some x := by
        cases r with
        | none => exact absurd hend (hnone.mp rfl)
        | some x => exact ⟨x, rfl⟩
      subst hx
      obtain ⟨p, s1, hrun, hok1, hext1, hhp, hep⟩ :=
        buildList_one_hashed m.store hok op a t true hhop hha hht fuel hfuel
      refine ⟨p, ⟨s1, m.d_negOne⟩, ?_, hok1, hext1, hhp, ?_⟩
      · simp [Store.evaluateListOp, hinfo, hwalk, hrun]
      · rw [hep, if_pos hend]
        simp
    · have hr : r = none := hnone.mpr hend
      subst hr
      obtain ⟨h1, h2, h3, h4⟩ := mkExprInternal_hashed m.store hok .EVAL_CONS [op, t, a]
        (by intro c hc; simp at hc; rcases hc with h | h | h <;> subst h <;> assumption) rfl
      refine ⟨(m.store.mkExprInternal .EVAL_CONS [op, t, a]).1,
        ⟨(m.store.mkExprInternal .EVAL_CONS [op, t, a]).2, m.d_negOne⟩, ?_, h1, h2, h3, ?_⟩
      · simp [Store.evaluateListOp, hinfo, hwalk]
      · rw [if_neg hend]
        simpa using h4

/-- C22 (the code at the failing input): the operator `snoc` is declared
`LEFT_ASSOC_NIL` with the nil element `nil`; `l1 = (snoc nil a)` and
`l2 = (snoc (snoc nil b) c)` are ground lists that end in `nil`, with the elements `a`
and `b, c` in reading order.  `evaluateLiteralOp(EVAL_CONCAT, [snoc, l1, l2])` is the
list `(snoc (snoc (snoc nil a) c) b)`, whose elements in reading order are `a, c, b`: the
elements of `l2` come out in the reverse order.  On the right-associative operator
`cons` the same call keeps the order. -/
theorem evaluateLiteralOp_concat_left_assoc :
    sampleListEnv.getAppInfo sSnoc = some ⟨.LEFT_ASSOC_NIL, sNil⟩
      ∧ spineEnd sSnoc true (sSnocCell sNil sA) = sNil
      ∧ spineEnd sSnoc true (sSnocCell (sSnocCell sNil sB) sC) = sNil
      ∧ elems sSnoc true (sSnocCell sNil sA) = [sA]
      ∧ elems sSnoc true (sSnocCell (sSnocCell sNil sB) sC) = [sB, sC]
      ∧ evaluateLiteralOp sampleListEnv .EVAL_CONCAT
          [sSnoc, sSnocCell sNil sA, sSnocCell (sSnocCell sNil sB) sC]
        = some (sSnocCell (sSnocCell (sSnocCell sNil sA) sC) sB)
      ∧ elems sSnoc true (sSnocCell (sSnocCell (sSnocCell sNil sA) sC) sB) = [sA, sC, sB]
      ∧ [sA, sC, sB] ≠ [sA] ++ [sB, sC]
      ∧ evaluateLiteralOp sampleListEnv .EVAL_CONCAT
          [sCons, sConsCell sA sNil, sConsCell sB (sConsCell sC sNil)]
        = some (sConsCell sA (sConsCell sB (sConsCell sC sNil))) := by
  refine ⟨rfl, by decide, by decide, by decide, by decide, by decide, by decide, by decide,
    by decide⟩

/-- C23 (counterexample): the list is `(+ 1 (+ 2 0))` and the needle a transient numeral
`2`, a node built with `new Literal` that is not the hashed node of the element.  The
arguments are ground and the element at the index 1 is the term of the needle, the
element at the index 0 is not, but `std::find` compares the addresses: the internal
method and `evaluateLiteralOp(EVAL_FIND, [+, (+ 1 (+ 2 0)), 2])` return the numeral `-1`,
not `1`. -/
theorem evaluateLiteralOp_find_transient_needle :
    sampleSumMemory.ok = true
      ∧ sampleSumMemory.store.isGround [0, 7, 9] = true
      ∧ spineElems (sampleSumMemory.store.expr 0) false (sampleSumMemory.store.expr 7)
          = [.leaf .NUMERAL (.int 1), .leaf .NUMERAL (.int 2)]
      ∧ spineEnd (sampleSumMemory.store.expr 0) false (sampleSumMemory.store.expr 7)
          = sampleSumMemory.store.expr 1
      ∧ sampleSumMemory.store.expr 9 = .leaf .NUMERAL (.int 2)
      ∧ (Store.evaluateLiteralOpInternal 10 sampleSumTables sampleSumMemory .EVAL_FIND
            [0, 7, 9]).map (fun r => r.1.map r.2.store.expr)
          = some (some (.leaf .NUMERAL (.int (-1))))
      ∧ (Store.evaluateLiteralOp 10 sampleSumTables sampleSumMemory .EVAL_FIND [0, 7, 9]).map
            (fun r => r.1.map r.2.store.expr)
          = some (some (.leaf .NUMERAL (.int (-1)))) := by
  refine ⟨by decide, by decide, by decide, by decide, rfl, by decide, by decide⟩

/-- C23 (amended): `EVAL_FIND` on hash-consed arguments.  In a well-formed memory let the
operator `op`, its nil element `eps`, the term `l` and the needle `x` be hashed nodes;
let `op` be ground, not a literal and declared `RIGHT_ASSOC_NIL` or `LEFT_ASSOC_NIL`, let
`l` and `x` be ground, every `APPLY` of `l` having a head and an argument, and let
`e0, ..., e(n-1)` be the elements of the spine of `l` over `op`, in the order of the walk
from the outermost application.  Then `evaluateLiteralOp(EVAL_FIND, [op, l, x])` returns
the hashed numeral `i` for the least `i` with `e_i = x`, and the hashed numeral `-1` when
no element is `x`.  This holds for every such `l`, in particular for the lists that end
in the nil element.  The call only adds nodes to the store, and the memory stays well
formed. -/
theorem evaluateLiteralOp_find_hashed (tb : Store.Tables) (m : Store.Memory)
    (op eps l x fuel : Nat) (attr : Attr)
    (hok : m.ok = true) (hinfo : tb.getAppInfo op = some ⟨attr, eps⟩)
    (hattr : attr = .RIGHT_ASSOC_NIL ∨ attr = .LEFT_ASSOC_NIL)
    (hhop : m.store.isHashed op = true) (hheps : m.store.isHashed eps = true)
    (hhl : m.store.isHashed l = true) (hhx : m.store.isHashed x = true)
    (hop : (m.store.expr op).isGround = true)
    (hopk : isLiteral (m.store.expr op).getKind = false)
    (hl : (m.store.expr l).isGround = true) (hx : (m.store.expr x).isGround = true)
    (hwf : appliesHaveArgs (m.store.expr l) = true) (hfuel : 2 ≤ fuel) :
    (∀ i : Nat,
        (spineElems (m.store.expr op) (decide (attr = .LEFT_ASSOC_NIL)) (m.store.expr l))[i]?
          = some (m.store.expr x) →
        (∀ j, j < i →
          (spineElems (m.store.expr op) (decide (attr = .LEFT_ASSOC_NIL)) (m.store.expr l))[j]?
            ≠ some (m.store.expr x)) →
        ∃ r m1, Store.evaluateLiteralOp fuel tb m .EVAL_FIND [op, l, x] = some (some r, m1)
          ∧ m1.ok = true ∧ Store.Extends m.store m1.store
          ∧ m1.store.isHashed r = true
          ∧ m1.store.expr r = .leaf .NUMERAL (.int i))
      ∧ (m.store.expr x
            ∉ spineElems (m.store.expr op) (decide (attr = .LEFT_ASSOC_NIL)) (m.store.expr l) →
        ∃ r m1, Store.evaluateLiteralOp fuel tb m .EVAL_FIND [op, l, x] = some (some r, m1)
          ∧ m1.ok = true ∧ Store.Extends m.store m1.store
          ∧ m1.store.isHashed r = true
          ∧ m1.store.expr r = .leaf .NUMERAL (.int (-1))) := by
  obtain ⟨hoks, hneg⟩ := (Memory_ok_spec m).mp hok
  have hat : ¬ (attr ≠ .RIGHT_ASSOC_NIL ∧ attr ≠ .LEFT_ASSOC_NIL) := by
    rcases hattr with h | h <;> simp [h]
  have hg : m.store.isGround [op, l, x] = true := by simp [Store.isGround, hop, hl, hx]
  obtain ⟨r0, hs, hwalk, hmap, hall, _⟩ :=
    getNAryChildren_hashed_spine m.store hoks op eps l (decide (attr = .LEFT_ASSOC_NIL))
      hhop hheps hhl hwf
  obtain ⟨hmem, hidx⟩ := indexOf_hashed m.store hoks x hhx hs hall
  rw [hmap] at hmem hidx
  -- the memory stays well formed when the store grows
  have hkeep : ∀ s1 : Store, s1.ok = true → Store.Extends m.store s1 →
      (⟨s1, m.d_negOne⟩ : Store.Memory).ok = true := by
    intro s1 hok1 hext1
    rw [Memory_ok_spec]
    refine ⟨hok1, ?_⟩
    intro h hh
    obtain ⟨n, hn, hn2⟩ := hneg h hh
    exact ⟨n, Store.get?_of_extends m.store s1 hext1 h n hn, hn2⟩
  -- the call on a needle that is found
  have hfound : m.store.expr x
        ∈ spineElems (m.store.expr op) (decide (attr = .LEFT_ASSOC_NIL)) (m.store.expr l) →
      ∃ r m1, Store.evaluateLiteralOp fuel tb m .EVAL_FIND [op, l, x] = some (some r, m1)
        ∧ m1.ok = true ∧ Store.Extends m.store m1.store ∧ m1.store.isHashed r = true
        ∧ m1.store.expr r = .leaf .NUMERAL (.int ((spineElems (m.store.expr op)
            (decide (attr = .LEFT_ASSOC_NIL)) (m.store.expr l)).indexOf (m.store.expr x))) := by
    intro hin
    obtain ⟨p, s1, hrun, hok1, hext1, hhp, hep, _⟩ :=
      alloc_literal_hashed m.store hoks .NUMERAL (.int (hs.indexOf x)) rfl fuel hfuel
    refine ⟨p, ⟨s1, m.d_negOne⟩, ?_, hkeep s1 hok1 hext1, hext1, hhp, by rw [hep, hidx]⟩
    rw [Store.evaluateLiteralOp, evaluateLiteralOpInternal_listOp_at fuel tb m hoks _ op [l, x]
      (Or.inr (Or.inr (Or.inr (Or.inr (Or.inr rfl))))) hg hhop hopk]
    simp only [Store.evaluateListOp, List.getElem?_cons_zero, hinfo, hat, if_false,
      List.getElem?_cons_succ, hwalk, hmem.mpr hin, if_true, hrun]
  refine ⟨?_, ?_⟩
  · intro i hi hleast
    obtain ⟨r, m1, h1, h2, h3, h4, h5⟩ := hfound (List.getElem?_mem hi)
    exact ⟨r, m1, h1, h2, h3, h4, by rw [h5, indexOf_least _ _ i hi hleast]⟩
  · intro hnot
    have hnot2 : x ∉ hs := fun h => hnot (hmem.mp h)
    have hshape : Store.evaluateLiteralOpInternal fuel tb m .EVAL_FIND [op, l, x]
        = (match m.d_negOne with
          | some h => some (some h, m)
          | none =>
            some (some (m.store.alloc .NUMERAL (some (.int (-1))) []).1,
              ⟨(m.store.alloc .NUMERAL (some (.int (-1))) []).2,
                some (m.store.alloc .NUMERAL (some (.int (-1))) []).1⟩)) := by
      rw [evaluateLiteralOpInternal_listOp_at fuel tb m hoks _ op [l, x]
        (Or.inr (Or.inr (Or.inr (Or.inr (Or.inr rfl))))) hg hhop hopk]
      simp only [Store.evaluateListOp, List.getElem?_cons_zero, hinfo, hat, if_false,
        List.getElem?_cons_succ, hwalk, hnot2]
    rw [Store.evaluateLiteralOp, hshape]
    cases hd : m.d_negOne with
    | some h =>
      obtain ⟨n, hn, hnk, hnp⟩ := hneg h hd
      obtain ⟨p, s1, hrun, hok1, hext1, hhp, hep⟩ :=
        ensureHashed_literal_node m.store hoks h n hn .NUMERAL (.int (-1)) rfl hnk hnp fuel hfuel
      refine ⟨p, ⟨s1, m.d_negOne⟩, ?_, hkeep s1 hok1 hext1, hext1, hhp, hep⟩
      simp only [hrun]
    | none =>
      obtain ⟨p, s1, hrun, hok1, hext1, hhp, hep, hget⟩ :=
        alloc_literal_hashed m.store hoks .NUMERAL (.int (-1)) rfl fuel hfuel
      refine ⟨p, ⟨s1, some (m.store.alloc .NUMERAL (some (.int (-1))) []).1⟩, ?_, ?_, hext1,
        hhp, hep⟩
      · simp only [hrun]
      · rw [Memory_ok_spec]
        refine ⟨hok1, ?_⟩
        intro h hh
        cases hh
        exact ⟨_, hget, rfl, rfl⟩

/-- C24: `EVAL_EXTRACT` on lists.  Let `op` be a ground operator symbol, not a literal,
declared `RIGHT_ASSOC_NIL` or `LEFT_ASSOC_NIL`, let the term `t` and the third argument
`n` be ground, every `APPLY` of `t` having a head and an argument and `n`, if it is of
kind `NUMERAL`, carrying an integer.  If `n` is the numeral `v` with `0 ≤ v`, `v` fitting
an unsigned int and `v` smaller than the number of elements of the spine of `t` over
`op`, then `evaluateLiteralOp(EVAL_EXTRACT, [op, t, n])` is the element of index `v`, in
the order of the walk of the spine from the outermost application.  In every other case
the result is the unreduced application of `EVAL_EXTRACT`. -/
theorem evaluateLiteralOp_extract (env : Env) (op eps t n : Expr) (attr : Attr)
    (hinfo : env.getAppInfo op = some ⟨attr, eps⟩)
    (hattr : attr = .RIGHT_ASSOC_NIL ∨ attr = .LEFT_ASSOC_NIL)
    (hop : op.isGround = true) (hopk : isLiteral op.getKind = false)
    (ht : t.isGround = true) (hn : n.isGround = true) (hwf : appliesHaveArgs t = true)
    (hnum : n.getKind = .NUMERAL → ∃ v, n = .leaf .NUMERAL (.int v)) :
    (∀ (v : Int) (x : Expr), n = .leaf .NUMERAL (.int v) → 0 ≤ v → v < 4294967296 →
        (spineElems op (decide (attr = .LEFT_ASSOC_NIL)) t)[v.toNat]? = some x →
        evaluateLiteralOp env .EVAL_EXTRACT [op, t, n] = some x)
      ∧ ((∀ v : Int, n = .leaf .NUMERAL (.int v) → 0 ≤ v → v < 4294967296 →
            (spineElems op (decide (attr = .LEFT_ASSOC_NIL)) t).length ≤ v.toNat) →
        evaluateLiteralOp env .EVAL_EXTRACT [op, t, n]
          = some (mkExprInternal .EVAL_EXTRACT [op, t, n])) := by
  have hat : ¬ (attr ≠ .RIGHT_ASSOC_NIL ∧ attr ≠ .LEFT_ASSOC_NIL) := by
    rcases hattr with h | h <;> simp [h]
  have hg : isGround [op, t, n] = true := by simp [isGround, hop, ht, hn]
  have hint : evaluateLiteralOp env .EVAL_EXTRACT [op, t, n]
      = (match evaluateListOp env .EVAL_EXTRACT [op, t, n] with
        | none => none
        | some (some ret) => some (ensureHashed ret)
        | some none => some (mkExprInternal .EVAL_EXTRACT [op, t, n])) := by
    rw [evaluateLiteralOp, evaluateLiteralOpInternal_listOp env _ op [t, n]
      (Or.inr (Or.inr (Or.inr (Or.inr (Or.inl rfl))))) hg hopk]
  -- the run on a numeral that fits an unsigned int
  have hfit : ∀ v : Int, n = .leaf .NUMERAL (.int v) → 0 ≤ v → v < 4294967296 →
      evaluateListOp env .EVAL_EXTRACT [op, t, n]
        = some (if v.toNat < (spineElems op (decide (attr = .LEFT_ASSOC_NIL)) t).length then
            (spineElems op (decide (attr = .LEFT_ASSOC_NIL)) t)[v.toNat]? else none) := by
    intro v hv h0 h1
    subst hv
    obtain ⟨r, hr⟩ := getNAryChildren_take op (some eps) (decide (attr = .LEFT_ASSOC_NIL)) t
      v.toNat hwf
    have hf : fitsUnsignedInt v = true := by simp [fitsUnsignedInt, h0, h1]
    simp only [evaluateListOp, List.getElem?_cons_zero, hinfo, hat, if_false,
      List.getElem?_cons_succ, Expr.getKind_leaf, ne_eq, not_true_eq_false, hf,
      Bool.not_true, Bool.false_eq_true, hr, List.length_take]
    by_cases hlt : v.toNat < (spineElems op (decide (attr = .LEFT_ASSOC_NIL)) t).length
    · have hmin : min (v.toNat + 1) (spineElems op (decide (attr = .LEFT_ASSOC_NIL)) t).length
          = v.toNat + 1 := by omega
      simp only [hmin, if_true, hlt]
      rw [getLast?_take_succ _ _ hlt]
    · have hmin : ¬ min (v.toNat + 1)
          (spineElems op (decide (attr = .LEFT_ASSOC_NIL)) t).length = v.toNat + 1 := by omega
      simp only [hmin, if_false, hlt]
  refine ⟨?_, ?_⟩
  · intro v x hv h0 h1 hx
    have hlt : v.toNat < (spineElems op (decide (attr = .LEFT_ASSOC_NIL)) t).length := by
      by_contra hge
      rw [List.getElem?_eq_none (by omega)] at hx
      cases hx
    rw [hint, hfit v hv h0 h1, if_pos hlt, hx]
    rfl
  · intro hother
    by_cases hk : n.getKind = .NUMERAL
    · obtain ⟨v, hv⟩ := hnum hk
      by_cases hf : 0 ≤ v ∧ v < 4294967296
      · have hge := hother v hv hf.1 hf.2
        rw [hint, hfit v hv hf.1 hf.2, if_neg (by omega)]
      · have hf2 : fitsUnsignedInt v = false := by
          simp only [fitsUnsignedInt, Bool.and_eq_false_iff, decide_eq_false_iff_not]
          by_cases h0 : 0 ≤ v
          · exact Or.inr (fun h1 => hf ⟨h0, h1⟩)
          · exact Or.inl h0
        rw [hint]
        subst hv
        simp [evaluateListOp, hinfo, hat, hf2]
    · rw [hint]
      simp [evaluateListOp, hinfo, hat, hk]

/-- C25: hash-cons canonicity.  In a well-formed store, let `a` and `b` be handles of
expression DAGs, hashed or transient, below which no symbol is un-hashed and no handle
dangles.  With fuel for twice the sizes of their terms, `ensureHashed(a)` returns a
handle `pa` and then `ensureHashed(b)` a handle `pb`, and `pa` and `pb` are the same
node if and only if `a` and `b` stand for the same term, that is, are structurally
equal: same kind, same payload, structurally equal children in the same order.  In
particular the node that `ensureHashed(a)` returns stands for the term of `a`,
the canonical form of the term in the embedding that identifies a node with its
canonical copy. -/
theorem ensureHashed_canonical (s : Store) (a b fa fb : Nat) (hok : s.ok = true)
    (ha : s.hashable fa a = true) (hb : s.hashable fb b = true) (fuel : Nat)
    (hfa : 2 * (s.expr a).size ≤ fuel) (hfb : 2 * (s.expr b).size ≤ fuel) :
    ∃ pa s1 pb s2, Store.ensureHashed fuel s a = some (some pa, s1)
      ∧ Store.ensureHashed fuel s1 b = some (some pb, s2)
      ∧ (pa = pb ↔ s.expr a = s.expr b)
      ∧ s1.expr pa = s.expr a ∧ s2.expr pb = s.expr b
      ∧ s1.expr pa = ensureHashed (s.expr a) := by
  obtain ⟨pa, s1, hra, hok1, hext1, hha, hea⟩ := Store.ensureHashed_run s a fa hok ha fuel hfa
  obtain ⟨_, nb, _, hgb, _⟩ := Store.hashable_spec s fb b hb
  have hblt := Store.get?_lt s b nb hgb
  have heb1 : s1.expr b = s.expr b := Store.expr_of_extends s s1 hok hext1 b hblt
  obtain ⟨pb, s2, hrb, hok2, hext2, hhb, heb⟩ :=
    Store.ensureHashed_run s1 b fb hok1 (Store.hashable_of_extends s s1 hext1 fb b hb) fuel
      (by rw [heb1]; exact hfb)
  -- both handles are hashed in the last store, where they stand for the terms of `a`, `b`
  obtain ⟨na, hna, _⟩ := Store.isHashed_spec s1 pa hha
  have hea2 : s2.expr pa = s.expr a := by
    rw [Store.expr_of_extends s1 s2 hok1 hext2 pa (Store.get?_lt s1 pa na hna), hea]
  have heb2 : s2.expr pb = s.expr b := by rw [heb, heb1]
  refine ⟨pa, s1, pb, s2, hra, hrb, ?_, hea, heb2, hea⟩
  constructor
  · intro h
    rw [← hea2, ← heb2, h]
  · intro h
    exact Store.hashed_expr_inj s2 hok2 pa pa pb (Nat.le_refl _)
      (Store.isHashed_of_extends s1 s2 hext2 pa hha) hhb (by rw [hea2, heb2, h])

/-- C26: idempotence of `ensureHashed`.  In a well-formed store, for every handle `x`
below which no symbol is un-hashed and no handle dangles, `ensureHashed(x)` returns,
with fuel for twice the size of the term, a handle `p` whose node carries the flag
`IS_HASHED`, and `ensureHashed(p)` is `p` again, in the same store and whatever the
fuel: `ensureHashed(ensureHashed(x))` is `ensureHashed(x)`.  A node that already carries
the flag is returned unchanged, and the store with it. -/
theorem ensureHashed_idempotent (s : Store) (x f : Nat) (hok : s.ok = true)
    (hh : s.hashable f x = true) (fuel : Nat) (hfuel : 2 * (s.expr x).size ≤ fuel) :
    (∃ p s1, Store.ensureHashed fuel s x = some (some p, s1) ∧ s1.isHashed p = true
        ∧ ∀ fuel2, Store.ensureHashed fuel2 s1 p = some (some p, s1))
      ∧ (∀ y fuel2, s.isHashed y = true → Store.ensureHashed fuel2 s y = some (some y, s)) := by
  have hflag : ∀ (t : Store) (y fuel2 : Nat), t.isHashed y = true →
      Store.ensureHashed fuel2 t y = some (some y, t) := by
    intro t y fuel2 hy
    obtain ⟨n, hn, hnh⟩ := Store.isHashed_spec t y hy
    simp [Store.ensureHashed, hn, hnh]
  obtain ⟨p, s1, hr, _, _, hp, _⟩ := Store.ensureHashed_run s x f hok hh fuel hfuel
  exact ⟨⟨p, s1, hr, hp, fun fuel2 => hflag s1 p fuel2 hp⟩, hflag s⟩

/-- C27 (counterexample): the kind `EVAL_NOT` with the child types `[Int -> Int, Bool]`
passes the arity gate, the leading function type not being counted, and
`getLiteralOpType` returns the function type `Int -> Int` at position 0, not the type
`Bool` of the first child after the index.  The kind `EVAL_CONCAT` with the child types
`[Int -> Int, Int -> Bool, Int]` passes the gate and the result is `Int -> Bool`, the
type after the leading index, which is a function type, not the type `Int` of the first
child that is not a function.  The kind `EVAL_TO_LIST` with the one child type `[Int]`
passes the gate and has no second child type to return: the read of position 1 is out
of range. -/
theorem getLiteralOpType_index_position :
    checkArity .EVAL_NOT ([Expr.node .FUNCTION_TYPE [sInt, sInt], mkBoolType].length - 1) = true
      ∧ getLiteralOpType sampleEnv [] .EVAL_NOT
          [some (.node .FUNCTION_TYPE [sInt, sInt]), some mkBoolType]
        = some (some (.node .FUNCTION_TYPE [sInt, sInt]), [])
      ∧ Expr.node .FUNCTION_TYPE [sInt, sInt] ≠ mkBoolType
      ∧ checkArity .EVAL_CONCAT
          ([Expr.node .FUNCTION_TYPE [sInt, sInt], .node .FUNCTION_TYPE [sInt, mkBoolType],
            sInt].length - 1) = true
      ∧ getLiteralOpType sampleEnv [] .EVAL_CONCAT
          [some (.node .FUNCTION_TYPE [sInt, sInt]),
           some (.node .FUNCTION_TYPE [sInt, mkBoolType]), some sInt]
        = some (some (.node .FUNCTION_TYPE [sInt, mkBoolType]), [])
      ∧ (Expr.node .FUNCTION_TYPE [sInt, mkBoolType]).getKind = .FUNCTION_TYPE
      ∧ sInt.getKind ≠ .FUNCTION_TYPE
      ∧ checkArity .EVAL_TO_LIST ([sInt].length - 0) = true
      ∧ getLiteralOpType sampleEnv [] .EVAL_TO_LIST [some sInt] = none := by
  refine ⟨by decide, by decide, by decide, by decide, by decide, by decide, by decide,
    by decide, by decide⟩

/-- C27 (amended): the result type of a literal operator.  Let the table of literal type
rules be one that a type checker can hold, let the child types be non-null and let `i`
be 1 when the first child type is a `FUNCTION_TYPE` and 0 otherwise.  When the arity
gate passes on the number of child types minus `i`, `getLiteralOpType` returns: the type
at position 0 for `EVAL_ADD`, `EVAL_MUL`, `EVAL_NEG`, `EVAL_AND`, `EVAL_OR`, `EVAL_XOR`,
`EVAL_NOT`; the type at position 1 for `EVAL_IF_THEN_ELSE` and `EVAL_CONS`, and for
`EVAL_TO_LIST` and `EVAL_FROM_LIST` when there is a second child type; the type at
position 2 for `EVAL_REQUIRES`; the type at position `i` for `EVAL_CONCAT` and
`EVAL_EXTRACT`; `Bool` for `EVAL_IS_EQ` and `EVAL_IS_NEG`; the type rule of `NUMERAL`
for `EVAL_HASH`, `EVAL_INT_DIV`, `EVAL_TO_INT`, `EVAL_LENGTH`, `EVAL_FIND`; the type rule
of `RATIONAL` for `EVAL_RAT_DIV` and `EVAL_TO_RAT`; and null for `EVAL_TO_BV`,
`EVAL_TO_STRING` and every kind that is not an evaluation operator. -/
theorem getLiteralOpType_result (env : Env) (opts : Options)
    (rules : List (Kind × Option Expr)) (hreach : RulesReachable env opts rules)
    (k : Kind) (cts : List Expr)
    (hgate : checkArity k (cts.length - childTypesIndex cts) = true) :
    ((k = .EVAL_ADD ∨ k = .EVAL_MUL ∨ k = .EVAL_NEG ∨ k = .EVAL_AND ∨ k = .EVAL_OR
          ∨ k = .EVAL_XOR ∨ k = .EVAL_NOT) →
        ∃ t, cts[0]? = some t
          ∧ getLiteralOpType env rules k (cts.map some) = some (some t, rules))
      ∧ ((k = .EVAL_IF_THEN_ELSE ∨ k = .EVAL_CONS) →
        ∃ t, cts[1]? = some t
          ∧ getLiteralOpType env rules k (cts.map some) = some (some t, rules))
      ∧ ((k = .EVAL_TO_LIST ∨ k = .EVAL_FROM_LIST) →
        ∀ t, cts[1]? = some t →
          getLiteralOpType env rules k (cts.map some) = some (some t, rules))
      ∧ (k = .EVAL_REQUIRES →
        ∃ t, cts[2]? = some t
          ∧ getLiteralOpType env rules k (cts.map some) = some (some t, rules))
      ∧ ((k = .EVAL_CONCAT ∨ k = .EVAL_EXTRACT) →
        ∃ t, cts[childTypesIndex cts]? = some t
          ∧ getLiteralOpType env rules k (cts.map some) = some (some t, rules))
      ∧ ((k = .EVAL_IS_EQ ∨ k = .EVAL_IS_NEG) →
        getLiteralOpType env rules k (cts.map some) = some (some mkBoolType, rules))
      ∧ ((k = .EVAL_HASH ∨ k = .EVAL_INT_DIV ∨ k = .EVAL_TO_INT ∨ k = .EVAL_LENGTH
          ∨ k = .EVAL_FIND) →
        ∃ t rules2, getOrSetLiteralTypeRule env rules .NUMERAL = some (t, rules2)
          ∧ getLiteralOpType env rules k (cts.map some) = some (some t, rules2))
      ∧ ((k = .EVAL_RAT_DIV ∨ k = .EVAL_TO_RAT) →
        ∃ t rules2, getOrSetLiteralTypeRule env rules .RATIONAL = some (t, rules2)
          ∧ getLiteralOpType env rules k (cts.map some) = some (some t, rules2))
      ∧ ((k = .EVAL_TO_BV ∨ k = .EVAL_TO_STRING ∨ isLiteralOp k = false) →
        getLiteralOpType env rules k (cts.map some) = some (none, rules)) := by
  have hi : childTypesIndex cts ≤ 1 := by
    cases cts with
    | nil => simp [childTypesIndex]
    | cons t0 rest =>
      simp only [childTypesIndex]
      split <;> omega
  have hget : ∀ j : Nat, j < cts.length → ∃ t, cts[j]? = some t := by
    intro j hj
    exact ⟨cts[j], List.getElem?_eq_getElem hj⟩
  have hrule : ∀ lk, registeredKind opts lk →
      ∃ t rules2, getOrSetLiteralTypeRule env rules lk = some (t, rules2) := by
    intro lk hlk
    have hne := (rulesReachable_registered env opts rules hreach lk).mpr hlk
    unfold getOrSetLiteralTypeRule
    cases hf : assocFind lk rules with
    | none => exact absurd hf hne
    | some cur =>
      cases cur with
      | none => exact ⟨_, _, rfl⟩
      | some t => exact ⟨_, _, rfl⟩
  have harity := (checkArity_true_iff k _).mp hgate
  -- the method after its arity gate: the position that is read, or the rule, by kind
  have hmain : getLiteralOpType env rules k (cts.map some)
      = (match k with
        | .EVAL_ADD | .EVAL_MUL | .EVAL_NEG | .EVAL_AND | .EVAL_OR | .EVAL_XOR | .EVAL_NOT =>
          (cts[0]?).map (fun t => (some t, rules))
        | .EVAL_IF_THEN_ELSE | .EVAL_CONS | .EVAL_TO_LIST | .EVAL_FROM_LIST =>
          (cts[1]?).map (fun t => (some t, rules))
        | .EVAL_REQUIRES => (cts[2]?).map (fun t => (some t, rules))
        | .EVAL_CONCAT | .EVAL_EXTRACT =>
          (cts[childTypesIndex cts]?).map (fun t => (some t, rules))
        | .EVAL_IS_EQ | .EVAL_IS_NEG => some (some mkBoolType, rules)
        | .EVAL_HASH | .EVAL_INT_DIV | .EVAL_TO_INT | .EVAL_LENGTH | .EVAL_FIND =>
          (getOrSetLiteralTypeRule env rules .NUMERAL).map (fun p => (some p.1, p.2))
        | .EVAL_RAT_DIV | .EVAL_TO_RAT =>
          (getOrSetLiteralTypeRule env rules .RATIONAL).map (fun p => (some p.1, p.2))
        | _ => some (none, rules)) := by
    unfold getLiteralOpType
    rcases cts with _ | ⟨t0, rest⟩
    · simp only [List.map_nil, List.length_nil, childTypesIndex] at hgate ⊢
      simp only [hgate, Bool.not_true, Bool.false_eq_true, if_false]
      cases k <;> first | rfl | (simp [checkArity] at hgate)
    · by_cases hf : t0.getKind = .FUNCTION_TYPE
      · simp only [childTypesIndex, hf, if_true, List.length_cons] at hgate ⊢
        simp only [List.map_cons, hf, if_true, List.length_cons, List.length_map, hgate,
          Bool.not_true, Bool.false_eq_true, if_false]
        cases k <;>
          simp only [List.getElem?_cons_zero, List.getElem?_cons_succ, List.getElem?_map,
            Option.map_some'] <;>
          first
          | rfl
          | (cases getOrSetLiteralTypeRule env rules .NUMERAL <;> rfl)
          | (cases getOrSetLiteralTypeRule env rules .RATIONAL <;> rfl)
          | (cases rest[0]? <;> rfl)
          | (cases rest[1]? <;> rfl)
      · simp only [childTypesIndex, hf, if_false, List.length_cons] at hgate ⊢
        simp only [List.map_cons, hf, if_false, List.length_cons, List.length_map, hgate,
          Bool.not_true, Bool.false_eq_true]
        cases k <;>
          simp only [List.getElem?_cons_zero, List.getElem?_cons_succ, List.getElem?_map,
            Option.map_some'] <;>
          first
          | rfl
          | (cases getOrSetLiteralTypeRule env rules .NUMERAL <;> rfl)
          | (cases getOrSetLiteralTypeRule env rules .RATIONAL <;> rfl)
          | (cases rest[0]? <;> rfl)
          | (cases rest[1]? <;> rfl)
  rw [hmain]
  refine ⟨?_, ?_, ?_, ?_, ?_, ?_, ?_, ?_, ?_⟩
  · intro hk
    obtain ⟨t, ht⟩ := hget 0 (by
      rcases hk with h | h | h | h | h | h | h <;> subst h <;>
        simp [arityTable] at harity <;> omega)
    refine ⟨t, ht, ?_⟩
    rcases hk with h | h | h | h | h | h | h <;> subst h <;> simp [ht]
  · intro hk
    obtain ⟨t, ht⟩ := hget 1 (by
      rcases hk with h | h <;> subst h <;> simp [arityTable] at harity <;> omega)
    refine ⟨t, ht, ?_⟩
    rcases hk with h | h <;> subst h <;> simp [ht]
  · intro hk t ht
    rcases hk with h | h <;> subst h <;> simp [ht]
  · intro hk
    subst hk
    obtain ⟨t, ht⟩ := hget 2 (by simp [arityTable] at harity; omega)
    exact ⟨t, ht, by simp [ht]⟩
  · intro hk
    obtain ⟨t, ht⟩ := hget (childTypesIndex cts) (by
      rcases hk with h | h <;> subst h <;> simp [arityTable] at harity <;> omega)
    refine ⟨t, ht, ?_⟩
    rcases hk with h | h <;> subst h <;> simp [ht]
  · intro hk
    rcases hk with h | h <;> subst h <;> rfl
  · intro hk
    obtain ⟨t, rules2, hr⟩ := hrule .NUMERAL (Or.inr (Or.inl rfl))
    refine ⟨t, rules2, hr, ?_⟩
    rcases hk with h | h | h | h | h <;> subst h <;> simp [hr]
  · intro hk
    obtain ⟨t, rules2, hr⟩ := hrule .RATIONAL (Or.inr (Or.inr (Or.inl rfl)))
    refine ⟨t, rules2, hr, ?_⟩
    rcases hk with h | h <;> subst h <;> simp [hr]
  · intro hk
    rcases hk with h | h | h
    · subst h
      rfl
    · subst h
      rfl
    · cases k <;> first | rfl | simp [isLiteralOp] at h

/-- C28 (counterexample): the program `pick` has the rules `(pick x y) -> y` and
`(pick x) -> x`.  On the ground arguments `[pick, a]` the first rule has the wrong arity
and the second rule has the arity of the call and matches, with the context `x -> a`;
`evaluateProgram` returns the unreduced application `(pick a)` with an empty context,
not the right-hand side of the second rule. -/
theorem evaluateProgram_wrong_arity_returns :
    samplePickEnv.getProgram sPick = some sPickProgram
      ∧ isGround [sPick, sA] = true
      ∧ sPickProgram.children
          = [.node .TUPLE [.node .APPLY [sPick, sX, sY], sY],
             .node .TUPLE [.node .APPLY [sPick, sX], sX]]
      ∧ (Expr.node .APPLY [sPick, sX, sY]).children.length ≠ [sPick, sA].length
      ∧ (Expr.node .APPLY [sPick, sX]).children.length = [sPick, sA].length
      ∧ matchArgs [sX] [sA] [] = (true, [(sX, sA)])
      ∧ evaluateProgram samplePickEnv [sPick, sA] [] = some (.node .APPLY [sPick, sA], [])
      ∧ Expr.node .APPLY [sPick, sA] ≠ ensureHashed sX := by
  refine ⟨rfl, by decide, rfl, by decide, by decide, by decide, by decide, by decide⟩

/-- C28 (amended): a rule with the wrong arity ends the call.  For an interpreted program
constant `hd` applied to ground arguments, where the rules before the rule `c` have the
arity of the call and each fails to match the arguments, and the pattern of `c` has an
arity that differs from the number of arguments, `evaluateProgram` returns the unreduced
application of `hd` to the arguments, with an empty context, whatever rules come after
`c`: the remaining rules are not tried. -/
theorem evaluateProgram_wrong_arity (env : Env) (hd prog c pat : Expr)
    (args pre post : List Expr) (outCtx : Ctx)
    (hk : hd.getKind = .PROGRAM_CONST) (hcomp : env.isCompiled hd = false)
    (hprog : env.getProgram hd = some prog) (hg : isGround (hd :: args) = true)
    (hrules : prog.children = pre ++ c :: post)
    (hpre : ∀ r ∈ pre, ∃ p, r.children[0]? = some p
      ∧ p.children.length = (hd :: args).length
      ∧ (matchArgs (p.children.drop 1) args []).1 = false)
    (hpat : c.children[0]? = some pat)
    (hlen : pat.children.length ≠ (hd :: args).length) :
    evaluateProgram env (hd :: args) outCtx = some (mkExprInternal .APPLY (hd :: args), []) := by
  have hlen2 : ¬ (hd :: args).length = pat.children.length := fun h => hlen h.symm
  have key : ∀ (pre : List Expr) (ctx0 : Ctx),
      (∀ r ∈ pre, ∃ p, r.children[0]? = some p
        ∧ p.children.length = (hd :: args).length
        ∧ (matchArgs (p.children.drop 1) args []).1 = false) →
      evaluateRules (hd :: args) (pre ++ c :: post) ctx0 = some (none, []) := by
    intro pre
    induction pre with
    | nil =>
      intro ctx0 _
      simp only [List.nil_append, evaluateRules, hpat, ne_eq, hlen2, not_false_eq_true, if_true]
    | cons r pre ih =>
      intro ctx0 hpre
      obtain ⟨p, hp, hplen, hpm⟩ := hpre r (List.mem_cons_self _ _)
      simp only [List.cons_append, evaluateRules, hp, hplen, List.drop_succ_cons,
        List.drop_zero, hpm]
      simp only [ne_eq, not_true_eq_false, if_false, Bool.false_eq_true]
      exact ih _ (fun r2 h2 => hpre r2 (List.mem_cons_of_mem _ h2))
  simp [evaluateProgram, evaluateProgramInternal, hg, hk, hcomp, hprog, hrules,
    key pre outCtx hpre]

/-- C29: evaluation is substitution on constructor terms.  Let `e` be a term and `ctx` a
context such that, outside the parameters, no node of `e` is an evaluation operator or
compiled and every `APPLY` has a head that is not, and is not bound by `ctx` to, a
`PROGRAM_CONST` or an `ORACLE`.  Then `evaluate(e, ctx)` returns, within `2 * size(e) + 1`
passes of its loops, `ensureHashed` of the term obtained from `e` by replacing, in one
simultaneous pass, every `PARAM` bound in `ctx` by its bound value, the unbound
parameters and all else being kept; in particular `evaluate(e, empty context)` is
`ensureHashed(e)`. -/
theorem evaluate_constructor_term (env : Env) (ctx : Ctx) (e : Expr)
    (hplain : evalPlain env ctx e = true) :
    (∀ fuel, 2 * e.size + 1 ≤ fuel →
        evaluate env fuel e ctx = some (ensureHashed (substitute ctx e)))
      ∧ (ctx = [] → ∀ fuel, 2 * e.size + 1 ≤ fuel →
        evaluate env fuel e [] = some (ensureHashed e)) := by
  have hmain : ∀ fuel, 2 * e.size + 1 ≤ fuel →
      evaluate env fuel e ctx = some (ensureHashed (substitute ctx e)) := by
    intro fuel hfuel
    -- the frame of `e` visits `e` and records the substitution for it
    obtain ⟨m, V2, hm, hrun, hfind, _, _⟩ :=
      visitRun_of_evalPlain env ctx e none [] [] none e.size e (Nat.le_refl _) hplain [] []
        (fun _ _ h => by simp [assocFind] at h) (fun _ h => by simp [assocFind] at h)
    obtain ⟨k, rfl⟩ : ∃ k, fuel = (k + 1) + m := ⟨fuel - 1 - m, by omega⟩
    unfold evaluate EvFrame.new
    rw [hrun]
    -- the frame is popped and its result returned
    have hfin : evalFinish ⟨e, ctx, V2, [], none⟩ [] []
        = some ⟨[], [], some (substitute ctx e)⟩ := by
      simp [evalFinish, hfind]
    rw [evaluateLoop_finish env k _ [] [] none _ rfl hfin, evaluateLoop_nil]
    rfl
  refine ⟨hmain, ?_⟩
  intro hctx fuel hfuel
  subst hctx
  have := hmain fuel hfuel
  rwa [substitute_nil] at this

/-- C30 (the code at the failing input): the pattern `f(x, x)` and the term `f(x, a)`
share the parameter `x`.  `match`, started from the empty context, returns true with
the context `x -> a`: the pair `(x, a)` binds `x`, and the pair `(x, x)` is skipped as
identical.  The substitution of that context into the pattern is `f(a, a)`, which is not
the term.  Through `getTypeApp`: in the scope of a type parameter `T`, with
`g : T -> T -> Bool`, `x : T` and `a : Int`, the application `(g x a)` gets the type
`Bool`. -/
theorem match_shared_parameter :
    (matchFresh (.node .APPLY [sF, sX, sX]) (.node .APPLY [sF, sX, sA]) []).ret = true
      ∧ (matchFresh (.node .APPLY [sF, sX, sX]) (.node .APPLY [sF, sX, sA]) []).ctx
          = [(sX, sA)]
      ∧ substitute [(sX, sA)] (.node .APPLY [sF, sX, sX]) = .node .APPLY [sF, sA, sA]
      ∧ Expr.node .APPLY [sF, sA, sA] ≠ .node .APPLY [sF, sX, sA]
      ∧ lookupType sampleParamState sG = some (.node .FUNCTION_TYPE [sT, sT, mkBoolType])
      ∧ lookupType sampleParamState sX = some sT
      ∧ lookupType sampleParamState sA = some sInt
      ∧ getTypeApp sampleEnv 10 sampleParamState [sG, sX, sA] = some (some mkBoolType) := by
  refine ⟨by decide, by decide, by decide, by decide, by decide, by decide, by decide,
    by decide⟩

/-- C31 (the code at the failing input): the operator `cons` is declared
`RIGHT_ASSOC_NIL`.  The vector `[cons]` is not empty, its term is ground and
`checkArity(EVAL_TO_LIST, 1)` is true; `evaluateLiteralOp(EVAL_TO_LIST, [cons])` takes
the path of the list operations, which reads `args[1]`, a position that the vector does
not have: the run is a fault.  The same holds of `EVAL_FROM_LIST` on `[cons]`, which
reads `args[1]`, and of `EVAL_CONS` and `EVAL_FIND` on `[cons, a]`, of `EVAL_CONCAT` on
`[cons, nil]` and of `EVAL_EXTRACT` on `[cons, a]`, which read `args[2]`.  The evaluator
reaches the fault on the term `(alf.to_list cons)`, whatever the fuel. -/
theorem evaluateLiteralOp_index_out_of_range :
    sampleListEnv.getAppInfo sCons = some ⟨.RIGHT_ASSOC_NIL, sNil⟩
      ∧ (isGround [sCons] = true ∧ isGround [sCons, sA] = true
        ∧ isGround [sCons, sNil] = true
      ∧ checkArity .EVAL_TO_LIST [sCons].length = true
      ∧ ([sCons] : List Expr)[1]? = none
      ∧ evaluateLiteralOp sampleListEnv .EVAL_TO_LIST [sCons] = none
      ∧ checkArity .EVAL_FROM_LIST [sCons].length = true
      ∧ evaluateLiteralOp sampleListEnv .EVAL_FROM_LIST [sCons] = none
      ∧ checkArity .EVAL_CONS [sCons, sA].length = true
      ∧ ([sCons, sA] : List Expr)[2]? = none
      ∧ evaluateLiteralOp sampleListEnv .EVAL_CONS [sCons, sA] = none
      ∧ checkArity .EVAL_FIND [sCons, sA].length = true
      ∧ evaluateLiteralOp sampleListEnv .EVAL_FIND [sCons, sA] = none
      ∧ checkArity .EVAL_CONCAT [sCons, sNil].length = true
      ∧ evaluateLiteralOp sampleListEnv .EVAL_CONCAT [sCons, sNil] = none
      ∧ checkArity .EVAL_EXTRACT [sCons, sA].length = true
      ∧ evaluateLiteralOp sampleListEnv .EVAL_EXTRACT [sCons, sA] = none)
      ∧ ∀ fuel, evaluate sampleListEnv fuel (.node .EVAL_TO_LIST [sCons]) [] = none := by
  refine ⟨rfl, by decide, ?_⟩
  intro fuel
  -- the first visit of the operator, the visit of its child, the second visit
  have h1 : evalVisit sampleListEnv ⟨.node .EVAL_TO_LIST [sCons], [], [],
      [.node .EVAL_TO_LIST [sCons]], none⟩ [] [] (.node .EVAL_TO_LIST [sCons]) []
      = some ([⟨.node .EVAL_TO_LIST [sCons], [], [(.node .EVAL_TO_LIST [sCons], none)],
          [sCons, .node .EVAL_TO_LIST [sCons]], none⟩], []) := by rfl
  have h2 : evalVisit sampleListEnv ⟨.node .EVAL_TO_LIST [sCons], [],
      [(.node .EVAL_TO_LIST [sCons], none)],
      [sCons, .node .EVAL_TO_LIST [sCons]], none⟩ [] [] sCons [.node .EVAL_TO_LIST [sCons]]
      = some ([⟨.node .EVAL_TO_LIST [sCons], [],
          [(sCons, some sCons), (.node .EVAL_TO_LIST [sCons], none)],
          [.node .EVAL_TO_LIST [sCons]], none⟩], []) := by rfl
  have h3 : evalVisit sampleListEnv ⟨.node .EVAL_TO_LIST [sCons], [],
      [(sCons, some sCons), (.node .EVAL_TO_LIST [sCons], none)],
      [.node .EVAL_TO_LIST [sCons]], none⟩ [] [] (.node .EVAL_TO_LIST [sCons]) []
      = none := by rfl
  rcases fuel with _ | _ | _ | fuel
  · decide
  · decide
  · decide
  · unfold evaluate
    rw [EvFrame.new, evaluateLoop_step sampleListEnv _ _ [] [] none _ [] _ _ rfl h1,
      evaluateLoop_step sampleListEnv _ _ [] [] none _ _ _ _ rfl h2]
    exact evaluateLoop_step_none sampleListEnv fuel _ [] [] none _ [] rfl h3

/-- C32 (the code at the failing input): for the kind `EVAL_TO_LIST` and the one child
type `[Int]`, which is not a function type, the arity gate inside `getLiteralOpType`
passes (`checkArity(EVAL_TO_LIST, 1 - 0)`), and the result is read at position 1, which
the vector does not have: the run is a fault.  The same holds of `EVAL_FROM_LIST`.
`getType` reaches the fault on the term `(alf.to_list a)` with `a : Int`, whatever the
fuel. -/
theorem getLiteralOpType_index_out_of_range :
    childTypesIndex [sInt] = 0
      ∧ checkArity .EVAL_TO_LIST ([sInt].length - childTypesIndex [sInt]) = true
      ∧ ([some sInt] : List (Option Expr))[1]? = none
      ∧ getLiteralOpType sampleEnv sampleState.d_literalTypeRules .EVAL_TO_LIST [some sInt]
          = none
      ∧ checkArity .EVAL_FROM_LIST ([sInt].length - childTypesIndex [sInt]) = true
      ∧ getLiteralOpType sampleEnv sampleState.d_literalTypeRules .EVAL_FROM_LIST [some sInt]
          = none
      ∧ lookupType sampleState sA = some sInt
      ∧ ∀ fuel, getType sampleEnv fuel sampleState (.node .EVAL_TO_LIST [sA]) = none := by
  refine ⟨by decide, by decide, by decide, by decide, by decide, by decide, by decide, ?_⟩
  intro fuel
  rcases fuel with _ | _ | _ | fuel
  · decide
  · decide
  · decide
  · rw [getType_of_cached_children sampleEnv (fuel + 3) sampleState (.node .EVAL_TO_LIST [sA])
        (by decide) (by decide) (by simp [Expr.getNumChildren]),
      getTypeInternal_literalOp sampleEnv (fuel + 3) sampleState (.node .EVAL_TO_LIST [sA])
        (by decide)]
    have h : getLiteralOpType sampleEnv sampleState.d_literalTypeRules
        (Expr.node .EVAL_TO_LIST [sA]).getKind
        ((Expr.node .EVAL_TO_LIST [sA]).children.map (lookupType sampleState)) = none := by
      decide
    rw [h]

/-- C33: `match` never overwrites or removes a binding.  For every pattern, term, initial
context and initial set of visited pairs, whether `match` returns true or false, every
parameter that the context binds before the call is bound to the same term after it.
The call is not atomic: on the pattern `f(a, x)` and the term `f(c, b)`, `match` from
the empty context returns false and leaves the binding `x -> b`, which it added before
it failed on the pair `(a, c)`. -/
theorem match_keeps_bindings (p t : Expr) (ctx : Ctx) (visited : MatchVisited) :
    ctxExtends ctx (matchVisited p t ctx visited).ctx
      ∧ ctxExtends ctx (matchFresh p t ctx).ctx
      ∧ (matchFresh (.node .APPLY [sF, sA, sX]) (.node .APPLY [sF, sC, sB]) []).ret = false
      ∧ (matchFresh (.node .APPLY [sF, sA, sX]) (.node .APPLY [sF, sC, sB]) []).ctx
          = [(sX, sB)] := by
  -- each pass of the loop keeps the context or adds a binding for an unbound parameter
  have key : ∀ (fuel : Nat) (stack : List (Expr × Expr)) (visited : MatchVisited) (ctx : Ctx)
      (r : MatchResult), matchLoop fuel stack visited ctx = some r → ctxExtends ctx r.ctx := by
    intro fuel
    induction fuel with
    | zero =>
      intro stack visited ctx r h
      cases stack with
      | nil =>
        simp only [matchLoop, Option.some.injEq] at h
        subst h
        exact ctxExtends_refl _
      | cons curr rest => simp [matchLoop] at h
    | succ fuel ih =>
      intro stack visited ctx r h
      cases stack with
      | nil =>
        simp only [matchLoop, Option.some.injEq] at h
        subst h
        exact ctxExtends_refl _
      | cons curr rest =>
        rw [matchLoop] at h
        by_cases h1 : curr.1 = curr.2
        · simp only [h1, if_true] at h
          exact ih _ _ _ _ h
        · simp only [h1, if_false] at h
          by_cases h2 : curr ∈ visited
          · simp only [h2, if_true] at h
            exact ih _ _ _ _ h
          · simp only [h2, if_false] at h
            by_cases h3 : curr.1.getNumChildren = 0
            · simp only [h3, if_true] at h
              by_cases h4 : curr.1.getKind = .PARAM
              · simp only [h4, if_true] at h
                cases hf : assocFind curr.1 ctx with
                | none =>
                  simp only [hf] at h
                  exact ctxExtends_trans (ctxExtends_cons ctx curr.1 curr.2 hf) (ih _ _ _ _ h)
                | some bound =>
                  simp only [hf] at h
                  by_cases h5 : bound = curr.2
                  · simp only [h5, ne_eq, not_true_eq_false, if_false] at h
                    exact ih _ _ _ _ h
                  · simp only [ne_eq, h5, not_false_eq_true, if_true, Option.some.injEq] at h
                    subst h
                    exact ctxExtends_refl _
              · simp only [h4, if_false, Option.some.injEq] at h
                subst h
                exact ctxExtends_refl _
            · simp only [h3, if_false] at h
              by_cases h6 : curr.1.getNumChildren ≠ curr.2.getNumChildren
                  ∨ curr.1.getKind ≠ curr.2.getKind
              · simp only [h6, if_true, Option.some.injEq] at h
                subst h
                exact ctxExtends_refl _
              · simp only [h6, if_false] at h
                exact ih _ _ _ _ h
  refine ⟨?_, ?_, by decide, by decide⟩
  · exact key _ _ _ _ _ (matchVisited_spec p t ctx visited)
  · exact key _ _ _ _ _ (matchVisited_spec p t ctx [])

/-- C34: `match` terminates.  For every pattern `p`, term `t`, initial context and
initial set of visited pairs, the work-stack loop of `match` halts within `size(p)`
passes, and with any larger fuel, and returns a result `r` with its boolean.  The pairs
that the loop processes, those that it inserts in the set of visited pairs, are pairs
of a subterm of `p` and a subterm of `t`; no pair is processed twice, and none that was
in the initial set is processed. -/
theorem match_terminates (p t : Expr) (ctx : Ctx) (visited : MatchVisited) :
    ∃ (r : MatchResult) (processed : List (Expr × Expr)),
      (∀ fuel, p.size ≤ fuel → matchLoop fuel [(p, t)] visited ctx = some r)
        ∧ matchVisited p t ctx visited = r
        ∧ r.visited = processed ++ visited
        ∧ processed.Nodup
        ∧ (∀ pr ∈ processed, pr ∉ visited)
        ∧ (∀ pr ∈ processed, pr.1 ∈ p.subterms ∧ pr.2 ∈ t.subterms) := by
  -- the pairs that a run of the loop inserts in the set of visited pairs
  have key : ∀ (fuel : Nat) (stack : List (Expr × Expr)) (visited : MatchVisited) (ctx : Ctx)
      (r : MatchResult), matchLoop fuel stack visited ctx = some r →
      ∃ processed, r.visited = processed ++ visited ∧ processed.Nodup
        ∧ (∀ pr ∈ processed, pr ∉ visited)
        ∧ (∀ pr ∈ processed, ∃ q ∈ stack, pr.1 ∈ q.1.subterms ∧ pr.2 ∈ q.2.subterms) := by
    intro fuel
    induction fuel with
    | zero =>
      intro stack visited ctx r h
      cases stack with
      | nil =>
        simp only [matchLoop, Option.some.injEq] at h
        subst h
        exact ⟨[], rfl, List.nodup_nil, (fun _ h => by cases h), (fun _ h => by cases h)⟩
      | cons curr rest => simp [matchLoop] at h
    | succ fuel ih =>
      intro stack visited ctx r h
      cases stack with
      | nil =>
        simp only [matchLoop, Option.some.injEq] at h
        subst h
        exact ⟨[], rfl, List.nodup_nil, (fun _ h => by cases h), (fun _ h => by cases h)⟩
      | cons curr rest =>
        -- a pass that skips the pair
        have hskip : matchLoop fuel rest visited ctx = some r →
            ∃ processed, r.visited = processed ++ visited ∧ processed.Nodup
              ∧ (∀ pr ∈ processed, pr ∉ visited)
              ∧ (∀ pr ∈ processed, ∃ q ∈ curr :: rest,
                  pr.1 ∈ q.1.subterms ∧ pr.2 ∈ q.2.subterms) := by
          intro h2
          obtain ⟨pc, e1, e2, e3, e4⟩ := ih _ _ _ _ h2
          refine ⟨pc, e1, e2, e3, ?_⟩
          intro pr hpr
          obtain ⟨q, hq, hs⟩ := e4 pr hpr
          exact ⟨q, List.mem_cons_of_mem _ hq, hs⟩
        -- a pass that processes the pair and stops
        have hstop : ∀ c2 : Ctx, curr ∉ visited →
            ∃ processed, (⟨false, c2, curr :: visited⟩ : MatchResult).visited
                = processed ++ visited ∧ processed.Nodup
              ∧ (∀ pr ∈ processed, pr ∉ visited)
              ∧ (∀ pr ∈ processed, ∃ q ∈ curr :: rest,
                  pr.1 ∈ q.1.subterms ∧ pr.2 ∈ q.2.subterms) := by
          intro c2 hnv
          refine ⟨[curr], rfl, List.nodup_singleton _, ?_, ?_⟩
          · intro pr hpr
            rw [List.mem_singleton.mp hpr]
            exact hnv
          · intro pr hpr
            rw [List.mem_singleton.mp hpr]
            exact ⟨curr, List.mem_cons_self _ _, Expr.mem_subterms_self _,
              Expr.mem_subterms_self _⟩
        -- a pass that processes the pair and goes on, with the children or without
        have hgo : ∀ (stack2 : List (Expr × Expr)) (c2 : Ctx), curr ∉ visited →
            (∀ q ∈ stack2, q ∈ rest ∨ q ∈ curr.1.children.zip curr.2.children) →
            matchLoop fuel stack2 (curr :: visited) c2 = some r →
            ∃ processed, r.visited = processed ++ visited ∧ processed.Nodup
              ∧ (∀ pr ∈ processed, pr ∉ visited)
              ∧ (∀ pr ∈ processed, ∃ q ∈ curr :: rest,
                  pr.1 ∈ q.1.subterms ∧ pr.2 ∈ q.2.subterms) := by
          intro stack2 c2 hnv hst h2
          obtain ⟨pc, e1, e2, e3, e4⟩ := ih _ _ _ _ h2
          refine ⟨pc ++ [curr], by rw [e1]; simp, ?_, ?_, ?_⟩
          · rw [List.nodup_append]
            refine ⟨e2, List.nodup_singleton _, ?_⟩
            intro a ha hb
            rw [List.mem_singleton.mp hb] at ha
            exact e3 curr ha (List.mem_cons_self _ _)
          · intro pr hpr
            rcases List.mem_append.mp hpr with hpr | hpr
            · exact fun hv => e3 pr hpr (List.mem_cons_of_mem _ hv)
            · rw [List.mem_singleton.mp hpr]
              exact hnv
          · intro pr hpr
            rcases List.mem_append.mp hpr with hpr | hpr
            · obtain ⟨q, hq, hs1, hs2⟩ := e4 pr hpr
              rcases hst q hq with hq | hq
              · exact ⟨q, List.mem_cons_of_mem _ hq, hs1, hs2⟩
              · obtain ⟨hc1, hc2⟩ := mem_zip_left hq
                refine ⟨curr, List.mem_cons_self _ _, ?_, ?_⟩
                · rw [Expr.subterms_eq]
                  exact List.mem_cons_of_mem _ (Expr.mem_subtermsList.mpr ⟨q.1, hc1, hs1⟩)
                · rw [Expr.subterms_eq]
                  exact List.mem_cons_of_mem _ (Expr.mem_subtermsList.mpr ⟨q.2, hc2, hs2⟩)
            · rw [List.mem_singleton.mp hpr]
              exact ⟨curr, List.mem_cons_self _ _, Expr.mem_subterms_self _,
                Expr.mem_subterms_self _⟩
        rw [matchLoop] at h
        by_cases h1 : curr.1 = curr.2
        · simp only [h1, if_true] at h
          exact hskip h
        · simp only [h1, if_false] at h
          by_cases h2 : curr ∈ visited
          · simp only [h2, if_true] at h
            exact hskip h
          · simp only [h2, if_false] at h
            by_cases h3 : curr.1.getNumChildren = 0
            · simp only [h3, if_true] at h
              by_cases h4 : curr.1.getKind = .PARAM
              · simp only [h4, if_true] at h
                cases hf : assocFind curr.1 ctx with
                | none =>
                  simp only [hf] at h
                  exact hgo rest _ h2 (fun q hq => Or.inl hq) h
                | some bound =>
                  simp only [hf] at h
                  by_cases h5 : bound = curr.2
                  · simp only [h5, ne_eq, not_true_eq_false, if_false] at h
                    exact hgo rest _ h2 (fun q hq => Or.inl hq) h
                  · simp only [ne_eq, h5, not_false_eq_true, if_true, Option.some.injEq] at h
                    subst h
                    exact hstop ctx h2
              · simp only [h4, if_false, Option.some.injEq] at h
                subst h
                exact hstop ctx h2
            · simp only [h3, if_false] at h
              by_cases h6 : curr.1.getNumChildren ≠ curr.2.getNumChildren
                  ∨ curr.1.getKind ≠ curr.2.getKind
              · simp only [h6, if_true, Option.some.injEq] at h
                subst h
                exact hstop ctx h2
              · simp only [h6, if_false] at h
                refine hgo _ ctx h2 ?_ h
                intro q hq
                rcases List.mem_append.mp hq with hq | hq
                · exact Or.inr (List.mem_reverse.mp hq)
                · exact Or.inl hq
  have hrun := matchVisited_spec p t ctx visited
  have hfuel : matchFuel [(p, t)] = p.size := by simp [matchFuel]
  obtain ⟨processed, e1, e2, e3, e4⟩ := key _ _ _ _ _ hrun
  refine ⟨matchVisited p t ctx visited, processed, ?_, rfl, e1, e2, e3, ?_⟩
  · intro fuel hf
    obtain ⟨k, rfl⟩ : ∃ k, fuel = matchFuel [(p, t)] + k := ⟨fuel - p.size, by omega⟩
    exact matchLoop_mono _ _ _ _ _ hrun k
  · intro pr hpr
    obtain ⟨q, hq, hs⟩ := e4 pr hpr
    rw [List.mem_singleton.mp hq] at hs
    exact hs

/-! ### The theorems at concrete inputs -/

/-- C2 at the pattern `f(x, x)` and the ground term `f(a, a)`. -/
theorem match_sound_ground_witness :
    ctxExtends [] (matchFresh (.node .APPLY [sF, sX, sX]) (.node .APPLY [sF, sA, sA]) []).ctx
      ∧ substitute (matchFresh (.node .APPLY [sF, sX, sX]) (.node .APPLY [sF, sA, sA]) []).ctx
          (.node .APPLY [sF, sX, sX]) = .node .APPLY [sF, sA, sA] :=
  match_sound_ground (.node .APPLY [sF, sX, sX]) (.node .APPLY [sF, sA, sA]) []
    (by decide) (by decide)

/-- C3 at the pattern `f(x, y)`, the term `f(a, b)` and the context `x -> a, y -> b`. -/
theorem match_complete_witness :
    (matchFresh (.node .APPLY [sF, sX, sY]) (.node .APPLY [sF, sA, sB]) [(sX, sA)]).ret = true :=
  match_complete (.node .APPLY [sF, sX, sY]) (.node .APPLY [sF, sA, sB]) [(sX, sA)]
    [(sY, sB), (sX, sA)] (by decide) (ctxExtends_cons [(sX, sA)] sY sB (by decide)) (by decide)

/-- C4 at the pattern `f(x, x)` and the ground term `f(a, a)`. -/
theorem evaluate_match_agreement_witness :
    evaluate sampleEnv 9 (.node .APPLY [sF, sX, sX])
        (matchFresh (.node .APPLY [sF, sX, sX]) (.node .APPLY [sF, sA, sA]) []).ctx
      = some (ensureHashed (.node .APPLY [sF, sA, sA])) :=
  evaluate_match_agreement sampleEnv (.node .APPLY [sF, sX, sX]) (.node .APPLY [sF, sA, sA]) []
    (by decide) (by decide) (by decide) (by decide) 9 (by decide)

/-- C5 at the head `f : Int -> Int` and the argument `a : Int`. -/
theorem getTypeApp_simple_function_witness :
    getTypeApp sampleEnv 2 sampleState [sF, sA] = some (some sInt) :=
  (getTypeApp_simple_function sampleEnv 2 sampleState sF [sA]
    (.node .FUNCTION_TYPE [sInt, sInt]) [sInt] (by decide) rfl (by decide)).2.2.1
    [sInt] sInt rfl (by decide) (by decide) (by decide) (by decide)

/-- C6 at the head `g : (Quote (f x)) -> Int` and the child `f(a)`. -/
theorem getTypeApp_quote_upcast_witness :
    getTypeApp sampleEnv 5 sampleState [sG, .node .APPLY [sF, sA]] = some (some sInt) :=
  ((getTypeApp_quote_upcast sampleEnv 5 sampleState sG (.node .APPLY [sF, sA])
    (.node .APPLY [sF, sX]) sInt (by decide) rfl).1).trans (by decide)

/-- C7 at the application of scenario S4. -/
theorem getType_cache_stable_witness :
    ∃ tc2, getType sampleEnv 20 sampleState sApplyLambda = some (some sInt, tc2)
      ∧ cacheExtends sampleState.d_typeCache tc2.d_typeCache
      ∧ assocFind sApplyLambda tc2.d_typeCache = some sInt
      ∧ getType sampleEnv 1 tc2 sApplyLambda = some (some sInt, tc2) := by
  cases h : getType sampleEnv 20 sampleState sApplyLambda with
  | none => exact absurd h (by decide)
  | some res =>
    obtain ⟨r, tc2⟩ := res
    have hr : r = some sInt := by
      have h2 : (getType sampleEnv 20 sampleState sApplyLambda).map Prod.fst = some (some sInt) := by
        decide
      rw [h] at h2
      simpa using h2
    subst hr
    have key := getType_cache_stable sampleEnv 20 sampleState tc2 sApplyLambda (some sInt) h
    exact ⟨tc2, rfl, key.1, key.2.1 sInt rfl,
      key.2.2 sInt tc2 1 (key.2.1 sInt rfl) (Nat.le_refl 1)⟩

/-- C8 at the ill-typed term `f(Proof(a))`: the walk aborts with null and writes
nothing. -/
theorem getType_all_or_nothing_witness :
    getType sampleEnv 20 sampleState sProofOfA = getTypePostOrder sampleEnv 20 sProofOfA sampleState
      ∧ getType sampleEnv 20 sampleState sProofOfA = some (none, sampleState) :=
  ⟨(getType_all_or_nothing sampleEnv 20 sampleState sProofOfA (by decide)).1, by decide⟩

/-- C9 at the function type `Int -> Int` and at `Proof` of a term of type `Int`. -/
theorem getTypeInternal_type_formers_witness :
    getTypeInternal sampleEnv 0 sampleState (.node .FUNCTION_TYPE [sInt, sInt])
        = some (some mkType, sampleState)
      ∧ getTypeInternal sampleEnv 0 sampleState (.node .PROOF_TYPE [sA])
        = some (none, sampleState) :=
  ⟨(getTypeInternal_type_formers sampleEnv 0 sampleState).1 _ (Or.inr (Or.inr (Or.inr (Or.inl rfl)))),
   ((getTypeInternal_type_formers sampleEnv 0 sampleState).2.2.2.2 sA sInt (by decide)).trans
     (by decide)⟩

/-- C10 at the numeral `7`, whose kind has the ground rule `Int`, and at a string, whose
kind has no rule yet. -/
theorem getTypeInternal_literal_witness :
    (getTypeInternal sampleEnv 0 sampleState sSeven).map Prod.fst = some (some sInt)
      ∧ (getTypeInternal sampleEnv 0 sampleState (.leaf .STRING (.str "a"))).map Prod.fst
          = some (some mkAbstractType) :=
  ⟨by rw [(getTypeInternal_literal sampleEnv 0 sampleState sSeven (some sInt)
      (Or.inl rfl) (by decide)).1]; decide,
   by rw [(getTypeInternal_literal sampleEnv 0 sampleState (.leaf .STRING (.str "a")) none
      (Or.inr (Or.inr (Or.inr (Or.inr (Or.inr rfl))))) (by decide)).1]; decide⟩

/-- C11 at the node `(alf.is_eq a)` and at the node `(alf.is_eq f a)`, whose first child
has a function type. -/
theorem getType_arity_error_witness :
    getType sampleEnv 3 sampleState (.node .EVAL_IS_EQ [sA]) = some (none, sampleState)
      ∧ getType sampleEnv 4 sampleState (.node .EVAL_IS_EQ [sF, sA]) = some (none, sampleState) :=
  ⟨(getType_arity_error sampleEnv 3 sampleState (.node .EVAL_IS_EQ [sA]) (by decide) (by decide)
      (by decide)).2 (by decide) (by unfold arityTable; decide),
   (getType_arity_error sampleEnv 4 sampleState (.node .EVAL_IS_EQ [sF, sA]) (by decide)
      (by decide) (by decide)).2 (by decide)
        (by unfold arityTable; decide)⟩

/-- C12 at the table of the constructor with hexadecimals normalized: `HEXADECIMAL` is
not registered and setting its rule is fatal, `NUMERAL` is registered and its rule is
stored. -/
theorem setLiteralTypeRule_fatal_iff_witness :
    setLiteralTypeRule (literalTypeRulesInit ⟨false, true⟩) .HEXADECIMAL (some sInt) = none
      ∧ assocFind Kind.NUMERAL ((Kind.NUMERAL, some sInt) :: literalTypeRulesInit ⟨false, true⟩)
          = some (some sInt) :=
  ⟨(setLiteralTypeRule_fatal_iff sampleEnv ⟨false, true⟩ _ .HEXADECIMAL (some sInt)
      RulesReachable.init).1.mpr (Or.inl (by simp [registeredKind])),
   ((setLiteralTypeRule_fatal_iff sampleEnv ⟨false, true⟩ _ .NUMERAL (some sInt)
      RulesReachable.init).2.1 _ (by decide)).1⟩

/-- C13 at the call `(plus (s (s 0)) (s 0))` of scenario S2: the first rule fails, the
second rule matches, and the context passed in leaves no binding. -/
theorem evaluateProgram_first_match_witness :
    evaluateProgram sampleProgramEnv [sPlus, sSucc (sSucc sZero), sSucc sZero] [(sA, sB)]
      = some (sSucc (.node .APPLY [sPlus, sX, sY]), [(sY, sSucc sZero), (sX, sSucc sZero)]) :=
  (evaluateProgram_first_match sampleProgramEnv sPlus sPlusProgram
    (.node .TUPLE [.node .APPLY [sPlus, sSucc sX, sY], sSucc (.node .APPLY [sPlus, sX, sY])])
    (.node .APPLY [sPlus, sSucc sX, sY]) (sSucc (.node .APPLY [sPlus, sX, sY]))
    [sSucc (sSucc sZero), sSucc sZero]
    [.node .TUPLE [.node .APPLY [sPlus, sZero, sY], sY]] [] [(sA, sB)]
    rfl rfl (by decide) (by decide) rfl
    (fun r hr => ⟨.node .APPLY [sPlus, sZero, sY],
      by rw [List.mem_singleton.mp hr]; rfl, by decide, by decide⟩)
    rfl rfl (by decide) (by decide)).trans (by decide)

/-- C14 at the call `(plus (s (s 0)) (s 0))` of scenario S2: the body of the second rule
of `plus` evaluates to `s(s(s(0)))` in the context of the match, and so does the call. -/
theorem evaluate_program_unfold_witness :
    evaluate sampleProgramEnv 37 (.node .APPLY [sPlus, sSucc (sSucc sZero), sSucc sZero]) []
      = some (sSucc (sSucc (sSucc sZero))) :=
  (evaluate_program_unfold sampleProgramEnv sPlus [sSucc (sSucc sZero), sSucc sZero]
    (sSucc (.node .APPLY [sPlus, sX, sY])) [(sY, sSucc sZero), (sX, sSucc sZero)]
    rfl (by decide) rfl (by decide) (by decide) (by decide)).1 ⟨by decide, by decide⟩
    30 (sSucc (sSucc (sSucc sZero))) (by decide)

/-- C15 at the call `(plus (s (s 0)) (s 0))` of scenario S2, which the second rule of
`plus` reduces; at the call `(plus x 0)`, whose first argument is not ground; at the call
`(plus a 0)`, which no rule matches; at the sum `(alf.add 1 2)` of two numerals in an
environment whose literal kernel adds them, and at `(alf.add x 2)`, which is not ground;
at `(alf.is_eq a a)`; and at `(alf.find cons (cons a nil) b)`, for which the public method
returns a node. -/
theorem evaluate_entry_points_total_witness :
    evaluateProgram sampleProgramEnv [sPlus, sSucc (sSucc sZero), sSucc sZero] []
        = some (sSucc (.node .APPLY [sPlus, sX, sY]),
            [(sY, sSucc sZero), (sX, sSucc sZero)])
      ∧ evaluateProgram sampleProgramEnv [sPlus, sX, sZero] []
        = some (.node .APPLY [sPlus, sX, sZero], [])
      ∧ (∃ ctx1, evaluateProgram sampleProgramEnv [sPlus, sA, sZero] []
        = some (.node .APPLY [sPlus, sA, sZero], ctx1))
      ∧ evaluateLiteralOp sampleArithEnv .EVAL_ADD
          [.leaf .NUMERAL (.int 1), .leaf .NUMERAL (.int 2)]
        = some (.leaf .NUMERAL (.int 3))
      ∧ evaluateLiteralOp sampleArithEnv .EVAL_ADD [sX, .leaf .NUMERAL (.int 2)]
        = some (.node .EVAL_ADD [sX, .leaf .NUMERAL (.int 2)])
      ∧ evaluateLiteralOp sampleEnv .EVAL_IS_EQ [sA, sA] = some mkTrue
      ∧ (∃ r, evaluateLiteralOp sampleProgramEnv .EVAL_FIND [sCons, sConsCell sA sNil, sB]
        = some r) :=
  ⟨((evaluate_entry_points_total sampleProgramEnv [sPlus, sSucc (sSucc sZero), sSucc sZero]
        [] .EVAL_ADD).2.2.2.1 sPlus [sSucc (sSucc sZero), sSucc sZero] sPlusProgram
        [.node .TUPLE [.node .APPLY [sPlus, sZero, sY], sY]]
        (.node .TUPLE [.node .APPLY [sPlus, sSucc sX, sY], sSucc (.node .APPLY [sPlus, sX, sY])])
        [] (.node .APPLY [sPlus, sSucc sX, sY]) (sSucc (.node .APPLY [sPlus, sX, sY]))
        rfl (by decide) rfl rfl rfl rfl
        (fun r hr => ⟨.node .APPLY [sPlus, sZero, sY],
          by rw [List.mem_singleton.mp hr]; rfl, by decide, by decide⟩)
        rfl rfl (by decide) (by decide)).2.trans (by decide),
   (evaluate_entry_points_total sampleProgramEnv [sPlus, sX, sZero] [] .EVAL_ADD).1
      (by decide),
   (evaluate_entry_points_total sampleProgramEnv [sPlus, sA, sZero] [] .EVAL_ADD).2.1
      sPlus [sA, sZero] sPlusProgram rfl (by decide) rfl rfl rfl
      (by decide),
   (((evaluate_entry_points_total sampleArithEnv
        [.leaf .NUMERAL (.int 1), .leaf .NUMERAL (.int 2)] [] .EVAL_ADD).2.2.2.2.2.2.2.2.2.2.2.1
        (by decide) (by decide) (by decide) (by decide) (by decide)).2.1
        [(.NUMERAL, .int 1), (.NUMERAL, .int 2)] (by decide) (by decide) rfl).trans
        (by decide),
   ((evaluate_entry_points_total sampleArithEnv [sX, .leaf .NUMERAL (.int 2)] []
        .EVAL_ADD).2.2.2.2.2.2.2.2.2.2.2.1
        (by decide) (by decide) (by decide) (by decide) (by decide)).1 (by decide),
   ((evaluate_entry_points_total sampleEnv [sA, sA] [] .EVAL_IS_EQ).2.2.2.2.2.2.2.2.2.2.2.2.1
      sA sA rfl).trans (by decide),
   (evaluate_entry_points_total sampleProgramEnv [sCons, sConsCell sA sNil, sB] []
      .EVAL_FIND).2.2.2.2.2.2.2.2.2.2.2.2.2.2 (by decide) (by decide)⟩

/-- C16 at the terms `EVAL_IF_THEN_ELSE(true, a, b)` and
`EVAL_IF_THEN_ELSE(false, a, (alf.is_eq false false))`, where the literal of the condition
occurs in the selected branch. -/
theorem evaluate_ite_short_circuit_witness :
    evaluate sampleEnv 6 (.node .EVAL_IF_THEN_ELSE [.leaf .BOOLEAN (.bool true), sA, sB]) []
        = some sA
      ∧ evaluate sampleEnv 16
          (.node .EVAL_IF_THEN_ELSE [.leaf .BOOLEAN (.bool false), sA,
            .node .EVAL_IS_EQ [.leaf .BOOLEAN (.bool false), .leaf .BOOLEAN (.bool false)]]) []
        = some mkTrue :=
  ⟨(evaluate_ite_short_circuit sampleEnv true sA sB (by decide) rfl (by decide)).1
      (by decide) 6 (by decide),
   (evaluate_ite_short_circuit sampleEnv false sA
      (.node .EVAL_IS_EQ [.leaf .BOOLEAN (.bool false), .leaf .BOOLEAN (.bool false)])
      (by decide) rfl (by decide)).2 10 mkTrue (by decide)⟩

/-- C17 at the parameter `x`, which is not ground, and at the ground term
`(alf.is_eq a b)`, which evaluates to `false`. -/
theorem evaluate_is_eq_refl_witness :
    evaluate sampleEnv 6 (.node .EVAL_IS_EQ [sX, sX]) [] = some mkTrue
      ∧ evaluate sampleEnv 14
          (.node .EVAL_IS_EQ [.node .EVAL_IS_EQ [sA, sB], .node .EVAL_IS_EQ [sA, sB]]) []
        = some mkTrue :=
  ⟨evaluate_is_eq_refl sampleEnv sX sX 2 (by decide) rfl (by decide),
   evaluate_is_eq_refl sampleEnv (.node .EVAL_IS_EQ [sA, sB]) mkFalse 10 (by decide) rfl
      (by decide)⟩

/-- C20 at the operator `cons`: the element `a`, the nil element, the list
`(cons a (cons b nil))` and the list `(cons a nil)` of one element. -/
theorem list_round_trip_witness :
    (evaluateLiteralOp sampleProgramEnv .EVAL_TO_LIST [sCons, sA]).bind
        (fun l => evaluateLiteralOp sampleProgramEnv .EVAL_FROM_LIST [sCons, l]) = some sA
      ∧ (evaluateLiteralOp sampleProgramEnv .EVAL_TO_LIST
            [sCons, sConsCell sA (sConsCell sB sNil)]).bind
          (fun l => evaluateLiteralOp sampleProgramEnv .EVAL_FROM_LIST [sCons, l])
          = some (sConsCell sA (sConsCell sB sNil))
      ∧ (evaluateLiteralOp sampleProgramEnv .EVAL_TO_LIST [sCons, sConsCell sA sNil]).bind
          (fun l => evaluateLiteralOp sampleProgramEnv .EVAL_FROM_LIST [sCons, l]) = some sA :=
  ⟨(list_round_trip sampleProgramEnv sCons sNil sA .RIGHT_ASSOC_NIL rfl (Or.inl rfl)
      (by decide) (by decide) (by decide) (by decide) (by decide) (by decide) (by decide)).1
      (by decide),
   (list_round_trip sampleProgramEnv sCons sNil (sConsCell sA (sConsCell sB sNil))
      .RIGHT_ASSOC_NIL rfl (Or.inl rfl)
      (by decide) (by decide) (by decide) (by decide) (by decide) (by decide) (by decide)).1
      (by decide),
   (list_round_trip sampleProgramEnv sCons sNil (sConsCell sA sNil) .RIGHT_ASSOC_NIL rfl
      (Or.inl rfl)
      (by decide) (by decide) (by decide) (by decide) (by decide) (by decide) (by decide)).2
      sA (by decide)⟩

/-- C21 at the operator `cons` of scenario S3, at a tail that is not a list, at the left
associative operator `snoc`, and at the operator `+` with the hashed numeral `0` as the
tail. -/
theorem evaluateLiteralOp_cons_hashed_witness :
    (∃ r m1, Store.evaluateLiteralOp 40 sampleListTables sampleListMemory .EVAL_CONS [0, 2, 9]
          = some (some r, m1)
        ∧ m1.store.isHashed r = true
        ∧ m1.store.expr r = sConsCell sA (sConsCell sB (sConsCell sC sNil)))
      ∧ (∃ r m1, Store.evaluateLiteralOp 40 sampleListTables sampleListMemory .EVAL_CONS
            [0, 2, 3] = some (some r, m1)
        ∧ m1.store.isHashed r = true
        ∧ m1.store.expr r = .node .EVAL_CONS [sCons, sA, sB])
      ∧ (∃ r m1, Store.evaluateLiteralOp 40 sampleListTables sampleListMemory .EVAL_CONS
            [12, 1, 2] = some (some r, m1)
        ∧ m1.store.isHashed r = true
        ∧ m1.store.expr r = sSnocCell sNil sA)
      ∧ (∃ r m1, Store.evaluateLiteralOp 40 sampleSumTables sampleSumMemory .EVAL_CONS
            [0, 2, 1] = some (some r, m1)
        ∧ m1.store.isHashed r = true
        ∧ m1.store.expr r
          = .node .APPLY [.node .APPLY [sSum, .leaf .NUMERAL (.int 1)],
              .leaf .NUMERAL (.int 0)]) := by
  have hl : sampleListMemory.store.ok = true
      ∧ (∀ h ∈ [0, 1, 2, 3, 9, 12], sampleListMemory.store.isHashed h = true
          ∧ (sampleListMemory.store.expr h).isGround = true
          ∧ appliesHaveArgs (sampleListMemory.store.expr h) = true)
      ∧ isLiteral (sampleListMemory.store.expr 0).getKind = false
      ∧ isLiteral (sampleListMemory.store.expr 12).getKind = false := by decide
  have hs : sampleSumMemory.store.ok = true
      ∧ (∀ h ∈ [0, 1, 2], sampleSumMemory.store.isHashed h = true
          ∧ (sampleSumMemory.store.expr h).isGround = true
          ∧ appliesHaveArgs (sampleSumMemory.store.expr h) = true)
      ∧ isLiteral (sampleSumMemory.store.expr 0).getKind = false := by decide
  obtain ⟨hok, hn, hk0, hk12⟩ := hl
  obtain ⟨hoks, hns, hks⟩ := hs
  refine ⟨?_, ?_, ?_, ?_⟩
  · obtain ⟨r, m1, h1, _, _, h2, h3⟩ :=
      (evaluateLiteralOp_cons_hashed sampleListTables sampleListMemory 0 1 2 9 40
        .RIGHT_ASSOC_NIL hok rfl (hn 0 (by simp)).1 (hn 1 (by simp)).1 (hn 2 (by simp)).1
        (hn 9 (by simp)).1 (hn 0 (by simp)).2.1 hk0 (hn 2 (by simp)).2.1 (hn 9 (by simp)).2.1
        (hn 9 (by simp)).2.2 (by decide)).1 rfl
    exact ⟨r, m1, h1, h2, h3.trans (by decide)⟩
  · obtain ⟨r, m1, h1, _, _, h2, h3⟩ :=
      (evaluateLiteralOp_cons_hashed sampleListTables sampleListMemory 0 1 2 3 40
        .RIGHT_ASSOC_NIL hok rfl (hn 0 (by simp)).1 (hn 1 (by simp)).1 (hn 2 (by simp)).1
        (hn 3 (by simp)).1 (hn 0 (by simp)).2.1 hk0 (hn 2 (by simp)).2.1 (hn 3 (by simp)).2.1
        (hn 3 (by simp)).2.2 (by decide)).1 rfl
    exact ⟨r, m1, h1, h2, h3.trans (by decide)⟩
  · obtain ⟨r, m1, h1, _, _, h2, h3⟩ :=
      (evaluateLiteralOp_cons_hashed sampleListTables sampleListMemory 12 1 2 1 40
        .LEFT_ASSOC_NIL hok rfl (hn 12 (by simp)).1 (hn 1 (by simp)).1 (hn 2 (by simp)).1
        (hn 1 (by simp)).1 (hn 12 (by simp)).2.1 hk12 (hn 2 (by simp)).2.1 (hn 1 (by simp)).2.1
        (hn 1 (by simp)).2.2 (by decide)).2 rfl
    exact ⟨r, m1, h1, h2, h3.trans (by decide)⟩
  · obtain ⟨r, m1, h1, _, _, h2, h3⟩ :=
      (evaluateLiteralOp_cons_hashed sampleSumTables sampleSumMemory 0 1 2 1 40
        .RIGHT_ASSOC_NIL hoks rfl (hns 0 (by simp)).1 (hns 1 (by simp)).1 (hns 2 (by simp)).1
        (hns 1 (by simp)).1 (hns 0 (by simp)).2.1 hks (hns 2 (by simp)).2.1
        (hns 1 (by simp)).2.1 (hns 1 (by simp)).2.2 (by decide)).1 rfl
    exact ⟨r, m1, h1, h2, h3.trans (by decide)⟩

/-- C23 at the list `cons(a, cons(b, cons(c, nil)))` of scenario S5, with the needles `b`
and `d`, and at the list `(+ 1 (+ 2 0))` with the hashed numeral `2` as the needle. -/
theorem evaluateLiteralOp_find_hashed_witness :
    (∃ r m1, Store.evaluateLiteralOp 40 sampleListTables sampleListMemory .EVAL_FIND [0, 11, 3]
          = some (some r, m1)
        ∧ m1.store.isHashed r = true ∧ m1.store.expr r = .leaf .NUMERAL (.int 1))
      ∧ (∃ r m1, Store.evaluateLiteralOp 40 sampleListTables sampleListMemory .EVAL_FIND
            [0, 11, 5] = some (some r, m1)
        ∧ m1.store.isHashed r = true ∧ m1.store.expr r = .leaf .NUMERAL (.int (-1)))
      ∧ (∃ r m1, Store.evaluateLiteralOp 40 sampleSumTables sampleSumMemory .EVAL_FIND
            [0, 7, 3] = some (some r, m1)
        ∧ m1.store.isHashed r = true ∧ m1.store.expr r = .leaf .NUMERAL (.int 1)) := by
  have hl : sampleListMemory.ok = true
      ∧ (∀ h ∈ [0, 1, 3, 5, 11], sampleListMemory.store.isHashed h = true
          ∧ (sampleListMemory.store.expr h).isGround = true
          ∧ appliesHaveArgs (sampleListMemory.store.expr h) = true)
      ∧ isLiteral (sampleListMemory.store.expr 0).getKind = false := by decide
  have hs : sampleSumMemory.ok = true
      ∧ (∀ h ∈ [0, 1, 3, 7], sampleSumMemory.store.isHashed h = true
          ∧ (sampleSumMemory.store.expr h).isGround = true
          ∧ appliesHaveArgs (sampleSumMemory.store.expr h) = true)
      ∧ isLiteral (sampleSumMemory.store.expr 0).getKind = false := by decide
  obtain ⟨hok, hn, hk0⟩ := hl
  obtain ⟨hoks, hns, hks⟩ := hs
  refine ⟨?_, ?_, ?_⟩
  · obtain ⟨r, m1, h1, _, _, h2, h3⟩ :=
      (evaluateLiteralOp_find_hashed sampleListTables sampleListMemory 0 1 11 3 40
        .RIGHT_ASSOC_NIL hok rfl (Or.inl rfl) (hn 0 (by simp)).1 (hn 1 (by simp)).1
        (hn 11 (by simp)).1 (hn 3 (by simp)).1 (hn 0 (by simp)).2.1 hk0
        (hn 11 (by simp)).2.1 (hn 3 (by simp)).2.1 (hn 11 (by simp)).2.2 (by decide)).1 1
        (by decide) (by decide)
    exact ⟨r, m1, h1, h2, h3⟩
  · obtain ⟨r, m1, h1, _, _, h2, h3⟩ :=
      (evaluateLiteralOp_find_hashed sampleListTables sampleListMemory 0 1 11 5 40
        .RIGHT_ASSOC_NIL hok rfl (Or.inl rfl) (hn 0 (by simp)).1 (hn 1 (by simp)).1
        (hn 11 (by simp)).1 (hn 5 (by simp)).1 (hn 0 (by simp)).2.1 hk0
        (hn 11 (by simp)).2.1 (hn 5 (by simp)).2.1 (hn 11 (by simp)).2.2 (by decide)).2
        (by decide)
    exact ⟨r, m1, h1, h2, h3⟩
  · obtain ⟨r, m1, h1, _, _, h2, h3⟩ :=
      (evaluateLiteralOp_find_hashed sampleSumTables sampleSumMemory 0 1 7 3 40
        .RIGHT_ASSOC_NIL hoks rfl (Or.inl rfl) (hns 0 (by simp)).1 (hns 1 (by simp)).1
        (hns 7 (by simp)).1 (hns 3 (by simp)).1 (hns 0 (by simp)).2.1 hks
        (hns 7 (by simp)).2.1 (hns 3 (by simp)).2.1 (hns 7 (by simp)).2.2 (by decide)).1 1
        (by decide) (by decide)
    exact ⟨r, m1, h1, h2, h3⟩

/-- C24 at the list `cons(a, cons(b, cons(c, nil)))`: the element of index 1, an index
out of range, a negative index and an index that is not a numeral. -/
theorem evaluateLiteralOp_extract_witness :
    evaluateLiteralOp sampleListEnv .EVAL_EXTRACT
        [sCons, sConsCell sA (sConsCell sB (sConsCell sC sNil)), .leaf .NUMERAL (.int 1)]
      = some sB
    ∧ evaluateLiteralOp sampleListEnv .EVAL_EXTRACT
        [sCons, sConsCell sA (sConsCell sB (sConsCell sC sNil)), .leaf .NUMERAL (.int 3)]
      = some (.node .EVAL_EXTRACT
          [sCons, sConsCell sA (sConsCell sB (sConsCell sC sNil)), .leaf .NUMERAL (.int 3)]) :=
  ⟨(evaluateLiteralOp_extract sampleListEnv sCons sNil
      (sConsCell sA (sConsCell sB (sConsCell sC sNil))) (.leaf .NUMERAL (.int 1))
      .RIGHT_ASSOC_NIL rfl (Or.inl rfl) (by decide) (by decide) (by decide) (by decide)
      (by decide) (fun _ => ⟨1, rfl⟩)).1 1 sB rfl (by decide) (by decide) (by decide),
   (evaluateLiteralOp_extract sampleListEnv sCons sNil
      (sConsCell sA (sConsCell sB (sConsCell sC sNil))) (.leaf .NUMERAL (.int 3))
      .RIGHT_ASSOC_NIL rfl (Or.inl rfl) (by decide) (by decide) (by decide) (by decide)
      (by decide) (fun _ => ⟨3, rfl⟩)).2
      (fun v hv _ _ => by
        have h3 : v = 3 := by
          simp only [Expr.leaf.injEq, Literal.int.injEq, true_and] at hv
          exact hv.symm
        subst h3
        decide)⟩

/-- C25 at the sample store: the two transient copies of `(f a)` at the handles 2 and 3
get the same hashed node, and the transient terms `(f a)` and `(f 7)` at the handles 2
and 5 get different nodes. -/
theorem ensureHashed_canonical_witness :
    (∃ pa s1 pb s2, Store.ensureHashed 10 sampleStore 2 = some (some pa, s1)
      ∧ Store.ensureHashed 10 s1 3 = some (some pb, s2)
      ∧ (pa = pb ↔ sampleStore.expr 2 = sampleStore.expr 3)
      ∧ s1.expr pa = sampleStore.expr 2 ∧ s2.expr pb = sampleStore.expr 3
      ∧ s1.expr pa = ensureHashed (sampleStore.expr 2))
    ∧ (∃ pa s1 pb s2, Store.ensureHashed 10 sampleStore 2 = some (some pa, s1)
      ∧ Store.ensureHashed 10 s1 5 = some (some pb, s2)
      ∧ (pa = pb ↔ sampleStore.expr 2 = sampleStore.expr 5)
      ∧ s1.expr pa = sampleStore.expr 2 ∧ s2.expr pb = sampleStore.expr 5
      ∧ s1.expr pa = ensureHashed (sampleStore.expr 2)) :=
  ⟨ensureHashed_canonical sampleStore 2 3 3 4 (by decide) (by decide) (by decide) 10
      (by decide) (by decide),
   ensureHashed_canonical sampleStore 2 5 3 6 (by decide) (by decide) (by decide) 10
      (by decide) (by decide)⟩

/-- C26 at the sample store: the transient term `(f 7)` at the handle 5, and the hashed
symbol `f` at the handle 0. -/
theorem ensureHashed_idempotent_witness :
    (∃ p s1, Store.ensureHashed 10 sampleStore 5 = some (some p, s1)
        ∧ s1.isHashed p = true
        ∧ ∀ fuel2, Store.ensureHashed fuel2 s1 p = some (some p, s1))
      ∧ (∀ y fuel2, sampleStore.isHashed y = true →
          Store.ensureHashed fuel2 sampleStore y = some (some y, sampleStore)) :=
  ensureHashed_idempotent sampleStore 5 6 (by decide) (by decide) 10 (by decide)

/-- C27 at the kinds `EVAL_NOT` on `[Bool]`, `EVAL_TO_LIST` on `[Int -> Int, Int]`,
`EVAL_CONCAT` on `[Int -> Int, Int, Int]` and `EVAL_TO_STRING` on `[Int]`, with the table
of the constructor. -/
theorem getLiteralOpType_result_witness :
    getLiteralOpType sampleEnv (literalTypeRulesInit ⟨false, false⟩) .EVAL_NOT [some mkBoolType]
        = some (some mkBoolType, literalTypeRulesInit ⟨false, false⟩)
      ∧ getLiteralOpType sampleEnv (literalTypeRulesInit ⟨false, false⟩) .EVAL_TO_LIST
          [some (.node .FUNCTION_TYPE [sInt, sInt]), some sInt]
        = some (some sInt, literalTypeRulesInit ⟨false, false⟩)
      ∧ getLiteralOpType sampleEnv (literalTypeRulesInit ⟨false, false⟩) .EVAL_CONCAT
          [some (.node .FUNCTION_TYPE [sInt, sInt]), some sInt, some sInt]
        = some (some sInt, literalTypeRulesInit ⟨false, false⟩)
      ∧ getLiteralOpType sampleEnv (literalTypeRulesInit ⟨false, false⟩) .EVAL_TO_STRING
          [some sInt]
        = some (none, literalTypeRulesInit ⟨false, false⟩) :=
  ⟨by
    obtain ⟨t, ht, h⟩ := (getLiteralOpType_result sampleEnv ⟨false, false⟩ _
      RulesReachable.init .EVAL_NOT [mkBoolType] (by decide)).1
      (Or.inr (Or.inr (Or.inr (Or.inr (Or.inr (Or.inr rfl))))))
    cases ht
    exact h,
   (getLiteralOpType_result sampleEnv ⟨false, false⟩ _ RulesReachable.init .EVAL_TO_LIST
      [.node .FUNCTION_TYPE [sInt, sInt], sInt] (by decide)).2.2.1 (Or.inl rfl) sInt rfl,
   by
    obtain ⟨t, ht, h⟩ := (getLiteralOpType_result sampleEnv ⟨false, false⟩ _
      RulesReachable.init .EVAL_CONCAT [.node .FUNCTION_TYPE [sInt, sInt], sInt, sInt]
      (by decide)).2.2.2.2.1 (Or.inl rfl)
    cases ht
    exact h,
   (getLiteralOpType_result sampleEnv ⟨false, false⟩ _ RulesReachable.init .EVAL_TO_STRING
      [sInt] (by decide)).2.2.2.2.2.2.2.2 (Or.inr (Or.inl rfl))⟩

/-- C28 at the call `(pick a)`: the first rule of `pick` has three children for a call
of two. -/
theorem evaluateProgram_wrong_arity_witness :
    evaluateProgram samplePickEnv [sPick, sA] [(sX, sB)]
      = some (.node .APPLY [sPick, sA], []) :=
  evaluateProgram_wrong_arity samplePickEnv sPick sPickProgram
    (.node .TUPLE [.node .APPLY [sPick, sX, sY], sY]) (.node .APPLY [sPick, sX, sY])
    [sA] [] [.node .TUPLE [.node .APPLY [sPick, sX], sX]] [(sX, sB)]
    rfl rfl rfl (by decide) rfl (fun _ h => by cases h) rfl (by decide)

/-- C29 at the term `f(x, y)` in the context `x -> a`, where `y` is not bound, and at the
same term in the empty context. -/
theorem evaluate_constructor_term_witness :
    evaluate sampleEnv 9 (.node .APPLY [sF, sX, sY]) [(sX, sA)]
        = some (.node .APPLY [sF, sA, sY])
      ∧ evaluate sampleEnv 9 (.node .APPLY [sF, sX, sY]) []
        = some (ensureHashed (.node .APPLY [sF, sX, sY])) :=
  ⟨((evaluate_constructor_term sampleEnv [(sX, sA)] (.node .APPLY [sF, sX, sY])
      (by decide)).1 9 (by decide)).trans (by decide),
   (evaluate_constructor_term sampleEnv [] (.node .APPLY [sF, sX, sY]) (by decide)).2 rfl 9
      (by decide)⟩

end alfc
